import Mathlib

/-
Verification of the rbush N-dimensional R-tree library (src/rbush.js) against its
natural-language specification.

Modelling conventions, used throughout:

* JavaScript numbers are modelled by `JNum`: exact integers plus the IEEE-754
  specials `Infinity`, `-Infinity` and `NaN` with JS arithmetic/comparison
  semantics on them.  Floating-point rounding is not modelled: arithmetic on
  finite values is exact.  The source applies only ring operations, min/max and
  comparisons to coordinates, so exact integers faithfully model runs on
  integer inputs, and no claim here depends on denser coordinates.  The only places where the source computes with
  genuinely transcendental floating-point quantities (`Math.log`, `Math.exp`,
  `Math.sqrt` in `_build`'s height computation and in `select`'s Floyd-Rivest
  narrowing step) are modelled by the exact integer counterparts of the same
  formulas, and are flagged at their definitions.

* JS arrays are Lean lists; reading a missing index yields `undefined`, which in
  every numeric context of this code behaves as NaN, so out-of-range reads are
  modelled by the default `JNum.nan` / default values.  Mutation becomes
  explicit state passing; in-place loops become fueled tail recursions, and the
  top-level operations instantiate the fuel generously (results are proved
  fuel-independent where a claim needs it).

* `empty(d)` has a process-wide cache and a cold-start defect (it returns
  `undefined` on the first call for a dimension); this is modelled faithfully by
  `emptyCall` with explicit cache state.  The tree operations use `emptyBB`, the
  steady-state (cache-warm) value, matching every call but the process-global
  first one.
-/

namespace Rbush

/-- Model of a JavaScript number: an exact integer, `Infinity`, `-Infinity` or `NaN`. -/
inductive JNum : Type where
  | num (q : ℤ)
  | inf
  | ninf
  | nan
deriving DecidableEq, Repr

/-- JS addition (`a + b`) on `JNum`, IEEE semantics for the specials. -/
def jadd : JNum → JNum → JNum
  | .nan, _ => .nan
  | _, .nan => .nan
  | .inf, .ninf => .nan
  | .ninf, .inf => .nan
  | .inf, _ => .inf
  | _, .inf => .inf
  | .ninf, _ => .ninf
  | _, .ninf => .ninf
  | .num a, .num b => .num (a + b)

/-- JS subtraction (`a - b`) on `JNum`, IEEE semantics for the specials. -/
def jsub : JNum → JNum → JNum
  | .nan, _ => .nan
  | _, .nan => .nan
  | .inf, .inf => .nan
  | .ninf, .ninf => .nan
  | .inf, _ => .inf
  | .ninf, _ => .ninf
  | _, .inf => .ninf
  | _, .ninf => .inf
  | .num a, .num b => .num (a - b)

/-- JS multiplication (`a * b`) on `JNum`; `0 * Infinity = NaN` as in IEEE. -/
def jmul : JNum → JNum → JNum
  | .nan, _ => .nan
  | _, .nan => .nan
  | .inf, .inf => .inf
  | .inf, .ninf => .ninf
  | .ninf, .inf => .ninf
  | .ninf, .ninf => .inf
  | .inf, .num q => if 0 < q then .inf else if q < 0 then .ninf else .nan
  | .num q, .inf => if 0 < q then .inf else if q < 0 then .ninf else .nan
  | .ninf, .num q => if 0 < q then .ninf else if q < 0 then .inf else .nan
  | .num q, .ninf => if 0 < q then .ninf else if q < 0 then .inf else .nan
  | .num a, .num b => .num (a * b)

/-- `Math.min` on `JNum`: NaN-absorbing. -/
def jmin : JNum → JNum → JNum
  | .nan, _ => .nan
  | _, .nan => .nan
  | .ninf, _ => .ninf
  | _, .ninf => .ninf
  | .inf, b => b
  | a, .inf => a
  | .num a, .num b => .num (if a ≤ b then a else b)

/-- `Math.max` on `JNum`: NaN-absorbing. -/
def jmax : JNum → JNum → JNum
  | .nan, _ => .nan
  | _, .nan => .nan
  | .inf, _ => .inf
  | _, .inf => .inf
  | .ninf, b => b
  | a, .ninf => a
  | .num a, .num b => .num (if b ≤ a then a else b)

/-- JS strict comparison `a < b`: false whenever NaN is involved. -/
def jlt : JNum → JNum → Bool
  | .nan, _ => false
  | _, .nan => false
  | .ninf, .ninf => false
  | .ninf, _ => true
  | _, .ninf => false
  | .inf, _ => false
  | .num _, .inf => true
  | .num a, .num b => decide (a < b)

/-- JS comparison `a > b`. -/
def jgt (a b : JNum) : Bool := jlt b a

/-- JS comparison `a <= b`: false whenever NaN is involved. -/
def jle : JNum → JNum → Bool
  | .nan, _ => false
  | _, .nan => false
  | .ninf, _ => true
  | .inf, .inf => true
  | .inf, _ => false
  | .num _, .inf => true
  | .num _, .ninf => false
  | .num a, .num b => decide (a ≤ b)

/-- JS strict equality `a === b` on numbers: false for NaN on either side. -/
def jeq : JNum → JNum → Bool
  | .num a, .num b => decide (a = b)
  | .inf, .inf => true
  | .ninf, .ninf => true
  | _, _ => false

/-- Read `xs[i]` as JS does: a missing index yields `undefined`, which behaves as
NaN in every numeric context this code puts it in. -/
def jget (xs : List JNum) (i : Nat) : JNum := xs.getD i .nan

/-- An item of the default format: the item is its own bounding box
(`toBBox` is the identity), a flat array of `2 * dim` numbers. -/
abbrev Item := List JNum

/-- The steady-state value produced by the source's `empty(d)` once its cache is
warm: `d` copies of `+Infinity` followed by `d` copies of `-Infinity`.
This is what every tree operation receives from `empty` except for the single
process-global first call per dimension, whose defect is modelled by `emptyCall`. -/
def emptyBB (d : Nat) : List JNum :=
  List.replicate d JNum.inf ++ List.replicate d JNum.ninf

/-- Model of the source's `empty(d)` together with its process-wide cache
`__empty__[d]` (`none` = the dimension was never requested).  The creation
branch fills the cache but falls off the function without returning, so the
first call for a dimension yields `undefined` (modelled as `none`); later calls
return a copy of the template. -/
def emptyCall (d : Nat) (cache : Option (List JNum)) :
    Option (List JNum) × Option (List JNum) :=
  match cache with
  | none => (none, some (emptyBB d))
  | some t => (some t, some t)

/-- `extend(dim, a, b)`: per-axis min of the minima and max of the maxima,
written into `a`.  The result keeps entries of `a` beyond `2 * dim` and grows
`a` to length `2 * dim` if it was shorter, as JS element assignment does. -/
def extend (dim : Nat) (a b : List JNum) : List JNum :=
  (List.range (max a.length (2 * dim))).map fun t =>
    if t < dim then jmin (jget a t) (jget b t)
    else if t < 2 * dim then jmax (jget a t) (jget b t)
    else jget a t

/-- `bboxArea(dim, a)`: product over axes of `a[dim+i] - a[i]`. -/
def bboxArea (dim : Nat) (a : List JNum) : JNum :=
  (List.range dim).foldl (fun area i => jmul area (jsub (jget a (dim + i)) (jget a i)))
    (.num 1)

/-- `bboxMargin(dim, a)`: sum over axes of `a[dim+i] - a[i]`. -/
def bboxMargin (dim : Nat) (a : List JNum) : JNum :=
  (List.range dim).foldl (fun m i => jadd m (jsub (jget a (dim + i)) (jget a i)))
    (.num 0)

/-- `enlargedArea(dim, a, b)`: area of the union box of `a` and `b`. -/
def enlargedArea (dim : Nat) (a b : List JNum) : JNum :=
  (List.range dim).foldl
    (fun area i =>
      jmul area (jsub (jmax (jget b (dim + i)) (jget a (dim + i)))
        (jmin (jget b i) (jget a i))))
    (.num 1)

/-- Loop body of the source's `intersectionArea`, including its early exit
(`if (area === 0) break`).  `left` counts the remaining axes. -/
def intersectionAreaGo (dim : Nat) (a b : List JNum) :
    Nat → Nat → JNum → JNum
  | 0, _, area => area
  | left + 1, i, area =>
    let area' := jmul area
      (jmax (.num 0) (jsub (jmax (jget b i) (jget a i))
        (jmin (jget b (dim + i)) (jget a (dim + i)))))
    if jeq area' (.num 0) then area'
    else intersectionAreaGo dim a b left (i + 1) area'

/-- The source's `intersectionArea(dim, a, b)` exactly as written: each factor is
`max(0, max(b[i], a[i]) - min(b[dim+i], a[dim+i]))`, i.e. the larger minimum
minus the smaller maximum on that axis. -/
def intersectionArea (dim : Nat) (a b : List JNum) : JNum :=
  intersectionAreaGo dim a b dim 0 (.num 1)

/-- The quantity the specification describes for `intersectionArea`: the product
over axes of `max(0, min(a.max, b.max) - max(a.min, b.min))`, the clamped
per-axis overlap length.  Stated from the spec's words, for comparison with the
source's `intersectionArea` above. -/
def intersectionAreaSpec (dim : Nat) (a b : List JNum) : JNum :=
  (List.range dim).foldl
    (fun area i =>
      jmul area (jmax (.num 0) (jsub (jmin (jget a (dim + i)) (jget b (dim + i)))
        (jmax (jget a i) (jget b i)))))
    (.num 1)

/-- `contains(dim, a, b)`: `b` lies inside `a` on every axis
(the source returns false as soon as `a[i] > b[i] || b[dim+i] > a[dim+i]`). -/
def containsB (dim : Nat) (a b : List JNum) : Bool :=
  (List.range dim).all fun i =>
    !(jgt (jget a i) (jget b i)) && !(jgt (jget b (dim + i)) (jget a (dim + i)))

/-- `intersects(dim, a, b)`: no axis is fully disjoint
(the source returns false as soon as `a[dim+i] < b[i] || b[dim+i] < a[i]`). -/
def intersectsB (dim : Nat) (a b : List JNum) : Bool :=
  (List.range dim).all fun i =>
    !(jlt (jget a (dim + i)) (jget b i)) && !(jlt (jget b (dim + i)) (jget a i))

/-- The unit square `[0,1] × [0,1]` as a flat 2-D box. -/
def unitBox : List JNum := [.num 0, .num 0, .num 1, .num 1]





/-! ## The node/tree model -/

mutual
/-- A tree node: `{ children, height, bbox, leaf }` as in the source.  `children`
holds items when `leaf` is true and nodes otherwise (nothing in JS enforces
this; well-formedness is a separate predicate). -/
inductive RNode : Type where
  | mk (children : List REntry) (height : Nat) (bbox : List JNum) (leaf : Bool)
/-- One slot of a `children` array: an item or a node. -/
inductive REntry : Type where
  | item (it : List JNum)
  | node (n : RNode)
end

def RNode.children : RNode → List REntry
  | .mk cs _ _ _ => cs

def RNode.height : RNode → Nat
  | .mk _ h _ _ => h

def RNode.bbox : RNode → List JNum
  | .mk _ _ b _ => b

def RNode.leaf : RNode → Bool
  | .mk _ _ _ l => l

/-- Reading `.children` off a JS value: an item (a plain array) has no
`children` property, which reads as `undefined`; the traversals below only hit
that on ill-formed trees, where the source would crash. -/
def entChildren : REntry → List REntry
  | .item _ => []
  | .node n => n.children

/-- Reading `.leaf` off a JS value (`undefined` is falsy for items). -/
def entLeaf : REntry → Bool
  | .item _ => false
  | .node n => n.leaf

/-- Reading `.bbox` off a JS value (`undefined` for items, whose numeric reads
then behave as NaN; the source would crash there on ill-formed trees). -/
def entBBox : REntry → List JNum
  | .item _ => []
  | .node n => n.bbox

/-- Reading `.height` off a JS value (`undefined` for items). -/
def entHeight : REntry → Nat
  | .item _ => 0
  | .node n => n.height

/-- `toBBox(child)` with the default identity accessor: an item is its own box;
applied to a node object every numeric index reads `undefined` (NaN). -/
def entAsBox : REntry → List JNum
  | .item it => it
  | .node _ => []

/-- `node.leaf ? toBBox(child) : child.bbox`. -/
def childBBoxOf (leafF : Bool) (e : REntry) : List JNum :=
  if leafF then entAsBox e else entBBox e

mutual
def nodeSize : RNode → Nat
  | .mk cs _ _ _ => 1 + entsSize cs
def entsSize : List REntry → Nat
  | [] => 0
  | e :: es => entSize e + entsSize es
def entSize : REntry → Nat
  | .item _ => 1
  | .node n => nodeSize n
end

theorem entSize_node (m : RNode) : entSize (.node m) = nodeSize m := rfl

theorem children_mk (cs : List REntry) (h : Nat) (b : List JNum) (l : Bool) :
    (RNode.mk cs h b l).children = cs := rfl

theorem height_mk (cs : List REntry) (h : Nat) (b : List JNum) (l : Bool) :
    (RNode.mk cs h b l).height = h := rfl

theorem bbox_mk (cs : List REntry) (h : Nat) (b : List JNum) (l : Bool) :
    (RNode.mk cs h b l).bbox = b := rfl

theorem leaf_mk (cs : List REntry) (h : Nat) (b : List JNum) (l : Bool) :
    (RNode.mk cs h b l).leaf = l := rfl

theorem nodeSize_mk (cs : List REntry) (h : Nat) (b : List JNum) (l : Bool) :
    nodeSize (.mk cs h b l) = 1 + entsSize cs := rfl

theorem entSize_pos (e : REntry) : 1 ≤ entSize e := by
  cases e with
  | item it => simp only [entSize]; omega
  | node n => cases n with
    | mk cs h b l => simp only [entSize, nodeSize]; omega

theorem entsSize_append (a b : List REntry) :
    entsSize (a ++ b) = entsSize a + entsSize b := by
  induction a with
  | nil => simp [entsSize]
  | cons e es ih => simp [entsSize, ih]; omega

theorem entsSize_reverse (a : List REntry) : entsSize a.reverse = entsSize a := by
  induction a with
  | nil => rfl
  | cons e es ih => simp [entsSize, List.reverse_cons, entsSize_append, ih]; omega

/-- `distBBox(dim, node, k, p, toBBox)`: the union box of `children[k..p-1]`,
starting from the (cache-warm) empty box. -/
def distBBox (dim : Nat) (leafF : Bool) (children : List REntry) (k p : Nat) :
    List JNum :=
  (List.range' k (p - k)).foldl
    (fun bb i => extend dim bb (childBBoxOf leafF (children.getD i (.item []))))
    (emptyBB dim)

/-- `calcBBox(dim, node, toBBox)`: the union box of all children. -/
def calcBBox (dim : Nat) (leafF : Bool) (children : List REntry) : List JNum :=
  distBBox dim leafF children 0 children.length

/-- Recompute a node's bbox from its children, as `calcBBox` does in place. -/
def recalcNode (dim : Nat) (n : RNode) : RNode :=
  .mk n.children n.height (calcBBox dim n.leaf n.children) n.leaf

/-- The tree configuration: dimension and the derived entry bounds.
The source clamps `dimension ≥ 2` and `maxEntries ≥ 4` and derives
`minEntries = max(2, ceil(maxEntries * 0.4))` (a floating-point product).
`Cfg.ok` below captures exactly the properties of these derived values that the
development uses, and holds for every configuration the constructor can
produce, with either float or exact rounding of `0.4 * maxEntries`. -/
structure Cfg : Type where
  dim : Nat
  maxEntries : Nat
  minEntries : Nat

/-- Constraints satisfied by every constructor-produced configuration:
`dim ≥ 2`, `maxEntries ≥ 4`, `2 ≤ minEntries` and `2·minEntries ≤ maxEntries+1`
(the last holds for `max(2, ceil(0.4·maxEntries))` even with the float `0.4`,
which overshoots the exact ceiling by at most one). -/
def Cfg.ok (c : Cfg) : Prop :=
  2 ≤ c.dim ∧ 4 ≤ c.maxEntries ∧ 2 ≤ c.minEntries ∧
    2 * c.minEntries ≤ c.maxEntries + 1

/-- The default configuration: `dimension = 2`, `maxEntries = 9`,
`minEntries = max(2, ceil(9 * 0.4)) = 4`. -/
def defaultCfg : Cfg := ⟨2, 9, 4⟩

/-- `maxEntries = 4` (the smallest allowed), giving `minEntries = 2`. -/
def smallCfg : Cfg := ⟨2, 4, 2⟩

/-- The fresh root made by `clear()`: an empty leaf of height 1 with the
(cache-warm) empty box. -/
def clearNode (c : Cfg) : RNode := .mk [] 1 (emptyBB c.dim) true

/-! ## Sorting children

JS `Array.prototype.sort` with a consistent comparator is a stable sort, whose
result is uniquely determined; it is modelled by a stable insertion sort, which
(unlike Mathlib's `mergeSort`) also evaluates inside the kernel.  With an
inconsistent comparator (NaN keys) the JS result is implementation-defined and
the model fixes one admissible behavior. -/

def insSorted (le : α → α → Bool) (x : α) : List α → List α
  | [] => [x]
  | y :: ys => if le y x then y :: insSorted le x ys else x :: y :: ys

def stableSort (le : α → α → Bool) (l : List α) : List α :=
  l.foldl (fun acc x => insSorted le x acc) []

/-- The sort key used on a child: `this.compareMin` reads `child[axis]` on leaf
children, `compareNodeMin` reads `child.bbox[axis]` on node children, selected
by the node's `leaf` flag. -/
def sortKey (leafF : Bool) (axis : Nat) (e : REntry) : JNum :=
  jget (childBBoxOf leafF e) axis

/-- Sort a children array by a comparator `(a, b) => key(a) - key(b)`:
ascending stable order on the keys. -/
def sortByAxis (leafF : Bool) (axis : Nat) (children : List REntry) :
    List REntry :=
  stableSort (fun e1 e2 => jle (sortKey leafF axis e1) (sortKey leafF axis e2)) children

/-- `_allDistMargin(node, m, M, compare, axis)`: sorts the children by `axis`
(in place — the sorted array is returned alongside the margin) and sums the
margins of all valid left/right distributions. -/
def allDistMargin (c : Cfg) (leafF : Bool) (children : List REntry)
    (m M axis : Nat) : List REntry × JNum :=
  let sorted := sortByAxis leafF axis children
  let lb0 := distBBox c.dim leafF sorted 0 m
  let rb0 := distBBox c.dim leafF sorted (M - m) M
  let mg0 := jadd (bboxMargin c.dim lb0) (bboxMargin c.dim rb0)
  let st1 := (List.range' m (M - m - m)).foldl
    (fun (st : List JNum × JNum) i =>
      let lb := extend c.dim st.1 (childBBoxOf leafF (sorted.getD i (.item [])))
      (lb, jadd st.2 (bboxMargin c.dim lb)))
    (lb0, mg0)
  let st2 := ((List.range' m (M - m - m)).reverse).foldl
    (fun (st : List JNum × JNum) i =>
      let rb := extend c.dim st.1 (childBBoxOf leafF (sorted.getD i (.item [])))
      (rb, jadd st.2 (bboxMargin c.dim rb)))
    (rb0, st1.2)
  (sorted, st2.2)

/-- `_chooseSplitAxis(node, m, M)` as written in the source.  `Math.Infinity`
is `undefined`, so `margin <= bestMargin` is a NaN comparison that is never
true: `bestAxis`/`bestMargin` are never updated, and after the loop the guard
`a < this._dimension` is false (`a` equals the dimension), so the final sort by
`bestAxis` never runs.  The only lasting effect is the in-place sort performed
inside each `_allDistMargin` call, which leaves the children ordered by the
**last** axis. -/
def chooseSplitAxisChildren (c : Cfg) (leafF : Bool) (m M : Nat)
    (children : List REntry) : List REntry :=
  (List.range c.dim).foldl (fun cs a => (allDistMargin c leafF cs m M a).1) children

/-- `_chooseSplitIndex(node, m, M)`: the split position in `[m, M-m]` with
minimal `intersectionArea` between the two resulting boxes, ties broken by
smaller combined area (with the source's quirk of pre-lowering `minArea` when a
new minimum overlap is found).  `none` models the JS `undefined` when the loop
never takes a branch (impossible with finite boxes). -/
def chooseSplitIndex (c : Cfg) (leafF : Bool) (children : List REntry)
    (m M : Nat) : Option Nat :=
  ((List.range' m (M - m + 1 - m)).foldl
    (fun (st : JNum × JNum × Option Nat) i =>
      let (mOv, mAr, idx) := st
      let b1 := distBBox c.dim leafF children 0 i
      let b2 := distBBox c.dim leafF children i M
      let ov := intersectionArea c.dim b1 b2
      let ar := jadd (bboxArea c.dim b1) (bboxArea c.dim b2)
      if jlt ov mOv then (ov, (if jlt ar mAr then ar else mAr), some i)
      else if jeq ov mOv && jlt ar mAr then (mOv, ar, some i)
      else (mOv, mAr, idx))
    (JNum.inf, JNum.inf, none)).2.2

/-- `_split` without the parent attachment: sort the children per
`_chooseSplitAxis`, pick the split index, and return the halved node together
with the new sibling (both with recomputed boxes).  When the split index is
`undefined`, `splice(undefined, NaN)` removes nothing: the node keeps all its
children and the sibling is empty. -/
def splitNode (c : Cfg) (n : RNode) : RNode × RNode :=
  let M := n.children.length
  let m := c.minEntries
  let sorted := chooseSplitAxisChildren c n.leaf m M n.children
  match chooseSplitIndex c n.leaf sorted m M with
  | some si =>
      (.mk (sorted.take si) n.height (calcBBox c.dim n.leaf (sorted.take si)) n.leaf,
       .mk (sorted.drop si) n.height (calcBBox c.dim n.leaf (sorted.drop si)) n.leaf)
  | none =>
      (.mk sorted n.height (calcBBox c.dim n.leaf sorted) n.leaf,
       .mk [] n.height (calcBBox c.dim n.leaf []) n.leaf)

/-- `_splitRoot(node, newNode)`: a fresh root one level higher with the two
halves as children. -/
def splitRoot (c : Cfg) (n1 n2 : RNode) : RNode :=
  .mk [.node n1, .node n2] (n1.height + 1)
    (calcBBox c.dim false [.node n1, .node n2]) false

/-- The child-selection loop of `_chooseSubtree`: least area enlargement, ties
broken by smaller area (returning the index of the chosen child, `none` when no
branch is ever taken — then the source dereferences `undefined` and throws). -/
def chooseTargetIdx (c : Cfg) (bbox : List JNum) (children : List REntry) :
    Option Nat :=
  (children.enum.foldl
    (fun (st : JNum × JNum × Option Nat) p =>
      let (mAr, mEnl, _tgt) := st
      let cb := entBBox p.2
      let area := bboxArea c.dim cb
      let enl := jsub (enlargedArea c.dim bbox cb) area
      if jlt enl mEnl then ((if jlt area mAr then area else mAr), enl, some p.1)
      else if jeq enl mEnl then
        (if jlt area mAr then (area, mEnl, some p.1) else st)
      else st)
    (JNum.inf, JNum.inf, none)).2.2

/-- `_chooseSubtree(bbox, node, level, path)`: descend by least enlargement
until a leaf or until depth `level`, returning the spine of visited internal
nodes with the chosen child index at each, and the stopping node.  `none`
models the source throwing on a malformed tree (the chosen slot is not a node);
the fuel is instantiated so that it never runs out on the calls below. -/
def descend (c : Cfg) (bbox : List JNum) :
    Nat → RNode → Nat → Nat → Option (List (RNode × Nat) × RNode)
  | 0, _, _, _ => none
  | fuel + 1, node, level, depth =>
    if node.leaf || depth = level then some ([], node)
    else
      match chooseTargetIdx c bbox node.children with
      | some i =>
          match node.children.getD i (.item []) with
          | .node child =>
              match descend c bbox fuel child level (depth + 1) with
              | some (spine, target) => some ((node, i) :: spine, target)
              | none => none
          | .item _ => none
      | none => none

/-- Extend a node's box with `bbox` in place (`_adjustParentBBoxes` step). -/
def extendNodeBBox (c : Cfg) (bbox : List JNum) (n : RNode) : RNode :=
  .mk n.children n.height (extend c.dim n.bbox bbox) n.leaf

/-- The bbox-adjustment phase of `_insert`: after splitting stops, replace the
updated child in each remaining ancestor and extend the ancestor's box with the
inserted bbox (`_adjustParentBBoxes`). -/
def insertUpB (c : Cfg) (bbox : List JNum) :
    List (RNode × Nat) → RNode → RNode
  | [], n => n
  | (p, i) :: rest, n =>
      insertUpB c bbox rest
        (.mk (p.children.set i (.node n)) p.height (extend c.dim p.bbox bbox) p.leaf)

/-- The split-propagation phase of `_insert`: while the current node is
overfull, split it and attach the new sibling to the parent (or grow a new
root); at the first non-overfull level extend that node's box and switch to the
adjustment phase for the remaining ancestors. -/
def insertUpA (c : Cfg) (bbox : List JNum) :
    List (RNode × Nat) → RNode → RNode
  | spine, n =>
    if c.maxEntries < n.children.length then
      let s := splitNode c n
      match spine with
      | [] => splitRoot c s.1 s.2
      | (p, i) :: rest =>
          insertUpA c bbox rest
            (.mk ((p.children.set i (.node s.1)) ++ [.node s.2]) p.height p.bbox p.leaf)
    else insertUpB c bbox spine (extendNodeBBox c bbox n)

/-- `_insert(item, level, isNode)`: choose the target by `_chooseSubtree`, push
the entry and extend the target's box, then split/adjust upwards.  If the
descent throws (malformed tree), nothing has been mutated yet and the tree is
returned unchanged. -/
def insertDetail (c : Cfg) (root : RNode) (entry : REntry) (level : Nat) : RNode :=
  let bbox := match entry with
    | .item it => it
    | .node n => n.bbox
  match descend c bbox (nodeSize root + level + 2) root level 0 with
  | none => root
  | some (spine, target) =>
      let t := RNode.mk (target.children ++ [entry]) target.height
        (extend c.dim target.bbox bbox) target.leaf
      insertUpA c bbox spine.reverse t

/-- `insert(item)`: insert a single item at leaf level
(`this._insert(item, this.data.height - 1)`; the `if (item)` null-guard is a
no-op for actual items). -/
def insertS (c : Cfg) (root : RNode) (item : Item) : RNode :=
  insertDetail c root (.item item) (root.height - 1)

/-! ## Query traversals -/

theorem entsSize_children_lt (e : REntry) : entsSize (entChildren e) < entSize e := by
  cases e with
  | item it => simp only [entChildren, entSize, entsSize]; omega
  | node n => cases n with
    | mk cs h b l =>
      simp only [entChildren, entSize, nodeSize, RNode.children]; omega

theorem entsSize_filter_le (p : REntry → Bool) (l : List REntry) :
    entsSize (l.filter p) ≤ entsSize l := by
  induction l with
  | nil => simp [entsSize]
  | cons e es ih =>
    by_cases h : p e <;> simp [List.filter, h, entsSize] <;> have := entSize_pos e <;> omega

/-- The loop of `_all(node, result)`: the current node is kept at the head of
the explicit stack (`node = nodesToSearch.pop()` in the source); a leaf's
children are appended to the result, an internal node's children are pushed. -/
def allLoop : List REntry → List REntry → List REntry
  | [], acc => acc
  | node :: rest, acc =>
    allLoop (if entLeaf node then rest else (entChildren node).reverse ++ rest)
      (if entLeaf node then acc ++ entChildren node else acc)
termination_by stack _ => entsSize stack
decreasing_by
  by_cases hl : entLeaf node <;> simp [hl, entsSize, entsSize_append, entsSize_reverse]
  · have := entSize_pos node; omega
  · have := entsSize_children_lt node; omega

/-- `_all(node, result)`. -/
def allGo (node : REntry) (acc : List REntry) : List REntry := allLoop [node] acc

/-- `all()`: every item in the tree. -/
def allS (root : RNode) : List REntry := allGo (.node root) []

/-- Whether `search`'s inner loop pushes this child onto the work stack:
it intersects the query, the parent is not a leaf, and the query does not fully
contain the child's box. -/
def searchPushes (c : Cfg) (bbox : List JNum) (leafF : Bool) (child : REntry) : Bool :=
  intersectsB c.dim bbox (childBBoxOf leafF child) && !leafF &&
    !containsB c.dim bbox (childBBoxOf leafF child)

/-- The body of `search`'s for-loop over one node's children: accumulate result
entries (items of a leaf, or whole subtrees via `_all` when fully contained)
and collect the children to push. -/
def searchStep (c : Cfg) (bbox : List JNum) (leafF : Bool)
    (st : List REntry × List REntry) (child : REntry) : List REntry × List REntry :=
  let cb := childBBoxOf leafF child
  if intersectsB c.dim bbox cb then
    if leafF then (st.1 ++ [child], st.2)
    else if containsB c.dim bbox cb then (allGo child st.1, st.2)
    else (st.1, st.2 ++ [child])
  else st

theorem searchStep_snd (c : Cfg) (bbox : List JNum) (leafF : Bool)
    (st : List REntry × List REntry) (child : REntry) :
    (searchStep c bbox leafF st child).2 =
      st.2 ++ (if searchPushes c bbox leafF child then [child] else []) := by
  unfold searchStep searchPushes
  cases leafF
  · by_cases h1 : intersectsB c.dim bbox (childBBoxOf false child) <;>
      by_cases h3 : containsB c.dim bbox (childBBoxOf false child) <;>
        simp [h1, h3]
  · by_cases h1 : intersectsB c.dim bbox (childBBoxOf true child) <;> simp [h1]

theorem searchFold_snd (c : Cfg) (bbox : List JNum) (leafF : Bool)
    (children : List REntry) (st : List REntry × List REntry) :
    (children.foldl (searchStep c bbox leafF) st).2 =
      st.2 ++ children.filter (searchPushes c bbox leafF) := by
  induction children generalizing st with
  | nil => simp
  | cons e es ih =>
    simp only [List.foldl_cons, ih, searchStep_snd]
    by_cases h : searchPushes c bbox leafF e <;> simp [List.filter, h]

/-- The `while (node)` loop of `search(bbox)`, with the current node at the
head of the work stack. -/
def searchLoop (c : Cfg) (bbox : List JNum) : List REntry → List REntry → List REntry
  | [], acc => acc
  | node :: rest, acc =>
    let st := (entChildren node).foldl (searchStep c bbox (entLeaf node)) (acc, [])
    searchLoop c bbox (st.2.reverse ++ rest) st.1
termination_by stack _ => entsSize stack
decreasing_by
  simp only [searchFold_snd, List.nil_append, entsSize_append, entsSize_reverse, entsSize]
  have h1 := entsSize_filter_le (searchPushes c bbox (entLeaf node)) (entChildren node)
  have h2 := entsSize_children_lt node
  omega

/-- `search(bbox)`: empty if the query misses the root's box, else the
iterative traversal. -/
def searchS (c : Cfg) (root : RNode) (bbox : List JNum) : List REntry :=
  if intersectsB c.dim bbox root.bbox then searchLoop c bbox [.node root] [] else []

/-! ## Deletion: the iterative `remove` traversal -/

/-- `_condense(path)` after an item was spliced out of the found leaf: walking
from the leaf towards the root, drop nodes that became empty from their parent
(resetting the whole structure when the root empties) and recompute the box of
every surviving node on the path.  The spine carries each ancestor (deepest
first) together with the index of the visited child inside it, which is where
`siblings.indexOf(path[i])` finds the identical node object. -/
def condense (c : Cfg) : List (REntry × Nat) → RNode → RNode
  | [], n => if n.children.length = 0 then clearNode c else recalcNode c.dim n
  | (p, idx) :: rest, n =>
      condense c rest
        (if n.children.length = 0 then
          .mk ((entChildren p).eraseIdx idx) (entHeight p) (entBBox p) (entLeaf p)
        else
          .mk ((entChildren p).set idx (.node (recalcNode c.dim n))) (entHeight p)
            (entBBox p) (entLeaf p))

/-- Does this child slot hold (a value equal to) the item being removed?
JS `indexOf(item)` compares by identity; a tree holds at most one reference to
a given instance, which value equality models. -/
def isTheItem (item : Item) : REntry → Bool
  | .item it => decide (it = item)
  | .node _ => false

/-- The loop state of `remove`: the current node (`undefined` = `none`), the
path and index stacks (top at the head), the current child position `pos`, the
current parent, and the `goingUp` flag. -/
structure RemSt : Type where
  cur : Option REntry
  path : List REntry
  idxs : List Nat
  pos : Nat
  par : Option REntry
  up : Bool

/-- One iteration of `remove`'s `while (node || path.length)` body, after the
`if (!node)` go-up prologue resolved the current node: check the leaf for the
item (and splice + condense if found), else go down, right, or mark done. -/
def remBody (c : Cfg) (item : Item) (bbox : List JNum) (n : REntry)
    (path : List REntry) (idxs : List Nat) (pos : Nat) (par : Option REntry)
    (up : Bool) : RemSt ⊕ Option RNode :=
  match (if entLeaf n then (entChildren n).findIdx? (isTheItem item) else none) with
  | some k =>
      .inr (some (condense c (path.zip (pos :: idxs))
        (.mk ((entChildren n).eraseIdx k) (entHeight n) (entBBox n) (entLeaf n))))
  | none =>
      if !up && !(entLeaf n) && containsB c.dim (entBBox n) bbox then
        .inl ⟨(entChildren n).head?, n :: path, pos :: idxs, 0, some n, up⟩
      else
        match par with
        | some p => .inl ⟨(entChildren p).get? (pos + 1), path, idxs, pos + 1, par, false⟩
        | none => .inl ⟨none, path, idxs, pos, par, up⟩

/-- One full iteration of `remove`'s traversal loop, including the go-up
prologue; `.inr none` is the not-found exit (`return this`), `.inr (some t)`
returns the condensed tree after a successful splice. -/
def remStep (c : Cfg) (item : Item) (bbox : List JNum) (s : RemSt) :
    RemSt ⊕ Option RNode :=
  match s.cur, s.path with
  | none, [] => .inr none
  | none, top :: rest =>
      remBody c item bbox top rest s.idxs.tail (s.idxs.headD 0) rest.head? true
  | some n, path => remBody c item bbox n path s.idxs s.pos s.par s.up

/-- Run the `remove` loop for at most `fuel` iterations. -/
def remRun (c : Cfg) (item : Item) (bbox : List JNum) :
    Nat → RemSt → Option (Option RNode)
  | 0, _ => none
  | fuel + 1, s =>
    match remStep c item bbox s with
    | .inr r => some r
    | .inl s' => remRun c item bbox fuel s'

/-- The initial loop state of `remove`: current node is the root, empty stacks
(`i`/`parent`/`goingUp` start as `undefined`, which is only ever read where it
is harmless; `pos = 0`, `par = none`, `up = false` model that). -/
def remInit (root : RNode) : RemSt := ⟨some (.node root), [], [], 0, none, false⟩

/-- `remove(item)`: a falsy item is a no-op; otherwise run the traversal
(`bbox = this.toBBox(item)` is the item itself).  The fuel is generous: the
termination theorem below shows the machine always answers within it. -/
def removeS (c : Cfg) (root : RNode) (x : Option Item) : RNode :=
  match x with
  | none => root
  | some item =>
    match remRun c item item (4 * nodeSize root + 8) (remInit root) with
    | some (some t) => t
    | some none => root
    | none => root

/-! ## The selection primitive and the bulk loader -/

/-- `compare(axis, a, b) = a[axis] - b[axis]`. -/
def cmpAxis (axis : Nat) (a b : Item) : JNum := jsub (jget a axis) (jget b axis)

/-- `compare(...) > 0`. -/
def jposB (x : JNum) : Bool := jgt x (.num 0)

/-- `compare(...) < 0`. -/
def jnegB (x : JNum) : Bool := jlt x (.num 0)

/-- `compare(...) === 0`. -/
def jzeroB (x : JNum) : Bool := jeq x (.num 0)

/-- Read `arr[i]` (an out-of-range read yields `undefined`, whose numeric
reads behave as NaN; modelled by the empty item). -/
def aget (arr : List Item) (i : Nat) : Item := arr.getD i []

/-- `swap(arr, i, j)`. -/
def aswap (arr : List Item) (i j : Nat) : List Item :=
  (arr.set i (aget arr j)).set j (aget arr i)

/-- `while (compare(axis, arr[i], t) < 0) i++`, fuel-bounded. -/
def scanUp (axis : Nat) (t : Item) (arr : List Item) : Nat → Nat → Nat
  | 0, i => i
  | fuel + 1, i =>
    if jnegB (cmpAxis axis (aget arr i) t) then scanUp axis t arr fuel (i + 1) else i

/-- `while (compare(axis, arr[j], t) > 0) j--`, fuel-bounded. -/
def scanDown (axis : Nat) (t : Item) (arr : List Item) : Nat → Nat → Nat
  | 0, j => j
  | fuel + 1, j =>
    if jposB (cmpAxis axis (aget arr j) t) then scanDown axis t arr fuel (j - 1) else j

/-- The `while (i < j)` partition loop of `select`. -/
def partLoop (axis : Nat) (t : Item) : Nat → List Item → Nat → Nat →
    List Item × Nat × Nat
  | 0, arr, i, j => (arr, i, j)
  | fuel + 1, arr, i, j =>
    if i < j then
      let arr1 := aswap arr i j
      let i1 := scanUp axis t arr1 (arr1.length + 2) (i + 1)
      let j1 := scanDown axis t arr1 (arr1.length + 2) (j - 1)
      partLoop axis t fuel arr1 i1 j1
    else (arr, i, j)

/-- The Floyd-Rivest narrowing bounds.  The source computes them with
floating-point transcendental functions (`z = Math.log(n)`,
`s = 0.5 * Math.exp(2z/3) = n^(2/3)/2`, `sd = 0.5 * sqrt(z·s·(n-s)/n)` signed by
`i - n/2`), then clamps to `[left, right]`; a floating-point model is out of
scope, so the transcendental parts are replaced by integer approximations of
the same quantities, additionally clamped to keep `k` inside the narrowed
window (which the float values satisfy mathematically whenever the `> 600`
trigger fires, with a wide margin that absorbs rounding).  Every theorem below
about `select`, `multiSelect` and `load` holds for arbitrary in-window values
of these bounds: the narrowing call only permutes a subrange before the exact
partition step. -/
def frBounds (left right k : Nat) : Nat × Nat :=
  let n := right - left + 1
  let i := k - left + 1
  let s2 := Nat.findGreatest (fun m => m * m * m ≤ n * n) n
  let z := Nat.log2 n
  let sd := Nat.sqrt (z * s2 * (n - s2 / 2) / (4 * n))
  let lo : Int := (k : Int) - (i * s2 : Int) / (2 * n) +
    (if 2 * i < n then -(sd : Int) else (sd : Int))
  let hi : Int := (k : Int) + (((n - i) * s2 : Int)) / (2 * n) +
    (if 2 * i < n then -(sd : Int) else (sd : Int))
  (max left (min lo.toNat k), min right (max hi.toNat k))

/-- The wall setup of one `select` pass (source lines 632-633): move the pivot
item to the left wall, then, if the right wall's key exceeds the pivot's, swap
the walls. -/
def selSetup (axis : Nat) (t : Item) (arr0 : List Item) (left right k : Nat) :
    List Item :=
  if jposB (cmpAxis axis (aget (aswap arr0 left k) right) t) then
    aswap (aswap arr0 left k) left right
  else aswap arr0 left k

/-- The fix-up after the partition loop (source lines 643-647): place a
pivot-keyed element at the partition point. -/
def selFix (axis : Nat) (t : Item) (left right : Nat) (p : List Item × Nat × Nat) :
    List Item × Nat :=
  if jzeroB (cmpAxis axis (aget p.1 left) t) then (aswap p.1 left p.2.2, p.2.2)
  else (aswap p.1 (p.2.2 + 1) right, p.2.2 + 1)

/-- One pass of `select`'s partition step (source lines 628-647): pick the
pivot `t = arr[k]`, move it to a wall, run the two-pointer partition loop, and
apply the final fix-up swap; returns the new array and the pivot position `j`. -/
def selBody (axis : Nat) (arr0 : List Item) (left right k : Nat) : List Item × Nat :=
  selFix axis (aget arr0 k) left right
    (partLoop axis (aget arr0 k) (right - left + 2)
      (selSetup axis (aget arr0 k) arr0 left right k) left right)

/-- The outer `while (right > left)` loop of the Floyd-Rivest `select`. -/
def selectLoop (axis : Nat) : Nat → List Item → Nat → Nat → Nat → List Item
  | 0, arr, _, _, _ => arr
  | fuel + 1, arr, left, right, k =>
    if left < right then
      let arr0 :=
        if 600 < right - left then
          let nb := frBounds left right k
          selectLoop axis fuel arr nb.1 nb.2 k
        else arr
      let fix := selBody axis arr0 left right k
      let left' := if fix.2 ≤ k then fix.2 + 1 else left
      let right' := if k ≤ fix.2 then fix.2 - 1 else right
      selectLoop axis fuel fix.1 left' right' k
    else arr

/-- Fuel that the sufficiency arguments below stay inside. -/
def selFuel (right : Nat) : Nat := (right + 2) * (right + 2)

/-- `select(arr, left, right, k, compare, axis)` with its fuel instantiated. -/
def selectS (axis : Nat) (arr : List Item) (left right k : Nat) : List Item :=
  selectLoop axis (selFuel right) arr left right k

/-- `Math.ceil(a / b)` on integers (floats modelled as exact reals). -/
def ceilDiv (a b : Nat) : Nat := (a + b - 1) / b

/-- The stack loop of `multiSelect`; the stack holds range endpoints with the
top at the head, so `right :: left :: rest` pops `right` then `left`. -/
def multiSelectLoop (axis n : Nat) : Nat → List Item → List Nat → List Item
  | 0, arr, _ => arr
  | fuel + 1, arr, stack =>
    match stack with
    | right :: left :: rest =>
        if right - left ≤ n then multiSelectLoop axis n fuel arr rest
        else
          let mid := left + ceilDiv (right - left) (2 * n) * n
          let arr' := selectS axis arr left right mid
          multiSelectLoop axis n fuel arr' (right :: mid :: (mid :: left :: rest))
    | _ => arr

/-- `multiSelect(arr, left, right, n, compare, axis)`. -/
def multiSelect (axis n : Nat) (arr : List Item) (left right : Nat) : List Item :=
  multiSelectLoop axis n ((right + 2) * (right + 2)) arr [right, left]

/-- `Math.ceil(Math.log(N) / Math.log(M))` with exact logarithms: the least `h`
with `N ≤ M^h` (floats modelled as exact reals). -/
def ceilLogAux (M N : Nat) : Nat → Nat → Nat
  | 0, h => h
  | fuel + 1, h => if N ≤ M ^ h then h else ceilLogAux M N fuel (h + 1)

def ceilLog (M N : Nat) : Nat := ceilLogAux M N N 0

/-- `Math.ceil(Math.sqrt(n))` with an exact square root: the least `s` with
`n ≤ s * s` (floats modelled as exact reals). -/
def sqrtUpAux (n : Nat) : Nat → Nat → Nat
  | 0, s => s
  | fuel + 1, s => if n ≤ s * s then s else sqrtUpAux n fuel (s + 1)

def ceilSqrt (n : Nat) : Nat := sqrtUpAux n (n + 1) 0

mutual
/-- `_build(items, left, right, height)`: a leaf for at most `maxEntries`
items, otherwise the OMT tiling.  On the top-level call (`height = 0`) the
target height and the adjusted root fan-out `M` are computed first.  Returns
the (partially reordered) items array alongside the built node.  The fuel is a
structural bound on the recursion; `load` instantiates it so that it cannot run
out (each recursive call strictly shrinks the segment). -/
def buildGo (c : Cfg) : Nat → List Item → Nat → Nat → Nat → List Item × RNode
  | 0, items, _, _, _ => (items, clearNode c)
  | fuel + 1, items, left, right, heightP =>
    let N := right - left + 1
    if N ≤ c.maxEntries then
      let cs := ((items.drop left).take N).map REntry.item
      (items, .mk cs 1 (calcBBox c.dim true cs) true)
    else
      let hM : Nat × Nat :=
        if heightP = 0 then
          let h := ceilLog c.maxEntries N
          (h, ceilDiv N (c.maxEntries ^ (h - 1)))
        else (heightP, c.maxEntries)
      let N2 := ceilDiv N hM.2
      let N1 := N2 * ceilSqrt hM.2
      let res := buildAxis c fuel items 0 left right N1 N2 hM.1 []
      (res.1, .mk res.2 hM.1 (calcBBox c.dim false res.2) false)
termination_by structural fuel _ _ _ _ => fuel

/-- `buildAxis(axis, left, right, N1, N2)`: partially sort the segment into
groups of `N1` on this axis, then recurse per group (swapping `N1`/`N2`) or
pack tiles on the last axis. -/
def buildAxis (c : Cfg) : Nat → List Item → Nat → Nat → Nat → Nat → Nat → Nat →
    List REntry → List Item × List REntry
  | 0, items, _, _, _, _, _, _, acc => (items, acc)
  | fuel + 1, items, axis, left, right, n1, n2, height, acc =>
    buildTiles c fuel (multiSelect axis n1 items left right) axis left right n1 n2
      height acc
termination_by structural fuel _ _ _ _ _ _ _ _ => fuel

/-- The `for (i = left; i <= right; i += N1)` loop of `buildAxis`. -/
def buildTiles (c : Cfg) : Nat → List Item → Nat → Nat → Nat → Nat → Nat → Nat →
    List REntry → List Item × List REntry
  | 0, items, _, _, _, _, _, _, acc => (items, acc)
  | fuel + 1, items, axis, i, right, n1, n2, height, acc =>
    if i ≤ right then
      let st :=
        if axis + 1 < c.dim then
          buildAxis c fuel items (axis + 1) i (min (i + n1 - 1) right) n2 n1 height acc
        else
          let br := buildGo c fuel items i (min (i + n1 - 1) right) (height - 1)
          (br.1, acc ++ [.node br.2])
      buildTiles c fuel st.1 axis (i + n1) right n1 n2 height st.2
    else (items, acc)
termination_by structural fuel _ _ _ _ _ _ _ _ => fuel
end

/-- Fuel under which `_build`'s recursion always completes (a bound on the
depth of the call tree: per level at most one step per item plus the axis
nesting, times the number of levels; the sufficiency theorems below show the
recursion always answers within it). -/
def buildFuel (c : Cfg) (len : Nat) : Nat :=
  (len + c.dim + 3) * (len + c.dim + 3) * 3

/-- `load(data)`: nothing for an empty batch; one-by-one insertion for a small
batch; otherwise bulk-build and merge (adopt, split the root, or insert the
smaller tree at the height difference, swapping if the built tree is taller). -/
def loadS (c : Cfg) (root : RNode) (data : List Item) : RNode :=
  if data.length = 0 then root
  else if data.length < c.minEntries then
    data.foldl (fun r it => insertS c r it) root
  else
    let node := (buildGo c (buildFuel c data.length) data 0 (data.length - 1) 0).2
    if root.children.length = 0 then node
    else if root.height = node.height then splitRoot c root node
    else if root.height < node.height then
      insertDetail c node (.node root) (node.height - root.height - 1)
    else
      insertDetail c root (.node node) (root.height - node.height - 1)

/-! ## Well-formedness and reachability -/

/-- A legitimate item per the specification's data model (section 3): a flat
numeric vector of length `2 * dim` with `min[i] ≤ max[i]` on every axis. -/
def validItemB (dim : Nat) (it : Item) : Bool :=
  decide (it.length = 2 * dim) &&
  (it.all fun v => match v with | .num _ => true | _ => false) &&
  ((List.range dim).all fun i => jle (jget it i) (jget it (dim + i)))

mutual
/-- The structural invariant of a node: its box is exactly `calcBBox` of its
children, it has at most `maxEntries` children, leaves have height 1 and hold
valid items, internal nodes have height at least 2, are nonempty, and hold
nodes of height exactly one less. -/
def wfB (c : Cfg) : RNode → Bool
  | .mk cs h b l =>
    decide (b = calcBBox c.dim l cs) &&
    decide (cs.length ≤ c.maxEntries) &&
    (if l then decide (h = 1) else decide (2 ≤ h) && decide (cs.length ≠ 0)) &&
    wfEntsB c h l cs
def wfEntsB (c : Cfg) (h : Nat) (l : Bool) : List REntry → Bool
  | [] => true
  | e :: es => wfEntB c h l e && wfEntsB c h l es
def wfEntB (c : Cfg) (h : Nat) (l : Bool) : REntry → Bool
  | .item it => l && validItemB c.dim it
  | .node n => !l && decide (n.height + 1 = h) && decide (n.children.length ≠ 0) && wfB c n
end

mutual
/-- All nodes of the tree, the root included. -/
def nodesOf : RNode → List RNode
  | .mk cs h b l => .mk cs h b l :: nodesOfEnts cs
def nodesOfEnts : List REntry → List RNode
  | [] => []
  | e :: es => nodesOfEnt e ++ nodesOfEnts es
def nodesOfEnt : REntry → List RNode
  | .item _ => []
  | .node n => nodesOf n
end

mutual
/-- The depths (distance from the root) of all leaf nodes. -/
def leafDepths (d : Nat) : RNode → List Nat
  | .mk cs _ _ l => if l then [d] else leafDepthsEnts (d + 1) cs
def leafDepthsEnts (d : Nat) : List REntry → List Nat
  | [] => []
  | e :: es => leafDepthsEnt d e ++ leafDepthsEnts d es
def leafDepthsEnt (d : Nat) : REntry → List Nat
  | .item _ => []
  | .node n => leafDepths d n
end

mutual
/-- All items stored in the leaves of the tree, in child order. -/
def itemsOf : RNode → List Item
  | .mk cs _ _ _ => itemsOfEnts cs
def itemsOfEnts : List REntry → List Item
  | [] => []
  | e :: es => itemsOfEnt e ++ itemsOfEnts es
def itemsOfEnt : REntry → List Item
  | .item it => [it]
  | .node n => itemsOf n
end

/-- The inclusive segment `arr[l..r]` of a JS array. -/
def seg (arr : List Item) (l r : Nat) : List Item := (arr.drop l).take (r + 1 - l)

/-- `b` is `a` with the segment `[l..r]` permuted in place: same length, equal
strictly before `l` and strictly after `r`, and a permutation overall (hence
the segment itself is a permutation of the original segment). -/
def SegPerm (l r : Nat) (a b : List Item) : Prop :=
  b.length = a.length ∧ b.take l = a.take l ∧ b.drop (r + 1) = a.drop (r + 1) ∧
    b.Perm a

/-- Every window pair on a `multiSelect` stack lies inside `[lo, hi]` (the
stack alternates `right, left` endpoints with the top at the head). -/
def StackIn (lo hi : Nat) : List Nat → Prop
  | r :: l :: rest => lo ≤ l ∧ l ≤ r ∧ r ≤ hi ∧ StackIn lo hi rest
  | _ => True

/-- The size/height contract of the OMT bulk build: a recursive `_build` call
on `N` items with target height `h` satisfies it; it forces every level to
produce a node of exactly the target height with at most `maxEntries`
children. -/
def BuildInv (M N h : Nat) : Prop :=
  (h = 1 ∧ 1 ≤ N ∧ N ≤ M) ∨ (2 ≤ h ∧ 2 * M ^ (h - 1) - M < N ∧ N ≤ M ^ h)

/-- Fuel that the build-correctness induction certifies sufficient for a
`_build` call on `N` items at target height `h`. -/
def bGoNeed (c : Cfg) (h N : Nat) : Nat := h * (2 * N + 2 * c.dim + 5) + 1

/-- Each entry collected by a build level is a well-formed non-empty node of
exactly the level-below height. -/
def BTileOk (c : Cfg) (h : Nat) (ns : List REntry) : Prop :=
  ∀ e ∈ ns, ∃ m, e = REntry.node m ∧ wfB c m = true ∧ m.height = h - 1 ∧
    m.children.length ≠ 0

/-- Induction statement for `buildGo` (recursive, non-root calls). -/
def PGo (c : Cfg) (fuel : Nat) : Prop :=
  ∀ (items : List Item) (left right hp : Nat),
    (∀ it ∈ items, validItemB c.dim it = true) →
    right < items.length → left ≤ right →
    BuildInv c.maxEntries (right - left + 1) hp →
    bGoNeed c hp (right - left + 1) ≤ fuel →
    SegPerm left right items (buildGo c fuel items left right hp).1 ∧
    wfB c (buildGo c fuel items left right hp).2 = true ∧
    (buildGo c fuel items left right hp).2.height = hp ∧
    (buildGo c fuel items left right hp).2.children.length ≠ 0 ∧
    (itemsOf (buildGo c fuel items left right hp).2).Perm (seg items left right)

/-- Induction statement for the axis-0 tile walk of a build level. -/
def PTil0 (c : Cfg) (fuel : Nat) : Prop :=
  ∀ (items : List Item) (i right n1 n2 h s : Nat) (acc : List REntry),
    (∀ it ∈ items, validItemB c.dim it = true) →
    right < items.length → i ≤ right → 1 ≤ n2 → 1 ≤ s → n1 = s * n2 → 2 ≤ h →
    (∀ j t, j = i + t * n2 → j ≤ right →
      BuildInv c.maxEntries (min n2 (right - j + 1)) (h - 1)) →
    right - i + 1 + 2 * c.dim + 4 + bGoNeed c (h - 1) n2 ≤ fuel →
    SegPerm i right items (buildTiles c fuel items 0 i right n1 n2 h acc).1 ∧
    ∃ ns, (buildTiles c fuel items 0 i right n1 n2 h acc).2 = acc ++ ns ∧
      ns.length = ceilDiv (right - i + 1) n2 ∧ BTileOk c h ns ∧
      (itemsOfEnts ns).Perm (seg items i right)

/-- Induction statement for `buildAxis` at axis 0. -/
def PAx0 (c : Cfg) (fuel : Nat) : Prop :=
  ∀ (items : List Item) (l right n1 n2 h s : Nat) (acc : List REntry),
    (∀ it ∈ items, validItemB c.dim it = true) →
    right < items.length → l ≤ right → 1 ≤ n2 → 1 ≤ s → n1 = s * n2 → 2 ≤ h →
    (∀ j t, j = l + t * n2 → j ≤ right →
      BuildInv c.maxEntries (min n2 (right - j + 1)) (h - 1)) →
    right - l + 1 + 2 * c.dim + 5 + bGoNeed c (h - 1) n2 ≤ fuel →
    SegPerm l right items (buildAxis c fuel items 0 l right n1 n2 h acc).1 ∧
    ∃ ns, (buildAxis c fuel items 0 l right n1 n2 h acc).2 = acc ++ ns ∧
      ns.length = ceilDiv (right - l + 1) n2 ∧ BTileOk c h ns ∧
      (itemsOfEnts ns).Perm (seg items l right)

/-- Induction statement for the axis-1 tile walk (walk stride `a` is the final
chunk stride of the level; `b = s * a` is the previous axis stride). -/
def PTil1 (c : Cfg) (fuel : Nat) : Prop :=
  ∀ (items : List Item) (i right a b h s : Nat) (acc : List REntry),
    (∀ it ∈ items, validItemB c.dim it = true) →
    right < items.length → i ≤ right → 1 ≤ a → 1 ≤ s → b = s * a → 2 ≤ h →
    (∀ j t, j = i + t * a → j ≤ right →
      BuildInv c.maxEntries (min a (right - j + 1)) (h - 1)) →
    right - i + 1 + 2 * c.dim + 2 + bGoNeed c (h - 1) a ≤ fuel →
    SegPerm i right items (buildTiles c fuel items 1 i right a b h acc).1 ∧
    ∃ ns, (buildTiles c fuel items 1 i right a b h acc).2 = acc ++ ns ∧
      ns.length = ceilDiv (right - i + 1) a ∧ BTileOk c h ns ∧
      (itemsOfEnts ns).Perm (seg items i right)

/-- Induction statement for `buildAxis` at axis 1. -/
def PAx1 (c : Cfg) (fuel : Nat) : Prop :=
  ∀ (items : List Item) (l right a b h s : Nat) (acc : List REntry),
    (∀ it ∈ items, validItemB c.dim it = true) →
    right < items.length → l ≤ right → 1 ≤ a → 1 ≤ s → b = s * a → 2 ≤ h →
    (∀ j t, j = l + t * a → j ≤ right →
      BuildInv c.maxEntries (min a (right - j + 1)) (h - 1)) →
    right - l + 1 + 2 * c.dim + 3 + bGoNeed c (h - 1) a ≤ fuel →
    SegPerm l right items (buildAxis c fuel items 1 l right a b h acc).1 ∧
    ∃ ns, (buildAxis c fuel items 1 l right a b h acc).2 = acc ++ ns ∧
      ns.length = ceilDiv (right - l + 1) a ∧ BTileOk c h ns ∧
      (itemsOfEnts ns).Perm (seg items l right)

/-- Induction statement for the tile walks at axes `≥ 2`: both strides cover
the window, so the walk packs the whole window into a single child. -/
def PTilHi (c : Cfg) (fuel : Nat) : Prop :=
  ∀ (items : List Item) (axis l right u v h : Nat) (acc : List REntry),
    (∀ it ∈ items, validItemB c.dim it = true) →
    right < items.length → l ≤ right → 2 ≤ axis → axis < c.dim →
    right - l + 1 ≤ u → right - l + 1 ≤ v →
    BuildInv c.maxEntries (right - l + 1) (h - 1) → 2 ≤ h →
    2 * (c.dim - axis) - 1 + bGoNeed c (h - 1) (right - l + 1) ≤ fuel →
    SegPerm l right items (buildTiles c fuel items axis l right u v h acc).1 ∧
    ∃ m, (buildTiles c fuel items axis l right u v h acc).2 =
        acc ++ [REntry.node m] ∧
      wfB c m = true ∧ m.height = h - 1 ∧ m.children.length ≠ 0 ∧
      (itemsOf m).Perm (seg items l right)

/-- Induction statement for `buildAxis` at axes `≥ 2`. -/
def PAxHi (c : Cfg) (fuel : Nat) : Prop :=
  ∀ (items : List Item) (axis l right u v h : Nat) (acc : List REntry),
    (∀ it ∈ items, validItemB c.dim it = true) →
    right < items.length → l ≤ right → 2 ≤ axis → axis < c.dim →
    right - l + 1 ≤ u → right - l + 1 ≤ v →
    BuildInv c.maxEntries (right - l + 1) (h - 1) → 2 ≤ h →
    2 * (c.dim - axis) + bGoNeed c (h - 1) (right - l + 1) ≤ fuel →
    SegPerm l right items (buildAxis c fuel items axis l right u v h acc).1 ∧
    ∃ m, (buildAxis c fuel items axis l right u v h acc).2 =
        acc ++ [REntry.node m] ∧
      wfB c m = true ∧ m.height = h - 1 ∧ m.children.length ≠ 0 ∧
      (itemsOf m).Perm (seg items l right)

/-- The tree states reachable from a fresh tree by the public mutating
operations, with items drawn from the specification's data model
(valid finite boxes; section 3). -/
inductive Reachable (c : Cfg) : RNode → Prop where
  | clear : Reachable c (clearNode c)
  | insert (t : RNode) (it : Item) : Reachable c t → validItemB c.dim it = true →
      Reachable c (insertS c t it)
  | load (t : RNode) (items : List Item) : Reachable c t →
      (∀ it ∈ items, validItemB c.dim it = true) → Reachable c (loadS c t items)
  | remove (t : RNode) (x : Option Item) : Reachable c t →
      Reachable c (removeS c t x)

/-! ## Concrete counterexample inputs -/

/-- Thirteen valid 2-D point items `[i, i, i, i]`, `i = 0..12`. -/
def items13 : List Item := (List.range 13).map fun i => [.num i, .num i, .num i, .num i]

/-- The tree obtained by bulk-loading `items13` into a fresh tree with
`maxEntries = 4` (so `minEntries = 2`). -/
def t13 : RNode := loadS smallCfg (clearNode smallCfg) items13

/-- Does some non-root node have fewer than `minEntries` children? -/
def hasUnderfullNonRoot (c : Cfg) (t : RNode) : Bool :=
  (nodesOfEnts t.children).any fun n => n.children.length < c.minEntries

/-- Five 2-D point items whose axis-0 (x) coordinates are scattered over a wide
range while axis-1 (y) is tightly and monotonically spread, so the total
distribution margin for axis 0 is smaller than for axis 1, but the orders by
the two axes differ. -/
def c8node : RNode :=
  let cs : List REntry :=
    [.item [.num 0, .num 0, .num 0, .num 0],
     .item [.num 40, .num 1, .num 40, .num 1],
     .item [.num 10, .num 2, .num 10, .num 2],
     .item [.num 30, .num 3, .num 30, .num 3],
     .item [.num 20, .num 4, .num 20, .num 4]]
  .mk cs 1 (calcBBox 2 true cs) true





/-! ## Finiteness of boxes -/

/-- Is this JS number an actual (finite) number? -/
def isNum : JNum → Bool
  | .num _ => true
  | _ => false

/-- Is this a finite box of the right arity: length `2 * dim`, all entries
finite numbers? -/
def isBoxB (dim : Nat) (b : List JNum) : Bool :=
  decide (b.length = 2 * dim) && b.all isNum

/-- The minimum of a list of JS numbers, starting from `Infinity`
(the per-axis form of a union of boxes on a min coordinate). -/
def jminFold (l : List JNum) : JNum := l.foldl jmin .inf

/-- The maximum of a list of JS numbers, starting from `-Infinity`. -/
def jmaxFold (l : List JNum) : JNum := l.foldl jmax .ninf

/-- The per-axis key of a child box at coordinate `t`. -/
def keyAt (leafF : Bool) (t : Nat) (e : REntry) : JNum := jget (childBBoxOf leafF e) t

/-- The descent spine produced by `_chooseSubtree`, read from the root down:
each pair is an internal node together with the index of the chosen child. -/
def ChainOk (c : Cfg) : List (RNode × Nat) → RNode → RNode → Prop
  | [], target, node => target = node
  | (p, i) :: rest, target, node =>
      p = node ∧ wfB c p = true ∧
        ∃ child : RNode, p.children.get? i = some (.node child) ∧
          ChainOk c rest target child

/-- The same spine read from the target up to the root (the order in which the
split/adjust phase of `_insert` consumes it). -/
def RevChainOk (c : Cfg) : List (RNode × Nat) → RNode → RNode → Prop
  | [], old, root => old = root
  | (p, i) :: rest, old, root =>
      wfB c p = true ∧ p.children.get? i = some (.node old) ∧ RevChainOk c rest p root

/-! ## Definitions supporting the deletion no-op proof -/

mutual
/-- No child slot anywhere in this entry's subtree holds (a value equal to)
item `x` — i.e. `x` is not present in the tree. -/
def entNoItem (x : Item) : REntry → Bool
  | .item it => !decide (it = x)
  | .node (.mk cs _ _ _) => entsNoItem x cs
def entsNoItem (x : Item) : List REntry → Bool
  | [] => true
  | e :: es => entNoItem x e && entsNoItem x es
end

/-- The pending work recorded in `remove`'s stack frames: for each frame, twice
the total size of the siblings to the right of the recorded position, plus one
for the frame itself. -/
def framesWork : List REntry → List Nat → Nat
  | p :: ps, q :: qs =>
      2 * entsSize ((entChildren p).drop (q + 1)) + 1 + framesWork ps qs
  | _, _ => 0

/-- The termination measure of `remove`'s traversal loop. -/
def phiR (s : RemSt) : Nat :=
  (match s.cur with | some e => 2 * entSize e | none => 0) +
    framesWork s.path (s.pos :: s.idxs) + 1

/-- The loop invariant of `remove`'s traversal when the item is absent: the
stacks stay aligned, `parent` is the top of the path, and no entry in sight
contains the item. -/
def RemInv (x : Item) (s : RemSt) : Prop :=
  s.path.length = s.idxs.length ∧ s.par = s.path.head? ∧
    (∀ e ∈ s.path, entNoItem x e = true) ∧
    (∀ e, s.cur = some e → entNoItem x e = true)

/-- The spine recorded by `remove`'s stacks: each frame `(p, i)` says the
current entry sits at index `i` of `p`'s children, the last parent being the
root itself. -/
def SpineTo (root : RNode) : List (REntry × Nat) → REntry → Prop
  | [], e => e = REntry.node root
  | (p, i) :: rest, e => (entChildren p).get? i = some e ∧ SpineTo root rest p

/-- The structural loop invariant of `remove`'s traversal: the stacks stay
aligned, `parent` is the top of the path, and the frames trace an actual spine
of the tree from the current position up to the root. -/
def RemSpineInv (root : RNode) (s : RemSt) : Prop :=
  s.path.length = s.idxs.length ∧ s.par = s.path.head? ∧
    (match s.cur with
     | some e => SpineTo root (s.path.zip (s.pos :: s.idxs)) e
     | none => s.path = [] ∨
         ∃ p rest, s.path = p :: rest ∧ SpineTo root (rest.zip s.idxs) p)


/-! ## Lemmas for the deletion no-op (C9) -/

theorem entSize_eq (e : REntry) : entSize e = entsSize (entChildren e) + 1 := by
  cases e with
  | item it => simp only [entSize, entChildren, entsSize]
  | node n => cases n with
    | mk cs h b l => simp only [entSize, entChildren, RNode.children, nodeSize]; omega

theorem entsNoItem_mem (x : Item) {cs : List REntry} (h : entsNoItem x cs = true) :
    ∀ e ∈ cs, entNoItem x e = true := by
  induction cs with
  | nil => simp
  | cons e es ih =>
    simp only [entsNoItem, Bool.and_eq_true] at h
    intro e' he'
    rcases List.mem_cons.mp he' with rfl | hmem
    · exact h.1
    · exact ih h.2 e' hmem

theorem entNoItem_child (x : Item) {e e' : REntry} (h : entNoItem x e = true)
    (hm : e' ∈ entChildren e) : entNoItem x e' = true := by
  cases e with
  | item it => simp [entChildren] at hm
  | node n =>
    cases n with
    | mk cs hh b l =>
      exact entsNoItem_mem x (by simpa [entNoItem] using h) e'
        (by simpa [entChildren, RNode.children] using hm)

theorem isTheItem_eq_false (x : Item) {e : REntry} (h : entNoItem x e = true) :
    isTheItem x e = false := by
  cases e with
  | item it => simpa [isTheItem, entNoItem] using h
  | node n => simp [isTheItem]

theorem findIdx?_isTheItem_none (x : Item) {cs : List REntry}
    (h : ∀ e ∈ cs, entNoItem x e = true) :
    cs.findIdx? (isTheItem x) = none :=
  List.findIdx?_eq_none_iff.mpr fun e he => isTheItem_eq_false x (h e he)

theorem entsSize_drop_succ (cs : List REntry) (k : Nat) :
    entsSize (cs.drop k) = ((cs.get? k).elim 0 entSize) + entsSize (cs.drop (k + 1)) := by
  induction cs generalizing k with
  | nil => simp [entsSize]
  | cons e es ih =>
    cases k with
    | zero => simp [entsSize]
    | succ k => simpa using ih k

theorem remStep_progress (c : Cfg) (x : Item) (bbox : List JNum) (s : RemSt)
    (hinv : RemInv x s) :
    remStep c x bbox s = .inr none ∨
      ∃ s', remStep c x bbox s = .inl s' ∧ RemInv x s' ∧ phiR s' < phiR s := by
  rcases s with ⟨cur, path, idxs, pos, par, up⟩
  obtain ⟨hlen, hpar, hpath, hcur⟩ := hinv
  dsimp only at hlen hpar hpath hcur
  rcases cur with _ | n
  · rcases path with _ | ⟨p, rest⟩
    · left; rfl
    · right
      rcases idxs with _ | ⟨q0, qs⟩
      · simp at hlen
      have hpn : entNoItem x p = true := hpath p (by simp)
      have hfind : (if entLeaf p then (entChildren p).findIdx? (isTheItem x) else none) = none := by
        by_cases hl : entLeaf p
        · simp only [hl, if_true]
          exact findIdx?_isTheItem_none x fun e he => entNoItem_child x hpn he
        · simp [hl]
      have hstep : remStep c x bbox ⟨none, p :: rest, q0 :: qs, pos, par, up⟩ =
          remBody c x bbox p rest qs q0 rest.head? true := rfl
      rw [hstep]
      unfold remBody
      rw [hfind]
      simp only [Bool.not_true, Bool.false_and, Bool.if_false_left, Bool.and_false,
        Bool.false_eq_true, if_false]
      rcases rest with _ | ⟨p', rest'⟩
      · refine ⟨_, rfl, ⟨?_, rfl, by simp, by simp⟩, ?_⟩
        · simp only [List.length_cons, List.length_nil] at hlen ⊢; omega
        · simp only [phiR, framesWork, entChildren]
          omega
      · refine ⟨_, rfl, ⟨?_, rfl, ?_, ?_⟩, ?_⟩
        · simp at hlen ⊢; omega
        · intro e he; exact hpath e (List.mem_cons_of_mem _ he)
        · intro e he
          dsimp only at he
          have hp' : entNoItem x p' = true := hpath p' (by simp)
          exact entNoItem_child x hp' (List.get?_mem he)
        · have hd := entsSize_drop_succ (entChildren p') (q0 + 1)
          simp only [phiR, framesWork]
          rcases hget : (entChildren p').get? (q0 + 1) with _ | e <;>
            simp only [hget, Option.elim] at hd ⊢ <;> omega
  · have hnn : entNoItem x n = true := hcur n rfl
    have hfind : (if entLeaf n then (entChildren n).findIdx? (isTheItem x) else none) = none := by
      by_cases hl : entLeaf n
      · simp only [hl, if_true]
        exact findIdx?_isTheItem_none x fun e he => entNoItem_child x hnn he
      · simp [hl]
    have hstep : remStep c x bbox ⟨some n, path, idxs, pos, par, up⟩ =
        remBody c x bbox n path idxs pos par up := rfl
    rw [hstep]
    unfold remBody
    rw [hfind]
    by_cases hd : (!up && !(entLeaf n) && containsB c.dim (entBBox n) bbox) = true
    · rw [if_pos hd]
      right
      refine ⟨_, rfl, ⟨?_, rfl, ?_, ?_⟩, ?_⟩
      · simp [hlen]
      · intro e he
        rcases List.mem_cons.mp he with rfl | hmem
        · exact hnn
        · exact hpath e hmem
      · intro e he
        dsimp only at he
        have hh : (entChildren n).get? 0 = (entChildren n).head? := by
          cases entChildren n <;> rfl
        exact entNoItem_child x hnn (List.get?_mem (by rw [hh]; exact he))
      · have hd0 := entsSize_drop_succ (entChildren n) 0
        have hsz := entSize_eq n
        rw [List.drop_zero] at hd0
        have hh : (entChildren n).get? 0 = (entChildren n).head? := by
          cases entChildren n <;> rfl
        rw [hh] at hd0
        simp only [phiR, framesWork]
        rcases hget : (entChildren n).head? with _ | e <;>
          simp only [hget, Option.elim] at hd0 ⊢ <;> omega
    · rw [if_neg hd]
      rcases par with _ | p
      · right
        have hpe : path = [] := by
          cases path with
          | nil => rfl
          | cons a l => simp at hpar
        subst hpe
        refine ⟨_, rfl, ⟨by simpa using hlen, rfl, by simp, by simp⟩, ?_⟩
        have := entSize_pos n
        simp only [phiR, framesWork]
        omega
      · right
        have hpath' : ∃ rest, path = p :: rest := by
          cases path with
          | nil => simp at hpar
          | cons a l => simp at hpar; exact ⟨l, by rw [hpar]⟩
        obtain ⟨rest, rfl⟩ := hpath'
        refine ⟨_, rfl, ⟨by simpa using hlen, rfl, hpath, ?_⟩, ?_⟩
        · intro e he
          dsimp only at he
          have hp : entNoItem x p = true := hpath p (by simp)
          exact entNoItem_child x hp (List.get?_mem he)
        · have hdp := entsSize_drop_succ (entChildren p) (pos + 1)
          have := entSize_pos n
          simp only [phiR, framesWork]
          rcases hget : (entChildren p).get? (pos + 1) with _ | e <;>
            simp only [hget, Option.elim] at hdp ⊢ <;> omega

theorem phiR_pos (s : RemSt) : 1 ≤ phiR s := by
  rcases s with ⟨cur, path, idxs, pos, par, up⟩
  cases cur <;> simp only [phiR] <;> omega

theorem remRun_completes (c : Cfg) (x : Item) (bbox : List JNum) :
    ∀ fuel s, RemInv x s → phiR s ≤ fuel → remRun c x bbox fuel s = some none := by
  intro fuel
  induction fuel with
  | zero =>
    intro s hinv hphi
    exact absurd hphi (by have := phiR_pos s; omega)
  | succ fuel ih =>
    intro s hinv hphi
    rcases remStep_progress c x bbox s hinv with h | ⟨s', hs', hinv', hphi'⟩
    · simp [remRun, h]
    · simp only [remRun, hs']
      exact ih s' hinv' (by omega)

theorem removeS_absent (c : Cfg) (root : RNode) (x : Item)
    (h : entNoItem x (.node root) = true) :
    removeS c root (some x) = root ∧
      remRun c x x (4 * nodeSize root + 8) (remInit root) = some none := by
  have hinv : RemInv x (remInit root) := by
    refine ⟨rfl, rfl, by simp [remInit], ?_⟩
    intro e he
    rw [show e = REntry.node root from (Option.some.inj he).symm]
    exact h
  have hphi : phiR (remInit root) ≤ 4 * nodeSize root + 8 := by
    have h1 : entSize (.node root) = nodeSize root := by
      cases root with
      | mk cs hh b l => simp [entSize]
    have h2 : framesWork (List.nil (α := REntry)) (0 :: List.nil) = 0 := rfl
    simp only [phiR, remInit, h1, h2]
    omega
  have hrun := remRun_completes c x x (4 * nodeSize root + 8) (remInit root) hinv hphi
  exact ⟨by simp [removeS, hrun], hrun⟩

/-! ## Pointwise geometry -/

theorem jmin_comm (a b : JNum) : jmin a b = jmin b a := by
  cases a <;> cases b <;> simp [jmin] <;> split_ifs <;> omega

theorem jmin_assoc (a b c : JNum) : jmin (jmin a b) c = jmin a (jmin b c) := by
  cases a <;> cases b <;> cases c <;> simp [jmin] <;> split_ifs <;> omega

theorem jmax_comm (a b : JNum) : jmax a b = jmax b a := by
  cases a <;> cases b <;> simp [jmax] <;> split_ifs <;> omega

theorem jmax_assoc (a b c : JNum) : jmax (jmax a b) c = jmax a (jmax b c) := by
  cases a <;> cases b <;> cases c <;> simp [jmax] <;> split_ifs <;> omega

theorem jmin_left_comm (v x y : JNum) : jmin (jmin v x) y = jmin (jmin v y) x := by
  rw [jmin_assoc, jmin_assoc, jmin_comm x y]

theorem jmax_left_comm (v x y : JNum) : jmax (jmax v x) y = jmax (jmax v y) x := by
  rw [jmax_assoc, jmax_assoc, jmax_comm x y]

theorem jget_of_le (b : List JNum) (t : Nat) (h : b.length ≤ t) : jget b t = .nan := by
  simp [jget, List.getD_eq_getElem?_getD, List.getElem?_eq_none h]

theorem emptyBB_length (d : Nat) : (emptyBB d).length = 2 * d := by
  simp [emptyBB]; omega

theorem jget_emptyBB (d t : Nat) :
    jget (emptyBB d) t =
      if t < d then .inf else if t < 2 * d then .ninf else .nan := by
  simp only [jget, emptyBB, List.getD_eq_getElem?_getD]
  by_cases h1 : t < d
  · rw [List.getElem?_append_left (by simp; omega)]
    simp [List.getElem?_replicate, h1]
  · rw [List.getElem?_append_right (by simp; omega)]
    by_cases h2 : t < 2 * d
    · simp only [List.getElem?_replicate, List.length_replicate]
      rw [if_pos (by omega)]
      simp [h1, h2]
    · simp only [List.getElem?_replicate, List.length_replicate]
      rw [if_neg (by omega)]
      simp [h1, h2]

theorem extend_length (dim : Nat) (a b : List JNum) :
    (extend dim a b).length = max a.length (2 * dim) := by
  simp [extend]

theorem jget_map_range (n : Nat) (fn : Nat → JNum) (t : Nat) :
    jget ((List.range n).map fn) t = if t < n then fn t else .nan := by
  by_cases h : t < n
  · simp [jget, List.getD_eq_getElem?_getD, List.getElem?_map, List.getElem?_range h, h]
  · rw [jget_of_le _ _ (by simp; omega)]
    simp [h]

theorem jget_extend (dim : Nat) (a b : List JNum) (ha : a.length = 2 * dim) (t : Nat) :
    jget (extend dim a b) t =
      if t < dim then jmin (jget a t) (jget b t)
      else if t < 2 * dim then jmax (jget a t) (jget b t)
      else .nan := by
  have hm : max a.length (2 * dim) = 2 * dim := by omega
  rw [extend, hm, jget_map_range]
  by_cases h1 : t < dim
  · rw [if_pos (by omega), if_pos h1, if_pos h1]
  · by_cases h2 : t < 2 * dim
    · rw [if_pos h2]; simp [h1, h2]
    · rw [if_neg h2]; simp [h1, h2]

theorem foldl_extend_length (dim : Nat) {α : Type} (f : α → List JNum) (cs : List α)
    (b0 : List JNum) (hb0 : b0.length = 2 * dim) :
    (cs.foldl (fun bb e => extend dim bb (f e)) b0).length = 2 * dim := by
  induction cs generalizing b0 with
  | nil => exact hb0
  | cons e es ih =>
    simp only [List.foldl_cons]
    exact ih _ (by rw [extend_length]; omega)

theorem jget_foldl_extend (dim : Nat) {α : Type} (f : α → List JNum) (cs : List α)
    (b0 : List JNum) (hb0 : b0.length = 2 * dim) (t : Nat) :
    jget (cs.foldl (fun bb e => extend dim bb (f e)) b0) t =
      if t < dim then cs.foldl (fun v e => jmin v (jget (f e) t)) (jget b0 t)
      else if t < 2 * dim then cs.foldl (fun v e => jmax v (jget (f e) t)) (jget b0 t)
      else .nan := by
  induction cs generalizing b0 with
  | nil =>
    simp only [List.foldl_nil]
    by_cases h1 : t < dim
    · simp [h1]
    · by_cases h2 : t < 2 * dim
      · simp [h1, h2]
      · simp [h1, h2, jget_of_le b0 t (by omega)]
  | cons e es ih =>
    simp only [List.foldl_cons]
    rw [ih _ (by rw [extend_length]; omega)]
    by_cases h1 : t < dim
    · simp [h1, jget_extend dim b0 (f e) hb0 t]
    · by_cases h2 : t < 2 * dim
      · simp [h1, h2, jget_extend dim b0 (f e) hb0 t]
      · simp [h1, h2]

theorem list_eq_of_jget {a b : List JNum} (hl : a.length = b.length)
    (h : ∀ t, jget a t = jget b t) : a = b := by
  apply List.ext_getElem hl
  intro i h1 h2
  have := h i
  simp only [jget, List.getD_eq_getElem?_getD, List.getElem?_eq_getElem h1,
    List.getElem?_eq_getElem h2, Option.getD_some] at this
  exact this

theorem distBBox_eq_fold (dim : Nat) (l : Bool) (cs : List REntry) (k p : Nat)
    (hkp : k ≤ p) (hp : p ≤ cs.length) :
    distBBox dim l cs k p =
      ((cs.drop k).take (p - k)).foldl
        (fun bb e => extend dim bb (childBBoxOf l e)) (emptyBB dim) := by
  unfold distBBox
  suffices h : ∀ (n k : Nat) (b0 : List JNum), k + n ≤ cs.length →
      (List.range' k n).foldl
          (fun bb i => extend dim bb (childBBoxOf l (cs.getD i (.item [])))) b0 =
        ((cs.drop k).take n).foldl (fun bb e => extend dim bb (childBBoxOf l e)) b0 by
    exact h (p - k) k (emptyBB dim) (by omega)
  intro n
  induction n with
  | zero => intro k b0 _; simp
  | succ n ih =>
    intro k b0 hle
    have hk : k < cs.length := by omega
    rw [List.range'_succ, List.foldl_cons,
      List.drop_eq_getElem_cons hk, List.take_succ_cons, List.foldl_cons]
    have hgd : cs.getD k (.item []) = cs[k] := by
      rw [List.getD_eq_getElem?_getD, List.getElem?_eq_getElem hk]; rfl
    rw [hgd]
    exact ih (k + 1) _ (by omega)

/-! ## Fold algebra for box unions -/

theorem jmin_inf_right (v : JNum) : jmin v .inf = v := by cases v <;> rfl

theorem jmax_ninf_right (v : JNum) : jmax v .ninf = v := by cases v <;> rfl

theorem foldl_jmin_factor (L : List JNum) : ∀ v, L.foldl jmin v = jmin v (jminFold L) := by
  unfold jminFold
  induction L with
  | nil => intro v; simp [jmin_inf_right]
  | cons x xs ih =>
    intro v
    simp only [List.foldl_cons]
    rw [ih (jmin v x), ih (jmin .inf x)]
    have hx : jmin JNum.inf x = x := by rw [jmin_comm]; exact jmin_inf_right x
    rw [hx, jmin_assoc]

theorem foldl_jmax_factor (L : List JNum) : ∀ v, L.foldl jmax v = jmax v (jmaxFold L) := by
  unfold jmaxFold
  induction L with
  | nil => intro v; simp [jmax_ninf_right]
  | cons x xs ih =>
    intro v
    simp only [List.foldl_cons]
    rw [ih (jmax v x), ih (jmax .ninf x)]
    have hx : jmax JNum.ninf x = x := by rw [jmax_comm]; exact jmax_ninf_right x
    rw [hx, jmax_assoc]

theorem jminFold_append (A B : List JNum) :
    jminFold (A ++ B) = jmin (jminFold A) (jminFold B) := by
  unfold jminFold
  rw [List.foldl_append, foldl_jmin_factor B]
  rfl

theorem jmaxFold_append (A B : List JNum) :
    jmaxFold (A ++ B) = jmax (jmaxFold A) (jmaxFold B) := by
  unfold jmaxFold
  rw [List.foldl_append, foldl_jmax_factor B]
  rfl

theorem jminFold_perm {A B : List JNum} (h : A.Perm B) : jminFold A = jminFold B := by
  unfold jminFold
  exact @List.Perm.foldl_eq JNum JNum jmin A B ⟨fun b a1 a2 => jmin_left_comm b a1 a2⟩ h JNum.inf

theorem jmaxFold_perm {A B : List JNum} (h : A.Perm B) : jmaxFold A = jmaxFold B := by
  unfold jmaxFold
  exact @List.Perm.foldl_eq JNum JNum jmax A B ⟨fun b a1 a2 => jmax_left_comm b a1 a2⟩ h JNum.ninf

theorem jmin_num_closed {a b : JNum} (ha : isNum a = true) (hb : isNum b = true) :
    isNum (jmin a b) = true := by
  cases a <;> cases b <;> simp_all [jmin, isNum]

theorem jmax_num_closed {a b : JNum} (ha : isNum a = true) (hb : isNum b = true) :
    isNum (jmax a b) = true := by
  cases a <;> cases b <;> simp_all [jmax, isNum]

theorem foldl_jmin_num {xs : List JNum} : ∀ v, isNum v = true →
    (∀ x ∈ xs, isNum x = true) → isNum (xs.foldl jmin v) = true := by
  induction xs with
  | nil => intro v hv _; exact hv
  | cons x xs ih =>
    intro v hv h
    simp only [List.foldl_cons]
    exact ih _ (jmin_num_closed hv (h x (List.mem_cons_self x xs)))
      fun y hy => h y (List.mem_cons_of_mem _ hy)

theorem foldl_jmax_num {xs : List JNum} : ∀ v, isNum v = true →
    (∀ x ∈ xs, isNum x = true) → isNum (xs.foldl jmax v) = true := by
  induction xs with
  | nil => intro v hv _; exact hv
  | cons x xs ih =>
    intro v hv h
    simp only [List.foldl_cons]
    exact ih _ (jmax_num_closed hv (h x (List.mem_cons_self x xs)))
      fun y hy => h y (List.mem_cons_of_mem _ hy)

theorem jminFold_num {L : List JNum} (hne : L ≠ []) (h : ∀ x ∈ L, isNum x = true) :
    isNum (jminFold L) = true := by
  rcases L with _ | ⟨x, xs⟩
  · exact absurd rfl hne
  · unfold jminFold
    simp only [List.foldl_cons]
    rw [show jmin JNum.inf x = x from by rw [jmin_comm]; exact jmin_inf_right x]
    exact foldl_jmin_num x (h x (List.mem_cons_self x xs))
      fun y hy => h y (List.mem_cons_of_mem _ hy)

theorem jmaxFold_num {L : List JNum} (hne : L ≠ []) (h : ∀ x ∈ L, isNum x = true) :
    isNum (jmaxFold L) = true := by
  rcases L with _ | ⟨x, xs⟩
  · exact absurd rfl hne
  · unfold jmaxFold
    simp only [List.foldl_cons]
    rw [show jmax JNum.ninf x = x from by rw [jmax_comm]; exact jmax_ninf_right x]
    exact foldl_jmax_num x (h x (List.mem_cons_self x xs))
      fun y hy => h y (List.mem_cons_of_mem _ hy)

/-! ## calcBBox and distBBox characterization -/

theorem calcBBox_eq_fold (dim : Nat) (l : Bool) (cs : List REntry) :
    calcBBox dim l cs =
      cs.foldl (fun bb e => extend dim bb (childBBoxOf l e)) (emptyBB dim) := by
  unfold calcBBox
  rw [distBBox_eq_fold dim l cs 0 cs.length (by omega) (le_refl _)]
  simp

theorem calcBBox_length (dim : Nat) (l : Bool) (cs : List REntry) :
    (calcBBox dim l cs).length = 2 * dim := by
  rw [calcBBox_eq_fold]
  exact foldl_extend_length dim _ cs _ (emptyBB_length dim)

theorem distBBox_length (dim : Nat) (l : Bool) (cs : List REntry) (k p : Nat)
    (hkp : k ≤ p) (hp : p ≤ cs.length) :
    (distBBox dim l cs k p).length = 2 * dim := by
  rw [distBBox_eq_fold dim l cs k p hkp hp]
  exact foldl_extend_length dim _ _ _ (emptyBB_length dim)

theorem jget_calcBBox (dim : Nat) (l : Bool) (cs : List REntry) (t : Nat) :
    jget (calcBBox dim l cs) t =
      if t < dim then jminFold (cs.map (keyAt l t))
      else if t < 2 * dim then jmaxFold (cs.map (keyAt l t))
      else .nan := by
  rw [calcBBox_eq_fold, jget_foldl_extend dim _ cs _ (emptyBB_length dim) t]
  by_cases h1 : t < dim
  · rw [if_pos h1, if_pos h1, jget_emptyBB, if_pos h1]
    unfold jminFold keyAt
    rw [List.foldl_map]
  · by_cases h2 : t < 2 * dim
    · rw [if_neg h1, if_neg h1, if_pos h2, if_pos h2, jget_emptyBB, if_neg h1, if_pos h2]
      unfold jmaxFold keyAt
      rw [List.foldl_map]
    · rw [if_neg h1, if_neg h1, if_neg h2, if_neg h2]

theorem jget_distBBox (dim : Nat) (l : Bool) (cs : List REntry) (k p : Nat)
    (hkp : k ≤ p) (hp : p ≤ cs.length) (t : Nat) :
    jget (distBBox dim l cs k p) t =
      if t < dim then jminFold (((cs.drop k).take (p - k)).map (keyAt l t))
      else if t < 2 * dim then jmaxFold (((cs.drop k).take (p - k)).map (keyAt l t))
      else .nan := by
  rw [distBBox_eq_fold dim l cs k p hkp hp,
    jget_foldl_extend dim _ _ _ (emptyBB_length dim) t]
  by_cases h1 : t < dim
  · rw [if_pos h1, if_pos h1, jget_emptyBB, if_pos h1]
    unfold jminFold keyAt
    rw [List.foldl_map]
  · by_cases h2 : t < 2 * dim
    · rw [if_neg h1, if_neg h1, if_pos h2, if_pos h2, jget_emptyBB, if_neg h1, if_pos h2]
      unfold jmaxFold keyAt
      rw [List.foldl_map]
    · rw [if_neg h1, if_neg h1, if_neg h2, if_neg h2]

theorem calcBBox_perm (dim : Nat) (l : Bool) {cs1 cs2 : List REntry}
    (h : cs1.Perm cs2) : calcBBox dim l cs1 = calcBBox dim l cs2 := by
  apply list_eq_of_jget (by rw [calcBBox_length, calcBBox_length])
  intro t
  rw [jget_calcBBox, jget_calcBBox]
  by_cases h1 : t < dim
  · rw [if_pos h1, if_pos h1]
    exact jminFold_perm (h.map _)
  · by_cases h2 : t < 2 * dim
    · rw [if_neg h1, if_neg h1, if_pos h2, if_pos h2]
      exact jmaxFold_perm (h.map _)
    · rw [if_neg h1, if_neg h1, if_neg h2, if_neg h2]

theorem calcBBox_append_one (dim : Nat) (l : Bool) (cs : List REntry) (e : REntry) :
    calcBBox dim l (cs ++ [e]) = extend dim (calcBBox dim l cs) (childBBoxOf l e) := by
  rw [calcBBox_eq_fold, calcBBox_eq_fold, List.foldl_append]
  simp

/-! ## Sorting permutes children -/

theorem insSorted_perm {α : Type} (le : α → α → Bool) (x : α) (l : List α) :
    (insSorted le x l).Perm (x :: l) := by
  induction l with
  | nil => exact List.Perm.refl _
  | cons y ys ih =>
    unfold insSorted
    by_cases h : le y x
    · rw [if_pos h]
      exact (ih.cons y).trans (List.Perm.swap x y ys)
    · rw [if_neg h]

theorem stableSort_perm {α : Type} (le : α → α → Bool) (l : List α) :
    (stableSort le l).Perm l := by
  unfold stableSort
  suffices h : ∀ acc : List α, (l.foldl (fun acc x => insSorted le x acc) acc).Perm (l ++ acc) by
    simpa using h []
  induction l with
  | nil => intro acc; simp
  | cons x xs ih =>
    intro acc
    simp only [List.foldl_cons]
    refine (ih _).trans ?_
    have h1 : (insSorted le x acc).Perm (x :: acc) := insSorted_perm le x acc
    refine (List.Perm.append_left xs h1).trans ?_
    simpa using (@List.perm_middle _ x xs acc)

theorem sortByAxis_perm (leafF : Bool) (axis : Nat) (cs : List REntry) :
    (sortByAxis leafF axis cs).Perm cs := stableSort_perm _ cs

theorem allDistMargin_perm (c : Cfg) (leafF : Bool) (cs : List REntry) (m M axis : Nat) :
    ((allDistMargin c leafF cs m M axis).1).Perm cs := by
  unfold allDistMargin
  exact sortByAxis_perm leafF axis cs

theorem chooseSplitAxisChildren_perm (c : Cfg) (leafF : Bool) (m M : Nat)
    (cs : List REntry) : (chooseSplitAxisChildren c leafF m M cs).Perm cs := by
  unfold chooseSplitAxisChildren
  suffices h : ∀ axes : List Nat, (axes.foldl (fun cs a => (allDistMargin c leafF cs m M a).1) cs).Perm cs by
    exact h _
  intro axes
  induction axes generalizing cs with
  | nil => exact List.Perm.refl _
  | cons a as ih =>
    simp only [List.foldl_cons]
    exact (ih _).trans (allDistMargin_perm c leafF cs m M a)

/-! ## Well-formedness projections and finiteness -/

theorem wfB_node (c : Cfg) (cs : List REntry) (h : Nat) (b : List JNum) (l : Bool) :
    wfB c (.mk cs h b l) = true ↔
      b = calcBBox c.dim l cs ∧ cs.length ≤ c.maxEntries ∧
        (if l then h = 1 else 2 ≤ h ∧ cs.length ≠ 0) ∧ wfEntsB c h l cs = true := by
  unfold wfB
  cases l <;> simp [Bool.and_eq_true, decide_eq_true_eq] <;> tauto

theorem wfEntsB_iff (c : Cfg) (h : Nat) (l : Bool) (cs : List REntry) :
    wfEntsB c h l cs = true ↔ ∀ e ∈ cs, wfEntB c h l e = true := by
  induction cs with
  | nil => simp [wfEntsB]
  | cons e es ih =>
    simp only [wfEntsB, Bool.and_eq_true, ih, List.mem_cons]
    constructor
    · rintro ⟨h1, h2⟩ e' (rfl | hm)
      · exact h1
      · exact h2 e' hm
    · intro hh
      exact ⟨hh e (Or.inl rfl), fun e' hm => hh e' (Or.inr hm)⟩

theorem isBoxB_jget {dim : Nat} {b : List JNum} (hb : isBoxB dim b = true)
    {t : Nat} (ht : t < 2 * dim) : isNum (jget b t) = true := by
  simp only [isBoxB, Bool.and_eq_true, decide_eq_true_eq, List.all_eq_true] at hb
  obtain ⟨hlen, hall⟩ := hb
  have htl : t < b.length := by omega
  have : jget b t = b[t] := by
    simp [jget, List.getD_eq_getElem?_getD, List.getElem?_eq_getElem htl]
  rw [this]
  exact hall _ (List.getElem_mem htl)

theorem validItemB_isBoxB {dim : Nat} {it : Item} (h : validItemB dim it = true) :
    isBoxB dim it = true := by
  simp only [validItemB, Bool.and_eq_true, decide_eq_true_eq] at h
  simp only [isBoxB, Bool.and_eq_true, decide_eq_true_eq]
  exact ⟨h.1.1, h.1.2⟩

theorem isBoxB_of_jget {dim : Nat} {b : List JNum} (hlen : b.length = 2 * dim)
    (h : ∀ t, t < 2 * dim → isNum (jget b t) = true) : isBoxB dim b = true := by
  simp only [isBoxB, Bool.and_eq_true, decide_eq_true_eq, List.all_eq_true]
  refine ⟨hlen, ?_⟩
  intro x hx
  obtain ⟨i, hi, rfl⟩ := List.getElem_of_mem hx
  have := h i (by omega)
  simpa [jget, List.getD_eq_getElem?_getD, List.getElem?_eq_getElem hi] using this

theorem entSize_le_of_mem {e : REntry} {cs : List REntry} (h : e ∈ cs) :
    entSize e ≤ entsSize cs := by
  induction cs with
  | nil => simp at h
  | cons x xs ih =>
    rcases List.mem_cons.mp h with rfl | hm
    · simp only [entsSize]; omega
    · have := ih hm
      simp only [entsSize]; omega

/-- Every nonempty well-formed node has a finite box of the right arity
(the key finiteness fact: all child boxes in a well-formed tree are finite). -/
theorem wf_box_finite (c : Cfg) (n : RNode) (hwf : wfB c n = true)
    (hne : n.children.length ≠ 0) : isBoxB c.dim n.bbox = true := by
  cases n with
  | mk cs hh b l =>
    rw [wfB_node] at hwf
    obtain ⟨hb, hcnt, hshape, hents⟩ := hwf
    rw [wfEntsB_iff] at hents
    have hkeys : ∀ e ∈ cs, ∀ t, t < 2 * c.dim → isNum (keyAt l t e) = true := by
      intro e he t ht
      have hwfe := hents e he
      cases e with
      | item it =>
        cases l with
        | false => simp [wfEntB] at hwfe
        | true =>
          simp only [wfEntB, Bool.and_eq_true] at hwfe
          have : keyAt true t (.item it) = jget it t := by
            simp [keyAt, childBBoxOf, entAsBox]
          rw [this]
          exact isBoxB_jget (validItemB_isBoxB hwfe.2) ht
      | node m =>
        cases l with
        | true => simp [wfEntB] at hwfe
        | false =>
          simp only [wfEntB, Bool.and_eq_true, decide_eq_true_eq] at hwfe
          have hrec : isBoxB c.dim m.bbox = true :=
            wf_box_finite c m hwfe.2 hwfe.1.2
          have : keyAt false t (.node m) = jget m.bbox t := by
            simp [keyAt, childBBoxOf, entBBox]
          rw [this]
          exact isBoxB_jget hrec ht
    have hcs : cs ≠ [] := by
      intro hnil
      rw [show (RNode.mk cs hh b l).children = cs from rfl, hnil] at hne
      simp at hne
    rw [show (RNode.mk cs hh b l).bbox = b from rfl, hb]
    apply isBoxB_of_jget (calcBBox_length _ _ _)
    intro t ht
    rw [jget_calcBBox]
    by_cases h1 : t < c.dim
    · rw [if_pos h1]
      exact jminFold_num (by simpa using hcs) fun x hx => by
        obtain ⟨e, he, rfl⟩ := List.mem_map.mp hx
        exact hkeys e he t (by omega)
    · rw [if_neg h1, if_pos ht]
      exact jmaxFold_num (by simpa using hcs) fun x hx => by
        obtain ⟨e, he, rfl⟩ := List.mem_map.mp hx
        exact hkeys e he t ht
termination_by nodeSize n
decreasing_by
  simp_wf
  have h1 := entSize_le_of_mem he
  rw [entSize_node] at h1
  subst_vars
  rw [nodeSize_mk]
  omega

/-! ## Finiteness of the geometric quantities -/

theorem jsub_num_closed {a b : JNum} (ha : isNum a = true) (hb : isNum b = true) :
    isNum (jsub a b) = true := by
  cases a <;> cases b <;> simp_all [jsub, isNum]

theorem jadd_num_closed {a b : JNum} (ha : isNum a = true) (hb : isNum b = true) :
    isNum (jadd a b) = true := by
  cases a <;> cases b <;> simp_all [jadd, isNum]

theorem jmul_num_closed {a b : JNum} (ha : isNum a = true) (hb : isNum b = true) :
    isNum (jmul a b) = true := by
  cases a <;> cases b <;> simp_all [jmul, isNum]

theorem jlt_inf_of_num {a : JNum} (ha : isNum a = true) : jlt a .inf = true := by
  cases a <;> simp_all [jlt, isNum]

theorem bboxArea_num {dim : Nat} {b : List JNum} (hb : isBoxB dim b = true) :
    isNum (bboxArea dim b) = true := by
  unfold bboxArea
  suffices h : ∀ (L : List Nat), (∀ i ∈ L, i < dim) → ∀ v, isNum v = true →
      isNum (L.foldl (fun area i => jmul area (jsub (jget b (dim + i)) (jget b i))) v) =
        true by
    exact h (List.range dim) (by simp) _ rfl
  intro L hL
  induction L with
  | nil => intro v hv; exact hv
  | cons i is ih =>
    intro v hv
    simp only [List.foldl_cons]
    have hi : i < dim := hL i (by simp)
    refine ih (fun j hj => hL j (by simp [hj])) _
      (jmul_num_closed hv (jsub_num_closed ?_ ?_))
    · exact isBoxB_jget hb (by omega)
    · exact isBoxB_jget hb (by omega)

theorem bboxMargin_num {dim : Nat} {b : List JNum} (hb : isBoxB dim b = true) :
    isNum (bboxMargin dim b) = true := by
  unfold bboxMargin
  suffices h : ∀ (L : List Nat), (∀ i ∈ L, i < dim) → ∀ v, isNum v = true →
      isNum (L.foldl (fun m i => jadd m (jsub (jget b (dim + i)) (jget b i))) v) =
        true by
    exact h (List.range dim) (by simp) _ rfl
  intro L hL
  induction L with
  | nil => intro v hv; exact hv
  | cons i is ih =>
    intro v hv
    simp only [List.foldl_cons]
    have hi : i < dim := hL i (by simp)
    refine ih (fun j hj => hL j (by simp [hj])) _
      (jadd_num_closed hv (jsub_num_closed ?_ ?_))
    · exact isBoxB_jget hb (by omega)
    · exact isBoxB_jget hb (by omega)

theorem enlargedArea_num {dim : Nat} {a b : List JNum} (ha : isBoxB dim a = true)
    (hb : isBoxB dim b = true) : isNum (enlargedArea dim a b) = true := by
  unfold enlargedArea
  suffices h : ∀ (L : List Nat), (∀ i ∈ L, i < dim) → ∀ v, isNum v = true →
      isNum (L.foldl
        (fun area i => jmul area (jsub (jmax (jget b (dim + i)) (jget a (dim + i)))
          (jmin (jget b i) (jget a i)))) v) = true by
    exact h (List.range dim) (by simp) _ rfl
  intro L hL
  induction L with
  | nil => intro v hv; exact hv
  | cons i is ih =>
    intro v hv
    simp only [List.foldl_cons]
    have hi : i < dim := hL i (by simp)
    refine ih (fun j hj => hL j (by simp [hj])) _
      (jmul_num_closed hv (jsub_num_closed (jmax_num_closed ?_ ?_) (jmin_num_closed ?_ ?_)))
    · exact isBoxB_jget hb (by omega)
    · exact isBoxB_jget ha (by omega)
    · exact isBoxB_jget hb (by omega)
    · exact isBoxB_jget ha (by omega)

theorem intersectionArea_num {dim : Nat} {a b : List JNum} (ha : isBoxB dim a = true)
    (hb : isBoxB dim b = true) : isNum (intersectionArea dim a b) = true := by
  unfold intersectionArea
  suffices h : ∀ (left i : Nat), left + i ≤ dim → ∀ v, isNum v = true →
      isNum (intersectionAreaGo dim a b left i v) = true by
    exact h dim 0 (by omega) _ rfl
  intro left
  induction left with
  | zero => intro i _ v hv; exact hv
  | succ left ih =>
    intro i hle v hv
    unfold intersectionAreaGo
    have hi : i < dim := by omega
    have hfac : isNum (jmul v (jmax (.num 0)
        (jsub (jmax (jget b i) (jget a i)) (jmin (jget b (dim + i)) (jget a (dim + i)))))) =
        true := by
      refine jmul_num_closed hv (jmax_num_closed rfl (jsub_num_closed
        (jmax_num_closed ?_ ?_) (jmin_num_closed ?_ ?_)))
      · exact isBoxB_jget hb (by omega)
      · exact isBoxB_jget ha (by omega)
      · exact isBoxB_jget hb (by omega)
      · exact isBoxB_jget ha (by omega)
    by_cases he : jeq (jmul v (jmax (.num 0)
        (jsub (jmax (jget b i) (jget a i)) (jmin (jget b (dim + i)) (jget a (dim + i))))))
        (.num 0) = true
    · simp only [he, if_true]
      exact hfac
    · simp only [he]
      simp only [Bool.false_eq_true, if_false]
      exact ih (i + 1) (by omega) _ hfac

/-! ## The subtree-choice loop -/

theorem chooseTargetIdx_spec (c : Cfg) (bbox : List JNum) (cs : List REntry)
    (hbox : isBoxB c.dim bbox = true) (hne : cs ≠ [])
    (hch : ∀ e ∈ cs, ∃ m : RNode, e = .node m ∧ isBoxB c.dim m.bbox = true) :
    ∃ i, chooseTargetIdx c bbox cs = some i ∧ i < cs.length := by
  unfold chooseTargetIdx
  rcases cs with _ | ⟨e, rest⟩
  · exact absurd rfl hne
  obtain ⟨m, rfl, hm⟩ := hch _ (List.mem_cons_self _ _)
  have harea : isNum (bboxArea c.dim (entBBox (.node m))) = true := by
    simpa [entBBox] using bboxArea_num hm
  have henl : isNum (jsub (enlargedArea c.dim bbox (entBBox (.node m)))
      (bboxArea c.dim (entBBox (.node m)))) = true := by
    refine jsub_num_closed ?_ harea
    simpa [entBBox] using enlargedArea_num hbox hm
  -- after the first element the index is `some 0`; it then only moves within range
  have hstep : ∀ (L : List (Nat × REntry)) (st : JNum × JNum × Option Nat),
      (∃ j, st.2.2 = some j ∧ j < (REntry.node m :: rest).length) →
      (∀ p ∈ L, p.1 < (REntry.node m :: rest).length) →
      ∃ j, (L.foldl (fun (st : JNum × JNum × Option Nat) p =>
          let (mAr, mEnl, _tgt) := st
          let cb := entBBox p.2
          let area := bboxArea c.dim cb
          let enl := jsub (enlargedArea c.dim bbox cb) area
          if jlt enl mEnl then ((if jlt area mAr then area else mAr), enl, some p.1)
          else if jeq enl mEnl then
            (if jlt area mAr then (area, mEnl, some p.1) else st)
          else st) st).2.2 = some j ∧ j < (REntry.node m :: rest).length := by
    intro L
    induction L with
    | nil => intro st hst _; exact hst
    | cons p ps ih =>
      intro st hst hL
      simp only [List.foldl_cons]
      apply ih
      · rcases st with ⟨mAr, mEnl, tgt⟩
        dsimp only
        split
        · exact ⟨p.1, rfl, hL p (by simp)⟩
        · split
          · split
            · exact ⟨p.1, rfl, hL p (by simp)⟩
            · exact hst
          · exact hst
      · intro q hq; exact hL q (by simp [hq])
  rw [List.enum_cons, List.foldl_cons]
  refine hstep _ _ ?_ ?_
  · show ∃ j, (if jlt (jsub (enlargedArea c.dim bbox (entBBox (REntry.node m)))
        (bboxArea c.dim (entBBox (REntry.node m)))) JNum.inf then _ else _ : JNum × JNum × Option Nat).2.2 = some j ∧ _
    rw [if_pos (jlt_inf_of_num henl)]
    exact ⟨0, rfl, by simp⟩
  · rintro ⟨i, e⟩ hq
    have := List.mem_enumFrom hq
    simp only [List.length_cons]
    omega


theorem wf_height_pos {c : Cfg} {n : RNode} (hwf : wfB c n = true) : 1 ≤ n.height := by
  cases n with
  | mk cs hh b l =>
    rw [wfB_node] at hwf
    have := hwf.2.2.1
    cases l with
    | true => simp only [if_true] at this; simp [RNode.height]; omega
    | false => simp only [Bool.false_eq_true, if_false] at this; simp [RNode.height]; omega

theorem wf_children_nodes {c : Cfg} {cs : List REntry} {hh : Nat} {b : List JNum}
    (hwf : wfB c (.mk cs hh b false) = true) :
    ∀ e ∈ cs, ∃ m : RNode, e = .node m ∧ m.height + 1 = hh ∧
      m.children.length ≠ 0 ∧ wfB c m = true := by
  rw [wfB_node] at hwf
  have hents := (wfEntsB_iff _ _ _ _).mp hwf.2.2.2
  intro e he
  have := hents e he
  cases e with
  | item it => simp [wfEntB] at this
  | node m =>
    simp only [wfEntB, Bool.not_false, Bool.true_and, Bool.and_eq_true,
      decide_eq_true_eq] at this
    exact ⟨m, rfl, this.1.1, this.1.2, this.2⟩

theorem revChainOk_append_one (c : Cfg) : ∀ (A : List (RNode × Nat)) (p : RNode)
    (i : Nat) (old mid : RNode), wfB c p = true →
    p.children.get? i = some (.node mid) → RevChainOk c A old mid →
    RevChainOk c (A ++ [(p, i)]) old p := by
  intro A
  induction A with
  | nil =>
    intro p i old mid hwf hget hA
    cases hA
    exact ⟨hwf, hget, rfl⟩
  | cons q rest ih =>
    rcases q with ⟨qp, qi⟩
    intro p i old mid hwf hget hA
    obtain ⟨hq1, hq2, hq3⟩ := hA
    exact ⟨hq1, hq2, ih p i qp mid hwf hget hq3⟩

theorem chainOk_reverse (c : Cfg) : ∀ (spine : List (RNode × Nat)) (target node : RNode),
    ChainOk c spine target node → RevChainOk c spine.reverse target node := by
  intro spine
  induction spine with
  | nil =>
    intro target node h
    cases h
    rfl
  | cons pi rest ih =>
    rcases pi with ⟨p, i⟩
    intro target node h
    obtain ⟨rfl, hwf, child, hget, hchain⟩ := h
    simp only [List.reverse_cons]
    exact revChainOk_append_one c _ _ _ _ _ hwf hget (ih _ _ hchain)

theorem wf_leaf_height {c : Cfg} {n : RNode} (hwf : wfB c n = true)
    (hl : n.leaf = true) : n.height = 1 := by
  cases n with
  | mk cs hh b l =>
    rw [wfB_node] at hwf
    have := hwf.2.2.1
    simp only [RNode.leaf] at hl
    rw [hl] at this
    simpa [RNode.height] using this

theorem descend_spec (c : Cfg) (b : List JNum) (hb : isBoxB c.dim b = true) :
    ∀ (fuel : Nat) (node : RNode) (level depth : Nat),
      wfB c node = true → depth ≤ level → level + 1 ≤ depth + node.height →
      node.height + 1 ≤ fuel →
      ∃ spine target, descend c b fuel node level depth = some (spine, target) ∧
        ChainOk c spine target node ∧ wfB c target = true ∧
        level + target.height = depth + node.height ∧
        spine.length + depth = level := by
  intro fuel
  induction fuel with
  | zero =>
    intro node level depth hwf _ _ hfuel
    have := wf_height_pos hwf
    omega
  | succ fuel ih =>
    intro node level depth hwf hdl hlh hfuel
    by_cases hstop : (node.leaf || decide (depth = level)) = true
    · have hdeq : depth = level := by
        rcases (Bool.or_eq_true _ _).mp hstop with hl | hd
        · have := wf_leaf_height hwf hl
          omega
        · exact of_decide_eq_true hd
      refine ⟨[], node, ?_, rfl, hwf, by omega, by simpa using hdeq⟩
      unfold descend
      rw [if_pos hstop]
    · have hsplit : node.leaf = false ∧ ¬(depth = level) := by
        simp only [Bool.or_eq_true, decide_eq_true_eq, not_or, Bool.not_eq_true] at hstop
        exact hstop
      cases node with
      | mk cs hh bb l =>
        simp only [RNode.leaf] at hsplit
        obtain ⟨rfl, hne⟩ := hsplit
        have hch := wf_children_nodes hwf
        have hcsne : cs ≠ [] := by
          rw [wfB_node] at hwf
          have := hwf.2.2.1
          simp only [Bool.false_eq_true, if_false] at this
          intro hnil
          rw [hnil] at this
          simp at this
        have hboxes : ∀ e ∈ cs, ∃ m : RNode, e = .node m ∧ isBoxB c.dim m.bbox = true := by
          intro e he
          obtain ⟨m, rfl, hh1, hne1, hwfm⟩ := hch e he
          exact ⟨m, rfl, wf_box_finite c m hwfm hne1⟩
        obtain ⟨i, hidx, hilt⟩ := chooseTargetIdx_spec c b cs hb hcsne hboxes
        have hmem : cs[i] ∈ cs := List.getElem_mem (by simpa [RNode.children] using hilt)
        obtain ⟨child, hchild, hch1, hchne, hchwf⟩ := hch _ hmem
        have hih := ih child level (depth + 1) hchwf (by omega)
          (by rw [height_mk] at hlh; omega)
          (by rw [height_mk] at hfuel; omega)
        obtain ⟨spine, target, hdes, hchain, hwft, hht, hlen⟩ := hih
        refine ⟨(RNode.mk cs hh bb false, i) :: spine, target, ?_, ?_, hwft, ?_, ?_⟩
        · have hgd : cs.getD i (.item []) = .node child := by
            rw [List.getD_eq_getElem?_getD, List.getElem?_eq_getElem hilt]
            simp [← hchild]
          unfold descend
          rw [if_neg hstop]
          simp only [children_mk, hidx, hgd, hdes]
        · refine ⟨rfl, hwf, child, ?_, hchain⟩
          simp only [RNode.children] at hilt ⊢
          rw [List.get?_eq_getElem?, List.getElem?_eq_getElem hilt, ← hchild]
        · rw [height_mk]
          omega
        · simp only [List.length_cons]
          omega

/-! ## Further box algebra: idempotence, cons/append/replacement unions -/

theorem jmin_idem (a : JNum) : jmin a a = a := by
  cases a <;> simp [jmin]

theorem jmax_idem (a : JNum) : jmax a a = a := by
  cases a <;> simp [jmax]

theorem jmin_inf_left (v : JNum) : jmin .inf v = v := by cases v <;> rfl

theorem jmax_ninf_left (v : JNum) : jmax .ninf v = v := by cases v <;> rfl

theorem jminFold_cons (x : JNum) (X : List JNum) :
    jminFold (x :: X) = jmin x (jminFold X) := by
  have h1 : jminFold (x :: X) = X.foldl jmin x := by
    unfold jminFold
    simp only [List.foldl_cons]
    rw [jmin_inf_left]
  rw [h1, foldl_jmin_factor X x]

theorem jmaxFold_cons (x : JNum) (X : List JNum) :
    jmaxFold (x :: X) = jmax x (jmaxFold X) := by
  have h1 : jmaxFold (x :: X) = X.foldl jmax x := by
    unfold jmaxFold
    simp only [List.foldl_cons]
    rw [jmax_ninf_left]
  rw [h1, foldl_jmax_factor X x]

theorem extend_extend (d : Nat) (a b : List JNum) (ha : a.length = 2 * d) :
    extend d (extend d a b) b = extend d a b := by
  have hlen : (extend d a b).length = 2 * d := by rw [extend_length]; omega
  apply list_eq_of_jget (by rw [extend_length]; omega)
  intro t
  rw [jget_extend d _ b hlen t]
  by_cases h1 : t < d
  · rw [if_pos h1, jget_extend d a b ha t, if_pos h1, jmin_assoc, jmin_idem]
  · by_cases h2 : t < 2 * d
    · rw [if_neg h1, if_pos h2, jget_extend d a b ha t, if_neg h1, if_pos h2,
        jmax_assoc, jmax_idem]
    · rw [if_neg h1, if_neg h2, jget_extend d a b ha t, if_neg h1, if_neg h2]

theorem calcBBox_append (d : Nat) (l : Bool) (A B : List REntry) :
    calcBBox d l (A ++ B) = extend d (calcBBox d l A) (calcBBox d l B) := by
  apply list_eq_of_jget (by rw [calcBBox_length, extend_length, calcBBox_length]; omega)
  intro t
  rw [jget_calcBBox, jget_extend d _ _ (calcBBox_length d l A) t]
  by_cases h1 : t < d
  · rw [if_pos h1, if_pos h1, jget_calcBBox, if_pos h1, jget_calcBBox, if_pos h1,
      List.map_append, jminFold_append]
  · by_cases h2 : t < 2 * d
    · rw [if_neg h1, if_pos h2, if_neg h1, if_pos h2, jget_calcBBox, if_neg h1, if_pos h2,
        jget_calcBBox, if_neg h1, if_pos h2, List.map_append, jmaxFold_append]
    · rw [if_neg h1, if_neg h2, if_neg h1, if_neg h2]

theorem perm_set_cons_eraseIdx {A : Type} (cs : List A) (i : Nat) (e : A)
    (hi : i < cs.length) : (cs.set i e).Perm (e :: cs.eraseIdx i) := by
  rw [List.set_eq_take_cons_drop e hi, List.eraseIdx_eq_take_drop_succ]
  exact List.perm_middle

theorem perm_cons_eraseIdx {A : Type} (cs : List A) (i : Nat) (hi : i < cs.length) :
    cs.Perm (cs[i] :: cs.eraseIdx i) := by
  conv_lhs => rw [show cs = cs.take i ++ cs.drop i from (List.take_append_drop i cs).symm,
    List.drop_eq_getElem_cons hi]
  rw [List.eraseIdx_eq_take_drop_succ]
  exact List.perm_middle

theorem calcBBox_set_extend (d : Nat) (l : Bool) (cs : List REntry) (i : Nat)
    (e' : REntry) (b : List JNum) (hi : i < cs.length)
    (hlen : (childBBoxOf l cs[i]).length = 2 * d)
    (hrep : childBBoxOf l e' = extend d (childBBoxOf l cs[i]) b) :
    calcBBox d l (cs.set i e') = extend d (calcBBox d l cs) b := by
  rw [calcBBox_perm d l (perm_set_cons_eraseIdx cs i e' hi),
    calcBBox_perm d l (perm_cons_eraseIdx cs i hi)]
  apply list_eq_of_jget (by rw [calcBBox_length, extend_length, calcBBox_length]; omega)
  intro t
  by_cases h1 : t < d
  · rw [jget_calcBBox, if_pos h1, jget_extend d _ _ (calcBBox_length d l _) t, if_pos h1,
      jget_calcBBox, if_pos h1, List.map_cons, List.map_cons, jminFold_cons, jminFold_cons]
    have hk : keyAt l t e' = jmin (keyAt l t cs[i]) (jget b t) := by
      unfold keyAt
      rw [hrep, jget_extend d _ b hlen t, if_pos h1]
    rw [hk, jmin_left_comm]
  · by_cases h2 : t < 2 * d
    · rw [jget_calcBBox, if_neg h1, if_pos h2, jget_extend d _ _ (calcBBox_length d l _) t,
        if_neg h1, if_pos h2, jget_calcBBox, if_neg h1, if_pos h2,
        List.map_cons, List.map_cons, jmaxFold_cons, jmaxFold_cons]
      have hk : keyAt l t e' = jmax (keyAt l t cs[i]) (jget b t) := by
        unfold keyAt
        rw [hrep, jget_extend d _ b hlen t, if_neg h1, if_pos h2]
      rw [hk, jmax_left_comm]
    · rw [jget_calcBBox, if_neg h1, if_neg h2, jget_extend d _ _ (calcBBox_length d l _) t,
        if_neg h1, if_neg h2]

theorem calcBBox_set_append_extend (d : Nat) (l : Bool) (cs : List REntry) (i : Nat)
    (e1 e2 : REntry) (b : List JNum) (hi : i < cs.length)
    (hlen : (childBBoxOf l cs[i]).length = 2 * d)
    (hlen1 : (childBBoxOf l e1).length = 2 * d)
    (hrep : extend d (childBBoxOf l e1) (childBBoxOf l e2) =
      extend d (childBBoxOf l cs[i]) b) :
    calcBBox d l (cs.set i e1 ++ [e2]) = extend d (calcBBox d l cs) b := by
  have hp1 : (cs.set i e1 ++ [e2]).Perm (e1 :: e2 :: cs.eraseIdx i) := by
    refine ((perm_set_cons_eraseIdx cs i e1 hi).append_right [e2]).trans ?_
    simp only [List.cons_append]
    exact ((List.perm_append_singleton e2 _)).cons e1
  rw [calcBBox_perm d l hp1, calcBBox_perm d l (perm_cons_eraseIdx cs i hi)]
  apply list_eq_of_jget (by rw [calcBBox_length, extend_length, calcBBox_length]; omega)
  intro t
  by_cases h1 : t < d
  · rw [jget_calcBBox, if_pos h1, jget_extend d _ _ (calcBBox_length d l _) t, if_pos h1,
      jget_calcBBox, if_pos h1]
    simp only [List.map_cons, jminFold_cons]
    have hkk : jmin (keyAt l t e1) (keyAt l t e2) =
        jmin (keyAt l t cs[i]) (jget b t) := by
      have h := congrArg (fun bb => jget bb t) hrep
      simpa [jget_extend d _ _ hlen1 t, jget_extend d _ _ hlen t, if_pos h1, keyAt] using h
    rw [← jmin_assoc, hkk, jmin_left_comm]
  · by_cases h2 : t < 2 * d
    · rw [jget_calcBBox, if_neg h1, if_pos h2, jget_extend d _ _ (calcBBox_length d l _) t,
        if_neg h1, if_pos h2, jget_calcBBox, if_neg h1, if_pos h2]
      simp only [List.map_cons, jmaxFold_cons]
      have hkk : jmax (keyAt l t e1) (keyAt l t e2) =
          jmax (keyAt l t cs[i]) (jget b t) := by
        have h := congrArg (fun bb => jget bb t) hrep
        simpa [jget_extend d _ _ hlen1 t, jget_extend d _ _ hlen t, h1, h2, keyAt] using h
      rw [← jmax_assoc, hkk, jmax_left_comm]
    · rw [jget_calcBBox, if_neg h1, if_neg h2, jget_extend d _ _ (calcBBox_length d l _) t,
        if_neg h1, if_neg h2]

theorem isBoxB_extend {d : Nat} {a b : List JNum} (ha : isBoxB d a = true)
    (hb : isBoxB d b = true) : isBoxB d (extend d a b) = true := by
  have hal : a.length = 2 * d := by
    simp only [isBoxB, Bool.and_eq_true, decide_eq_true_eq] at ha
    exact ha.1
  apply isBoxB_of_jget (by rw [extend_length]; omega)
  intro t ht
  rw [jget_extend d a b hal t]
  by_cases h1 : t < d
  · rw [if_pos h1]
    exact jmin_num_closed (isBoxB_jget ha (by omega)) (isBoxB_jget hb (by omega))
  · rw [if_neg h1, if_pos ht]
    exact jmax_num_closed (isBoxB_jget ha ht) (isBoxB_jget hb ht)

/-! ## The split index is always found, inside the valid range -/

theorem distBBox_isBoxB (d : Nat) (leafF : Bool) (cs : List REntry) (k p : Nat)
    (hkp : k < p) (hp : p ≤ cs.length)
    (hall : ∀ e ∈ cs, isBoxB d (childBBoxOf leafF e) = true) :
    isBoxB d (distBBox d leafF cs k p) = true := by
  apply isBoxB_of_jget (distBBox_length d leafF cs k p (by omega) hp)
  intro t ht
  rw [jget_distBBox d leafF cs k p (by omega) hp t]
  have hne : ((cs.drop k).take (p - k)).map (keyAt leafF t) ≠ [] := by
    simp only [ne_eq, List.map_eq_nil, List.take_eq_nil_iff]
    push_neg
    constructor
    · omega
    · simp only [ne_eq, List.drop_eq_nil_iff]
      omega
  have hnum : ∀ x ∈ ((cs.drop k).take (p - k)).map (keyAt leafF t), isNum x = true := by
    intro x hx
    obtain ⟨e, he, rfl⟩ := List.mem_map.mp hx
    have hec : e ∈ cs := List.mem_of_mem_drop (List.mem_of_mem_take he)
    exact isBoxB_jget (hall e hec) ht
  by_cases h1 : t < d
  · rw [if_pos h1]
    exact jminFold_num hne hnum
  · rw [if_neg h1, if_pos ht]
    exact jmaxFold_num hne hnum

theorem chooseSplitIndex_some (c : Cfg) (leafF : Bool) (cs : List REntry) (m M : Nat)
    (hm : 1 ≤ m) (hmM : 2 * m ≤ M) (hM : M ≤ cs.length)
    (hall : ∀ e ∈ cs, isBoxB c.dim (childBBoxOf leafF e) = true) :
    ∃ si, chooseSplitIndex c leafF cs m M = some si ∧ m ≤ si ∧ si ≤ M - m := by
  unfold chooseSplitIndex
  have hov : isNum (intersectionArea c.dim (distBBox c.dim leafF cs 0 m)
      (distBBox c.dim leafF cs m M)) = true :=
    intersectionArea_num (distBBox_isBoxB c.dim leafF cs 0 m (by omega) (by omega) hall)
      (distBBox_isBoxB c.dim leafF cs m M (by omega) (by omega) hall)
  have hstep : ∀ (L : List Nat) (st : JNum × JNum × Option Nat),
      (∃ j, st.2.2 = some j ∧ m ≤ j ∧ j ≤ M - m) →
      (∀ q ∈ L, m ≤ q ∧ q ≤ M - m) →
      ∃ j, (L.foldl (fun (st : JNum × JNum × Option Nat) i =>
          let (mOv, mAr, idx) := st
          let b1 := distBBox c.dim leafF cs 0 i
          let b2 := distBBox c.dim leafF cs i M
          let ov := intersectionArea c.dim b1 b2
          let ar := jadd (bboxArea c.dim b1) (bboxArea c.dim b2)
          if jlt ov mOv then (ov, (if jlt ar mAr then ar else mAr), some i)
          else if jeq ov mOv && jlt ar mAr then (mOv, ar, some i)
          else (mOv, mAr, idx)) st).2.2 = some j ∧ m ≤ j ∧ j ≤ M - m := by
    intro L
    induction L with
    | nil => intro st hst _; exact hst
    | cons q qs ih =>
      intro st hst hL
      simp only [List.foldl_cons]
      apply ih
      · rcases st with ⟨mOv, mAr, idx⟩
        dsimp only
        split
        · exact ⟨q, rfl, (hL q (by simp)).1, (hL q (by simp)).2⟩
        · split
          · exact ⟨q, rfl, (hL q (by simp)).1, (hL q (by simp)).2⟩
          · exact hst
      · intro q' hq'
        exact hL q' (by simp [hq'])
  rw [show M - m + 1 - m = (M - 2 * m) + 1 from by omega, List.range'_succ, List.foldl_cons]
  refine hstep _ _ ?_ ?_
  · show ∃ j, (if jlt (intersectionArea c.dim (distBBox c.dim leafF cs 0 m)
        (distBBox c.dim leafF cs m M)) JNum.inf then _ else _ : JNum × JNum × Option Nat).2.2
        = some j ∧ m ≤ j ∧ j ≤ M - m
    rw [if_pos (jlt_inf_of_num hov)]
    exact ⟨m, rfl, by omega, by omega⟩
  · intro q hq
    have := List.mem_range'_1.mp hq
    omega

theorem wfEntsB_boxes (c : Cfg) (h : Nat) (l : Bool) (cs : List REntry)
    (hents : wfEntsB c h l cs = true) :
    ∀ e ∈ cs, isBoxB c.dim (childBBoxOf l e) = true := by
  intro e he
  have hwfe := (wfEntsB_iff c h l cs).mp hents e he
  cases e with
  | item it =>
    simp only [wfEntB, Bool.and_eq_true] at hwfe
    simp only [childBBoxOf, hwfe.1, if_true, entAsBox]
    exact validItemB_isBoxB hwfe.2
  | node m =>
    simp only [wfEntB, Bool.and_eq_true, Bool.not_eq_true', decide_eq_true_eq] at hwfe
    simp only [childBBoxOf, hwfe.1.1.1, Bool.false_eq_true, if_false, entBBox]
    exact wf_box_finite c m hwfe.2 hwfe.1.2

theorem splitNode_spec (c : Cfg) (cs : List REntry) (hh : Nat) (bb : List JNum) (l : Bool)
    (hm2 : 2 ≤ c.minEntries) (hmM : 2 * c.minEntries ≤ c.maxEntries + 1)
    (hcnt : cs.length = c.maxEntries + 1)
    (hhl : if l then hh = 1 else 2 ≤ hh)
    (hents : wfEntsB c hh l cs = true) :
    ∃ cs1 cs2, splitNode c (.mk cs hh bb l) =
        (.mk cs1 hh (calcBBox c.dim l cs1) l, .mk cs2 hh (calcBBox c.dim l cs2) l) ∧
      (cs1 ++ cs2).Perm cs ∧
      c.minEntries ≤ cs1.length ∧ cs1.length ≤ c.maxEntries - 1 ∧
      c.minEntries ≤ cs2.length ∧ cs2.length ≤ c.maxEntries - 1 ∧
      extend c.dim (calcBBox c.dim l cs1) (calcBBox c.dim l cs2) = calcBBox c.dim l cs ∧
      wfB c (.mk cs1 hh (calcBBox c.dim l cs1) l) = true ∧
      wfB c (.mk cs2 hh (calcBBox c.dim l cs2) l) = true := by
  have hperm : (chooseSplitAxisChildren c l c.minEntries (c.maxEntries + 1) cs).Perm cs :=
    chooseSplitAxisChildren_perm c l c.minEntries (c.maxEntries + 1) cs
  set sorted := chooseSplitAxisChildren c l c.minEntries (c.maxEntries + 1) cs with hsorted
  have hslen : sorted.length = c.maxEntries + 1 := by rw [hperm.length_eq, hcnt]
  have hall : ∀ e ∈ sorted, isBoxB c.dim (childBBoxOf l e) = true := fun e he =>
    wfEntsB_boxes c hh l cs hents e (hperm.subset he)
  obtain ⟨si, hsi, hsi1, hsi2⟩ := chooseSplitIndex_some c l sorted c.minEntries
    (c.maxEntries + 1) (by omega) (by omega) (by omega) hall
  have hentsS : wfEntsB c hh l sorted = true := by
    rw [wfEntsB_iff]
    intro e he
    exact (wfEntsB_iff c hh l cs).mp hents e (hperm.subset he)
  refine ⟨sorted.take si, sorted.drop si, ?_, ?_, ?_, ?_, ?_, ?_, ?_, ?_, ?_⟩
  · show splitNode c (.mk cs hh bb l) = _
    unfold splitNode
    simp only [children_mk, leaf_mk, height_mk, hcnt]
    rw [← hsorted]
    simp only [hsi]
  · rw [List.take_append_drop]
    exact hperm
  · simp only [List.length_take]
    omega
  · simp only [List.length_take]
    omega
  · simp only [List.length_drop]
    omega
  · simp only [List.length_drop]
    omega
  · rw [← calcBBox_append, List.take_append_drop]
    exact calcBBox_perm c.dim l hperm
  · rw [wfB_node]
    refine ⟨rfl, by simp only [List.length_take]; omega, ?_, ?_⟩
    · cases l with
      | true => simpa using hhl
      | false =>
        simp only [Bool.false_eq_true, if_false] at hhl ⊢
        refine ⟨hhl, ?_⟩
        simp only [List.length_take]
        omega
    · rw [wfEntsB_iff]
      intro e he
      exact (wfEntsB_iff c hh l sorted).mp hentsS e (List.mem_of_mem_take he)
  · rw [wfB_node]
    refine ⟨rfl, by simp only [List.length_drop]; omega, ?_, ?_⟩
    · cases l with
      | true => simpa using hhl
      | false =>
        simp only [Bool.false_eq_true, if_false] at hhl ⊢
        refine ⟨hhl, ?_⟩
        simp only [List.length_drop]
        omega
    · rw [wfEntsB_iff]
      intro e he
      exact (wfEntsB_iff c hh l sorted).mp hentsS e (List.mem_of_mem_drop he)

/-! ## Projections of well-formedness, and the leaf-items multiset -/

theorem wfEntB_node_iff (c : Cfg) (h : Nat) (l : Bool) (m : RNode) :
    wfEntB c h l (.node m) = true ↔
      l = false ∧ m.height + 1 = h ∧ m.children.length ≠ 0 ∧ wfB c m = true := by
  simp only [wfEntB, Bool.and_eq_true, Bool.not_eq_true', decide_eq_true_eq]
  tauto

theorem wfEntB_item_iff (c : Cfg) (h : Nat) (l : Bool) (it : Item) :
    wfEntB c h l (.item it) = true ↔ l = true ∧ validItemB c.dim it = true := by
  simp only [wfEntB, Bool.and_eq_true]

theorem wf_bbox {c : Cfg} {n : RNode} (hwf : wfB c n = true) :
    n.bbox = calcBBox c.dim n.leaf n.children := by
  cases n with
  | mk cs h b l => exact ((wfB_node c cs h b l).mp hwf).1

theorem wf_count {c : Cfg} {n : RNode} (hwf : wfB c n = true) :
    n.children.length ≤ c.maxEntries := by
  cases n with
  | mk cs h b l => exact ((wfB_node c cs h b l).mp hwf).2.1

theorem wf_heights {c : Cfg} {n : RNode} (hwf : wfB c n = true) :
    if n.leaf then n.height = 1 else 2 ≤ n.height ∧ n.children.length ≠ 0 := by
  cases n with
  | mk cs h b l =>
    have := ((wfB_node c cs h b l).mp hwf).2.2.1
    simp only [RNode.leaf, RNode.height, RNode.children]
    cases l with
    | true => simpa using this
    | false => simpa using this

theorem wf_ents {c : Cfg} {n : RNode} (hwf : wfB c n = true) :
    wfEntsB c n.height n.leaf n.children = true := by
  cases n with
  | mk cs h b l => exact ((wfB_node c cs h b l).mp hwf).2.2.2

theorem wf_of_parts {c : Cfg} {n : RNode}
    (h1 : n.bbox = calcBBox c.dim n.leaf n.children)
    (h2 : n.children.length ≤ c.maxEntries)
    (h3 : if n.leaf then n.height = 1 else 2 ≤ n.height ∧ n.children.length ≠ 0)
    (h4 : wfEntsB c n.height n.leaf n.children = true) : wfB c n = true := by
  cases n with
  | mk cs h b l =>
    rw [wfB_node]
    simp only [RNode.leaf, RNode.height, RNode.children, RNode.bbox] at h1 h2 h3 h4
    refine ⟨h1, h2, ?_, h4⟩
    cases l with
    | true => simpa using h3
    | false => simpa using h3

theorem itemsOf_mk (cs : List REntry) (h : Nat) (b : List JNum) (l : Bool) :
    itemsOf (.mk cs h b l) = itemsOfEnts cs := rfl

theorem itemsOfEnt_node (m : RNode) : itemsOfEnt (.node m) = itemsOf m := rfl

theorem itemsOfEnts_cons (e : REntry) (es : List REntry) :
    itemsOfEnts (e :: es) = itemsOfEnt e ++ itemsOfEnts es := rfl

theorem itemsOfEnts_append (A B : List REntry) :
    itemsOfEnts (A ++ B) = itemsOfEnts A ++ itemsOfEnts B := by
  induction A with
  | nil => rfl
  | cons e es ih =>
    simp only [List.cons_append, itemsOfEnts_cons, ih, List.append_assoc]

theorem itemsOfEnts_perm {A B : List REntry} (h : A.Perm B) :
    (itemsOfEnts A).Perm (itemsOfEnts B) := by
  induction h with
  | nil => exact List.Perm.refl _
  | cons x h ih =>
    simp only [itemsOfEnts_cons]
    exact ih.append_left _
  | swap x y l =>
    simp only [itemsOfEnts_cons, ← List.append_assoc]
    exact (List.perm_append_comm).append_right _
  | trans h1 h2 ih1 ih2 => exact ih1.trans ih2

theorem get?_some_lt {A : Type} {l : List A} {i : Nat} {x : A}
    (h : l.get? i = some x) : ∃ hi : i < l.length, l[i] = x := by
  rw [List.get?_eq_getElem?] at h
  exact List.getElem?_eq_some.mp h

theorem itemsOf_eq (n : RNode) : itemsOf n = itemsOfEnts n.children := by
  cases n
  rfl

/-- The bbox-adjustment walk of `_insert` preserves well-formedness: replacing
the updated child and extending each ancestor's box by the inserted box keeps
every box exact, and adds exactly the new items to the leaf multiset. -/
theorem insertUpB_spec (c : Cfg) (b : List JNum) (add : List Item) :
    ∀ (spineR : List (RNode × Nat)) (old root n : RNode),
      RevChainOk c spineR old root →
      wfB c n = true →
      n.height = old.height →
      n.children.length ≠ 0 →
      n.bbox = extend c.dim old.bbox b →
      (itemsOf n).Perm (add ++ itemsOf old) →
      wfB c (insertUpB c b spineR n) = true ∧
        (insertUpB c b spineR n).height = root.height ∧
        (itemsOf (insertUpB c b spineR n)).Perm (add ++ itemsOf root) := by
  intro spineR
  induction spineR with
  | nil =>
    intro old root n hchain hwf hh hne hbb hitems
    have hor : old = root := hchain
    subst hor
    exact ⟨hwf, hh, hitems⟩
  | cons pi rest ih =>
    rcases pi with ⟨p, i⟩
    intro old root n hchain hwf hh hne hbb hitems
    obtain ⟨hwfp, hget, hchain2⟩ := hchain
    obtain ⟨hilt, hgetE⟩ := get?_some_lt hget
    have hents := wf_ents hwfp
    have hwfe : wfEntB c p.height p.leaf (.node old) = true := by
      refine (wfEntsB_iff _ _ _ _).mp hents _ ?_
      rw [← hgetE]
      exact List.getElem_mem hilt
    rw [wfEntB_node_iff] at hwfe
    obtain ⟨hpl, hoh, hone, hwfold⟩ := hwfe
    have hcb : childBBoxOf p.leaf (p.children[i]) = old.bbox := by
      rw [hgetE]
      simp [childBBoxOf, hpl, entBBox]
    have hbox2 : calcBBox c.dim p.leaf (p.children.set i (.node n)) =
        extend c.dim (calcBBox c.dim p.leaf p.children) b := by
      apply calcBBox_set_extend c.dim p.leaf p.children i (.node n) b hilt
      · rw [hcb, wf_bbox hwfold, calcBBox_length]
      · rw [hcb]
        simp only [childBBoxOf, hpl, Bool.false_eq_true, if_false, entBBox]
        exact hbb
    have hph := wf_heights hwfp
    rw [hpl] at hph
    simp only [Bool.false_eq_true, if_false] at hph
    have hwfp2 : wfB c (.mk (p.children.set i (.node n)) p.height
        (extend c.dim p.bbox b) p.leaf) = true := by
      apply wf_of_parts
      · show extend c.dim p.bbox b = calcBBox c.dim p.leaf (p.children.set i (.node n))
        rw [hbox2, ← wf_bbox hwfp]
      · show (p.children.set i (.node n)).length ≤ c.maxEntries
        rw [List.length_set]
        exact wf_count hwfp
      · show if p.leaf then _ = 1 else 2 ≤ p.height ∧ (p.children.set i (.node n)).length ≠ 0
        rw [hpl]
        simp only [Bool.false_eq_true, if_false, List.length_set]
        exact hph
      · show wfEntsB c p.height p.leaf (p.children.set i (.node n)) = true
        rw [wfEntsB_iff]
        intro e he
        rcases List.mem_or_eq_of_mem_set he with hmem | rfl
        · exact (wfEntsB_iff _ _ _ _).mp hents e hmem
        · rw [wfEntB_node_iff]
          exact ⟨hpl, by omega, hne, hwf⟩
    have hitems2 : (itemsOf (RNode.mk (p.children.set i (.node n)) p.height
        (extend c.dim p.bbox b) p.leaf)).Perm (add ++ itemsOf p) := by
      rw [itemsOf_mk]
      have h1 : (itemsOfEnts (p.children.set i (.node n))).Perm
          (itemsOf n ++ itemsOfEnts (p.children.eraseIdx i)) := by
        refine (itemsOfEnts_perm (perm_set_cons_eraseIdx p.children i (.node n) hilt)).trans ?_
        rw [itemsOfEnts_cons, itemsOfEnt_node]
      have h2 : (itemsOf p).Perm (itemsOf old ++ itemsOfEnts (p.children.eraseIdx i)) := by
        have h3 := itemsOfEnts_perm (perm_cons_eraseIdx p.children i hilt)
        rw [hgetE, itemsOfEnts_cons, itemsOfEnt_node] at h3
        rw [itemsOf_eq]
        exact h3
      refine h1.trans ?_
      refine ((hitems.append_right _).trans ?_).trans (h2.symm.append_left add)
      rw [List.append_assoc]
    unfold insertUpB
    refine ih p root _ hchain2 hwfp2 rfl ?_ rfl hitems2
    show (p.children.set i (.node n)).length ≠ 0
    rw [List.length_set]
    omega

theorem perm_append_rotate {A : Type} (X Y Z : List A) :
    ((X ++ Y) ++ Z).Perm ((X ++ Z) ++ Y) := by
  rw [List.append_assoc, List.append_assoc]
  exact List.Perm.append_left X (List.perm_append_comm)

/-- The split-propagation walk of `_insert` restores well-formedness from a
possibly one-over-full node: splits propagate up (growing a new root if they
reach it), and the first non-overfull ancestor switches to the adjustment walk.
The result is well formed, its height is the old root's or one more, and its
leaf multiset gains exactly the added items. -/
theorem insertUpA_spec (c : Cfg) (b : List JNum) (add : List Item)
    (hm2 : 2 ≤ c.minEntries) (hmM : 2 * c.minEntries ≤ c.maxEntries + 1) :
    ∀ (spineR : List (RNode × Nat)) (old root n : RNode),
      RevChainOk c spineR old root →
      n.children.length ≤ c.maxEntries + 1 →
      calcBBox c.dim n.leaf n.children = extend c.dim n.bbox b →
      extend c.dim n.bbox b = extend c.dim old.bbox b →
      n.height = old.height →
      (if n.leaf then n.height = 1 else 2 ≤ n.height ∧ n.children.length ≠ 0) →
      n.children.length ≠ 0 →
      wfEntsB c n.height n.leaf n.children = true →
      (itemsOf n).Perm (add ++ itemsOf old) →
      wfB c (insertUpA c b spineR n) = true ∧
        ((insertUpA c b spineR n).height = root.height ∨
          (insertUpA c b spineR n).height = root.height + 1) ∧
        (itemsOf (insertUpA c b spineR n)).Perm (add ++ itemsOf root) := by
  intro spineR
  induction spineR with
  | nil =>
    intro old root n hchain hcnt hbox hbox2 hh hifl hne hents hitems
    have hor : old = root := hchain
    by_cases hov : c.maxEntries < n.children.length
    · -- the root itself splits: a fresh root one level up
      cases n with
      | mk csn hn bn ln =>
        simp only [children_mk, height_mk, bbox_mk, leaf_mk] at hcnt hbox hbox2 hh hifl hne hents hov
        obtain ⟨cs1, cs2, hsplit, hperm2, hc1a, hc1b, hc2a, hc2b, hext, hwf1, hwf2⟩ :=
          splitNode_spec c csn hn bn ln hm2 hmM (by omega)
            (by cases ln with
              | true => simpa using hifl
              | false =>
                simp only [Bool.false_eq_true, if_false] at hifl ⊢
                exact hifl.1)
            hents
        have hn1 : 1 ≤ hn := by
          cases ln with
          | true => simp only [if_true] at hifl; omega
          | false =>
            simp only [Bool.false_eq_true, if_false] at hifl
            omega
        have hres : insertUpA c b [] (RNode.mk csn hn bn ln) =
            splitRoot c (RNode.mk cs1 hn (calcBBox c.dim ln cs1) ln)
              (RNode.mk cs2 hn (calcBBox c.dim ln cs2) ln) := by
          unfold insertUpA
          rw [if_pos (by simpa [children_mk] using hov), hsplit]
        rw [hres]
        refine ⟨?_, ?_, ?_⟩
        · apply wf_of_parts
          · rfl
          · show 2 ≤ c.maxEntries
            omega
          · show 2 ≤ hn + 1 ∧ ([REntry.node (RNode.mk cs1 hn (calcBBox c.dim ln cs1) ln),
              REntry.node (RNode.mk cs2 hn (calcBBox c.dim ln cs2) ln)]).length ≠ 0
            exact ⟨by omega, by simp⟩
          · show wfEntsB c (hn + 1) false
              [REntry.node (RNode.mk cs1 hn (calcBBox c.dim ln cs1) ln),
               REntry.node (RNode.mk cs2 hn (calcBBox c.dim ln cs2) ln)] = true
            rw [wfEntsB_iff]
            intro e he
            simp only [List.mem_cons, List.mem_singleton, List.not_mem_nil, or_false] at he
            rcases he with rfl | rfl
            · rw [wfEntB_node_iff]
              refine ⟨rfl, by simp [height_mk], ?_, hwf1⟩
              simp only [children_mk]
              omega
            · rw [wfEntB_node_iff]
              refine ⟨rfl, by simp [height_mk], ?_, hwf2⟩
              simp only [children_mk]
              omega
        · right
          show hn + 1 = root.height + 1
          rw [← hor, ← hh]
        · show (itemsOfEnts [REntry.node (RNode.mk cs1 hn (calcBBox c.dim ln cs1) ln),
            .node (RNode.mk cs2 hn (calcBBox c.dim ln cs2) ln)]).Perm (add ++ itemsOf root)
          have h1 : itemsOfEnts [REntry.node (RNode.mk cs1 hn (calcBBox c.dim ln cs1) ln),
              REntry.node (RNode.mk cs2 hn (calcBBox c.dim ln cs2) ln)] =
              itemsOfEnts (cs1 ++ cs2) := by
            rw [itemsOfEnts_append]
            simp [itemsOfEnts_cons, itemsOfEnt_node, itemsOf_mk, itemsOfEnts]
          rw [h1]
          refine (itemsOfEnts_perm hperm2).trans ?_
          rw [← hor]
          exact hitems
    · have hres : insertUpA c b [] n = insertUpB c b [] (extendNodeBBox c b n) := by
        unfold insertUpA
        rw [if_neg hov]
      rw [hres]
      have hwfx : wfB c (extendNodeBBox c b n) = true := by
        apply wf_of_parts
        · show extend c.dim n.bbox b = calcBBox c.dim n.leaf n.children
          exact hbox.symm
        · show n.children.length ≤ c.maxEntries
          omega
        · exact hifl
        · exact hents
      obtain ⟨hA, hB, hC⟩ := insertUpB_spec c b add [] root root (extendNodeBBox c b n) rfl
        hwfx (by show n.height = root.height; rw [hh, hor])
        hne (by show extend c.dim n.bbox b = extend c.dim root.bbox b; rw [hbox2, hor])
        (by show (itemsOfEnts n.children).Perm (add ++ itemsOf root)
            rw [← itemsOf_eq, ← hor]
            exact hitems)
      exact ⟨hA, Or.inl hB, hC⟩
  | cons pi rest ih =>
    rcases pi with ⟨p, i⟩
    intro old root n hchain hcnt hbox hbox2 hh hifl hne hents hitems
    obtain ⟨hwfp, hget, hchain2⟩ := hchain
    obtain ⟨hilt, hgetE⟩ := get?_some_lt hget
    have hentsp := wf_ents hwfp
    have hwfe : wfEntB c p.height p.leaf (.node old) = true := by
      refine (wfEntsB_iff _ _ _ _).mp hentsp _ ?_
      rw [← hgetE]
      exact List.getElem_mem hilt
    rw [wfEntB_node_iff] at hwfe
    obtain ⟨hpl, hoh, hone, hwfold⟩ := hwfe
    have hcb : childBBoxOf p.leaf (p.children[i]) = old.bbox := by
      rw [hgetE]
      simp [childBBoxOf, hpl, entBBox]
    have hph := wf_heights hwfp
    rw [hpl] at hph
    simp only [Bool.false_eq_true, if_false] at hph
    by_cases hov : c.maxEntries < n.children.length
    · cases n with
      | mk csn hn bn ln =>
        simp only [children_mk, height_mk, bbox_mk, leaf_mk] at hcnt hbox hbox2 hh hifl hne hents hov
        obtain ⟨cs1, cs2, hsplit, hperm2, hc1a, hc1b, hc2a, hc2b, hext, hwf1, hwf2⟩ :=
          splitNode_spec c csn hn bn ln hm2 hmM (by omega)
            (by cases ln with
              | true => simpa using hifl
              | false =>
                simp only [Bool.false_eq_true, if_false] at hifl ⊢
                exact hifl.1)
            hents
        have hres : insertUpA c b ((p, i) :: rest) (RNode.mk csn hn bn ln) =
            insertUpA c b rest (RNode.mk
              ((p.children.set i (REntry.node (RNode.mk cs1 hn (calcBBox c.dim ln cs1) ln))) ++
                [REntry.node (RNode.mk cs2 hn (calcBBox c.dim ln cs2) ln)])
              p.height p.bbox p.leaf) := by
          conv_lhs => rw [insertUpA]
          rw [if_pos (by simpa [children_mk] using hov), hsplit]
        rw [hres]
        have hrep : extend c.dim
            (childBBoxOf p.leaf (REntry.node (RNode.mk cs1 hn (calcBBox c.dim ln cs1) ln)))
            (childBBoxOf p.leaf (REntry.node (RNode.mk cs2 hn (calcBBox c.dim ln cs2) ln))) =
            extend c.dim (childBBoxOf p.leaf (p.children[i])) b := by
          rw [hcb]
          simp only [childBBoxOf, hpl, Bool.false_eq_true, if_false, entBBox, bbox_mk]
          rw [hext, hbox, hbox2]
        have hbox3 : calcBBox c.dim p.leaf
            ((p.children.set i (REntry.node (RNode.mk cs1 hn (calcBBox c.dim ln cs1) ln))) ++
              [REntry.node (RNode.mk cs2 hn (calcBBox c.dim ln cs2) ln)]) =
            extend c.dim (calcBBox c.dim p.leaf p.children) b := by
          apply calcBBox_set_append_extend c.dim p.leaf p.children i _ _ b hilt
          · rw [hcb, wf_bbox hwfold, calcBBox_length]
          · simp only [childBBoxOf, hpl, Bool.false_eq_true, if_false, entBBox, bbox_mk]
            rw [calcBBox_length]
          · exact hrep
        refine ih p root _ hchain2 ?_ ?_ ?_ rfl ?_ ?_ ?_ ?_
        · show ((p.children.set i (REntry.node (RNode.mk cs1 hn (calcBBox c.dim ln cs1) ln))) ++
            [REntry.node (RNode.mk cs2 hn (calcBBox c.dim ln cs2) ln)]).length ≤ c.maxEntries + 1
          rw [List.length_append, List.length_set]
          have := wf_count hwfp
          simp only [List.length_cons, List.length_nil]
          omega
        · show calcBBox c.dim p.leaf
            ((p.children.set i (REntry.node (RNode.mk cs1 hn (calcBBox c.dim ln cs1) ln))) ++
              [REntry.node (RNode.mk cs2 hn (calcBBox c.dim ln cs2) ln)]) = extend c.dim p.bbox b
          rw [hbox3, ← wf_bbox hwfp]
        · show extend c.dim p.bbox b = extend c.dim p.bbox b
          rfl
        · show if p.leaf then p.height = 1 else 2 ≤ p.height ∧
            ((p.children.set i (REntry.node (RNode.mk cs1 hn (calcBBox c.dim ln cs1) ln))) ++
              [REntry.node (RNode.mk cs2 hn (calcBBox c.dim ln cs2) ln)]).length ≠ 0
          rw [hpl]
          simp only [Bool.false_eq_true, if_false, List.length_append, List.length_set]
          exact ⟨hph.1, by simp⟩
        · show ((p.children.set i (REntry.node (RNode.mk cs1 hn (calcBBox c.dim ln cs1) ln))) ++
            [REntry.node (RNode.mk cs2 hn (calcBBox c.dim ln cs2) ln)]).length ≠ 0
          simp
        · show wfEntsB c p.height p.leaf
            ((p.children.set i (REntry.node (RNode.mk cs1 hn (calcBBox c.dim ln cs1) ln))) ++
              [REntry.node (RNode.mk cs2 hn (calcBBox c.dim ln cs2) ln)]) = true
          rw [wfEntsB_iff]
          intro e he
          rcases List.mem_append.mp he with he | he
          · rcases List.mem_or_eq_of_mem_set he with hmem | rfl
            · exact (wfEntsB_iff _ _ _ _).mp hentsp e hmem
            · rw [wfEntB_node_iff]
              refine ⟨hpl, by simp only [height_mk]; omega, ?_, hwf1⟩
              simp only [children_mk]
              omega
          · simp only [List.mem_singleton] at he
            subst he
            rw [wfEntB_node_iff]
            refine ⟨hpl, by simp only [height_mk]; omega, ?_, hwf2⟩
            simp only [children_mk]
            omega
        · show (itemsOfEnts ((p.children.set i
            (REntry.node (RNode.mk cs1 hn (calcBBox c.dim ln cs1) ln))) ++
              [REntry.node (RNode.mk cs2 hn (calcBBox c.dim ln cs2) ln)])).Perm (add ++ itemsOf p)
          have h1 : (itemsOfEnts ((p.children.set i
              (REntry.node (RNode.mk cs1 hn (calcBBox c.dim ln cs1) ln))) ++
                [REntry.node (RNode.mk cs2 hn (calcBBox c.dim ln cs2) ln)])).Perm
              ((itemsOfEnts cs1 ++ itemsOfEnts cs2) ++
                itemsOfEnts (p.children.eraseIdx i)) := by
            rw [itemsOfEnts_append]
            have h2 : itemsOfEnts [REntry.node (RNode.mk cs2 hn (calcBBox c.dim ln cs2) ln)] =
                itemsOfEnts cs2 := by
              simp [itemsOfEnts_cons, itemsOfEnt_node, itemsOf_mk, itemsOfEnts]
            rw [h2]
            refine ((itemsOfEnts_perm
              (perm_set_cons_eraseIdx p.children i _ hilt)).append_right _).trans ?_
            rw [itemsOfEnts_cons, itemsOfEnt_node, itemsOf_mk]
            exact perm_append_rotate _ _ _
          refine h1.trans ?_
          have h3 : (itemsOfEnts cs1 ++ itemsOfEnts cs2).Perm (itemsOfEnts csn) := by
            rw [← itemsOfEnts_append]
            exact itemsOfEnts_perm hperm2
          have h4 : (itemsOf p).Perm (itemsOf old ++ itemsOfEnts (p.children.eraseIdx i)) := by
            have h5 := itemsOfEnts_perm (perm_cons_eraseIdx p.children i hilt)
            rw [hgetE, itemsOfEnts_cons, itemsOfEnt_node] at h5
            rw [itemsOf_eq]
            exact h5
          refine ((h3.append_right _).trans ?_).trans (h4.symm.append_left add)
          refine ((hitems.append_right _).trans ?_)
          rw [List.append_assoc]
    · have hres : insertUpA c b ((p, i) :: rest) n =
          insertUpB c b ((p, i) :: rest) (extendNodeBBox c b n) := by
        unfold insertUpA
        rw [if_neg hov]
      rw [hres]
      have hch3 : RevChainOk c ((p, i) :: rest) old root := ⟨hwfp, hget, hchain2⟩
      have hwfx : wfB c (extendNodeBBox c b n) = true := by
        apply wf_of_parts
        · show extend c.dim n.bbox b = calcBBox c.dim n.leaf n.children
          exact hbox.symm
        · show n.children.length ≤ c.maxEntries
          omega
        · exact hifl
        · exact hents
      obtain ⟨hA, hB, hC⟩ := insertUpB_spec c b add ((p, i) :: rest) old root
        (extendNodeBBox c b n) hch3 hwfx hh hne
        (by show extend c.dim n.bbox b = extend c.dim old.bbox b; exact hbox2)
        (by show (itemsOfEnts n.children).Perm (add ++ itemsOf old)
            rw [← itemsOf_eq]
            exact hitems)
      exact ⟨hA, Or.inl hB, hC⟩

theorem wf_height_le_size_fuel (c : Cfg) : ∀ (k : Nat) (n : RNode), nodeSize n ≤ k →
    wfB c n = true → n.height ≤ nodeSize n := by
  intro k
  induction k with
  | zero =>
    intro n hsz _
    cases n with
    | mk cs hh b l =>
      rw [nodeSize_mk] at hsz
      omega
  | succ k ih =>
    intro n hsz hwf
    cases n with
    | mk cs hh b l =>
      rw [wfB_node] at hwf
      cases l with
      | true =>
        have h1 : hh = 1 := by simpa using hwf.2.2.1
        rw [height_mk, nodeSize_mk]
        omega
      | false =>
        obtain ⟨h2, h3⟩ : 2 ≤ hh ∧ cs.length ≠ 0 := by simpa using hwf.2.2.1
        rcases cs with _ | ⟨e, rest⟩
        · simp at h3
        · have hwfe := (wfEntsB_iff _ _ _ _).mp hwf.2.2.2 e (by simp)
          cases e with
          | item it => simp [wfEntB] at hwfe
          | node m =>
            rw [wfEntB_node_iff] at hwfe
            have hsz2 : entSize (.node m) ≤ entsSize (REntry.node m :: rest) :=
              entSize_le_of_mem (by simp)
            rw [entSize_node] at hsz2
            rw [nodeSize_mk] at hsz
            have ih2 := ih m (by omega) hwfe.2.2.2
            rw [height_mk, nodeSize_mk]
            omega

theorem wf_height_le_size {c : Cfg} {n : RNode} (hwf : wfB c n = true) :
    n.height ≤ nodeSize n :=
  wf_height_le_size_fuel c (nodeSize n) n le_rfl hwf

theorem wf_leaf_of_height_one {c : Cfg} {n : RNode} (hwf : wfB c n = true)
    (h1 : n.height = 1) : n.leaf = true := by
  have := wf_heights hwf
  cases hl : n.leaf with
  | true => rfl
  | false =>
    rw [hl] at this
    simp only [Bool.false_eq_true, if_false] at this
    omega

/-- `_insert` on a well-formed tree with a compatible entry (a valid item at
leaf level, or a nonempty well-formed subtree at the level `load` computes)
keeps the tree well formed, changes the root height by at most one (upward),
and adds exactly the entry's items to the leaf multiset. -/
theorem insertDetail_spec (c : Cfg) (root : RNode) (entry : REntry) (level : Nat)
    (hm2 : 2 ≤ c.minEntries) (hmM : 2 * c.minEntries ≤ c.maxEntries + 1)
    (hwf : wfB c root = true)
    (hcompat : (∃ it, entry = .item it ∧ validItemB c.dim it = true ∧
        level + 1 = root.height) ∨
      (∃ m, entry = .node m ∧ wfB c m = true ∧ m.children.length ≠ 0 ∧
        level + m.height + 1 = root.height)) :
    wfB c (insertDetail c root entry level) = true ∧
      ((insertDetail c root entry level).height = root.height ∨
        (insertDetail c root entry level).height = root.height + 1) ∧
      (itemsOf (insertDetail c root entry level)).Perm
        (itemsOfEnt entry ++ itemsOf root) := by
  rcases hcompat with ⟨it, rfl, hv, hl⟩ | ⟨m, rfl, hwm, hmn, hl⟩
  · -- a single item at leaf level
    obtain ⟨spine, target, hdes, hchain, hwft, hht, hlen⟩ :=
      descend_spec c it (validItemB_isBoxB hv) (nodeSize root + level + 2) root level 0
        hwf (by omega) (by omega) (by have := wf_height_le_size hwf; omega)
    have hth : target.height = 1 := by omega
    have hleaf : target.leaf = true := wf_leaf_of_height_one hwft hth
    have htblen : target.bbox.length = 2 * c.dim := by
      rw [wf_bbox hwft, calcBBox_length]
    have hred : insertDetail c root (.item it) level = insertUpA c it spine.reverse
        (RNode.mk (target.children ++ [REntry.item it]) target.height
          (extend c.dim target.bbox it) target.leaf) := by
      show (match descend c it (nodeSize root + level + 2) root level 0 with
        | none => root
        | some (sp, tg) => insertUpA c it sp.reverse
            (RNode.mk (tg.children ++ [REntry.item it]) tg.height
              (extend c.dim tg.bbox it) tg.leaf)) = _
      rw [hdes]
    rw [hred]
    have hchildB : childBBoxOf target.leaf (REntry.item it) = it := by
      simp [childBBoxOf, hleaf, entAsBox]
    have hboxT : calcBBox c.dim target.leaf (target.children ++ [REntry.item it]) =
        extend c.dim (extend c.dim target.bbox it) it := by
      rw [calcBBox_append_one, hchildB, ← wf_bbox hwft,
        extend_extend c.dim target.bbox it htblen]
    refine insertUpA_spec c it (itemsOfEnt (.item it)) hm2 hmM spine.reverse target root _
      (chainOk_reverse c spine target root hchain) ?_ ?_ ?_ rfl ?_ ?_ ?_ ?_
    · show (target.children ++ [REntry.item it]).length ≤ c.maxEntries + 1
      rw [List.length_append]
      have := wf_count hwft
      simp only [List.length_cons, List.length_nil]
      omega
    · exact hboxT
    · show extend c.dim (extend c.dim target.bbox it) it = extend c.dim target.bbox it
      exact extend_extend c.dim target.bbox it htblen
    · show if target.leaf then target.height = 1 else _
      rw [hleaf]
      simpa using hth
    · show (target.children ++ [REntry.item it]).length ≠ 0
      simp
    · show wfEntsB c target.height target.leaf (target.children ++ [REntry.item it]) = true
      rw [wfEntsB_iff]
      intro e he
      rcases List.mem_append.mp he with he | he
      · exact (wfEntsB_iff _ _ _ _).mp (wf_ents hwft) e he
      · simp only [List.mem_singleton] at he
        subst he
        rw [wfEntB_item_iff]
        exact ⟨hleaf, hv⟩
    · show (itemsOfEnts (target.children ++ [REntry.item it])).Perm
        (itemsOfEnt (.item it) ++ itemsOf target)
      rw [itemsOfEnts_append, itemsOf_eq]
      have h1 : itemsOfEnts [REntry.item it] = itemsOfEnt (REntry.item it) := by
        simp [itemsOfEnts_cons, itemsOfEnts]
      rw [h1]
      exact List.perm_append_comm
  · -- a whole subtree, inserted at its matching level
    have hmh : 1 ≤ m.height := wf_height_pos hwm
    obtain ⟨spine, target, hdes, hchain, hwft, hht, hlen⟩ :=
      descend_spec c m.bbox (wf_box_finite c m hwm hmn) (nodeSize root + level + 2)
        root level 0 hwf (by omega) (by omega) (by have := wf_height_le_size hwf; omega)
    have hth : target.height = m.height + 1 := by omega
    have hleaf : target.leaf = false := by
      cases hlf : target.leaf with
      | true =>
        have := wf_leaf_height hwft hlf
        omega
      | false => rfl
    have htblen : target.bbox.length = 2 * c.dim := by
      rw [wf_bbox hwft, calcBBox_length]
    have hred : insertDetail c root (.node m) level = insertUpA c m.bbox spine.reverse
        (RNode.mk (target.children ++ [REntry.node m]) target.height
          (extend c.dim target.bbox m.bbox) target.leaf) := by
      show (match descend c m.bbox (nodeSize root + level + 2) root level 0 with
        | none => root
        | some (sp, tg) => insertUpA c m.bbox sp.reverse
            (RNode.mk (tg.children ++ [REntry.node m]) tg.height
              (extend c.dim tg.bbox m.bbox) tg.leaf)) = _
      rw [hdes]
    rw [hred]
    have hchildB : childBBoxOf target.leaf (REntry.node m) = m.bbox := by
      simp [childBBoxOf, hleaf, entBBox]
    have hboxT : calcBBox c.dim target.leaf (target.children ++ [REntry.node m]) =
        extend c.dim (extend c.dim target.bbox m.bbox) m.bbox := by
      rw [calcBBox_append_one, hchildB, ← wf_bbox hwft,
        extend_extend c.dim target.bbox m.bbox htblen]
    refine insertUpA_spec c m.bbox (itemsOfEnt (.node m)) hm2 hmM spine.reverse target root _
      (chainOk_reverse c spine target root hchain) ?_ ?_ ?_ rfl ?_ ?_ ?_ ?_
    · show (target.children ++ [REntry.node m]).length ≤ c.maxEntries + 1
      rw [List.length_append]
      have := wf_count hwft
      simp only [List.length_cons, List.length_nil]
      omega
    · exact hboxT
    · show extend c.dim (extend c.dim target.bbox m.bbox) m.bbox =
        extend c.dim target.bbox m.bbox
      exact extend_extend c.dim target.bbox m.bbox htblen
    · show if target.leaf then target.height = 1 else 2 ≤ target.height ∧
        (target.children ++ [REntry.node m]).length ≠ 0
      rw [hleaf]
      simp only [Bool.false_eq_true, if_false]
      exact ⟨by omega, by simp⟩
    · show (target.children ++ [REntry.node m]).length ≠ 0
      simp
    · show wfEntsB c target.height target.leaf (target.children ++ [REntry.node m]) = true
      rw [wfEntsB_iff]
      intro e he
      rcases List.mem_append.mp he with he | he
      · exact (wfEntsB_iff _ _ _ _).mp (wf_ents hwft) e he
      · simp only [List.mem_singleton] at he
        subst he
        rw [wfEntB_node_iff]
        exact ⟨hleaf, by omega, hmn, hwm⟩
    · show (itemsOfEnts (target.children ++ [REntry.node m])).Perm
        (itemsOfEnt (.node m) ++ itemsOf target)
      rw [itemsOfEnts_append, itemsOf_eq]
      have h1 : itemsOfEnts [REntry.node m] = itemsOfEnt (REntry.node m) := by
        simp [itemsOfEnts_cons, itemsOfEnts]
      rw [h1]
      exact List.perm_append_comm

/-- `insert(item)` on a well-formed tree with a valid item: stays well formed,
root height grows by at most one, and the item joins the leaf multiset. -/
theorem insertS_spec (c : Cfg) (root : RNode) (item : Item)
    (hm2 : 2 ≤ c.minEntries) (hmM : 2 * c.minEntries ≤ c.maxEntries + 1)
    (hwf : wfB c root = true) (hv : validItemB c.dim item = true) :
    wfB c (insertS c root item) = true ∧
      ((insertS c root item).height = root.height ∨
        (insertS c root item).height = root.height + 1) ∧
      (itemsOf (insertS c root item)).Perm (item :: itemsOf root) := by
  have h1 := insertDetail_spec c root (.item item) (root.height - 1) hm2 hmM hwf
    (Or.inl ⟨item, rfl, hv, by have := wf_height_pos hwf; omega⟩)
  exact ⟨h1.1, h1.2.1, h1.2.2⟩

/-! ## Swaps and in-place segment permutations -/

theorem aget_lt (arr : List Item) (i : Nat) (hi : i < arr.length) : aget arr i = arr[i] := by
  simp [aget, List.getD_eq_getElem?_getD, List.getElem?_eq_getElem hi]

theorem aswap_length (arr : List Item) (i j : Nat) :
    (aswap arr i j).length = arr.length := by
  simp [aswap]

theorem aswap_getElem (arr : List Item) (i j t : Nat) (hi : i < arr.length)
    (hj : j < arr.length) (ht : t < arr.length)
    (ht2 : t < (aswap arr i j).length) :
    (aswap arr i j)[t] =
      if t = j then arr[i] else if t = i then arr[j] else arr[t] := by
  simp only [aswap, aget_lt arr i hi, aget_lt arr j hj]
  by_cases h1 : t = j
  · subst h1
    rw [if_pos rfl, List.getElem_set_self]
  · rw [if_neg h1, List.getElem_set_ne (fun h => h1 h.symm)]
    by_cases h2 : t = i
    · subst h2
      rw [if_pos rfl, List.getElem_set_self]
    · rw [if_neg h2, List.getElem_set_ne (fun h => h2 h.symm)]

theorem set_cons_succ_eq (x : Item) (xs : List Item) (n : Nat) (a : Item) :
    (x :: xs).set (n + 1) a = x :: xs.set n a := rfl

theorem set_self_getElem_eq (l : List Item) (i : Nat) (hi : i < l.length) :
    l.set i l[i] = l := by
  apply List.ext_getElem (by simp)
  intro t h1 h2
  by_cases h : t = i
  · subst h
    rw [List.getElem_set_self]
  · rw [List.getElem_set_ne (fun hh => h hh.symm)]

theorem aswap_perm_lt (arr : List Item) (i j : Nat) (hij : i < j) (hj : j < arr.length) :
    (aswap arr i j).Perm arr := by
  have hi : i < arr.length := by omega
  have hjd : j - (i + 1) < (arr.drop (i + 1)).length := by
    rw [List.length_drop]
    omega
  have hdecomp_a : arr = arr.take i ++ arr[i] ::
      ((arr.drop (i + 1)).take (j - (i + 1)) ++ arr[j] :: arr.drop (j + 1)) := by
    conv_lhs => rw [← List.take_append_drop i arr, List.drop_eq_getElem_cons hi]
    congr 1
    congr 1
    conv_lhs => rw [← List.take_append_drop (j - (i + 1)) (arr.drop (i + 1))]
    congr 1
    rw [List.drop_drop, show i + 1 + (j - (i + 1)) = j from by omega,
      List.drop_eq_getElem_cons hj]
  have hdecomp_s : aswap arr i j = arr.take i ++ arr[j] ::
      ((arr.drop (i + 1)).take (j - (i + 1)) ++ arr[i] :: arr.drop (j + 1)) := by
    unfold aswap
    rw [aget_lt arr i hi, aget_lt arr j hj]
    rw [List.set_eq_take_cons_drop arr[j] hi]
    rw [List.set_append_right _ _ (by rw [List.length_take]; omega)]
    congr 1
    rw [List.length_take, Nat.min_eq_left (by omega),
      show j - i = (j - (i + 1)) + 1 from by omega, set_cons_succ_eq]
    congr 1
    rw [List.set_eq_take_cons_drop arr[i] hjd]
    congr 2
    rw [List.drop_drop]
    congr 1
    omega
  rw [hdecomp_s]
  conv_rhs => rw [hdecomp_a]
  refine List.Perm.append_left (arr.take i) ?_
  have p1 : ((arr.drop (i + 1)).take (j - (i + 1)) ++ arr[j] :: arr.drop (j + 1)).Perm
      (arr[j] :: ((arr.drop (i + 1)).take (j - (i + 1)) ++ arr.drop (j + 1))) :=
    List.perm_middle
  have p2 : ((arr.drop (i + 1)).take (j - (i + 1)) ++ arr[i] :: arr.drop (j + 1)).Perm
      (arr[i] :: ((arr.drop (i + 1)).take (j - (i + 1)) ++ arr.drop (j + 1))) :=
    List.perm_middle
  refine ((p2.cons arr[j]).trans ?_).trans ((p1.cons arr[i]).symm)
  exact List.Perm.swap arr[i] arr[j] _

theorem aswap_perm (arr : List Item) (i j : Nat) (hi : i < arr.length)
    (hj : j < arr.length) : (aswap arr i j).Perm arr := by
  rcases Nat.lt_trichotomy i j with hlt | rfl | hgt
  · exact aswap_perm_lt arr i j hlt hj
  · show ((arr.set i (aget arr i)).set i (aget arr i)).Perm arr
    rw [aget_lt arr i hi, set_self_getElem_eq arr i hi, set_self_getElem_eq arr i hi]
  · show ((arr.set i (aget arr j)).set j (aget arr i)).Perm arr
    rw [List.set_comm _ _ _ (show i ≠ j from by omega)]
    exact aswap_perm_lt arr j i hgt hi

theorem segPerm_refl (l r : Nat) (a : List Item) : SegPerm l r a a :=
  ⟨rfl, rfl, rfl, List.Perm.refl a⟩

theorem segPerm_trans {l r : Nat} {a b c2 : List Item} (h1 : SegPerm l r a b)
    (h2 : SegPerm l r b c2) : SegPerm l r a c2 :=
  ⟨h2.1.trans h1.1, h2.2.1.trans h1.2.1, h2.2.2.1.trans h1.2.2.1, h2.2.2.2.trans h1.2.2.2⟩

theorem segPerm_widen {l1 r1 l2 r2 : Nat} {a b : List Item} (hl : l1 ≤ l2) (hr : r2 ≤ r1)
    (h : SegPerm l2 r2 a b) : SegPerm l1 r1 a b := by
  obtain ⟨hlen, htake, hdrop, hperm⟩ := h
  refine ⟨hlen, ?_, ?_, hperm⟩
  · have := congrArg (fun t => List.take l1 t) htake
    simpa [List.take_take, Nat.min_eq_left hl] using this
  · have := congrArg (fun t => List.drop (r1 - r2) t) hdrop
    simpa [List.drop_drop, show r2 + 1 + (r1 - r2) = r1 + 1 from by omega] using this

theorem aswap_segPerm {arr : List Item} {l r i j : Nat} (hli : l ≤ i) (hir : i ≤ r)
    (hlj : l ≤ j) (hjr : j ≤ r) (hi : i < arr.length) (hj : j < arr.length) :
    SegPerm l r arr (aswap arr i j) := by
  refine ⟨aswap_length arr i j, ?_, ?_, aswap_perm arr i j hi hj⟩
  · apply List.ext_getElem
    · rw [List.length_take, List.length_take, aswap_length]
    · intro t h1 h2
      rw [List.getElem_take, List.getElem_take]
      have ht : t < arr.length := by
        rw [List.length_take] at h2
        omega
      rw [aswap_getElem arr i j t hi hj ht (by rw [aswap_length]; exact ht)]
      have htl : t < l := by
        rw [List.length_take, aswap_length] at h1
        omega
      rw [if_neg (by omega), if_neg (by omega)]
  · apply List.ext_getElem
    · rw [List.length_drop, List.length_drop, aswap_length]
    · intro t h1 h2
      rw [List.getElem_drop, List.getElem_drop]
      have ht : r + 1 + t < arr.length := by
        rw [List.length_drop] at h2
        omega
      rw [aswap_getElem arr i j (r + 1 + t) hi hj ht (by rw [aswap_length]; exact ht)]
      rw [if_neg (by omega), if_neg (by omega)]

theorem segPerm_seg {l r : Nat} {a b : List Item} (h : SegPerm l r a b)
    (hlr : l ≤ r) (hr : r < a.length) : (seg b l r).Perm (seg a l r) := by
  obtain ⟨hlen, htake, hdrop, hperm⟩ := h
  have hsplit : ∀ x : List Item, x.length = a.length →
      x = x.take l ++ (seg x l r ++ x.drop (r + 1)) := by
    intro x hx
    rw [seg]
    conv_lhs => rw [← List.take_append_drop l x]
    congr 1
    conv_lhs => rw [← List.take_append_drop (r + 1 - l) (x.drop l)]
    congr 1
    rw [List.drop_drop]
    congr 1
    omega
  have h1 := hsplit a rfl
  have h2 := hsplit b hlen
  rw [htake, hdrop] at h2
  have h3 : (a.take l ++ (seg b l r ++ a.drop (r + 1))).Perm
      (a.take l ++ (seg a l r ++ a.drop (r + 1))) := by
    rw [← h2, ← h1]
    exact hperm
  have h4 := (List.perm_append_left_iff (a.take l)).mp h3
  exact (List.perm_append_right_iff (a.drop (r + 1))).mp h4

theorem segPerm_getElem_outside {l r : Nat} {a b : List Item} (h : SegPerm l r a b)
    {t : Nat} (ht : t < a.length) (hout : t < l ∨ r < t)
    (htb : t < b.length) : b[t] = a[t] := by
  obtain ⟨hlen, htake, hdrop, _⟩ := h
  rcases hout with hlt | hgt
  · have := congrArg (fun x => x.getD t ([] : Item)) htake
    simpa [List.getD_eq_getElem?_getD, List.getElem?_take, hlt,
      List.getElem?_eq_getElem ht, List.getElem?_eq_getElem (show t < b.length from by omega)]
      using this
  · have := congrArg (fun x => x.getD (t - (r + 1)) ([] : Item)) hdrop
    have hb : t < b.length := by omega
    simpa [List.getD_eq_getElem?_getD, List.getElem?_drop,
      show r + 1 + (t - (r + 1)) = t from by omega,
      List.getElem?_eq_getElem ht, List.getElem?_eq_getElem hb] using this

/-! ## Scans of the partition loop -/

theorem isNum_exists {v : JNum} (h : isNum v = true) : ∃ q : ℤ, v = .num q := by
  cases v with
  | num q => exact ⟨q, rfl⟩
  | inf => simp [isNum] at h
  | ninf => simp [isNum] at h
  | nan => simp [isNum] at h

theorem scan_neg_eq (axis : Nat) {x t : Item} (hx : isNum (jget x axis) = true)
    (ht : isNum (jget t axis) = true) :
    jnegB (cmpAxis axis x t) = jlt (jget x axis) (jget t axis) := by
  obtain ⟨a, ha⟩ := isNum_exists hx
  obtain ⟨b, hb⟩ := isNum_exists ht
  rw [cmpAxis, ha, hb]
  show jlt (.num (a - b)) (.num 0) = jlt (.num a) (.num b)
  simp only [jlt, decide_eq_decide]
  omega

theorem scan_pos_eq (axis : Nat) {x t : Item} (hx : isNum (jget x axis) = true)
    (ht : isNum (jget t axis) = true) :
    jposB (cmpAxis axis x t) = jlt (jget t axis) (jget x axis) := by
  obtain ⟨a, ha⟩ := isNum_exists hx
  obtain ⟨b, hb⟩ := isNum_exists ht
  rw [cmpAxis, ha, hb]
  show jlt (.num 0) (.num (a - b)) = jlt (.num b) (.num a)
  simp only [jlt, decide_eq_decide]
  omega

theorem scan_zero_eq (axis : Nat) {x t : Item} (hx : isNum (jget x axis) = true)
    (ht : isNum (jget t axis) = true) :
    jzeroB (cmpAxis axis x t) = jeq (jget x axis) (jget t axis) := by
  obtain ⟨a, ha⟩ := isNum_exists hx
  obtain ⟨b, hb⟩ := isNum_exists ht
  rw [cmpAxis, ha, hb]
  show jeq (.num (a - b)) (.num 0) = jeq (.num a) (.num b)
  simp only [jeq, decide_eq_decide]
  omega

theorem jle_of_not_jlt {a b : JNum} (ha : isNum a = true) (hb : isNum b = true)
    (h : jlt a b = false) : jle b a = true := by
  obtain ⟨x, rfl⟩ := isNum_exists ha
  obtain ⟨y, rfl⟩ := isNum_exists hb
  simp only [jlt, decide_eq_false_iff_not, not_lt] at h
  simpa [jle] using h

theorem jle_of_jlt {a b : JNum} (h : jlt a b = true) : jle a b = true := by
  cases a <;> cases b <;> simp_all [jlt, jle] <;> omega

theorem jle_refl_num {a : JNum} (ha : isNum a = true) : jle a a = true := by
  obtain ⟨x, rfl⟩ := isNum_exists ha
  simp [jle]

theorem jle_trans_num {a b c2 : JNum} (h1 : jle a b = true) (h2 : jle b c2 = true)
    (ha : isNum a = true) (hb : isNum b = true) (hc : isNum c2 = true) :
    jle a c2 = true := by
  obtain ⟨x, rfl⟩ := isNum_exists ha
  obtain ⟨y, rfl⟩ := isNum_exists hb
  obtain ⟨z, rfl⟩ := isNum_exists hc
  simp only [jle, decide_eq_true_eq] at h1 h2 ⊢
  omega

theorem scanUp_spec (axis : Nat) (t : Item) (arr : List Item) :
    ∀ (fuel start bound : Nat), start ≤ bound → bound - start < fuel →
      jnegB (cmpAxis axis (aget arr bound) t) = false →
      start ≤ scanUp axis t arr fuel start ∧ scanUp axis t arr fuel start ≤ bound ∧
        jnegB (cmpAxis axis (aget arr (scanUp axis t arr fuel start)) t) = false ∧
        (∀ x, start ≤ x → x < scanUp axis t arr fuel start →
          jnegB (cmpAxis axis (aget arr x) t) = true) := by
  intro fuel
  induction fuel with
  | zero =>
    intro start bound h1 h2 _
    omega
  | succ fuel ih =>
    intro start bound h1 h2 hbound
    unfold scanUp
    by_cases hc : jnegB (cmpAxis axis (aget arr start) t) = true
    · rw [if_pos hc]
      have hsb : start ≠ bound := by
        intro h
        rw [h] at hc
        rw [hbound] at hc
        exact absurd hc (by simp)
      obtain ⟨g1, g2, g3, g4⟩ := ih (start + 1) bound (by omega) (by omega) hbound
      refine ⟨by omega, g2, g3, ?_⟩
      intro x hx1 hx2
      rcases Nat.eq_or_lt_of_le hx1 with rfl | hlt
      · exact hc
      · exact g4 x (by omega) hx2
    · rw [if_neg hc]
      exact ⟨le_rfl, h1, by simpa using hc, fun x hx1 hx2 => absurd hx2 (by omega)⟩

theorem scanDown_spec (axis : Nat) (t : Item) (arr : List Item) :
    ∀ (fuel start bound : Nat), bound ≤ start → start - bound < fuel →
      jposB (cmpAxis axis (aget arr bound) t) = false →
      scanDown axis t arr fuel start ≤ start ∧ bound ≤ scanDown axis t arr fuel start ∧
        jposB (cmpAxis axis (aget arr (scanDown axis t arr fuel start)) t) = false ∧
        (∀ x, scanDown axis t arr fuel start < x → x ≤ start →
          jposB (cmpAxis axis (aget arr x) t) = true) := by
  intro fuel
  induction fuel with
  | zero =>
    intro start bound h1 h2 _
    omega
  | succ fuel ih =>
    intro start bound h1 h2 hbound
    unfold scanDown
    by_cases hc : jposB (cmpAxis axis (aget arr start) t) = true
    · rw [if_pos hc]
      have hsb : start ≠ bound := by
        intro h
        rw [h] at hc
        rw [hbound] at hc
        exact absurd hc (by simp)
      obtain ⟨g1, g2, g3, g4⟩ := ih (start - 1) bound (by omega) (by omega) hbound
      refine ⟨by omega, g2, g3, ?_⟩
      intro x hx1 hx2
      rcases Nat.eq_or_lt_of_le hx2 with rfl | hlt
      · exact hc
      · exact g4 x hx1 (by omega)
    · rw [if_neg hc]
      exact ⟨le_rfl, h1, by simpa using hc, fun x hx1 hx2 => absurd hx1 (by omega)⟩

theorem aget_aswap (arr : List Item) (i j x : Nat) (hi : i < arr.length)
    (hj : j < arr.length) :
    aget (aswap arr i j) x =
      if x = j then aget arr i else if x = i then aget arr j else aget arr x := by
  by_cases hx : x < arr.length
  · rw [aget_lt _ _ (by rw [aswap_length]; exact hx),
      aswap_getElem arr i j x hi hj hx (by rw [aswap_length]; exact hx)]
    by_cases h1 : x = j
    · subst h1
      rw [if_pos rfl, if_pos rfl, aget_lt _ _ hi]
    · rw [if_neg h1, if_neg h1]
      by_cases h2 : x = i
      · subst h2
        rw [if_pos rfl, if_pos rfl, aget_lt _ _ hj]
      · rw [if_neg h2, if_neg h2, aget_lt _ _ hx]
  · have hxa : aget (aswap arr i j) x = [] := by
      unfold aget
      rw [List.getD_eq_getElem?_getD, List.getElem?_eq_none (by rw [aswap_length]; omega)]
      rfl
    rw [hxa, if_neg (by omega), if_neg (by omega)]
    unfold aget
    rw [List.getD_eq_getElem?_getD, List.getElem?_eq_none (by omega)]
    rfl

theorem segPerm_aget_outside {l r : Nat} {a b : List Item} (h : SegPerm l r a b)
    {t : Nat} (hout : t < l ∨ r < t) : aget b t = aget a t := by
  by_cases ht : t < a.length
  · rw [aget_lt _ _ (by rw [h.1]; exact ht), aget_lt _ _ ht]
    exact segPerm_getElem_outside h ht hout (by rw [h.1]; exact ht)
  · have ha : a.getD t ([] : Item) = [] := by
      rw [List.getD_eq_getElem?_getD, List.getElem?_eq_none (show a.length ≤ t by omega)]
      rfl
    have hb : b.getD t ([] : Item) = [] := by
      rw [List.getD_eq_getElem?_getD,
        List.getElem?_eq_none (show b.length ≤ t from by rw [h.1]; omega)]
      rfl
    unfold aget
    rw [ha, hb]

/-- Loop invariant of the `while (i < j)` partition of `select`, entered after
the first iteration: positions strictly before `i` hold keys at most the
pivot's, strictly after `j` at least the pivot's, `arr[i]` is at least and
`arr[j]` at most the pivot, and the walls `arr[left]`, `arr[right]` are no
longer touched.  On exit the segment is partitioned at the final `j`. -/
theorem partLoop_inv (axis : Nat) (t : Item) (left right : Nat)
    (htk : isNum (jget t axis) = true) :
    ∀ (fuel : Nat) (arr : List Item) (i j : Nat),
      right < arr.length → j - i ≤ fuel →
      left < i → i ≤ right → left ≤ j → j < right →
      (∀ x, left ≤ x → x ≤ right → isNum (jget (aget arr x) axis) = true) →
      jle (jget t axis) (jget (aget arr i) axis) = true →
      jle (jget (aget arr j) axis) (jget t axis) = true →
      (∀ x, left ≤ x → x < i → jle (jget (aget arr x) axis) (jget t axis) = true) →
      (∀ x, j < x → x ≤ right → jle (jget t axis) (jget (aget arr x) axis) = true) →
      SegPerm left right arr (partLoop axis t fuel arr i j).1 ∧
      aget (partLoop axis t fuel arr i j).1 left = aget arr left ∧
      aget (partLoop axis t fuel arr i j).1 right = aget arr right ∧
      left ≤ (partLoop axis t fuel arr i j).2.2 ∧
      (partLoop axis t fuel arr i j).2.2 < right ∧
      (∀ x, left ≤ x → x ≤ (partLoop axis t fuel arr i j).2.2 →
        jle (jget (aget (partLoop axis t fuel arr i j).1 x) axis) (jget t axis) = true) ∧
      (∀ x, (partLoop axis t fuel arr i j).2.2 < x → x ≤ right →
        jle (jget t axis) (jget (aget (partLoop axis t fuel arr i j).1 x) axis) = true) ∧
      (∀ x, left ≤ x → x ≤ right →
        isNum (jget (aget (partLoop axis t fuel arr i j).1 x) axis) = true) := by
  intro fuel
  induction fuel with
  | zero =>
    intro arr i j hlen hfuel hli hir hlj hjr hnum h1 h2 h3 h4
    have hij : j ≤ i := by omega
    show SegPerm left right arr arr ∧ aget arr left = aget arr left ∧
      aget arr right = aget arr right ∧ left ≤ j ∧ j < right ∧
      (∀ x, left ≤ x → x ≤ j → jle (jget (aget arr x) axis) (jget t axis) = true) ∧
      (∀ x, j < x → x ≤ right → jle (jget t axis) (jget (aget arr x) axis) = true) ∧
      (∀ x, left ≤ x → x ≤ right → isNum (jget (aget arr x) axis) = true)
    refine ⟨segPerm_refl left right arr, rfl, rfl, hlj, hjr, ?_, h4, hnum⟩
    intro x hx1 hx2
    rcases Nat.lt_or_ge x i with hlt | hge
    · exact h3 x hx1 hlt
    · have hxe : x = j := by omega
      rw [hxe]
      exact h2
  | succ fuel ih =>
    intro arr i j hlen hfuel hli hir hlj hjr hnum h1 h2 h3 h4
    unfold partLoop
    by_cases hij : i < j
    · rw [if_pos hij]
      have hi : i < arr.length := by omega
      have hj : j < arr.length := by omega
      have hswlen : (aswap arr i j).length = arr.length := aswap_length arr i j
      have hget : ∀ x, aget (aswap arr i j) x =
          if x = j then aget arr i else if x = i then aget arr j else aget arr x :=
        fun x => aget_aswap arr i j x hi hj
      have hnum1 : ∀ x, left ≤ x → x ≤ right →
          isNum (jget (aget (aswap arr i j) x) axis) = true := by
        intro x hx1 hx2
        rw [hget x]
        by_cases e1 : x = j
        · rw [if_pos e1]
          exact hnum i (by omega) (by omega)
        · rw [if_neg e1]
          by_cases e2 : x = i
          · rw [if_pos e2]
            exact hnum j (by omega) (by omega)
          · rw [if_neg e2]
            exact hnum x hx1 hx2
      -- after the swap the sentinels for the scans are in place
      have hsw_i : jle (jget (aget (aswap arr i j) i) axis) (jget t axis) = true := by
        rw [hget i, if_neg (by omega), if_pos rfl]
        exact h2
      have hsw_j : jle (jget t axis) (jget (aget (aswap arr i j) j) axis) = true := by
        rw [hget j, if_pos rfl]
        exact h1
      have hbound_up : jnegB (cmpAxis axis (aget (aswap arr i j) j) t) = false := by
        rw [scan_neg_eq axis (hnum1 j (by omega) (by omega)) htk]
        obtain ⟨a, ha⟩ := isNum_exists (hnum1 j (by omega) (by omega))
        obtain ⟨b, hb⟩ := isNum_exists htk
        rw [ha, hb] at hsw_j ⊢
        simp only [jle, decide_eq_true_eq] at hsw_j
        simp only [jlt, decide_eq_false_iff_not]
        omega
      have hbound_down : jposB (cmpAxis axis (aget (aswap arr i j) i) t) = false := by
        rw [scan_pos_eq axis (hnum1 i (by omega) (by omega)) htk]
        obtain ⟨a, ha⟩ := isNum_exists (hnum1 i (by omega) (by omega))
        obtain ⟨b, hb⟩ := isNum_exists htk
        rw [ha, hb] at hsw_i ⊢
        simp only [jle, decide_eq_true_eq] at hsw_i
        simp only [jlt, decide_eq_false_iff_not]
        omega
      obtain ⟨u1, u2, u3, u4⟩ := scanUp_spec axis t (aswap arr i j)
        ((aswap arr i j).length + 2) (i + 1) j (by omega) (by omega) hbound_up
      obtain ⟨d1, d2, d3, d4⟩ := scanDown_spec axis t (aswap arr i j)
        ((aswap arr i j).length + 2) (j - 1) i (by omega) (by omega) hbound_down
      set i1 := scanUp axis t (aswap arr i j) ((aswap arr i j).length + 2) (i + 1) with hi1
      set j1 := scanDown axis t (aswap arr i j) ((aswap arr i j).length + 2) (j - 1) with hj1
      -- new head invariants
      have g1 : jle (jget t axis) (jget (aget (aswap arr i j) i1) axis) = true := by
        refine jle_of_not_jlt (hnum1 i1 (by omega) (by omega)) htk ?_
        rw [← scan_neg_eq axis (hnum1 i1 (by omega) (by omega)) htk]
        exact u3
      have g2 : jle (jget (aget (aswap arr i j) j1) axis) (jget t axis) = true := by
        refine jle_of_not_jlt htk (hnum1 j1 (by omega) (by omega)) ?_
        rw [← scan_pos_eq axis (hnum1 j1 (by omega) (by omega)) htk]
        exact d3
      have g3 : ∀ x, left ≤ x → x < i1 →
          jle (jget (aget (aswap arr i j) x) axis) (jget t axis) = true := by
        intro x hx1 hx2
        rcases Nat.lt_or_ge x i with hlt | hge
        · rw [hget x, if_neg (by omega), if_neg (by omega)]
          exact h3 x hx1 hlt
        · rcases Nat.eq_or_lt_of_le hge with rfl | hgt
          · exact hsw_i
          · refine jle_of_jlt ?_
            rw [← scan_neg_eq axis (hnum1 x (by omega) (by omega)) htk]
            exact u4 x (by omega) hx2
      have g4 : ∀ x, j1 < x → x ≤ right →
          jle (jget t axis) (jget (aget (aswap arr i j) x) axis) = true := by
        intro x hx1 hx2
        rcases Nat.lt_or_ge j x with hgt | hle
        · rw [hget x, if_neg (by omega), if_neg (by omega)]
          exact h4 x hgt hx2
        · rcases Nat.eq_or_lt_of_le hle with rfl | hlt
          · exact hsw_j
          · refine jle_of_jlt ?_
            rw [← scan_pos_eq axis (hnum1 x (by omega) (by omega)) htk]
            exact d4 x hx1 (by omega)
      obtain ⟨r1, r2, r3, r4, r5, r6, r7, r8⟩ := ih (aswap arr i j) i1 j1
        (by omega) (by omega) (by omega) (by omega) (by omega) (by omega)
        hnum1 g1 g2 g3 g4
      have hsp : SegPerm left right arr (aswap arr i j) :=
        aswap_segPerm (by omega) (by omega) (by omega) (by omega) hi hj
      refine ⟨segPerm_trans hsp r1, ?_, ?_, r4, r5, r6, r7, r8⟩
      · rw [r2, hget left, if_neg (by omega), if_neg (by omega)]
      · rw [r3, hget right, if_neg (by omega), if_neg (by omega)]
    · rw [if_neg hij]
      have hij2 : j ≤ i := by omega
      show SegPerm left right arr arr ∧ aget arr left = aget arr left ∧
        aget arr right = aget arr right ∧ left ≤ j ∧ j < right ∧
        (∀ x, left ≤ x → x ≤ j → jle (jget (aget arr x) axis) (jget t axis) = true) ∧
        (∀ x, j < x → x ≤ right → jle (jget t axis) (jget (aget arr x) axis) = true) ∧
        (∀ x, left ≤ x → x ≤ right → isNum (jget (aget arr x) axis) = true)
      refine ⟨segPerm_refl left right arr, rfl, rfl, hlj, hjr, ?_, h4, hnum⟩
      intro x hx1 hx2
      rcases Nat.lt_or_ge x i with hlt | hge
      · exact h3 x hx1 hlt
      · have hxe : x = j := by omega
        rw [hxe]
        exact h2

theorem jeq_eq_num {a b : JNum} (ha : isNum a = true) (hb : isNum b = true)
    (h : jeq a b = true) : a = b := by
  obtain ⟨x, rfl⟩ := isNum_exists ha
  obtain ⟨y, rfl⟩ := isNum_exists hb
  simpa [jeq] using h

theorem jeq_ne_num {a b : JNum} (ha : isNum a = true) (hb : isNum b = true)
    (h : jeq a b = false) : a ≠ b := by
  obtain ⟨x, rfl⟩ := isNum_exists ha
  obtain ⟨y, rfl⟩ := isNum_exists hb
  simp only [jeq, decide_eq_false_iff_not] at h
  simpa using h

theorem aswap_keys_num (axis : Nat) {arr : List Item} {left right i j : Nat}
    (hi : i < arr.length) (hj : j < arr.length)
    (hli : left ≤ i) (hir : i ≤ right) (hlj : left ≤ j) (hjr : j ≤ right)
    (hnum : ∀ x, left ≤ x → x ≤ right → isNum (jget (aget arr x) axis) = true) :
    ∀ x, left ≤ x → x ≤ right → isNum (jget (aget (aswap arr i j) x) axis) = true := by
  intro x hx1 hx2
  rw [aget_aswap arr i j x hi hj]
  by_cases e1 : x = j
  · rw [if_pos e1]
    exact hnum i hli hir
  · rw [if_neg e1]
    by_cases e2 : x = i
    · rw [if_pos e2]
      exact hnum j hlj hjr
    · rw [if_neg e2]
      exact hnum x hx1 hx2

/-- The partition loop of one `select` pass followed by its fix-up swap, from a
state where the pivot's value sits at one of the two walls and the walls bound
the pivot key from both sides: produces a position `pos` holding the pivot key,
with keys at most the pivot before it and at least the pivot after it. -/
theorem selPart_spec (axis : Nat) (t : Item) (left right : Nat)
    (htk : isNum (jget t axis) = true) (arr2 : List Item)
    (hlr : left < right) (hrlen : right < arr2.length)
    (hnum2 : ∀ x, left ≤ x → x ≤ right → isNum (jget (aget arr2 x) axis) = true)
    (hH1 : jle (jget t axis) (jget (aget arr2 left) axis) = true)
    (hH2 : jle (jget (aget arr2 right) axis) (jget t axis) = true)
    (hD : jget (aget arr2 left) axis = jget t axis ∨
      jget (aget arr2 right) axis = jget t axis) :
    ∀ out pos,
      (if jzeroB (cmpAxis axis
          (aget (partLoop axis t (right - left + 2) arr2 left right).1 left) t) then
        (aswap (partLoop axis t (right - left + 2) arr2 left right).1 left
          (partLoop axis t (right - left + 2) arr2 left right).2.2,
         (partLoop axis t (right - left + 2) arr2 left right).2.2)
      else
        (aswap (partLoop axis t (right - left + 2) arr2 left right).1
          ((partLoop axis t (right - left + 2) arr2 left right).2.2 + 1) right,
         (partLoop axis t (right - left + 2) arr2 left right).2.2 + 1)) = (out, pos) →
      SegPerm left right arr2 out ∧ left ≤ pos ∧ pos ≤ right ∧
      jget (aget out pos) axis = jget t axis ∧
      (∀ x, left ≤ x → x < pos → jle (jget (aget out x) axis) (jget t axis) = true) ∧
      (∀ x, pos < x → x ≤ right → jle (jget t axis) (jget (aget out x) axis) = true) ∧
      (∀ x, left ≤ x → x ≤ right → isNum (jget (aget out x) axis) = true) := by
  have hl : left < arr2.length := by omega
  -- one unfolding of the loop: the first iteration swaps the walls and scans
  have hPL : partLoop axis t (right - left + 2) arr2 left right =
      partLoop axis t (right - left + 1) (aswap arr2 left right)
        (scanUp axis t (aswap arr2 left right) ((aswap arr2 left right).length + 2)
          (left + 1))
        (scanDown axis t (aswap arr2 left right) ((aswap arr2 left right).length + 2)
          (right - 1)) := by
    rw [show right - left + 2 = (right - left + 1) + 1 from rfl]
    rw [partLoop, if_pos hlr]
  set arrS := aswap arr2 left right with harrS
  have hgetS : ∀ x, aget arrS x =
      if x = right then aget arr2 left else if x = left then aget arr2 right
      else aget arr2 x := fun x => aget_aswap arr2 left right x hl hrlen
  have hnumS : ∀ x, left ≤ x → x ≤ right → isNum (jget (aget arrS x) axis) = true :=
    aswap_keys_num axis hl hrlen (le_refl left) (by omega) (by omega) (le_refl right) hnum2
  have hSleft : aget arrS left = aget arr2 right := by
    rw [hgetS left, if_neg (by omega), if_pos rfl]
  have hSright : aget arrS right = aget arr2 left := by
    rw [hgetS right, if_pos rfl]
  have hSlen : arrS.length = arr2.length := aswap_length arr2 left right
  have hbound_up : jnegB (cmpAxis axis (aget arrS right) t) = false := by
    rw [scan_neg_eq axis (hnumS right (by omega) (by omega)) htk, hSright]
    obtain ⟨a, ha⟩ := isNum_exists (hnum2 left (le_refl left) (by omega))
    obtain ⟨b, hb⟩ := isNum_exists htk
    rw [ha, hb] at hH1 ⊢
    simp only [jle, decide_eq_true_eq] at hH1
    simp only [jlt, decide_eq_false_iff_not]
    omega
  have hbound_down : jposB (cmpAxis axis (aget arrS left) t) = false := by
    rw [scan_pos_eq axis (hnumS left (le_refl left) (by omega)) htk, hSleft]
    obtain ⟨a, ha⟩ := isNum_exists (hnum2 right (by omega) (le_refl right))
    obtain ⟨b, hb⟩ := isNum_exists htk
    rw [ha, hb] at hH2 ⊢
    simp only [jle, decide_eq_true_eq] at hH2
    simp only [jlt, decide_eq_false_iff_not]
    omega
  obtain ⟨u1, u2, u3, u4⟩ := scanUp_spec axis t arrS (arrS.length + 2) (left + 1) right
    (by omega) (by omega) hbound_up
  obtain ⟨d1, d2, d3, d4⟩ := scanDown_spec axis t arrS (arrS.length + 2) (right - 1) left
    (by omega) (by omega) hbound_down
  set i1 := scanUp axis t arrS (arrS.length + 2) (left + 1) with hi1
  set j1 := scanDown axis t arrS (arrS.length + 2) (right - 1) with hj1
  have g1 : jle (jget t axis) (jget (aget arrS i1) axis) = true := by
    refine jle_of_not_jlt (hnumS i1 (by omega) (by omega)) htk ?_
    rw [← scan_neg_eq axis (hnumS i1 (by omega) (by omega)) htk]
    exact u3
  have g2 : jle (jget (aget arrS j1) axis) (jget t axis) = true := by
    refine jle_of_not_jlt htk (hnumS j1 (by omega) (by omega)) ?_
    rw [← scan_pos_eq axis (hnumS j1 (by omega) (by omega)) htk]
    exact d3
  have g3 : ∀ x, left ≤ x → x < i1 →
      jle (jget (aget arrS x) axis) (jget t axis) = true := by
    intro x hx1 hx2
    rcases Nat.eq_or_lt_of_le hx1 with rfl | hgt
    · rw [hSleft]
      exact hH2
    · refine jle_of_jlt ?_
      rw [← scan_neg_eq axis (hnumS x (by omega) (by omega)) htk]
      exact u4 x (by omega) hx2
  have g4 : ∀ x, j1 < x → x ≤ right →
      jle (jget t axis) (jget (aget arrS x) axis) = true := by
    intro x hx1 hx2
    rcases Nat.eq_or_lt_of_le hx2 with rfl | hlt
    · rw [hSright]
      exact hH1
    · refine jle_of_jlt ?_
      rw [← scan_pos_eq axis (hnumS x (by omega) (by omega)) htk]
      exact d4 x hx1 (by omega)
  obtain ⟨r1, r2, r3, r4, r5, r6, r7, r8⟩ := partLoop_inv axis t left right htk
    (right - left + 1) arrS i1 j1 (by omega) (by omega) (by omega) (by omega)
    (by omega) (by omega) hnumS g1 g2 g3 g4
  rw [hPL]
  set P := partLoop axis t (right - left + 1) arrS i1 j1 with hP
  have hseg : SegPerm left right arr2 P.1 :=
    segPerm_trans (aswap_segPerm (le_refl left) (by omega) (by omega) (le_refl right)
      hl hrlen) r1
  have hPlen : P.1.length = arr2.length := by
    rw [hseg.1]
  have hD2 : jget (aget P.1 left) axis = jget t axis ∨
      jget (aget P.1 right) axis = jget t axis := by
    rw [r2, r3, hSleft, hSright]
    tauto
  intro out pos heq
  by_cases hcz : jzeroB (cmpAxis axis (aget P.1 left) t) = true
  · rw [if_pos hcz] at heq
    have hkey : jget (aget P.1 left) axis = jget t axis := by
      refine jeq_eq_num (r8 left (le_refl left) (by omega)) htk ?_
      rw [← scan_zero_eq axis (r8 left (le_refl left) (by omega)) htk]
      exact hcz
    obtain ⟨rfl, rfl⟩ : out = aswap P.1 left P.2.2 ∧ pos = P.2.2 := by
      have h1 := heq
      rw [Prod.mk.injEq] at h1
      exact ⟨h1.1.symm, h1.2.symm⟩
    have hj0 : P.2.2 < P.1.length := by omega
    have hl2 : left < P.1.length := by omega
    have hgetF : ∀ x, aget (aswap P.1 left P.2.2) x =
        if x = P.2.2 then aget P.1 left else if x = left then aget P.1 P.2.2
        else aget P.1 x := fun x => aget_aswap P.1 left P.2.2 x hl2 hj0
    refine ⟨segPerm_trans hseg (aswap_segPerm (le_refl left) (by omega) r4 (by omega)
      hl2 hj0), r4, by omega, ?_, ?_, ?_, ?_⟩
    · rw [hgetF P.2.2, if_pos rfl, hkey]
    · intro x hx1 hx2
      rw [hgetF x, if_neg (by omega)]
      by_cases e2 : x = left
      · rw [if_pos e2]
        exact r6 P.2.2 r4 (le_refl _)
      · rw [if_neg e2]
        exact r6 x hx1 (by omega)
    · intro x hx1 hx2
      rw [hgetF x, if_neg (by omega), if_neg (by omega)]
      exact r7 x hx1 hx2
    · exact aswap_keys_num axis hl2 hj0 (le_refl left) (by omega) r4 (by omega) r8
  · rw [if_neg hcz] at heq
    have hkeyL : jget (aget P.1 left) axis ≠ jget t axis := by
      refine jeq_ne_num (r8 left (le_refl left) (by omega)) htk ?_
      rw [← scan_zero_eq axis (r8 left (le_refl left) (by omega)) htk]
      exact Bool.not_eq_true _ ▸ (Bool.eq_false_iff.mpr hcz)
    have hkeyR : jget (aget P.1 right) axis = jget t axis := by
      rcases hD2 with h | h
      · exact absurd h hkeyL
      · exact h
    obtain ⟨rfl, rfl⟩ : out = aswap P.1 (P.2.2 + 1) right ∧ pos = P.2.2 + 1 := by
      have h1 := heq
      rw [Prod.mk.injEq] at h1
      exact ⟨h1.1.symm, h1.2.symm⟩
    have hj0 : P.2.2 + 1 < P.1.length := by omega
    have hr2 : right < P.1.length := by omega
    have hgetF : ∀ x, aget (aswap P.1 (P.2.2 + 1) right) x =
        if x = right then aget P.1 (P.2.2 + 1) else if x = P.2.2 + 1 then aget P.1 right
        else aget P.1 x := fun x => aget_aswap P.1 (P.2.2 + 1) right x hj0 hr2
    refine ⟨segPerm_trans hseg (aswap_segPerm (by omega) (by omega) (by omega)
      (le_refl right) hj0 hr2), by omega, by omega, ?_, ?_, ?_, ?_⟩
    · rw [hgetF (P.2.2 + 1)]
      by_cases e1 : P.2.2 + 1 = right
      · rw [if_pos e1, e1, hkeyR]
      · rw [if_neg e1, if_pos rfl, hkeyR]
    · intro x hx1 hx2
      rw [hgetF x, if_neg (by omega), if_neg (by omega)]
      exact r6 x hx1 (by omega)
    · intro x hx1 hx2
      rw [hgetF x]
      by_cases e1 : x = right
      · rw [if_pos e1]
        exact r7 (P.2.2 + 1) (by omega) (by omega)
      · rw [if_neg e1, if_neg (by omega)]
        exact r7 x (by omega) hx2
    · exact aswap_keys_num axis hj0 hr2 (by omega) (by omega) (by omega) (le_refl right) r8
/-- The wall setup establishes the partition preconditions: the pivot key is
bounded by the two walls, and one wall holds the pivot key itself. -/
theorem selSetup_spec (axis : Nat) (arr0 : List Item) (left right k : Nat)
    (hlr : left < right) (hrlen : right < arr0.length) (hlk : left ≤ k) (hkr : k ≤ right)
    (hnum : ∀ x, left ≤ x → x ≤ right → isNum (jget (aget arr0 x) axis) = true) :
    SegPerm left right arr0 (selSetup axis (aget arr0 k) arr0 left right k) ∧
    (∀ x, left ≤ x → x ≤ right →
      isNum (jget (aget (selSetup axis (aget arr0 k) arr0 left right k) x) axis) = true) ∧
    jle (jget (aget arr0 k) axis)
      (jget (aget (selSetup axis (aget arr0 k) arr0 left right k) left) axis) = true ∧
    jle (jget (aget (selSetup axis (aget arr0 k) arr0 left right k) right) axis)
      (jget (aget arr0 k) axis) = true ∧
    (jget (aget (selSetup axis (aget arr0 k) arr0 left right k) left) axis =
        jget (aget arr0 k) axis ∨
      jget (aget (selSetup axis (aget arr0 k) arr0 left right k) right) axis =
        jget (aget arr0 k) axis) := by
  have hk : k < arr0.length := by omega
  have hl : left < arr0.length := by omega
  have htk : isNum (jget (aget arr0 k) axis) = true := hnum k hlk hkr
  have hget1 : ∀ x, aget (aswap arr0 left k) x =
      if x = k then aget arr0 left else if x = left then aget arr0 k else aget arr0 x :=
    fun x => aget_aswap arr0 left k x hl hk
  have hnum1 := aswap_keys_num axis hl hk (le_refl left) (by omega) hlk hkr hnum
  have hseg1 : SegPerm left right arr0 (aswap arr0 left k) :=
    aswap_segPerm (le_refl left) (by omega) hlk hkr hl hk
  have h1len : (aswap arr0 left k).length = arr0.length := aswap_length _ _ _
  have h1left : aget (aswap arr0 left k) left = aget arr0 k := by
    rw [hget1 left]
    by_cases e : left = k
    · rw [if_pos e, e]
    · rw [if_neg e, if_pos rfl]
  by_cases hc2 : jposB (cmpAxis axis (aget (aswap arr0 left k) right) (aget arr0 k)) = true
  · have hres : selSetup axis (aget arr0 k) arr0 left right k =
        aswap (aswap arr0 left k) left right := by
      unfold selSetup
      rw [if_pos hc2]
    rw [hres]
    have hget2 : ∀ x, aget (aswap (aswap arr0 left k) left right) x =
        if x = right then aget (aswap arr0 left k) left
        else if x = left then aget (aswap arr0 left k) right
        else aget (aswap arr0 left k) x :=
      fun x => aget_aswap (aswap arr0 left k) left right x (by omega) (by omega)
    have h2right : aget (aswap (aswap arr0 left k) left right) right = aget arr0 k := by
      rw [hget2 right, if_pos rfl, h1left]
    have h2left : aget (aswap (aswap arr0 left k) left right) left =
        aget (aswap arr0 left k) right := by
      rw [hget2 left, if_neg (by omega), if_pos rfl]
    have hgt : jlt (jget (aget arr0 k) axis)
        (jget (aget (aswap arr0 left k) right) axis) = true := by
      rw [← scan_pos_eq axis (hnum1 right (by omega) (le_refl right)) htk]
      exact hc2
    refine ⟨segPerm_trans hseg1 (aswap_segPerm (le_refl left) (by omega) (by omega)
      (le_refl right) (by omega) (by omega)), ?_, ?_, ?_, ?_⟩
    · exact aswap_keys_num axis (by omega) (by omega) (le_refl left) (by omega)
        (by omega) (le_refl right) hnum1
    · rw [h2left]
      exact jle_of_jlt hgt
    · rw [h2right]
      exact jle_refl_num htk
    · right
      rw [h2right]
  · have hres : selSetup axis (aget arr0 k) arr0 left right k = aswap arr0 left k := by
      unfold selSetup
      rw [if_neg hc2]
    rw [hres]
    have hle2 : jle (jget (aget (aswap arr0 left k) right) axis)
        (jget (aget arr0 k) axis) = true := by
      refine jle_of_not_jlt htk (hnum1 right (by omega) (le_refl right)) ?_
      rw [← scan_pos_eq axis (hnum1 right (by omega) (le_refl right)) htk]
      simpa using hc2
    refine ⟨hseg1, hnum1, ?_, hle2, ?_⟩
    · rw [h1left]
      exact jle_refl_num htk
    · left
      rw [h1left]

/-- One full partition pass of `select` (`selBody`): the segment is permuted in
place, the returned position holds the pivot key, keys at most the pivot come
before it and keys at least the pivot after it. -/
theorem selBody_spec (axis : Nat) (arr0 : List Item) (left right k : Nat)
    (hlr : left < right) (hrlen : right < arr0.length) (hlk : left ≤ k) (hkr : k ≤ right)
    (hnum : ∀ x, left ≤ x → x ≤ right → isNum (jget (aget arr0 x) axis) = true) :
    SegPerm left right arr0 (selBody axis arr0 left right k).1 ∧
    left ≤ (selBody axis arr0 left right k).2 ∧
    (selBody axis arr0 left right k).2 ≤ right ∧
    jget (aget (selBody axis arr0 left right k).1 (selBody axis arr0 left right k).2)
      axis = jget (aget arr0 k) axis ∧
    (∀ x, left ≤ x → x < (selBody axis arr0 left right k).2 →
      jle (jget (aget (selBody axis arr0 left right k).1 x) axis)
        (jget (aget arr0 k) axis) = true) ∧
    (∀ x, (selBody axis arr0 left right k).2 < x → x ≤ right →
      jle (jget (aget arr0 k) axis)
        (jget (aget (selBody axis arr0 left right k).1 x) axis) = true) ∧
    (∀ x, left ≤ x → x ≤ right →
      isNum (jget (aget (selBody axis arr0 left right k).1 x) axis) = true) := by
  have htk : isNum (jget (aget arr0 k) axis) = true := hnum k hlk hkr
  obtain ⟨hseg2, hnum2, hH1, hH2, hD⟩ :=
    selSetup_spec axis arr0 left right k hlr hrlen hlk hkr hnum
  have hlen2 : (selSetup axis (aget arr0 k) arr0 left right k).length = arr0.length :=
    hseg2.1
  obtain ⟨q1, q2, q3, q4, q5, q6, q7⟩ :=
    selPart_spec axis (aget arr0 k) left right htk
      (selSetup axis (aget arr0 k) arr0 left right k) hlr (by omega) hnum2 hH1 hH2 hD
      (selBody axis arr0 left right k).1 (selBody axis arr0 left right k).2 rfl
  exact ⟨segPerm_trans hseg2 q1, q2, q3, q4, q5, q6, q7⟩

/-- The narrowed window always contains `k` and stays inside `[left, right]`. -/
theorem frBounds_mem (left right k : Nat) (h1 : left ≤ k) (h2 : k ≤ right) :
    left ≤ (frBounds left right k).1 ∧ (frBounds left right k).1 ≤ k ∧
    k ≤ (frBounds left right k).2 ∧ (frBounds left right k).2 ≤ right := by
  unfold frBounds
  simp only []
  refine ⟨le_max_left _ _, max_le h1 (min_le_right _ _),
    le_min h2 (le_max_right _ _), min_le_left _ _⟩

/-- When the `> 600` trigger fires, the narrowed window is strictly smaller
than the current one. -/
theorem frBounds_shrink (left right k : Nat) (h600 : 600 < right - left)
    (h1 : left ≤ k) (h2 : k ≤ right) :
    (frBounds left right k).2 - (frBounds left right k).1 < right - left := by
  unfold frBounds
  simp only []
  set n := right - left + 1 with hn
  set i := k - left + 1 with hi
  set s2 := Nat.findGreatest (fun m => m * m * m ≤ n * n) n with hs2
  set z := Nat.log2 n with hz
  set sd := Nat.sqrt (z * s2 * (n - s2 / 2) / (4 * n)) with hsd
  have hn600 : 601 ≤ n := by omega
  have hin : i ≤ n := by omega
  -- s2 ≤ n / 4
  have hs2P : s2 * s2 * s2 ≤ n * n := by
    have h := @Nat.findGreatest_spec 0 (fun m => m * m * m ≤ n * n)
      (fun m => Nat.decLe _ _) n (Nat.zero_le n) (by simp)
    rw [← hs2] at h
    exact h
  have hs2n : s2 ≤ n / 4 := by
    by_contra hcon
    have h4 : n < 4 * s2 := by omega
    have hcube : n ^ 3 < (4 * s2) ^ 3 := Nat.pow_lt_pow_left h4 (by omega)
    have hbig : n * n * n < 64 * (s2 * s2 * s2) := by
      have e1 : n * n * n = n ^ 3 := by ring
      have e2 : (4 * s2) ^ 3 = 64 * (s2 * s2 * s2) := by ring
      omega
    have hchain : n * n * n < 64 * (n * n) :=
      hbig.trans_le (Nat.mul_le_mul_left 64 hs2P)
    have hlb : 601 * (n * n) ≤ n * n * n := by
      have := Nat.mul_le_mul_right (n * n) hn600
      calc 601 * (n * n) ≤ n * (n * n) := this
        _ = n * n * n := by ring
    have hpos : 0 < n * n := by positivity
    omega
  -- z ≤ n
  have hzn : z ≤ n := Nat.log2_le_self n
  -- sd ≤ n / 4 + 1
  have harg1 : z * s2 * (n - s2 / 2) / (4 * n) ≤ z * s2 / 4 := by
    calc z * s2 * (n - s2 / 2) / (4 * n) ≤ z * s2 * n / (4 * n) :=
          Nat.div_le_div_right (Nat.mul_le_mul_left _ (by omega))
      _ = z * s2 / 4 := Nat.mul_div_mul_right _ _ (by omega)
  have harg2 : z * s2 / 4 ≤ n * n / 16 := by
    have e1 : z * s2 ≤ n * (n / 4) := Nat.mul_le_mul hzn hs2n
    have e2 : n * (n / 4) ≤ n * n / 4 := by
      rw [Nat.le_div_iff_mul_le (by omega)]
      calc n * (n / 4) * 4 = n * (n / 4 * 4) := by ring
        _ ≤ n * n := Nat.mul_le_mul_left n (Nat.div_mul_le_self n 4)
    calc z * s2 / 4 ≤ n * (n / 4) / 4 := Nat.div_le_div_right e1
      _ ≤ n * n / 4 / 4 := Nat.div_le_div_right e2
      _ = n * n / 16 := by rw [Nat.div_div_eq_div_mul]
  have hsqbound : n * n / 16 ≤ (n / 4 + 1) * (n / 4 + 1) := by
    have e1 : n ≤ 4 * (n / 4) + 3 := by omega
    have e2 : n * n ≤ (4 * (n / 4) + 3) * (4 * (n / 4) + 3) :=
      Nat.mul_le_mul e1 e1
    have e3 : (4 * (n / 4) + 3) * (4 * (n / 4) + 3) =
        16 * ((n / 4) * (n / 4)) + 24 * (n / 4) + 9 := by ring
    have e4 : n * n / 16 ≤ (16 * ((n / 4) * (n / 4)) + 24 * (n / 4) + 9) / 16 :=
      Nat.div_le_div_right (e3 ▸ e2)
    refine e4.trans ?_
    rw [Nat.div_le_iff_le_mul_add_pred (by omega)]
    ring_nf
    omega
  have hsdn : sd ≤ n / 4 + 1 := by
    rw [hsd]
    calc Nat.sqrt (z * s2 * (n - s2 / 2) / (4 * n)) ≤
        Nat.sqrt ((n / 4 + 1) * (n / 4 + 1)) :=
          Nat.sqrt_le_sqrt ((harg1.trans harg2).trans hsqbound)
      _ = n / 4 + 1 := Nat.sqrt_eq _
  -- the two division terms are at most s2 / 2 each, hence at most n / 8
  have hX : i * s2 / (2 * n) ≤ s2 / 2 := by
    calc i * s2 / (2 * n) ≤ n * s2 / (2 * n) :=
          Nat.div_le_div_right (Nat.mul_le_mul_right s2 hin)
      _ = s2 * n / (2 * n) := by rw [Nat.mul_comm]
      _ = s2 / 2 := Nat.mul_div_mul_right _ _ (by omega)
  have hY : (n - i) * s2 / (2 * n) ≤ s2 / 2 := by
    calc (n - i) * s2 / (2 * n) ≤ n * s2 / (2 * n) :=
          Nat.div_le_div_right (Nat.mul_le_mul_right s2 (by omega))
      _ = s2 * n / (2 * n) := by rw [Nat.mul_comm]
      _ = s2 / 2 := Nat.mul_div_mul_right _ _ (by omega)
  -- replace the two Int divisions by their Nat counterparts
  have eX : (i : Int) * (s2 : Int) / (2 * (n : Int)) = ((i * s2 / (2 * n) : Nat) : Int) := by
    have h0 : ((i * s2 : Nat) : Int) / ((2 * n : Nat) : Int) =
        ((i * s2 / (2 * n) : Nat) : Int) := rfl
    rw [← h0]
    push_cast
    ring_nf
  have eY : ((n : Int) - (i : Int)) * (s2 : Int) / (2 * (n : Int)) =
      (((n - i) * s2 / (2 * n) : Nat) : Int) := by
    have h0 : (((n - i) * s2 : Nat) : Int) / ((2 * n : Nat) : Int) =
        (((n - i) * s2 / (2 * n) : Nat) : Int) := rfl
    rw [← h0, Nat.cast_mul, Nat.cast_sub hin]
    push_cast
    ring_nf
  rw [eX, eY]
  by_cases hsign : 2 * i < n
  · rw [if_pos hsign]
    omega
  · rw [if_neg hsign]
    omega
theorem mem_seg {arr : List Item} {l r : Nat} {y : Item} (h : y ∈ seg arr l r) :
    ∃ x, l ≤ x ∧ x ≤ r ∧ aget arr x = y := by
  rw [seg] at h
  obtain ⟨t, ht, hy⟩ := List.getElem_of_mem h
  have hlt : t < (arr.drop l).length := by
    rw [List.length_take] at ht
    omega
  have ht1 : t < r + 1 - l := by
    rw [List.length_take] at ht
    omega
  have ht2 : l + t < arr.length := by
    rw [List.length_drop] at hlt
    omega
  refine ⟨l + t, by omega, by omega, ?_⟩
  rw [List.getElem_take, List.getElem_drop] at hy
  rw [aget_lt arr (l + t) ht2]
  exact hy

theorem aget_mem_seg {arr : List Item} {l r x : Nat} (hl : l ≤ x) (hr : x ≤ r)
    (hx : x < arr.length) : aget arr x ∈ seg arr l r := by
  have hlen : x - l < ((arr.drop l).take (r + 1 - l)).length := by
    rw [List.length_take, List.length_drop]
    omega
  have he : ((arr.drop l).take (r + 1 - l))[x - l] = arr[x] := by
    rw [List.getElem_take, List.getElem_drop]
    congr 1
    omega
  rw [seg, aget_lt arr x hx, ← he]
  exact List.getElem_mem hlen

theorem selectLoop_stop (axis fuel : Nat) (arr : List Item) (left right k : Nat)
    (h : ¬ left < right) : selectLoop axis fuel arr left right k = arr := by
  cases fuel with
  | zero => rfl
  | succ n =>
    rw [selectLoop, if_neg h]

theorem selectLoop_step (axis n : Nat) (arr : List Item) (left right k : Nat)
    (h : left < right) :
    selectLoop axis (n + 1) arr left right k =
      selectLoop axis n
        (selBody axis
          (if 600 < right - left then
            selectLoop axis n arr (frBounds left right k).1 (frBounds left right k).2 k
          else arr) left right k).1
        (if (selBody axis
          (if 600 < right - left then
            selectLoop axis n arr (frBounds left right k).1 (frBounds left right k).2 k
          else arr) left right k).2 ≤ k then
          (selBody axis
            (if 600 < right - left then
              selectLoop axis n arr (frBounds left right k).1 (frBounds left right k).2 k
            else arr) left right k).2 + 1
        else left)
        (if k ≤ (selBody axis
          (if 600 < right - left then
            selectLoop axis n arr (frBounds left right k).1 (frBounds left right k).2 k
          else arr) left right k).2 then
          (selBody axis
            (if 600 < right - left then
              selectLoop axis n arr (frBounds left right k).1 (frBounds left right k).2 k
            else arr) left right k).2 - 1
        else right) k := by
  rw [selectLoop, if_pos h]

/-- The outer loop of `select`: under a quadratic fuel budget, the window
`[left..right]` is permuted in place so that the element landing at `k` is a
rank-`k` pivot (everything before `k` compares at most it; everything after at
least it), and all keys on the window stay numeric. -/
theorem selectLoop_post (axis : Nat) : ∀ (fuel : Nat) (arr : List Item) (left right k : Nat),
    (right - left + 2) * (right - left + 2) ≤ fuel + 1 →
    right < arr.length → left ≤ k → k ≤ right →
    (∀ x, left ≤ x → x ≤ right → isNum (jget (aget arr x) axis) = true) →
    SegPerm left right arr (selectLoop axis fuel arr left right k) ∧
    (∀ x, left ≤ x → x ≤ k →
      jle (jget (aget (selectLoop axis fuel arr left right k) x) axis)
        (jget (aget (selectLoop axis fuel arr left right k) k) axis) = true) ∧
    (∀ x, k ≤ x → x ≤ right →
      jle (jget (aget (selectLoop axis fuel arr left right k) k) axis)
        (jget (aget (selectLoop axis fuel arr left right k) x) axis) = true) ∧
    (∀ x, left ≤ x → x ≤ right →
      isNum (jget (aget (selectLoop axis fuel arr left right k) x) axis) = true) := by
  intro fuel
  induction fuel with
  | zero =>
    intro arr left right k hfuel hrlen hlk hkr hnum
    exfalso
    have h2 : 2 ≤ right - left + 2 := by omega
    have := Nat.mul_le_mul h2 h2
    omega
  | succ n IH =>
    intro arr left right k hfuel hrlen hlk hkr hnum
    by_cases hlr : left < right
    · rw [selectLoop_step axis n arr left right k hlr]
      set arr0 := (if 600 < right - left then
          selectLoop axis n arr (frBounds left right k).1 (frBounds left right k).2 k
        else arr) with harr0
      set fix := selBody axis arr0 left right k with hfixd
      set pos := fix.2 with hposd
      obtain ⟨hA, hAnum⟩ : SegPerm left right arr arr0 ∧
          (∀ x, left ≤ x → x ≤ right → isNum (jget (aget arr0 x) axis) = true) := by
        rw [harr0]
        by_cases h600 : 600 < right - left
        · rw [if_pos h600]
          obtain ⟨m1, m2, m3, m4⟩ := frBounds_mem left right k hlk hkr
          have hshrink := frBounds_shrink left right k h600 hlk hkr
          have hfu : ((frBounds left right k).2 - (frBounds left right k).1 + 2) *
              ((frBounds left right k).2 - (frBounds left right k).1 + 2) ≤ n + 1 := by
            have e1 : (frBounds left right k).2 - (frBounds left right k).1 + 2 ≤
                right - left + 1 := by omega
            have e2 := Nat.mul_le_mul e1 e1
            have e3 : (right - left + 1) * (right - left + 1) + (2 * (right - left) + 3) =
                (right - left + 2) * (right - left + 2) := by ring
            omega
          obtain ⟨p1, p2, p3, p4⟩ := IH arr (frBounds left right k).1
            (frBounds left right k).2 k hfu (by omega) m2 m3
            (fun x hx1 hx2 => hnum x (by omega) (by omega))
          refine ⟨segPerm_widen m1 m4 p1, ?_⟩
          intro x hx1 hx2
          by_cases hxin : (frBounds left right k).1 ≤ x ∧ x ≤ (frBounds left right k).2
          · exact p4 x hxin.1 hxin.2
          · rw [segPerm_aget_outside p1 (by omega)]
            exact hnum x hx1 hx2
        · rw [if_neg h600]
          exact ⟨segPerm_refl _ _ _, hnum⟩
      have hlen0 : arr0.length = arr.length := hA.1
      have hrlen0 : right < arr0.length := by rw [hlen0]; exact hrlen
      have hpivnum : isNum (jget (aget arr0 k) axis) = true := hAnum k hlk hkr
      have hq := selBody_spec axis arr0 left right k hlr hrlen0 hlk hkr hAnum
      rw [← hfixd] at hq
      rw [← hposd] at hq
      obtain ⟨q1, q2, q3, q4, q5, q6, q7⟩ := hq
      have hlenfix : fix.1.length = arr0.length := q1.1
      rcases Nat.lt_trichotomy pos k with hpk | hpk | hpk
      · -- pivot landed strictly left of k: recurse on [pos+1, right]
        have hl' : (if pos ≤ k then pos + 1 else left) = pos + 1 := if_pos (by omega)
        have hr' : (if k ≤ pos then pos - 1 else right) = right := if_neg (by omega)
        rw [hl', hr']
        have hfu : (right - (pos + 1) + 2) * (right - (pos + 1) + 2) ≤ n + 1 := by
          have e1 : right - (pos + 1) + 2 ≤ right - left + 1 := by omega
          have e2 := Nat.mul_le_mul e1 e1
          have e3 : (right - left + 1) * (right - left + 1) + (2 * (right - left) + 3) =
              (right - left + 2) * (right - left + 2) := by ring
          omega
        obtain ⟨r1, r2, r3, r4⟩ := IH fix.1 (pos + 1) right k hfu
          (by rw [hlenfix]; exact hrlen0) (by omega) hkr
          (fun x hx1 hx2 => q7 x (by omega) hx2)
        have hok : right < (selectLoop axis n fix.1 (pos + 1) right k).length := by
          rw [r1.1, hlenfix]; exact hrlen0
        have hmem : aget (selectLoop axis n fix.1 (pos + 1) right k) k ∈
            seg (selectLoop axis n fix.1 (pos + 1) right k) (pos + 1) right :=
          aget_mem_seg (by omega) hkr (by omega)
        have hpermseg := segPerm_seg r1 (by omega) (by rw [hlenfix]; exact hrlen0)
        obtain ⟨y, hy1, hy2, hy3⟩ := mem_seg (hpermseg.mem_iff.mp hmem)
        have hpiv : jle (jget (aget arr0 k) axis)
            (jget (aget (selectLoop axis n fix.1 (pos + 1) right k) k) axis) = true := by
          rw [← hy3]
          exact q6 y (by omega) hy2
        refine ⟨segPerm_trans (segPerm_trans hA q1) (segPerm_widen (by omega) (le_refl right) r1),
          ?_, ?_, ?_⟩
        · intro x hx1 hx2
          by_cases hxw : pos + 1 ≤ x
          · exact r2 x hxw hx2
          · rw [segPerm_aget_outside r1 (Or.inl (show x < pos + 1 by omega))]
            by_cases hxp : x = pos
            · rw [hxp, q4]
              exact hpiv
            · exact jle_trans_num (q5 x hx1 (by omega)) hpiv
                (q7 x hx1 (by omega)) hpivnum (r4 k (by omega) hkr)
        · intro x hx1 hx2
          exact r3 x hx1 hx2
        · intro x hx1 hx2
          by_cases hxw : pos + 1 ≤ x
          · exact r4 x hxw hx2
          · rw [segPerm_aget_outside r1 (Or.inl (show x < pos + 1 by omega))]
            exact q7 x hx1 hx2
      · -- pivot landed exactly at k: both sides of the window collapse
        have hl' : (if pos ≤ k then pos + 1 else left) = pos + 1 := if_pos (by omega)
        have hr' : (if k ≤ pos then pos - 1 else right) = pos - 1 := if_pos (by omega)
        rw [hl', hr', selectLoop_stop axis n fix.1 (pos + 1) (pos - 1) k (by omega)]
        have hq4k : jget (aget fix.1 k) axis = jget (aget arr0 k) axis := by
          rw [hpk] at q4
          exact q4
        refine ⟨segPerm_trans hA q1, ?_, ?_, q7⟩
        · intro x hx1 hx2
          by_cases hxp : x = k
          · rw [hxp]
            exact jle_refl_num (q7 k hlk hkr)
          · rw [hq4k]
            exact q5 x hx1 (by omega)
        · intro x hx1 hx2
          by_cases hxp : x = k
          · rw [hxp]
            exact jle_refl_num (q7 k hlk hkr)
          · rw [hq4k]
            exact q6 x (by omega) hx2
      · -- pivot landed strictly right of k: recurse on [left, pos-1]
        have hl' : (if pos ≤ k then pos + 1 else left) = left := if_neg (by omega)
        have hr' : (if k ≤ pos then pos - 1 else right) = pos - 1 := if_pos (by omega)
        rw [hl', hr']
        have hfu : (pos - 1 - left + 2) * (pos - 1 - left + 2) ≤ n + 1 := by
          have e1 : pos - 1 - left + 2 ≤ right - left + 1 := by omega
          have e2 := Nat.mul_le_mul e1 e1
          have e3 : (right - left + 1) * (right - left + 1) + (2 * (right - left) + 3) =
              (right - left + 2) * (right - left + 2) := by ring
          omega
        obtain ⟨r1, r2, r3, r4⟩ := IH fix.1 left (pos - 1) k hfu
          (by rw [hlenfix]; omega) hlk (by omega)
          (fun x hx1 hx2 => q7 x hx1 (by omega))
        have hok : pos - 1 < (selectLoop axis n fix.1 left (pos - 1) k).length := by
          rw [r1.1, hlenfix]; omega
        have hmem : aget (selectLoop axis n fix.1 left (pos - 1) k) k ∈
            seg (selectLoop axis n fix.1 left (pos - 1) k) left (pos - 1) :=
          aget_mem_seg hlk (by omega) (by omega)
        have hpermseg := segPerm_seg r1 (by omega) (by rw [hlenfix]; omega)
        obtain ⟨y, hy1, hy2, hy3⟩ := mem_seg (hpermseg.mem_iff.mp hmem)
        have hpiv : jle (jget (aget (selectLoop axis n fix.1 left (pos - 1) k) k) axis)
            (jget (aget arr0 k) axis) = true := by
          rw [← hy3]
          exact q5 y hy1 (by omega)
        refine ⟨segPerm_trans (segPerm_trans hA q1) (segPerm_widen (le_refl left) (by omega) r1),
          ?_, ?_, ?_⟩
        · intro x hx1 hx2
          exact r2 x hx1 hx2
        · intro x hx1 hx2
          by_cases hxw : x ≤ pos - 1
          · exact r3 x hx1 hxw
          · rw [segPerm_aget_outside r1 (Or.inr (show pos - 1 < x by omega))]
            by_cases hxp : x = pos
            · rw [hxp, q4]
              exact hpiv
            · exact jle_trans_num hpiv (q6 x (by omega) hx2)
                (r4 k hlk (by omega)) hpivnum (q7 x (by omega) hx2)
        · intro x hx1 hx2
          by_cases hxw : x ≤ pos - 1
          · exact r4 x (by omega) hxw
          · rw [segPerm_aget_outside r1 (Or.inr (show pos - 1 < x by omega))]
            exact q7 x hx1 hx2
    · rw [selectLoop_stop axis (n + 1) arr left right k hlr]
      refine ⟨segPerm_refl _ _ _, ?_, ?_, hnum⟩
      · intro x hx1 hx2
        have hx : x = k := by omega
        rw [hx]
        exact jle_refl_num (hnum k hlk hkr)
      · intro x hx1 hx2
        have hx : x = k := by omega
        rw [hx]
        exact jle_refl_num (hnum k hlk hkr)

/-- `select` with its actual fuel: the partition/permutation contract under
numeric keys on the window. -/
theorem selectS_spec (axis : Nat) (arr : List Item) (left right k : Nat)
    (hrlen : right < arr.length) (hlk : left ≤ k) (hkr : k ≤ right)
    (hnum : ∀ x, left ≤ x → x ≤ right → isNum (jget (aget arr x) axis) = true) :
    SegPerm left right arr (selectS axis arr left right k) ∧
    (∀ x, left ≤ x → x ≤ k →
      jle (jget (aget (selectS axis arr left right k) x) axis)
        (jget (aget (selectS axis arr left right k) k) axis) = true) ∧
    (∀ x, k ≤ x → x ≤ right →
      jle (jget (aget (selectS axis arr left right k) k) axis)
        (jget (aget (selectS axis arr left right k) x) axis) = true) ∧
    (∀ x, left ≤ x → x ≤ right →
      isNum (jget (aget (selectS axis arr left right k) x) axis) = true) := by
  have hfu : (right - left + 2) * (right - left + 2) ≤ selFuel right + 1 := by
    have e1 : right - left + 2 ≤ right + 2 := by omega
    have e2 := Nat.mul_le_mul e1 e1
    rw [selFuel]
    omega
  exact selectLoop_post axis (selFuel right) arr left right k hfu hrlen hlk hkr hnum

/-- The `multiSelect` stride never overshoots the window: for `n < d`,
`ceil(d / (2n)) * n ≤ d`. -/
theorem ceilDiv_mul_le {d n : Nat} (h : n < d) : ceilDiv d (2 * n) * n ≤ d := by
  rcases Nat.eq_zero_or_pos n with hn | hn
  · rw [hn]
    simp
  by_cases hd : d ≤ 2 * n
  · have hq : ceilDiv d (2 * n) = 1 := by
      rw [ceilDiv]
      have h1 : 1 ≤ (d + 2 * n - 1) / (2 * n) := by
        rw [Nat.le_div_iff_mul_le (by omega)]
        omega
      have h2 : (d + 2 * n - 1) / (2 * n) < 2 := by
        rw [Nat.div_lt_iff_lt_mul (by omega)]
        omega
      omega
    rw [hq]
    omega
  · have hq := Nat.div_mul_le_self (d + 2 * n - 1) (2 * n)
    rw [ceilDiv]
    have e : (d + 2 * n - 1) / (2 * n) * (2 * n) = 2 * ((d + 2 * n - 1) / (2 * n) * n) := by
      ring
    omega

/-- The stack loop of `multiSelect` only permutes the enclosing window and
keeps its keys numeric. -/
theorem multiSelectLoop_post (axis n : Nat) : ∀ (fuel : Nat) (arr : List Item)
    (stack : List Nat) (lo hi : Nat), hi < arr.length → StackIn lo hi stack →
    (∀ x, lo ≤ x → x ≤ hi → isNum (jget (aget arr x) axis) = true) →
    SegPerm lo hi arr (multiSelectLoop axis n fuel arr stack) ∧
    (∀ x, lo ≤ x → x ≤ hi →
      isNum (jget (aget (multiSelectLoop axis n fuel arr stack) x) axis) = true) := by
  intro fuel
  induction fuel with
  | zero =>
    intro arr stack lo hi hlen hst hnum
    exact ⟨segPerm_refl _ _ _, hnum⟩
  | succ m IH =>
    intro arr stack lo hi hlen hst hnum
    match stack with
    | [] => exact ⟨segPerm_refl _ _ _, hnum⟩
    | [x] => exact ⟨segPerm_refl _ _ _, hnum⟩
    | r :: l :: rest =>
      obtain ⟨hst1, hst2, hst3, hst4⟩ := hst
      rw [multiSelectLoop]
      by_cases hsmall : r - l ≤ n
      · rw [if_pos hsmall]
        exact IH arr rest lo hi hlen hst4 hnum
      · rw [if_neg hsmall]
        have hmid : l + ceilDiv (r - l) (2 * n) * n ≤ r := by
          have := ceilDiv_mul_le (show n < r - l by omega)
          omega
        obtain ⟨s1, s2, s3, s4⟩ := selectS_spec axis arr l r
          (l + ceilDiv (r - l) (2 * n) * n) (by omega) (by omega) hmid
          (fun x hx1 hx2 => hnum x (by omega) (by omega))
        have hnum' : ∀ x, lo ≤ x → x ≤ hi →
            isNum (jget (aget (selectS axis arr l r
              (l + ceilDiv (r - l) (2 * n) * n)) x) axis) = true := by
          intro x hx1 hx2
          by_cases hxin : l ≤ x ∧ x ≤ r
          · exact s4 x hxin.1 hxin.2
          · rw [segPerm_aget_outside s1 (by omega)]
            exact hnum x hx1 hx2
        have hlen' : hi < (selectS axis arr l r
            (l + ceilDiv (r - l) (2 * n) * n)).length := by
          rw [s1.1]
          exact hlen
        have hst' : StackIn lo hi (r :: (l + ceilDiv (r - l) (2 * n) * n) ::
            ((l + ceilDiv (r - l) (2 * n) * n) :: l :: rest)) :=
          ⟨by omega, by omega, hst3, hst1, by omega, by omega, hst4⟩
        obtain ⟨t1, t2⟩ := IH (selectS axis arr l r (l + ceilDiv (r - l) (2 * n) * n))
          (r :: (l + ceilDiv (r - l) (2 * n) * n) ::
            ((l + ceilDiv (r - l) (2 * n) * n) :: l :: rest)) lo hi hlen' hst' hnum'
        exact ⟨segPerm_trans (segPerm_widen hst1 hst3 s1) t1, t2⟩

/-- `multiSelect` only permutes `[left..right]` in place and keeps its keys
numeric. -/
theorem multiSelect_post (axis n : Nat) (arr : List Item) (left right : Nat)
    (hlr : left ≤ right) (hlen : right < arr.length)
    (hnum : ∀ x, left ≤ x → x ≤ right → isNum (jget (aget arr x) axis) = true) :
    SegPerm left right arr (multiSelect axis n arr left right) ∧
    (∀ x, left ≤ x → x ≤ right →
      isNum (jget (aget (multiSelect axis n arr left right) x) axis) = true) :=
  multiSelectLoop_post axis n ((right + 2) * (right + 2)) arr [right, left] left right
    hlen ⟨le_refl left, hlr, le_refl right, trivial⟩ hnum

/-! ## Arithmetic of the OMT tiling -/

theorem ceilDiv_pos {N b : Nat} (hN : 1 ≤ N) (hb : 1 ≤ b) : 1 ≤ ceilDiv N b := by
  rw [ceilDiv, Nat.le_div_iff_mul_le (by omega)]
  omega

theorem ceilDiv_mul_ge {N b : Nat} (hb : 1 ≤ b) : N ≤ ceilDiv N b * b := by
  rw [ceilDiv]
  have h1 := Nat.div_add_mod (N + b - 1) b
  have h2 : (N + b - 1) % b < b := Nat.mod_lt _ (by omega)
  have h3 : (N + b - 1) / b * b = b * ((N + b - 1) / b) := Nat.mul_comm _ _
  omega

theorem ceilDiv_le_of_le_mul {N K mu : Nat} (hK : 1 ≤ K) (h : N ≤ mu * K) :
    ceilDiv N K ≤ mu := by
  rw [ceilDiv, Nat.div_le_iff_le_mul_add_pred (by omega)]
  have e : K * mu = mu * K := Nat.mul_comm _ _
  omega

theorem ceilDiv_self_le {N mu : Nat} (hN : 1 ≤ N) (hmu : 1 ≤ mu) :
    ceilDiv N (ceilDiv N mu) ≤ mu := by
  have h1 : 1 ≤ ceilDiv N mu := ceilDiv_pos hN hmu
  have h2 : N ≤ ceilDiv N mu * mu := by
    have := @ceilDiv_mul_ge N mu hmu
    have e : ceilDiv N mu * mu = mu * (ceilDiv N mu) := Nat.mul_comm _ _
    omega
  exact ceilDiv_le_of_le_mul h1 (by
    have e : ceilDiv N mu * mu = mu * ceilDiv N mu := Nat.mul_comm _ _
    omega)

theorem ceilDiv_pow {M h : Nat} (hM : 1 ≤ M) (hh : 1 ≤ h) :
    ceilDiv (M ^ h) M = M ^ (h - 1) := by
  rw [ceilDiv]
  have e1 : M ^ h = M ^ (h - 1) * M := by
    rw [← Nat.pow_succ]
    congr 1
    omega
  rw [e1]
  rcases Nat.eq_or_lt_of_le hM with hM1 | hM2
  · simp [← hM1]
  · have e2 : M ^ (h - 1) * M + M - 1 = (M - 1) + M ^ (h - 1) * M := by omega
    rw [e2, Nat.add_mul_div_right _ _ (by omega), Nat.div_eq_of_lt (by omega)]
    omega

theorem ceilDiv_eq_pred {N b : Nat} (hN : 1 ≤ N) (hb : 1 ≤ b) :
    ceilDiv N b = (N - 1) / b + 1 := by
  rw [ceilDiv]
  have e : N + b - 1 = (N - 1) + b := by omega
  rw [e, Nat.add_div_right _ (by omega)]

theorem ceilDiv_add_mul {a s b : Nat} (ha : 1 ≤ a) (hb : 1 ≤ b) :
    ceilDiv (a + s * b) b = ceilDiv a b + s := by
  rw [ceilDiv, ceilDiv]
  have e : a + s * b + b - 1 = (a + b - 1) + s * b := by omega
  rw [e, Nat.add_mul_div_right _ _ (by omega)]

theorem ceilDiv_mul_self {s b : Nat} (hb : 1 ≤ b) : ceilDiv (s * b) b = s := by
  cases s with
  | zero =>
    show (0 * b + b - 1) / b = 0
    rw [Nat.div_eq_of_lt (by omega)]
  | succ t =>
    have e : (t + 1) * b = b + t * b := by ring
    rw [e, ceilDiv_add_mul (by omega) hb, ceilDiv]
    rw [show b + b - 1 = b + (b - 1) from by omega, Nat.add_div_left _ (by omega),
      Nat.div_eq_of_lt (by omega)]
    omega

theorem ceilLogAux_spec (M N : Nat) : ∀ (fuel h0 : Nat), N ≤ M ^ (h0 + fuel) →
    h0 ≤ ceilLogAux M N fuel h0 ∧ ceilLogAux M N fuel h0 ≤ h0 + fuel ∧
    N ≤ M ^ (ceilLogAux M N fuel h0) ∧
    (∀ j, h0 ≤ j → j < ceilLogAux M N fuel h0 → M ^ j < N) := by
  intro fuel
  induction fuel with
  | zero =>
    intro h0 hbound
    refine ⟨le_refl _, by simp [ceilLogAux], by simpa [ceilLogAux] using hbound, ?_⟩
    intro j hj1 hj2
    simp [ceilLogAux] at hj2
    omega
  | succ m IH =>
    intro h0 hbound
    rw [ceilLogAux]
    by_cases hstop : N ≤ M ^ h0
    · rw [if_pos hstop]
      exact ⟨le_refl _, by omega, hstop, fun j hj1 hj2 => absurd hj1 (by omega)⟩
    · rw [if_neg hstop]
      obtain ⟨p1, p2, p3, p4⟩ := IH (h0 + 1)
        (by rw [show h0 + 1 + m = h0 + (m + 1) from by omega]; exact hbound)
      refine ⟨by omega, by omega, p3, ?_⟩
      intro j hj1 hj2
      by_cases hj : j = h0
      · rw [hj]
        omega
      · exact p4 j (by omega) hj2

theorem ceilLog_spec {M N : Nat} (hM : 2 ≤ M) (hN : 1 ≤ N) :
    ceilLog M N ≤ N ∧ N ≤ M ^ (ceilLog M N) ∧
    (∀ j, j < ceilLog M N → M ^ j < N) := by
  have hb : N ≤ M ^ (0 + N) := by
    rw [Nat.zero_add]
    calc N ≤ 2 ^ N := le_of_lt (Nat.lt_two_pow N)
      _ ≤ M ^ N := Nat.pow_le_pow_left hM N
  obtain ⟨p1, p2, p3, p4⟩ := ceilLogAux_spec M N N 0 hb
  rw [ceilLog]
  exact ⟨by omega, p3, fun j hj => p4 j (Nat.zero_le j) hj⟩

theorem sqrtUpAux_ge (n : Nat) : ∀ (fuel s0 : Nat), s0 ≤ sqrtUpAux n fuel s0 := by
  intro fuel
  induction fuel with
  | zero => intro s0; simp [sqrtUpAux]
  | succ m IH =>
    intro s0
    rw [sqrtUpAux]
    by_cases h : n ≤ s0 * s0
    · rw [if_pos h]
    · rw [if_neg h]
      have := IH (s0 + 1)
      omega

theorem ceilSqrt_pos {n : Nat} (hn : 1 ≤ n) : 1 ≤ ceilSqrt n := by
  rw [ceilSqrt]
  cases n with
  | zero => omega
  | succ m =>
    rw [sqrtUpAux, if_neg (by omega)]
    simpa using sqrtUpAux_ge (m + 1) (m + 1) (0 + 1)

/-! ## Segment algebra -/

theorem seg_length {arr : List Item} {l r : Nat} (hr : r < arr.length) (hlr : l ≤ r) :
    (seg arr l r).length = r + 1 - l := by
  rw [seg, List.length_take, List.length_drop]
  omega

theorem seg_subset {arr : List Item} {l r : Nat} {x : Item} (h : x ∈ seg arr l r) :
    x ∈ arr := by
  rw [seg] at h
  exact (List.drop_subset _ _) ((List.take_subset _ _) h)

theorem seg_append_adjacent {arr : List Item} {l m r : Nat} (h1 : l ≤ m + 1)
    (h2 : m ≤ r) : seg arr l m ++ seg arr (m + 1) r = seg arr l r := by
  rw [seg, seg, seg]
  have e1 : r + 1 - l = (m + 1 - l) + (r - m) := by omega
  rw [e1, List.take_add]
  congr 1
  rw [List.drop_drop]
  have e3 : m + 1 - l + l = m + 1 := by omega
  have e4 : l + (m + 1 - l) = m + 1 := by omega
  have e5 : r + 1 - (m + 1) = r - m := by omega
  simp only [e3, e4, e5]

theorem seg_whole (arr : List Item) (h : 1 ≤ arr.length) :
    seg arr 0 (arr.length - 1) = arr := by
  rw [seg, List.drop_zero]
  have e : arr.length - 1 + 1 - 0 = arr.length := by omega
  rw [e, List.take_length]

theorem seg_eq_take_drop (arr : List Item) (x y : Nat) :
    seg arr x y = (arr.take (y + 1)).drop x := by
  rw [seg, List.drop_take]

theorem segPerm_seg_left {l r : Nat} {a b : List Item} (h : SegPerm l r a b)
    {x y : Nat} (hy : y < l) : seg b x y = seg a x y := by
  rw [seg_eq_take_drop, seg_eq_take_drop]
  have e1 : b.take (y + 1) = (b.take l).take (y + 1) := by
    rw [List.take_take, Nat.min_eq_left (by omega)]
  have e2 : a.take (y + 1) = (a.take l).take (y + 1) := by
    rw [List.take_take, Nat.min_eq_left (by omega)]
  rw [e1, e2, h.2.1]

theorem segPerm_seg_right {l r : Nat} {a b : List Item} (h : SegPerm l r a b)
    {x y : Nat} (hx : r < x) : seg b x y = seg a x y := by
  rw [seg, seg]
  have e1 : b.drop x = (b.drop (r + 1)).drop (x - (r + 1)) := by
    rw [List.drop_drop]
    congr 1
    omega
  have e2 : a.drop x = (a.drop (r + 1)).drop (x - (r + 1)) := by
    rw [List.drop_drop]
    congr 1
    omega
  rw [e1, e2, h.2.2.1]

/-! ## Items and keys of valid data -/

theorem validItemB_key {dim : Nat} {it : Item} (h : validItemB dim it = true)
    {ax : Nat} (hax : ax < 2 * dim) : isNum (jget it ax) = true := by
  have hlen : it.length = 2 * dim := by
    have := h
    simp only [validItemB, Bool.and_eq_true, decide_eq_true_eq] at this
    exact this.1.1
  have hall : ∀ v ∈ it, (match v with | JNum.num _ => true | _ => false) = true := by
    have := h
    simp only [validItemB, Bool.and_eq_true, List.all_eq_true] at this
    exact this.1.2
  have haxlen : ax < it.length := by omega
  have hget : jget it ax = it[ax] := by
    rw [jget, List.getD_eq_getElem?_getD, List.getElem?_eq_getElem haxlen]
    rfl
  rw [hget]
  have := hall it[ax] (List.getElem_mem _)
  cases hv : it[ax] with
  | num q => rfl
  | inf => rw [hv] at this; simp at this
  | ninf => rw [hv] at this; simp at this
  | nan => rw [hv] at this; simp at this

theorem valid_keys_isNum {dim : Nat} {items : List Item}
    (hval : ∀ it ∈ items, validItemB dim it = true) {ax : Nat} (hax : ax < 2 * dim)
    {r : Nat} (hr : r < items.length) :
    ∀ x, 0 ≤ x → x ≤ r → isNum (jget (aget items x) ax) = true := by
  intro x _ hx
  have hxl : x < items.length := by omega
  rw [aget_lt items x hxl]
  exact validItemB_key (hval _ (List.getElem_mem _)) hax

theorem itemsOfEnts_map_item (l : List Item) :
    itemsOfEnts (l.map REntry.item) = l := by
  induction l with
  | nil => rfl
  | cons x xs ih =>
    simp only [List.map_cons, itemsOfEnts_cons, ih]
    rfl

theorem wfEntsB_map_item (c : Cfg) (l : List Item)
    (h : ∀ it ∈ l, validItemB c.dim it = true) :
    wfEntsB c 1 true (l.map REntry.item) = true := by
  rw [wfEntsB_iff]
  intro e he
  obtain ⟨it, hit, rfl⟩ := List.mem_map.mp he
  rw [wfEntB_item_iff]
  exact ⟨rfl, h it hit⟩

theorem ceilDiv_le_ceilDiv {a b K : Nat} (h : a ≤ b) : ceilDiv a K ≤ ceilDiv b K := by
  rw [ceilDiv, ceilDiv]
  exact Nat.div_le_div_right (by omega)

theorem ceilDiv_gt {N mu t : Nat} (hmu : 1 ≤ mu) (h : mu * t < N) :
    t < ceilDiv N mu := by
  by_contra hcon
  have h1 : ceilDiv N mu * mu ≤ t * mu := Nat.mul_le_mul_right _ (by omega)
  have h2 := @ceilDiv_mul_ge N mu hmu
  have e : t * mu = mu * t := Nat.mul_comm _ _
  omega

/-- Full chunks of a non-root build level keep the size contract of the level
below: the stride `ceil(N/M)` lies in `(2·M^(h-2) - M, M^(h-1)]` (stated with
`A = M^(h-2)`). -/
theorem chunk_full_arith {M A N : Nat} (hM : 4 ≤ M) (hA : 1 ≤ A)
    (hlow : 2 * (M * A) - M < N) (hup : N ≤ M * (M * A)) :
    2 * A - M < ceilDiv N M ∧ ceilDiv N M ≤ M * A := by
  constructor
  · refine lt_of_le_of_lt (show 2 * A - M ≤ 2 * A - 1 by omega) ?_
    refine ceilDiv_gt (by omega) ?_
    have e : M * (2 * A - 1) + M = 2 * (M * A) := by
      obtain ⟨w, hw⟩ : ∃ w, 2 * A = w + 1 := ⟨2 * A - 1, by omega⟩
      rw [show 2 * A - 1 = w from by omega, show 2 * (M * A) = M * (2 * A) from by ring, hw]
      ring
    omega
  · exact ceilDiv_le_of_le_mul (by omega) (by
      have e : M * A * M = M * (M * A) := by ring
      omega)

/-- The final (ragged) chunk of a non-root build level also keeps the size
contract: writing the chunk count as `(N-1)/n2 + 1`, the leftover chunk has
size `N - ((N-1)/n2)*n2 ∈ (2·A - M, M·A]`. -/
theorem chunk_last_arith {M A N : Nat} (hM : 4 ≤ M) (hA : 1 ≤ A)
    (hlow : 2 * (M * A) - M < N) (hup : N ≤ M * (M * A)) (hN : 1 ≤ N) :
    2 * A - M < N - (N - 1) / ceilDiv N M * ceilDiv N M ∧
    N - (N - 1) / ceilDiv N M * ceilDiv N M ≤ M * A := by
  set n2 := ceilDiv N M with hn2d
  have hn2pos : 1 ≤ n2 := by rw [hn2d]; exact ceilDiv_pos hN (by omega)
  set t := (N - 1) / n2 with htd
  have f1 : t * n2 ≤ N - 1 := by rw [htd]; exact Nat.div_mul_le_self _ _
  have fmod : N - 1 < t * n2 + n2 := by
    have h1 := Nat.div_add_mod (N - 1) n2
    have h2 : (N - 1) % n2 < n2 := Nat.mod_lt _ (by omega)
    have e : t * n2 = n2 * ((N - 1) / n2) := by rw [htd]; exact Nat.mul_comm _ _
    omega
  have f2 : t + 1 ≤ M := by
    have h1 := ceilDiv_self_le hN (show 1 ≤ M by omega)
    have h2 : ceilDiv N n2 = (N - 1) / n2 + 1 := ceilDiv_eq_pred hN hn2pos
    have e : ceilDiv N n2 = ceilDiv N (ceilDiv N M) := by rw [hn2d]
    omega
  have f3 : n2 * M ≤ N + M - 1 := by
    have h1 := Nat.div_mul_le_self (N + M - 1) M
    rw [hn2d]
    show (N + M - 1) / M * M ≤ N + M - 1
    exact h1
  have f4 : n2 ≤ M * A := by
    rw [hn2d]
    exact ceilDiv_le_of_le_mul (by omega) (by
      have e : M * A * M = M * (M * A) := by ring
      omega)
  have hszle : N - t * n2 ≤ n2 := by omega
  have hsz1 : 1 ≤ N - t * n2 := by omega
  refine ⟨?_, by omega⟩
  by_cases hAM : 2 * A ≤ M
  · omega
  · -- M * sz ≥ N - (M-1)^2 > M * (2A - M)
    obtain ⟨m1, hm1⟩ : ∃ m1, M = m1 + 1 := ⟨M - 1, by omega⟩
    have c1 : M * (t * n2) ≤ m1 * (N + m1) := by
      have e1 : M * (t * n2) = t * (n2 * M) := by ring
      have c2 : t * (n2 * M) ≤ m1 * (n2 * M) :=
        Nat.mul_le_mul_right _ (by omega)
      have c3 : m1 * (n2 * M) ≤ m1 * (N + m1) :=
        Nat.mul_le_mul_left _ (by omega)
      omega
    have e3 : M * (N - t * n2) + M * (t * n2) = M * N := by
      rw [← Nat.mul_add]
      congr 1
      omega
    have e2 : m1 * (N + m1) + N = M * N + m1 * m1 := by
      rw [hm1]
      ring
    have key : M * (N - t * n2) + m1 * m1 ≥ N := by omega
    -- conclude by comparing with M * (2A - M)
    obtain ⟨w, hw⟩ : ∃ w, 2 * A = M + w := ⟨2 * A - M, by omega⟩
    by_contra hcon
    have hszw : N - t * n2 ≤ w := by omega
    have c4 : M * (N - t * n2) ≤ M * w := Nat.mul_le_mul_left _ hszw
    have e7a : M * (M + w) = M * M + M * w := by ring
    have e7b : M * (M + w) = 2 * (M * A) := by rw [← hw]; ring
    have e8 : m1 * m1 + 2 * M = M * M + 1 := by rw [hm1]; ring
    omega

/-- Full chunks of the root build level (fan-out `M2 = ceil(N / M^(h-1))`)
keep the size contract of the level below. -/
theorem root_chunk_full {M M2 A N : Nat} (hM : 4 ≤ M) (hM2 : 2 ≤ M2)
    (hM2M : M2 ≤ M) (hA : 1 ≤ A) (hup : N ≤ M2 * (M * A))
    (hlow : (M2 - 1) * (M * A) < N) :
    2 * A - M < ceilDiv N M2 ∧ ceilDiv N M2 ≤ M * A := by
  have hN : 1 ≤ N := by
    have : 0 ≤ (M2 - 1) * (M * A) := Nat.zero_le _
    omega
  constructor
  · have h2A : 2 * A ≤ ceilDiv N M2 := by
      by_contra hcon
      have h1 : N ≤ ceilDiv N M2 * M2 := ceilDiv_mul_ge (by omega)
      have h2 : ceilDiv N M2 * M2 ≤ (2 * A - 1) * M2 :=
        Nat.mul_le_mul_right _ (by omega)
      have h3 : (2 * A - 1) * M2 + M2 = 2 * A * M2 := by
        obtain ⟨w, hw⟩ : ∃ w, 2 * A = w + 1 := ⟨2 * A - 1, by omega⟩
        rw [show 2 * A - 1 = w from by omega, hw]
        ring
      have h4 : 2 * (A * M2) ≤ (M2 - 1) * (M * A) := by
        obtain ⟨m2', hm2'⟩ : ∃ m2', M2 = m2' + 1 := ⟨M2 - 1, by omega⟩
        have e : (M2 - 1) * (M * A) = m2' * (M * A) := by rw [hm2']; simp
        rw [e]
        have c1 : 2 * (A * M2) ≤ m2' * (4 * A) := by
          rw [hm2']
          have e1 : 2 * (A * (m2' + 1)) = 2 * A * m2' + 2 * A := by ring
          have e2 : m2' * (4 * A) = 4 * A * m2' := by ring
          have e6 : 4 * A * m2' = 2 * A * m2' + 2 * A * m2' := by ring
          have hm2'1 : 1 ≤ m2' := by omega
          have c5 : 2 * A ≤ 2 * A * m2' := by
            calc 2 * A = 2 * A * 1 := by ring
              _ ≤ 2 * A * m2' := Nat.mul_le_mul_left _ hm2'1
          omega
        have c2 : m2' * (4 * A) ≤ m2' * (M * A) := by
          refine Nat.mul_le_mul_left _ ?_
          exact Nat.mul_le_mul_right _ (by omega)
        omega
      have e5 : 2 * A * M2 = 2 * (A * M2) := by ring
      omega
    omega
  · exact ceilDiv_le_of_le_mul (by omega) (by
      have e : M * A * M2 = M2 * (M * A) := by ring
      omega)

/-- The final (ragged) chunk of the root build level keeps the size contract
of the level below. -/
theorem root_chunk_last {M M2 A N : Nat} (hM : 4 ≤ M) (hM2 : 2 ≤ M2)
    (hM2M : M2 ≤ M) (hA : 1 ≤ A) (hup : N ≤ M2 * (M * A))
    (hlow : (M2 - 1) * (M * A) < N) :
    2 * A - M < N - (N - 1) / ceilDiv N M2 * ceilDiv N M2 ∧
    N - (N - 1) / ceilDiv N M2 * ceilDiv N M2 ≤ M * A := by
  have hN : 1 ≤ N := by
    have : 0 ≤ (M2 - 1) * (M * A) := Nat.zero_le _
    omega
  set n2 := ceilDiv N M2 with hn2d
  have hn2pos : 1 ≤ n2 := by rw [hn2d]; exact ceilDiv_pos hN (by omega)
  set t := (N - 1) / n2 with htd
  have f1 : t * n2 ≤ N - 1 := by rw [htd]; exact Nat.div_mul_le_self _ _
  have fmod : N - 1 < t * n2 + n2 := by
    have h1 := Nat.div_add_mod (N - 1) n2
    have h2 : (N - 1) % n2 < n2 := Nat.mod_lt _ (by omega)
    have e : t * n2 = n2 * ((N - 1) / n2) := by rw [htd]; exact Nat.mul_comm _ _
    omega
  have f2 : t + 1 ≤ M2 := by
    have h1 := ceilDiv_self_le hN (show 1 ≤ M2 by omega)
    have h2 : ceilDiv N n2 = (N - 1) / n2 + 1 := ceilDiv_eq_pred hN hn2pos
    have e : ceilDiv N n2 = ceilDiv N (ceilDiv N M2) := by rw [hn2d]
    omega
  have f3 : n2 * M2 ≤ N + M2 - 1 := by
    have h1 := Nat.div_mul_le_self (N + M2 - 1) M2
    rw [hn2d]
    show (N + M2 - 1) / M2 * M2 ≤ N + M2 - 1
    exact h1
  have f4 : n2 ≤ M * A := by
    rw [hn2d]
    exact ceilDiv_le_of_le_mul (by omega) (by
      have e : M * A * M2 = M2 * (M * A) := by ring
      omega)
  have hszle : N - t * n2 ≤ n2 := by omega
  have hsz1 : 1 ≤ N - t * n2 := by omega
  refine ⟨?_, by omega⟩
  by_cases hAM : 2 * A ≤ M
  · omega
  · obtain ⟨m2', hm2'⟩ : ∃ m2', M2 = m2' + 1 := ⟨M2 - 1, by omega⟩
    -- M2 * sz ≥ N - (M2-1)^2
    have c1 : M2 * (t * n2) ≤ m2' * (N + m2') := by
      have e1 : M2 * (t * n2) = t * (n2 * M2) := by ring
      have c2 : t * (n2 * M2) ≤ m2' * (n2 * M2) :=
        Nat.mul_le_mul_right _ (by omega)
      have c3 : m2' * (n2 * M2) ≤ m2' * (N + m2') :=
        Nat.mul_le_mul_left _ (by omega)
      omega
    have e3 : M2 * (N - t * n2) + M2 * (t * n2) = M2 * N := by
      rw [← Nat.mul_add]
      congr 1
      omega
    have e2 : m2' * (N + m2') + N = M2 * N + m2' * m2' := by
      rw [hm2']
      ring
    have key : M2 * (N - t * n2) + m2' * m2' ≥ N := by omega
    -- N > (M2-1) * M * A ≥ 2*M2*A ≥ M2*(2A - M) + (M2-1)^2 + 1
    have h1 : 2 * (M2 * A) ≤ m2' * (M * A) := by
      have c4 : 2 * (M2 * A) ≤ m2' * (4 * A) := by
        have hm2'1 : 1 ≤ m2' := by omega
        have e4 : m2' * (4 * A) = 4 * A * m2' := by ring
        have e6 : 4 * A * m2' = 2 * A * m2' + 2 * A * m2' := by ring
        have e5 : 2 * (M2 * A) = 2 * A * m2' + 2 * A := by rw [hm2']; ring
        have c5 : 2 * A ≤ 2 * A * m2' := by
          calc 2 * A = 2 * A * 1 := by ring
            _ ≤ 2 * A * m2' := Nat.mul_le_mul_left _ hm2'1
        omega
      have c6 : m2' * (4 * A) ≤ m2' * (M * A) := by
        refine Nat.mul_le_mul_left _ ?_
        exact Nat.mul_le_mul_right _ (by omega)
      omega
    have hlow' : (M2 - 1) * (M * A) = m2' * (M * A) := by rw [hm2']; simp
    obtain ⟨w, hw⟩ : ∃ w, 2 * A = M + w := ⟨2 * A - M, by omega⟩
    by_contra hcon
    have hszw : N - t * n2 ≤ w := by omega
    have c7 : M2 * (N - t * n2) ≤ M2 * w := Nat.mul_le_mul_left _ hszw
    have e7a : M2 * (M + w) = M2 * M + M2 * w := by ring
    have e7b : M2 * (M + w) = 2 * (M2 * A) := by rw [← hw]; ring
    have e8 : m2' * m2' + 2 * M2 = M2 * M2 + 1 := by rw [hm2']; ring
    have e9 : M2 * M2 ≤ M2 * M := Nat.mul_le_mul_left _ hM2M
    omega

/-! ## Step lemmas of the bulk build -/

theorem bGoNeed_mono (c : Cfg) (h : Nat) {N N' : Nat} (hN : N ≤ N') :
    bGoNeed c h N ≤ bGoNeed c h N' := by
  rw [bGoNeed, bGoNeed]
  have := Nat.mul_le_mul_left h (show 2 * N + 2 * c.dim + 5 ≤ 2 * N' + 2 * c.dim + 5 by omega)
  omega

theorem bGoNeed_mono_h (c : Cfg) {h h' : Nat} (hh : h ≤ h') (N : Nat) :
    bGoNeed c h N ≤ bGoNeed c h' N := by
  rw [bGoNeed, bGoNeed]
  have := Nat.mul_le_mul_right (2 * N + 2 * c.dim + 5) hh
  omega

theorem ceilDiv_eq_one {w a : Nat} (h1 : 1 ≤ w) (h2 : w ≤ a) : ceilDiv w a = 1 := by
  have hu : ceilDiv w a ≤ 1 := ceilDiv_le_of_le_mul (by omega) (by omega)
  have hl : 1 ≤ ceilDiv w a := ceilDiv_pos h1 (by omega)
  omega

theorem buildTiles_exit (c : Cfg) (fuel : Nat) (items : List Item)
    (axis i right n1 n2 h : Nat) (acc : List REntry) (hgt : right < i) :
    buildTiles c fuel items axis i right n1 n2 h acc = (items, acc) := by
  cases fuel with
  | zero => rfl
  | succ m =>
    rw [buildTiles, if_neg (by omega)]

theorem buildTiles_step (c : Cfg) (m : Nat) (items : List Item)
    (axis i right n1 n2 h : Nat) (acc : List REntry) (hle : i ≤ right) :
    buildTiles c (m + 1) items axis i right n1 n2 h acc =
      buildTiles c m
        (if axis + 1 < c.dim then
          (buildAxis c m items (axis + 1) i (min (i + n1 - 1) right) n2 n1 h acc).1
        else (buildGo c m items i (min (i + n1 - 1) right) (h - 1)).1)
        axis (i + n1) right n1 n2 h
        (if axis + 1 < c.dim then
          (buildAxis c m items (axis + 1) i (min (i + n1 - 1) right) n2 n1 h acc).2
        else acc ++
          [REntry.node (buildGo c m items i (min (i + n1 - 1) right) (h - 1)).2]) := by
  rw [buildTiles, if_pos hle]
  by_cases hD : axis + 1 < c.dim
  · rw [if_pos hD, if_pos hD, if_pos hD]
  · rw [if_neg hD, if_neg hD, if_neg hD]

theorem buildAxis_step (c : Cfg) (m : Nat) (items : List Item)
    (axis l right n1 n2 h : Nat) (acc : List REntry) :
    buildAxis c (m + 1) items axis l right n1 n2 h acc =
      buildTiles c m (multiSelect axis n1 items l right) axis l right n1 n2 h acc := by
  rw [buildAxis]

theorem buildGo_step_leaf (c : Cfg) (m : Nat) (items : List Item) (l r hp : Nat)
    (hsmall : r - l + 1 ≤ c.maxEntries) :
    buildGo c (m + 1) items l r hp =
      (items, .mk (((items.drop l).take (r - l + 1)).map REntry.item) 1
        (calcBBox c.dim true (((items.drop l).take (r - l + 1)).map REntry.item))
        true) := by
  rw [buildGo, if_pos hsmall]

theorem buildGo_step_big (c : Cfg) (m : Nat) (items : List Item) (l r hp : Nat)
    (hbig : ¬ (r - l + 1 ≤ c.maxEntries)) (hp0 : hp ≠ 0) :
    buildGo c (m + 1) items l r hp =
      ((buildAxis c m items 0 l r
          (ceilDiv (r - l + 1) c.maxEntries * ceilSqrt c.maxEntries)
          (ceilDiv (r - l + 1) c.maxEntries) hp []).1,
        .mk (buildAxis c m items 0 l r
          (ceilDiv (r - l + 1) c.maxEntries * ceilSqrt c.maxEntries)
          (ceilDiv (r - l + 1) c.maxEntries) hp []).2 hp
          (calcBBox c.dim false (buildAxis c m items 0 l r
            (ceilDiv (r - l + 1) c.maxEntries * ceilSqrt c.maxEntries)
            (ceilDiv (r - l + 1) c.maxEntries) hp []).2) false) := by
  rw [buildGo, if_neg hbig, if_neg hp0]

theorem buildGo_step_root (c : Cfg) (m : Nat) (items : List Item) (l r : Nat)
    (hbig : ¬ (r - l + 1 ≤ c.maxEntries)) :
    buildGo c (m + 1) items l r 0 =
      ((buildAxis c m items 0 l r
          (ceilDiv (r - l + 1)
              (ceilDiv (r - l + 1)
                (c.maxEntries ^ (ceilLog c.maxEntries (r - l + 1) - 1))) *
            ceilSqrt (ceilDiv (r - l + 1)
              (c.maxEntries ^ (ceilLog c.maxEntries (r - l + 1) - 1))))
          (ceilDiv (r - l + 1)
            (ceilDiv (r - l + 1)
              (c.maxEntries ^ (ceilLog c.maxEntries (r - l + 1) - 1))))
          (ceilLog c.maxEntries (r - l + 1)) []).1,
        .mk (buildAxis c m items 0 l r
          (ceilDiv (r - l + 1)
              (ceilDiv (r - l + 1)
                (c.maxEntries ^ (ceilLog c.maxEntries (r - l + 1) - 1))) *
            ceilSqrt (ceilDiv (r - l + 1)
              (c.maxEntries ^ (ceilLog c.maxEntries (r - l + 1) - 1))))
          (ceilDiv (r - l + 1)
            (ceilDiv (r - l + 1)
              (c.maxEntries ^ (ceilLog c.maxEntries (r - l + 1) - 1))))
          (ceilLog c.maxEntries (r - l + 1)) []).2
          (ceilLog c.maxEntries (r - l + 1))
          (calcBBox c.dim false (buildAxis c m items 0 l r
            (ceilDiv (r - l + 1)
                (ceilDiv (r - l + 1)
                  (c.maxEntries ^ (ceilLog c.maxEntries (r - l + 1) - 1))) *
              ceilSqrt (ceilDiv (r - l + 1)
                (c.maxEntries ^ (ceilLog c.maxEntries (r - l + 1) - 1))))
            (ceilDiv (r - l + 1)
              (ceilDiv (r - l + 1)
                (c.maxEntries ^ (ceilLog c.maxEntries (r - l + 1) - 1))))
            (ceilLog c.maxEntries (r - l + 1)) []).2) false) := by
  rw [buildGo, if_neg hbig, if_pos rfl]

theorem segPerm_valid {dim : Nat} {l r : Nat} {a b : List Item} (h : SegPerm l r a b)
    (hval : ∀ it ∈ a, validItemB dim it = true) : ∀ it ∈ b, validItemB dim it = true :=
  fun it hit => hval it (h.2.2.2.mem_iff.mp hit)

theorem stepTilHi (c : Cfg) (m : Nat) (iGo : PGo c m) (iAxHi : PAxHi c m) :
    PTilHi c (m + 1) := by
  intro items axis l right u v h acc hval hrlen hlr hax2 haxD hcu hcv hinv hh2 hfuel
  rw [buildTiles_step c m items axis l right u v h acc hlr]
  have hmin : min (l + u - 1) right = right := by omega
  by_cases hD : axis + 1 < c.dim
  · rw [if_pos hD, if_pos hD, hmin]
    obtain ⟨q1, m1, hq2, hq3, hq4, hq5, hq6⟩ :=
      iAxHi items (axis + 1) l right v u h acc hval hrlen hlr (by omega) hD hcv hcu
        hinv hh2 (by omega)
    rw [buildTiles_exit c m _ axis (l + u) right u v h _ (by omega)]
    exact ⟨q1, m1, hq2, hq3, hq4, hq5, hq6⟩
  · rw [if_neg hD, if_neg hD, hmin]
    obtain ⟨q1, q2, q3, q4, q5⟩ := iGo items l right (h - 1) hval hrlen hlr hinv
      (by omega)
    rw [buildTiles_exit c m _ axis (l + u) right u v h _ (by omega)]
    exact ⟨q1, (buildGo c m items l right (h - 1)).2, rfl, q2, q3, q4, q5⟩

theorem stepAxHi (c : Cfg) (m : Nat) (iTilHi : PTilHi c m) : PAxHi c (m + 1) := by
  intro items axis l right u v h acc hval hrlen hlr hax2 haxD hcu hcv hinv hh2 hfuel
  rw [buildAxis_step]
  obtain ⟨ms1, ms2⟩ := multiSelect_post axis u items l right hlr hrlen
    (fun x _ hx2 => valid_keys_isNum hval (show axis < 2 * c.dim by omega) hrlen x
      (Nat.zero_le x) hx2)
  have hval1 : ∀ it ∈ multiSelect axis u items l right, validItemB c.dim it = true :=
    segPerm_valid ms1 hval
  have hlen1 : right < (multiSelect axis u items l right).length := by
    rw [ms1.1]
    exact hrlen
  obtain ⟨t1, m1, ht2, ht3, ht4, ht5, ht6⟩ :=
    iTilHi (multiSelect axis u items l right) axis l right u v h acc hval1 hlen1 hlr
      hax2 haxD hcu hcv hinv hh2 (by omega)
  exact ⟨segPerm_trans ms1 t1, m1, ht2, ht3, ht4, ht5,
    ht6.trans (segPerm_seg ms1 hlr hrlen)⟩

theorem stepTil1 (c : Cfg) (m : Nat) (iGo : PGo c m) (iAxHi : PAxHi c m)
    (iTil1 : PTil1 c m) : PTil1 c (m + 1) := by
  intro items i right a b h s acc hval hrlen hlr ha1 hs1 hb hh2 htile hfuel
  rw [buildTiles_step c m items 1 i right a b h acc hlr]
  have hab : a ≤ b := by
    rw [hb]
    calc a = 1 * a := by ring
      _ ≤ s * a := Nat.mul_le_mul_right a hs1
  set r1 := min (i + a - 1) right with hr1
  have hr1i : i ≤ r1 := by omega
  have hr1r : r1 ≤ right := by omega
  have hsz : BuildInv c.maxEntries (r1 - i + 1) (h - 1) := by
    have hi0 := htile i 0 (by omega) hlr
    have e : min a (right - i + 1) = r1 - i + 1 := by omega
    rw [e] at hi0
    exact hi0
  by_cases hD : 1 + 1 < c.dim
  · -- descend to the axis-2 walk: the whole tile becomes one child
    rw [if_pos hD, if_pos hD]
    obtain ⟨q1, m1, hq2, hq3, hq4, hq5, hq6⟩ :=
      iAxHi items (1 + 1) i r1 b a h acc hval (by omega) hr1i (le_refl _) hD
        (by omega) (by omega) hsz hh2
        (by
          have := bGoNeed_mono c (h - 1) (show r1 - i + 1 ≤ a by omega)
          omega)
    rw [hq2]
    have hval1 : ∀ it ∈ (buildAxis c m items (1 + 1) i r1 b a h acc).1,
        validItemB c.dim it = true := segPerm_valid q1 hval
    have hlen1 : right < (buildAxis c m items (1 + 1) i r1 b a h acc).1.length := by
      rw [q1.1]
      exact hrlen
    by_cases hcont : i + a ≤ right
    · have hr1e : r1 = i + a - 1 := by omega
      have htile' : ∀ j t, j = i + a + t * a → j ≤ right →
          BuildInv c.maxEntries (min a (right - j + 1)) (h - 1) := by
        intro j t hj hjr
        refine htile j (t + 1) ?_ hjr
        have e : (t + 1) * a = t * a + a := by ring
        omega
      obtain ⟨t1, ns', ht2, ht3, ht4, ht5⟩ :=
        iTil1 (buildAxis c m items (1 + 1) i r1 b a h acc).1 (i + a) right a b h s
          (acc ++ [REntry.node m1]) hval1 hlen1 hcont ha1 hs1 hb hh2 htile'
          (by omega)
      refine ⟨?_, [REntry.node m1] ++ ns', ?_, ?_, ?_, ?_⟩
      · exact segPerm_trans (segPerm_widen (le_refl i) hr1r q1)
          (segPerm_widen (by omega) (le_refl right) t1)
      · rw [ht2, List.append_assoc]
      · rw [List.singleton_append, List.length_cons, ht3]
        have e : right - i + 1 = (right - (i + a) + 1) + 1 * a := by omega
        rw [e, ceilDiv_add_mul (by omega) (by omega)]
      · intro e he
        rcases List.mem_append.mp he with h1 | h2
        · rw [List.mem_singleton.mp h1]
          exact ⟨m1, rfl, hq3, hq4, hq5⟩
        · exact ht4 e h2
      · rw [List.singleton_append, itemsOfEnts_cons, itemsOfEnt_node]
        have e2 : seg (buildAxis c m items (1 + 1) i r1 b a h acc).1 (i + a) right =
            seg items (i + a) right := segPerm_seg_right q1 (by omega)
        have e3 : seg items i r1 ++ seg items (i + a) right = seg items i right := by
          have e4 : i + a = r1 + 1 := by omega
          rw [e4]
          exact seg_append_adjacent (by omega) (by omega)
        have hp := hq6.append (ht5.trans (by rw [e2]))
        rw [e3] at hp
        exact hp
    · have hr1e : r1 = right := by omega
      rw [buildTiles_exit c m _ 1 (i + a) right a b h _ (by omega)]
      rw [hr1e] at q1 hq6 ⊢
      refine ⟨q1, [REntry.node m1], rfl, ?_, ?_, ?_⟩
      · rw [ceilDiv_eq_one (by omega) (by omega)]
        rfl
      · intro e he
        rw [List.mem_singleton.mp he]
        exact ⟨m1, rfl, hq3, hq4, hq5⟩
      · rw [itemsOfEnts_cons, itemsOfEnt_node,
          show itemsOfEnts [] = [] from rfl, List.append_nil]
        exact hq6
  · -- two dimensions: pack the tile directly
    rw [if_neg hD, if_neg hD]
    obtain ⟨q1, q2, q3, q4, q5⟩ := iGo items i r1 (h - 1) hval (by omega) hr1i hsz
      (by
        have := bGoNeed_mono c (h - 1) (show r1 - i + 1 ≤ a by omega)
        omega)
    have hval1 : ∀ it ∈ (buildGo c m items i r1 (h - 1)).1,
        validItemB c.dim it = true := segPerm_valid q1 hval
    have hlen1 : right < (buildGo c m items i r1 (h - 1)).1.length := by
      rw [q1.1]
      exact hrlen
    by_cases hcont : i + a ≤ right
    · have hr1e : r1 = i + a - 1 := by omega
      have htile' : ∀ j t, j = i + a + t * a → j ≤ right →
          BuildInv c.maxEntries (min a (right - j + 1)) (h - 1) := by
        intro j t hj hjr
        refine htile j (t + 1) ?_ hjr
        have e : (t + 1) * a = t * a + a := by ring
        omega
      obtain ⟨t1, ns', ht2, ht3, ht4, ht5⟩ :=
        iTil1 (buildGo c m items i r1 (h - 1)).1 (i + a) right a b h s
          (acc ++ [REntry.node (buildGo c m items i r1 (h - 1)).2]) hval1 hlen1 hcont
          ha1 hs1 hb hh2 htile' (by omega)
      refine ⟨?_, [REntry.node (buildGo c m items i r1 (h - 1)).2] ++ ns', ?_, ?_, ?_, ?_⟩
      · exact segPerm_trans (segPerm_widen (le_refl i) hr1r q1)
          (segPerm_widen (by omega) (le_refl right) t1)
      · rw [ht2, List.append_assoc]
      · rw [List.singleton_append, List.length_cons, ht3]
        have e : right - i + 1 = (right - (i + a) + 1) + 1 * a := by omega
        rw [e, ceilDiv_add_mul (by omega) (by omega)]
      · intro e he
        rcases List.mem_append.mp he with h1 | h2
        · rw [List.mem_singleton.mp h1]
          exact ⟨(buildGo c m items i r1 (h - 1)).2, rfl, q2, q3, q4⟩
        · exact ht4 e h2
      · rw [List.singleton_append, itemsOfEnts_cons, itemsOfEnt_node]
        have e2 : seg (buildGo c m items i r1 (h - 1)).1 (i + a) right =
            seg items (i + a) right := segPerm_seg_right q1 (by omega)
        have e3 : seg items i r1 ++ seg items (i + a) right = seg items i right := by
          have e4 : i + a = r1 + 1 := by omega
          rw [e4]
          exact seg_append_adjacent (by omega) (by omega)
        have hp := q5.append (ht5.trans (by rw [e2]))
        rw [e3] at hp
        exact hp
    · have hr1e : r1 = right := by omega
      rw [buildTiles_exit c m _ 1 (i + a) right a b h _ (by omega)]
      rw [hr1e] at q1 q2 q3 q4 q5 ⊢
      refine ⟨q1, [REntry.node (buildGo c m items i right (h - 1)).2], rfl, ?_, ?_, ?_⟩
      · rw [ceilDiv_eq_one (by omega) (by omega)]
        rfl
      · intro e he
        rw [List.mem_singleton.mp he]
        exact ⟨(buildGo c m items i right (h - 1)).2, rfl, q2, q3, q4⟩
      · rw [itemsOfEnts_cons, itemsOfEnt_node,
          show itemsOfEnts [] = [] from rfl, List.append_nil]
        exact q5

theorem stepAx1 (c : Cfg) (hdim : 2 ≤ c.dim) (m : Nat) (iTil1 : PTil1 c m) :
    PAx1 c (m + 1) := by
  intro items l right a b h s acc hval hrlen hlr ha1 hs1 hb hh2 htile hfuel
  rw [buildAxis_step]
  obtain ⟨ms1, ms2⟩ := multiSelect_post 1 a items l right hlr hrlen
    (fun x _ hx2 => valid_keys_isNum hval (show 1 < 2 * c.dim by omega) hrlen x
      (Nat.zero_le x) hx2)
  have hval1 : ∀ it ∈ multiSelect 1 a items l right, validItemB c.dim it = true :=
    segPerm_valid ms1 hval
  have hlen1 : right < (multiSelect 1 a items l right).length := by
    rw [ms1.1]
    exact hrlen
  obtain ⟨t1, ns, ht2, ht3, ht4, ht5⟩ :=
    iTil1 (multiSelect 1 a items l right) l right a b h s acc hval1 hlen1 hlr ha1
      hs1 hb hh2 htile (by omega)
  exact ⟨segPerm_trans ms1 t1, ns, ht2, ht3, ht4,
    ht5.trans (segPerm_seg ms1 hlr hrlen)⟩

theorem stepTil0 (c : Cfg) (hdim : 2 ≤ c.dim) (m : Nat) (iAx1 : PAx1 c m)
    (iTil0 : PTil0 c m) : PTil0 c (m + 1) := by
  intro items i right n1 n2 h s acc hval hrlen hlr hn2 hs1 hn1e hh2 htile hfuel
  rw [buildTiles_step c m items 0 i right n1 n2 h acc hlr]
  rw [if_pos (show 0 + 1 < c.dim by omega), if_pos (show 0 + 1 < c.dim by omega)]
  simp only [Nat.zero_add]
  have hn1 : 1 ≤ n1 := by
    rw [hn1e]
    calc 1 = 1 * 1 := by ring
      _ ≤ s * n2 := Nat.mul_le_mul hs1 hn2
  set r1 := min (i + n1 - 1) right with hr1
  have hr1i : i ≤ r1 := by omega
  have hr1r : r1 ≤ right := by omega
  have htile' : ∀ j t, j = i + t * n2 → j ≤ r1 →
      BuildInv c.maxEntries (min n2 (r1 - j + 1)) (h - 1) := by
    intro j t hj hjr
    have hbase := htile j t hj (by omega)
    by_cases hfull : i + n1 - 1 ≤ right
    · have hr1e : r1 = i + n1 - 1 := by omega
      have hts : t * n2 + n2 ≤ s * n2 := by
        have hlt : t < s := by
          by_contra hge
          have : s * n2 ≤ t * n2 := Nat.mul_le_mul_right n2 (by omega)
          omega
        have : (t + 1) * n2 ≤ s * n2 := Nat.mul_le_mul_right n2 (by omega)
        have e : (t + 1) * n2 = t * n2 + n2 := by ring
        omega
      have e1 : min n2 (r1 - j + 1) = n2 := by omega
      have e2 : min n2 (right - j + 1) = n2 := by omega
      rw [e1]
      rw [e2] at hbase
      exact hbase
    · have hr1e : r1 = right := by omega
      rw [hr1e]
      exact hbase
  obtain ⟨q1, ns1, hq2, hq3, hq4, hq5⟩ :=
    iAx1 items i r1 n2 n1 h s acc hval (by omega) hr1i hn2 hs1 hn1e hh2 htile'
      (by omega)
  rw [hq2]
  have hval1 : ∀ it ∈ (buildAxis c m items 1 i r1 n2 n1 h acc).1,
      validItemB c.dim it = true := segPerm_valid q1 hval
  have hlen1 : right < (buildAxis c m items 1 i r1 n2 n1 h acc).1.length := by
    rw [q1.1]
    exact hrlen
  by_cases hcont : i + n1 ≤ right
  · have hr1e : r1 = i + n1 - 1 := by omega
    have htile2 : ∀ j t, j = i + n1 + t * n2 → j ≤ right →
        BuildInv c.maxEntries (min n2 (right - j + 1)) (h - 1) := by
      intro j t hj hjr
      refine htile j (s + t) ?_ hjr
      have e : (s + t) * n2 = s * n2 + t * n2 := by ring
      omega
    obtain ⟨t1, ns', ht2, ht3, ht4, ht5⟩ :=
      iTil0 (buildAxis c m items 1 i r1 n2 n1 h acc).1 (i + n1) right n1 n2 h s
        (acc ++ ns1) hval1 hlen1 hcont hn2 hs1 hn1e hh2 htile2 (by omega)
    refine ⟨?_, ns1 ++ ns', ?_, ?_, ?_, ?_⟩
    · exact segPerm_trans (segPerm_widen (le_refl i) hr1r q1)
        (segPerm_widen (by omega) (le_refl right) t1)
    · rw [ht2, List.append_assoc]
    · rw [List.length_append, hq3, ht3]
      have e0 : r1 - i + 1 = s * n2 := by omega
      rw [e0, ceilDiv_mul_self (by omega)]
      have e : right - i + 1 = (right - (i + n1) + 1) + s * n2 := by omega
      rw [e, ceilDiv_add_mul (by omega) (by omega)]
      omega
    · intro e he
      rcases List.mem_append.mp he with h1 | h2
      · exact hq4 e h1
      · exact ht4 e h2
    · rw [itemsOfEnts_append]
      have e2 : seg (buildAxis c m items 1 i r1 n2 n1 h acc).1 (i + n1) right =
          seg items (i + n1) right := segPerm_seg_right q1 (by omega)
      have e3 : seg items i r1 ++ seg items (i + n1) right = seg items i right := by
        have e4 : i + n1 = r1 + 1 := by omega
        rw [e4]
        exact seg_append_adjacent (by omega) (by omega)
      have hp := hq5.append (ht5.trans (by rw [e2]))
      rw [e3] at hp
      exact hp
  · have hr1e : r1 = right := by omega
    rw [buildTiles_exit c m _ 0 (i + n1) right n1 n2 h _ (by omega)]
    rw [hr1e] at q1 hq3 hq5 ⊢
    exact ⟨q1, ns1, rfl, hq3, hq4, hq5⟩

theorem stepAx0 (c : Cfg) (hdim : 2 ≤ c.dim) (m : Nat) (iTil0 : PTil0 c m) :
    PAx0 c (m + 1) := by
  intro items l right n1 n2 h s acc hval hrlen hlr hn2 hs1 hn1e hh2 htile hfuel
  rw [buildAxis_step]
  obtain ⟨ms1, ms2⟩ := multiSelect_post 0 n1 items l right hlr hrlen
    (fun x _ hx2 => valid_keys_isNum hval (show 0 < 2 * c.dim by omega) hrlen x
      (Nat.zero_le x) hx2)
  have hval1 : ∀ it ∈ multiSelect 0 n1 items l right, validItemB c.dim it = true :=
    segPerm_valid ms1 hval
  have hlen1 : right < (multiSelect 0 n1 items l right).length := by
    rw [ms1.1]
    exact hrlen
  obtain ⟨t1, ns, ht2, ht3, ht4, ht5⟩ :=
    iTil0 (multiSelect 0 n1 items l right) l right n1 n2 h s acc hval1 hlen1 hlr hn2
      hs1 hn1e hh2 htile (by omega)
  exact ⟨segPerm_trans ms1 t1, ns, ht2, ht3, ht4,
    ht5.trans (segPerm_seg ms1 hlr hrlen)⟩

theorem ceilDiv_le_self {N M : Nat} (hM : 1 ≤ M) : ceilDiv N M ≤ N := by
  refine ceilDiv_le_of_le_mul hM ?_
  calc N = N * 1 := by ring
    _ ≤ N * M := Nat.mul_le_mul_left N hM

theorem stepGo (c : Cfg) (hdim : 2 ≤ c.dim) (hM4 : 4 ≤ c.maxEntries) (m : Nat)
    (iAx0 : PAx0 c m) : PGo c (m + 1) := by
  intro items left right hp hval hrlen hlr hinv hfuel
  by_cases hsmall : right - left + 1 ≤ c.maxEntries
  · -- leaf level
    rw [buildGo_step_leaf c m items left right hp hsmall]
    have hp1 : hp = 1 := by
      rcases hinv with ⟨h1, _, _⟩ | ⟨h2, hlow, hup⟩
      · exact h1
      · exfalso
        have hMpow : c.maxEntries ≤ c.maxEntries ^ (hp - 1) := by
          calc c.maxEntries = c.maxEntries ^ 1 := (pow_one _).symm
            _ ≤ c.maxEntries ^ (hp - 1) := Nat.pow_le_pow_right (by omega) (by omega)
        omega
    have hcse : (items.drop left).take (right - left + 1) = seg items left right := by
      rw [seg, show right + 1 - left = right - left + 1 from by omega]
    have hcslen : ((items.drop left).take (right - left + 1)).length =
        right - left + 1 := by
      rw [List.length_take, List.length_drop]
      omega
    refine ⟨segPerm_refl _ _ _, ?_, ?_, ?_, ?_⟩
    · rw [wfB_node]
      refine ⟨rfl, ?_, ?_, ?_⟩
      · rw [List.length_map, hcslen]
        exact hsmall
      · simp
      · refine wfEntsB_map_item c _ ?_
        intro it hit
        refine hval it ?_
        rw [hcse] at hit
        exact seg_subset hit
    · rw [height_mk, hp1]
    · rw [children_mk, List.length_map, hcslen]
      omega
    · rw [itemsOf_mk, itemsOfEnts_map_item, hcse]
  · -- internal level
    have hp2 : 2 ≤ hp := by
      rcases hinv with ⟨h1, _, hNM⟩ | ⟨h2, _, _⟩
      · omega
      · exact h2
    rcases hinv with ⟨h1, hge1, hle1⟩ | ⟨_, hlow, hup⟩
    · omega
    rw [buildGo_step_big c m items left right hp hsmall (by omega)]
    have hN1 : 1 ≤ right - left + 1 := by omega
    have hn2 : 1 ≤ ceilDiv (right - left + 1) c.maxEntries := ceilDiv_pos hN1 (by omega)
    have hsq : 1 ≤ ceilSqrt c.maxEntries := ceilSqrt_pos (by omega)
    have hpowA : 1 ≤ c.maxEntries ^ (hp - 2) := Nat.one_le_pow _ _ (by omega)
    have epow1 : c.maxEntries * c.maxEntries ^ (hp - 2) = c.maxEntries ^ (hp - 1) := by
      rw [show hp - 1 = (hp - 2) + 1 from by omega, pow_succ]
      ring
    have epow2 : c.maxEntries * (c.maxEntries * c.maxEntries ^ (hp - 2)) =
        c.maxEntries ^ hp := by
      conv_rhs => rw [show hp = (hp - 2) + 2 from by omega]
      rw [pow_succ, pow_succ]
      ring
    have htile : ∀ j t, j = left + t * ceilDiv (right - left + 1) c.maxEntries →
        j ≤ right →
        BuildInv c.maxEntries
          (min (ceilDiv (right - left + 1) c.maxEntries) (right - j + 1)) (hp - 1) := by
      intro j t hj hjr
      by_cases hp3 : 3 ≤ hp
      · right
        refine ⟨by omega, ?_⟩
        have hlow' : 2 * (c.maxEntries * c.maxEntries ^ (hp - 2)) - c.maxEntries <
            right - left + 1 := by rw [epow1]; exact hlow
        have hup' : right - left + 1 ≤
            c.maxEntries * (c.maxEntries * c.maxEntries ^ (hp - 2)) := by
          rw [epow2]; exact hup
        have epow3 : c.maxEntries ^ (hp - 1 - 1) = c.maxEntries ^ (hp - 2) := by
          congr 1
        by_cases hfull : ceilDiv (right - left + 1) c.maxEntries ≤ right - j + 1
        · have hmin : min (ceilDiv (right - left + 1) c.maxEntries) (right - j + 1) =
              ceilDiv (right - left + 1) c.maxEntries := by omega
          rw [hmin, epow3]
          obtain ⟨c1, c2⟩ := chunk_full_arith hM4 hpowA hlow' hup'
          rw [epow1] at c2
          exact ⟨c1, c2⟩
        · have hmin : min (ceilDiv (right - left + 1) c.maxEntries) (right - j + 1) =
              right - j + 1 := by omega
          have htE : ((right - left + 1) - 1) / ceilDiv (right - left + 1) c.maxEntries
              = t := by
            refine Nat.div_eq_of_lt_le ?_ ?_
            · omega
            · have e : (t + 1) * ceilDiv (right - left + 1) c.maxEntries =
                  t * ceilDiv (right - left + 1) c.maxEntries +
                    ceilDiv (right - left + 1) c.maxEntries := by ring
              omega
          obtain ⟨c1, c2⟩ := chunk_last_arith hM4 hpowA hlow' hup' hN1
          rw [htE] at c1 c2
          have esz : (right - left + 1) -
              t * ceilDiv (right - left + 1) c.maxEntries = right - j + 1 := by omega
          rw [esz] at c1 c2
          rw [hmin, epow3]
          rw [epow1] at c2
          exact ⟨c1, c2⟩
      · -- hp = 2 : the children are leaves
        left
        have hup2 : right - left + 1 ≤ c.maxEntries * c.maxEntries := by
          have e : c.maxEntries ^ hp = c.maxEntries * c.maxEntries := by
            rw [show hp = 2 from by omega]
            ring
          omega
        refine ⟨by omega, by omega, ?_⟩
        have : ceilDiv (right - left + 1) c.maxEntries ≤ c.maxEntries :=
          ceilDiv_le_of_le_mul (by omega) hup2
        omega
    obtain ⟨q1, ns, hq2, hq3, hq4, hq5⟩ :=
      iAx0 items left right
        (ceilDiv (right - left + 1) c.maxEntries * ceilSqrt c.maxEntries)
        (ceilDiv (right - left + 1) c.maxEntries) hp (ceilSqrt c.maxEntries) []
        hval hrlen hlr hn2 hsq (Nat.mul_comm _ _) hp2 htile
        (by
          have hN2N : ceilDiv (right - left + 1) c.maxEntries ≤ right - left + 1 :=
            ceilDiv_le_self (by omega)
          have hmono := bGoNeed_mono c (hp - 1) hN2N
          obtain ⟨k, hk⟩ : ∃ k, hp = k + 1 := ⟨hp - 1, by omega⟩
          rw [hk] at hfuel
          have hk1 : hp - 1 = k := by omega
          rw [hk1] at hmono
          simp only [bGoNeed] at hfuel hmono ⊢
          rw [hk1]
          have e : (k + 1) * (2 * (right - left + 1) + 2 * c.dim + 5) =
              k * (2 * (right - left + 1) + 2 * c.dim + 5) +
                (2 * (right - left + 1) + 2 * c.dim + 5) := by ring
          omega)
    rw [List.nil_append] at hq2
    have hcount : (buildAxis c m items 0 left right
        (ceilDiv (right - left + 1) c.maxEntries * ceilSqrt c.maxEntries)
        (ceilDiv (right - left + 1) c.maxEntries) hp []).2.length =
        ceilDiv (right - left + 1) (ceilDiv (right - left + 1) c.maxEntries) := by
      rw [hq2, hq3]
    refine ⟨q1, ?_, ?_, ?_, ?_⟩
    · rw [wfB_node]
      refine ⟨rfl, ?_, ?_, ?_⟩
      · rw [hcount]
        exact ceilDiv_self_le hN1 (by omega)
      · refine ⟨hp2, ?_⟩
        rw [hcount]
        have := ceilDiv_pos hN1 hn2
        omega
      · rw [wfEntsB_iff]
        intro e he
        rw [hq2] at he
        obtain ⟨mm, rfl, hw, hh, hne⟩ := hq4 e he
        rw [wfEntB_node_iff]
        exact ⟨rfl, by omega, hne, hw⟩
    · rw [height_mk]
    · rw [children_mk, hcount]
      have := ceilDiv_pos hN1 hn2
      omega
    · rw [itemsOf_mk, hq2]
      exact hq5

theorem build_master (c : Cfg) (hdim : 2 ≤ c.dim) (hM4 : 4 ≤ c.maxEntries) :
    ∀ fuel, PGo c fuel ∧ PAx0 c fuel ∧ PTil0 c fuel ∧ PAx1 c fuel ∧ PTil1 c fuel ∧
      PAxHi c fuel ∧ PTilHi c fuel := by
  intro fuel
  induction fuel with
  | zero =>
    refine ⟨?_, ?_, ?_, ?_, ?_, ?_, ?_⟩
    · intro items left right hp _ _ _ _ hfuel
      exfalso
      simp only [bGoNeed] at hfuel
      omega
    · intro items l right n1 n2 h s acc _ _ _ _ _ _ _ _ hfuel
      exfalso
      omega
    · intro items i right n1 n2 h s acc _ _ _ _ _ _ _ _ hfuel
      exfalso
      omega
    · intro items l right a b h s acc _ _ _ _ _ _ _ _ hfuel
      exfalso
      omega
    · intro items i right a b h s acc _ _ _ _ _ _ _ _ hfuel
      exfalso
      omega
    · intro items axis l right u v h acc _ _ _ _ _ _ _ _ _ hfuel
      exfalso
      simp only [bGoNeed] at hfuel
      omega
    · intro items axis l right u v h acc _ _ _ hax2 haxD _ _ _ _ hfuel
      exfalso
      simp only [bGoNeed] at hfuel
      omega
  | succ m IH =>
    obtain ⟨iGo, iAx0, iTil0, iAx1, iTil1, iAxHi, iTilHi⟩ := IH
    exact ⟨stepGo c hdim hM4 m iAx0, stepAx0 c hdim m iTil0,
      stepTil0 c hdim m iAx1 iTil0, stepAx1 c hdim m iTil1,
      stepTil1 c m iGo iAxHi iTil1, stepAxHi c m iTilHi,
      stepTilHi c m iGo iAxHi⟩

/-- The top-level `_build(items, left, right, 0)` call: it permutes the segment
in place and returns a well-formed non-empty tree holding exactly the
segment's items. -/
theorem buildGo_root (c : Cfg) (hdim : 2 ≤ c.dim) (hM4 : 4 ≤ c.maxEntries)
    (fuel : Nat) (items : List Item) (left right : Nat)
    (hval : ∀ it ∈ items, validItemB c.dim it = true)
    (hrlen : right < items.length) (hlr : left ≤ right)
    (hfuel : (right - left + 1) * (2 * (right - left + 1) + 2 * c.dim + 5) +
      (right - left + 1) + 2 * c.dim + 8 ≤ fuel) :
    SegPerm left right items (buildGo c fuel items left right 0).1 ∧
    wfB c (buildGo c fuel items left right 0).2 = true ∧
    (buildGo c fuel items left right 0).2.children.length ≠ 0 ∧
    (itemsOf (buildGo c fuel items left right 0).2).Perm (seg items left right) := by
  obtain ⟨m, rfl⟩ : ∃ m, fuel = m + 1 := ⟨fuel - 1, by omega⟩
  by_cases hsmall : right - left + 1 ≤ c.maxEntries
  · rw [buildGo_step_leaf c m items left right 0 hsmall]
    have hcse : (items.drop left).take (right - left + 1) = seg items left right := by
      rw [seg, show right + 1 - left = right - left + 1 from by omega]
    have hcslen : ((items.drop left).take (right - left + 1)).length =
        right - left + 1 := by
      rw [List.length_take, List.length_drop]
      omega
    refine ⟨segPerm_refl _ _ _, ?_, ?_, ?_⟩
    · rw [wfB_node]
      refine ⟨rfl, ?_, ?_, ?_⟩
      · rw [List.length_map, hcslen]
        exact hsmall
      · simp
      · refine wfEntsB_map_item c _ ?_
        intro it hit
        refine hval it ?_
        rw [hcse] at hit
        exact seg_subset hit
    · rw [children_mk, List.length_map, hcslen]
      omega
    · rw [itemsOf_mk, itemsOfEnts_map_item, hcse]
  · rw [buildGo_step_root c m items left right hsmall]
    set h := ceilLog c.maxEntries (right - left + 1) with hhd
    set M2 := ceilDiv (right - left + 1) (c.maxEntries ^ (h - 1)) with hM2d
    have hN1 : 1 ≤ right - left + 1 := by omega
    obtain ⟨hcl1, hcl2, hcl3⟩ := ceilLog_spec (show 2 ≤ c.maxEntries by omega) hN1
    rw [← hhd] at hcl1 hcl2 hcl3
    have hh2 : 2 ≤ h := by
      by_contra hcon
      have : c.maxEntries ^ h ≤ c.maxEntries := by
        calc c.maxEntries ^ h ≤ c.maxEntries ^ 1 :=
          Nat.pow_le_pow_right (by omega) (by omega)
          _ = c.maxEntries := pow_one _
      omega
    have hpow1 : 1 ≤ c.maxEntries ^ (h - 1) := Nat.one_le_pow _ _ (by omega)
    have hMh1 : c.maxEntries ^ (h - 1) < right - left + 1 := hcl3 (h - 1) (by omega)
    have epowh : c.maxEntries * c.maxEntries ^ (h - 1) = c.maxEntries ^ h := by
      conv_rhs => rw [show h = (h - 1) + 1 from by omega]
      rw [pow_succ]
      ring
    have hM2low : 2 ≤ M2 := by
      rw [hM2d]
      have := @ceilDiv_gt (right - left + 1) (c.maxEntries ^ (h - 1)) 1
        hpow1 (by omega)
      omega
    have hM2M : M2 ≤ c.maxEntries := by
      rw [hM2d]
      exact ceilDiv_le_of_le_mul hpow1 (by
        have e : c.maxEntries * (c.maxEntries ^ (h - 1)) = c.maxEntries ^ h := epowh
        omega)
    have hNle : right - left + 1 ≤ M2 * c.maxEntries ^ (h - 1) := by
      rw [hM2d]
      have := @ceilDiv_mul_ge (right - left + 1) (c.maxEntries ^ (h - 1)) hpow1
      have e : ceilDiv (right - left + 1) (c.maxEntries ^ (h - 1)) *
          c.maxEntries ^ (h - 1) =
          ceilDiv (right - left + 1) (c.maxEntries ^ (h - 1)) *
            c.maxEntries ^ (h - 1) := rfl
      omega
    have hNgt : (M2 - 1) * c.maxEntries ^ (h - 1) < right - left + 1 := by
      by_contra hcon
      have : ceilDiv (right - left + 1) (c.maxEntries ^ (h - 1)) ≤ M2 - 1 :=
        ceilDiv_le_of_le_mul hpow1 (by omega)
      rw [← hM2d] at this
      omega
    have hn2 : 1 ≤ ceilDiv (right - left + 1) M2 := ceilDiv_pos hN1 (by omega)
    have hsq : 1 ≤ ceilSqrt M2 := ceilSqrt_pos (by omega)
    have hpowA : 1 ≤ c.maxEntries ^ (h - 2) := Nat.one_le_pow _ _ (by omega)
    have epow1 : c.maxEntries * c.maxEntries ^ (h - 2) = c.maxEntries ^ (h - 1) := by
      conv_rhs => rw [show h - 1 = (h - 2) + 1 from by omega]
      rw [pow_succ]
      ring
    have hup' : right - left + 1 ≤ M2 * (c.maxEntries * c.maxEntries ^ (h - 2)) := by
      rw [epow1]
      exact hNle
    have hlow' : (M2 - 1) * (c.maxEntries * c.maxEntries ^ (h - 2)) <
        right - left + 1 := by
      rw [epow1]
      exact hNgt
    have htile : ∀ j t, j = left + t * ceilDiv (right - left + 1) M2 →
        j ≤ right →
        BuildInv c.maxEntries
          (min (ceilDiv (right - left + 1) M2) (right - j + 1)) (h - 1) := by
      intro j t hj hjr
      by_cases hp3 : 3 ≤ h
      · right
        refine ⟨by omega, ?_⟩
        have epow3 : c.maxEntries ^ (h - 1 - 1) = c.maxEntries ^ (h - 2) := by
          congr 1
        by_cases hfull : ceilDiv (right - left + 1) M2 ≤ right - j + 1
        · have hmin : min (ceilDiv (right - left + 1) M2) (right - j + 1) =
              ceilDiv (right - left + 1) M2 := by omega
          rw [hmin, epow3]
          obtain ⟨c1, c2⟩ := root_chunk_full hM4 hM2low hM2M hpowA hup' hlow'
          rw [epow1] at c2
          exact ⟨c1, c2⟩
        · have hmin : min (ceilDiv (right - left + 1) M2) (right - j + 1) =
              right - j + 1 := by omega
          have htE : ((right - left + 1) - 1) / ceilDiv (right - left + 1) M2 = t := by
            refine Nat.div_eq_of_lt_le ?_ ?_
            · omega
            · have e : (t + 1) * ceilDiv (right - left + 1) M2 =
                  t * ceilDiv (right - left + 1) M2 +
                    ceilDiv (right - left + 1) M2 := by ring
              omega
          obtain ⟨c1, c2⟩ := root_chunk_last hM4 hM2low hM2M hpowA hup' hlow'
          rw [htE] at c1 c2
          have esz : (right - left + 1) -
              t * ceilDiv (right - left + 1) M2 = right - j + 1 := by omega
          rw [esz] at c1 c2
          rw [hmin, epow3]
          rw [epow1] at c2
          exact ⟨c1, c2⟩
      · left
        have hee : c.maxEntries ^ (h - 1) = c.maxEntries := by
          rw [show h - 1 = 1 from by omega, pow_one]
        refine ⟨by omega, by omega, ?_⟩
        have : ceilDiv (right - left + 1) M2 ≤ c.maxEntries ^ (h - 1) := by
          refine ceilDiv_le_of_le_mul (by omega) ?_
          have e : c.maxEntries ^ (h - 1) * M2 = M2 * c.maxEntries ^ (h - 1) := by ring
          omega
        omega
    obtain ⟨iGo, iAx0, _⟩ := build_master c hdim hM4 m
    obtain ⟨q1, ns, hq2, hq3, hq4, hq5⟩ :=
      iAx0 items left right
        (ceilDiv (right - left + 1) M2 * ceilSqrt M2)
        (ceilDiv (right - left + 1) M2) h (ceilSqrt M2) []
        hval hrlen hlr hn2 hsq (Nat.mul_comm _ _) hh2 htile
        (by
          have hb1 := bGoNeed_mono c (h - 1)
            (show ceilDiv (right - left + 1) M2 ≤ right - left + 1 from
              ceilDiv_le_self (by omega))
          have hb2 := bGoNeed_mono_h c
            (show h - 1 ≤ right - left + 1 by omega) (right - left + 1)
          have hY : bGoNeed c (right - left + 1) (right - left + 1) =
              (right - left + 1) * (2 * (right - left + 1) + 2 * c.dim + 5) + 1 := rfl
          omega)
    rw [List.nil_append] at hq2
    have hcount : (buildAxis c m items 0 left right
        (ceilDiv (right - left + 1) M2 * ceilSqrt M2)
        (ceilDiv (right - left + 1) M2) h []).2.length =
        ceilDiv (right - left + 1) (ceilDiv (right - left + 1) M2) := by
      rw [hq2, hq3]
    refine ⟨q1, ?_, ?_, ?_⟩
    · rw [wfB_node]
      refine ⟨rfl, ?_, ?_, ?_⟩
      · rw [hcount]
        have := ceilDiv_self_le hN1 (show 1 ≤ M2 by omega)
        omega
      · refine ⟨hh2, ?_⟩
        rw [hcount]
        have := ceilDiv_pos hN1 hn2
        omega
      · rw [wfEntsB_iff]
        intro e he
        rw [hq2] at he
        obtain ⟨mm, rfl, hw, hhm, hne⟩ := hq4 e he
        rw [wfEntB_node_iff]
        exact ⟨rfl, by omega, hne, hw⟩
    · rw [children_mk, hcount]
      have := ceilDiv_pos hN1 hn2
      omega
    · rw [itemsOf_mk, hq2]
      exact hq5

/-! ## `load`: bulk build plus merge -/

theorem calcBBox_nil (dim : Nat) (l : Bool) : emptyBB dim = calcBBox dim l [] := by
  refine list_eq_of_jget (by rw [emptyBB_length, calcBBox_length]) ?_
  intro t
  rw [jget_emptyBB, jget_calcBBox]
  simp only [List.map_nil]
  by_cases h1 : t < dim
  · rw [if_pos h1, if_pos h1]
    rfl
  · by_cases h2 : t < 2 * dim
    · rw [if_neg h1, if_neg h1, if_pos h2, if_pos h2]
      rfl
    · rw [if_neg h1, if_neg h1, if_neg h2, if_neg h2]

theorem wfB_clearNode (c : Cfg) : wfB c (clearNode c) = true := by
  rw [clearNode, wfB_node]
  exact ⟨calcBBox_nil c.dim true, by simp, by simp, rfl⟩

theorem itemsOf_clearNode (c : Cfg) : itemsOf (clearNode c) = [] := rfl

theorem splitRoot_wf (c : Cfg) {n1 n2 : RNode} (hM4 : 4 ≤ c.maxEntries)
    (h1 : wfB c n1 = true) (h2 : wfB c n2 = true) (hh : n1.height = n2.height)
    (hne1 : n1.children.length ≠ 0) (hne2 : n2.children.length ≠ 0) :
    wfB c (splitRoot c n1 n2) = true ∧
    itemsOf (splitRoot c n1 n2) = itemsOf n1 ++ itemsOf n2 := by
  have hp1 := wf_height_pos h1
  constructor
  · rw [splitRoot, wfB_node]
    refine ⟨rfl, by simp; omega, ⟨by omega, by simp⟩, ?_⟩
    rw [wfEntsB_iff]
    intro e he
    rcases List.mem_cons.mp he with rfl | he2
    · rw [wfEntB_node_iff]
      exact ⟨rfl, rfl, hne1, h1⟩
    · rcases List.mem_cons.mp he2 with rfl | he3
      · rw [wfEntB_node_iff]
        exact ⟨rfl, by omega, hne2, h2⟩
      · simp at he3
  · rw [splitRoot, itemsOf_mk, itemsOfEnts_cons, itemsOfEnts_cons, itemsOfEnt_node,
      itemsOfEnt_node, show itemsOfEnts [] = [] from rfl, List.append_nil]

theorem foldl_insertS_spec (c : Cfg) (hm2 : 2 ≤ c.minEntries)
    (hmM : 2 * c.minEntries ≤ c.maxEntries + 1) :
    ∀ (data : List Item) (root : RNode), wfB c root = true →
    (∀ it ∈ data, validItemB c.dim it = true) →
    wfB c (data.foldl (fun r it => insertS c r it) root) = true ∧
    (itemsOf (data.foldl (fun r it => insertS c r it) root)).Perm
      (data ++ itemsOf root) := by
  intro data
  induction data with
  | nil =>
    intro root hwf hval
    exact ⟨hwf, by simp⟩
  | cons d ds ih =>
    intro root hwf hval
    simp only [List.foldl_cons]
    obtain ⟨w1, _, p1⟩ := insertS_spec c root d hm2 hmM hwf (hval d (by simp))
    obtain ⟨w2, p2⟩ := ih (insertS c root d) w1 (fun it hit => hval it (by simp [hit]))
    refine ⟨w2, ?_⟩
    refine p2.trans ?_
    refine (p1.append_left ds).trans ?_
    simpa using @List.perm_middle _ d ds (itemsOf root)

/-- `load(data)` preserves well-formedness and adds exactly the batch to the
stored multiset of items. -/
theorem loadS_spec (c : Cfg) (hdim : 2 ≤ c.dim) (hM4 : 4 ≤ c.maxEntries)
    (hm2 : 2 ≤ c.minEntries) (hmM : 2 * c.minEntries ≤ c.maxEntries + 1)
    (root : RNode) (data : List Item) (hwf : wfB c root = true)
    (hval : ∀ it ∈ data, validItemB c.dim it = true) :
    wfB c (loadS c root data) = true ∧
    (itemsOf (loadS c root data)).Perm (data ++ itemsOf root) := by
  rw [loadS]
  by_cases h0 : data.length = 0
  · rw [if_pos h0]
    have hd : data = [] := List.length_eq_zero.mp h0
    subst hd
    exact ⟨hwf, by simp⟩
  · rw [if_neg h0]
    by_cases hsmallN : data.length < c.minEntries
    · rw [if_pos hsmallN]
      exact foldl_insertS_spec c hm2 hmM data root hwf hval
    · rw [if_neg hsmallN]
      simp only []
      have hlen1 : 1 ≤ data.length := by omega
      obtain ⟨b1, b2, b3, b4⟩ := buildGo_root c hdim hM4 (buildFuel c data.length)
        data 0 (data.length - 1) hval (by omega) (by omega)
        (by
          have eN : data.length - 1 - 0 + 1 = data.length := by omega
          rw [eN, buildFuel]
          have e1 : (data.length + c.dim + 3) * (data.length + c.dim + 3) * 3 =
              3 * (data.length * data.length) + 3 * (c.dim * c.dim) +
                6 * (data.length * c.dim) + 18 * data.length + 18 * c.dim + 27 := by
            ring
          have e2 : data.length * (2 * data.length + 2 * c.dim + 5) =
              2 * (data.length * data.length) + 2 * (data.length * c.dim) +
                5 * data.length := by
            ring
          omega)
      rw [seg_whole data hlen1] at b4
      by_cases hempty : root.children.length = 0
      · rw [if_pos hempty]
        refine ⟨b2, ?_⟩
        have hrc : root.children = [] := List.length_eq_zero.mp hempty
        rw [itemsOf_eq root, hrc, show itemsOfEnts [] = [] from rfl, List.append_nil]
        exact b4
      · rw [if_neg hempty]
        by_cases heq : root.height =
            (buildGo c (buildFuel c data.length) data 0 (data.length - 1) 0).2.height
        · rw [if_pos heq]
          obtain ⟨sw, sitems⟩ := splitRoot_wf c hM4 hwf b2 heq hempty b3
          refine ⟨sw, ?_⟩
          rw [sitems]
          refine List.perm_append_comm.trans ?_
          exact b4.append_right (itemsOf root)
        · rw [if_neg heq]
          by_cases hlt : root.height <
              (buildGo c (buildFuel c data.length) data 0 (data.length - 1) 0).2.height
          · rw [if_pos hlt]
            have hrootpos := wf_height_pos hwf
            obtain ⟨w, _, p⟩ := insertDetail_spec c
              (buildGo c (buildFuel c data.length) data 0 (data.length - 1) 0).2
              (.node root)
              ((buildGo c (buildFuel c data.length) data 0 (data.length - 1) 0).2.height -
                root.height - 1)
              hm2 hmM b2 (Or.inr ⟨root, rfl, hwf, hempty, by omega⟩)
            refine ⟨w, ?_⟩
            refine p.trans ?_
            rw [itemsOfEnt_node]
            refine List.perm_append_comm.trans ?_
            exact b4.append_right (itemsOf root)
          · rw [if_neg hlt]
            have hnodepos := wf_height_pos b2
            obtain ⟨w, _, p⟩ := insertDetail_spec c root
              (.node (buildGo c (buildFuel c data.length) data 0 (data.length - 1) 0).2)
              (root.height -
                (buildGo c (buildFuel c data.length) data 0 (data.length - 1) 0).2.height
                - 1)
              hm2 hmM hwf
              (Or.inr ⟨(buildGo c (buildFuel c data.length) data 0 (data.length - 1) 0).2,
                rfl, b2, b3, by omega⟩)
            refine ⟨w, ?_⟩
            refine p.trans ?_
            rw [itemsOfEnt_node]
            exact b4.append_right (itemsOf root)

/-! ## Deletion with a hit: `_condense` preserves well-formedness -/

theorem get?_zero_head? {A : Type} (l : List A) : l.get? 0 = l.head? := by
  cases l <;> rfl

theorem spineTo_wf (c : Cfg) (root : RNode) (hwf : wfB c root = true) :
    ∀ (frames : List (REntry × Nat)) (e : REntry), SpineTo root frames e →
    (∃ m, e = REntry.node m ∧ wfB c m = true) ∨ (∃ it, e = REntry.item it) := by
  intro frames
  induction frames with
  | nil =>
    intro e hsp
    exact Or.inl ⟨root, hsp, hwf⟩
  | cons f rest ih =>
    obtain ⟨p, i⟩ := f
    intro e hsp
    obtain ⟨hget, hsp2⟩ := hsp
    rcases ih p hsp2 with ⟨pm, rfl, hpw⟩ | ⟨it, rfl⟩
    · obtain ⟨hi, hslot⟩ := get?_some_lt hget
      have hmem : e ∈ pm.children := by
        rw [← hslot]
        exact List.getElem_mem _
      have hent := (wfEntsB_iff c pm.height pm.leaf pm.children).mp (wf_ents hpw) e hmem
      cases e with
      | item it => exact Or.inr ⟨it, rfl⟩
      | node m =>
        rw [wfEntB_node_iff] at hent
        exact Or.inl ⟨m, rfl, hent.2.2.2⟩
    · exfalso
      simp [entChildren] at hget

theorem condense_wf (c : Cfg) (root : RNode) (hwf : wfB c root = true) :
    ∀ (frames : List (REntry × Nat)) (n nOld : RNode),
    SpineTo root frames (.node nOld) →
    n.height = nOld.height → n.leaf = nOld.leaf →
    n.children.length ≤ c.maxEntries →
    wfEntsB c n.height n.leaf n.children = true →
    (if n.leaf then n.height = 1 else 2 ≤ n.height) →
    wfB c (condense c frames n) = true := by
  intro frames
  induction frames with
  | nil =>
    intro n nOld hsp hh hl hc hents hgt
    rw [condense]
    by_cases hz : n.children.length = 0
    · rw [if_pos hz]
      exact wfB_clearNode c
    · rw [if_neg hz]
      cases n with
      | mk cs h b l =>
        rw [recalcNode, wfB_node]
        simp only [RNode.children, RNode.height, RNode.leaf] at hz hc hents hgt ⊢
        refine ⟨trivial, hc, ?_, hents⟩
        cases l with
        | true => simpa using hgt
        | false =>
          refine ⟨by simpa using hgt, ?_⟩
          simpa using hz
  | cons f rest ih =>
    obtain ⟨p, i⟩ := f
    intro n nOld hsp hh hl hc hents hgt
    obtain ⟨hget, hsp2⟩ := hsp
    rcases spineTo_wf c root hwf rest p hsp2 with ⟨pm, rfl, hpw⟩ | ⟨it, rfl⟩
    · obtain ⟨hi, hslot⟩ := get?_some_lt hget
      have hmem : (REntry.node nOld) ∈ pm.children := by
        rw [← hslot]
        exact List.getElem_mem _
      have hent := (wfEntsB_iff c pm.height pm.leaf pm.children).mp (wf_ents hpw) _ hmem
      rw [wfEntB_node_iff] at hent
      obtain ⟨hpl, hoh, hone, how⟩ := hent
      have hpm2 : 2 ≤ pm.height := by
        have := wf_heights hpw
        rw [hpl] at this
        simp at this
        exact this.1
      rw [condense]
      by_cases hz : n.children.length = 0
      · rw [if_pos hz]
        refine ih _ pm hsp2 rfl rfl ?_ ?_ ?_
        · show ((entChildren (REntry.node pm)).eraseIdx i).length ≤ c.maxEntries
          have hcnt := wf_count hpw
          have := List.length_eraseIdx (entChildren (REntry.node pm)) i
          show ((pm.children).eraseIdx i).length ≤ c.maxEntries
          rw [List.length_eraseIdx]
          split <;> omega
        · show wfEntsB c (entHeight (REntry.node pm)) (entLeaf (REntry.node pm))
            ((entChildren (REntry.node pm)).eraseIdx i) = true
          rw [wfEntsB_iff]
          intro e he
          have hsub : e ∈ pm.children := List.eraseIdx_subset _ _ he
          exact (wfEntsB_iff c pm.height pm.leaf pm.children).mp (wf_ents hpw) e hsub
        · show (if entLeaf (REntry.node pm) then entHeight (REntry.node pm) = 1
            else 2 ≤ entHeight (REntry.node pm))
          show (if pm.leaf then pm.height = 1 else 2 ≤ pm.height)
          rw [hpl, if_neg (by simp)]
          exact hpm2
      · rw [if_neg hz]
        refine ih _ pm hsp2 rfl rfl ?_ ?_ ?_
        · show ((entChildren (REntry.node pm)).set i
            (REntry.node (recalcNode c.dim n))).length ≤ c.maxEntries
          show ((pm.children).set i (REntry.node (recalcNode c.dim n))).length ≤
            c.maxEntries
          rw [List.length_set]
          exact wf_count hpw
        · show wfEntsB c (entHeight (REntry.node pm)) (entLeaf (REntry.node pm))
            ((entChildren (REntry.node pm)).set i
              (REntry.node (recalcNode c.dim n))) = true
          rw [wfEntsB_iff]
          intro e he
          rcases List.mem_or_eq_of_mem_set he with hold | rfl
          · exact (wfEntsB_iff c pm.height pm.leaf pm.children).mp (wf_ents hpw) e hold
          · show wfEntB c pm.height pm.leaf (REntry.node (recalcNode c.dim n)) = true
            rw [wfEntB_node_iff]
            have hrh : (recalcNode c.dim n).height = n.height := by
              cases n
              rfl
            have hrc : (recalcNode c.dim n).children = n.children := by
              cases n
              rfl
            refine ⟨hpl, by rw [hrh]; omega, by rw [hrc]; exact hz, ?_⟩
            cases n with
            | mk cs hn bn ln =>
              rw [recalcNode, wfB_node]
              simp only [RNode.children, RNode.height, RNode.leaf] at hz hc hents hgt ⊢
              refine ⟨trivial, hc, ?_, hents⟩
              cases ln with
              | true => simpa using hgt
              | false =>
                refine ⟨by simpa using hgt, ?_⟩
                simpa using hz
        · show (if entLeaf (REntry.node pm) then entHeight (REntry.node pm) = 1
            else 2 ≤ entHeight (REntry.node pm))
          show (if pm.leaf then pm.height = 1 else 2 ≤ pm.height)
          rw [hpl, if_neg (by simp)]
          exact hpm2
    · exfalso
      simp [entChildren] at hget

theorem remBody_inv (c : Cfg) (x : Item) (bbox : List JNum) (root : RNode)
    (hwf : wfB c root = true) (nE : REntry) (path : List REntry) (idxs : List Nat)
    (pos : Nat) (up : Bool)
    (hsp : SpineTo root (path.zip (pos :: idxs)) nE)
    (hlen : path.length = idxs.length) :
    (∀ t, remBody c x bbox nE path idxs pos path.head? up = Sum.inr (some t) →
      wfB c t = true) ∧
    (∀ s2, remBody c x bbox nE path idxs pos path.head? up = Sum.inl s2 →
      RemSpineInv root s2) := by
  unfold remBody
  rcases hfind : (if entLeaf nE then (entChildren nE).findIdx? (isTheItem x)
      else none) with _ | k
  · -- not found here: traversal moves
    constructor
    · intro t ht
      by_cases hcond : (!up && !(entLeaf nE) && containsB c.dim (entBBox nE) bbox) = true
      · rw [if_pos hcond] at ht
        cases ht
      · rw [if_neg hcond] at ht
        rcases hp : path.head? with _ | p
        · rw [hp] at ht
          cases ht
        · rw [hp] at ht
          cases ht
    · intro s2 hs2
      by_cases hcond : (!up && !(entLeaf nE) && containsB c.dim (entBBox nE) bbox) = true
      · rw [if_pos hcond] at hs2
        cases hs2
        refine ⟨by simp [hlen], rfl, ?_⟩
        rcases hh : (entChildren nE).head? with _ | e0
        · right
          exact ⟨nE, path, rfl, hsp⟩
        · show SpineTo root ((nE :: path).zip (0 :: pos :: idxs)) e0
          refine ⟨?_, hsp⟩
          rw [get?_zero_head?]
          exact hh
      · rw [if_neg hcond] at hs2
        rcases hp : path.head? with _ | p
        · rw [hp] at hs2
          cases hs2
          have hpe : path = [] := by
            cases path with
            | nil => rfl
            | cons a l => simp at hp
          refine ⟨hlen, by rw [hp], ?_⟩
          left
          exact hpe
        · rw [hp] at hs2
          cases hs2
          obtain ⟨rest, rfl⟩ : ∃ rest, path = p :: rest := by
            cases path with
            | nil => simp at hp
            | cons a l =>
              simp at hp
              exact ⟨l, by rw [hp]⟩
          obtain ⟨hg, hsp2⟩ := hsp
          refine ⟨hlen, hp.symm, ?_⟩
          rcases hg2 : (entChildren p).get? (pos + 1) with _ | e
          · right
            exact ⟨p, rest, rfl, hsp2⟩
          · show SpineTo root ((p :: rest).zip ((pos + 1) :: idxs)) e
            exact ⟨hg2, hsp2⟩
  · -- found: splice and condense
    constructor
    · intro t ht
      simp only [Sum.inr.injEq, Option.some.injEq] at ht
      subst ht
      -- the current entry is a leaf node
      have hleaf : entLeaf nE = true := by
        by_contra hl
        rw [if_neg (by simpa using hl)] at hfind
        cases hfind
      rcases spineTo_wf c root hwf _ nE hsp with ⟨n0, rfl, hn0⟩ | ⟨it, rfl⟩
      · refine condense_wf c root hwf _ _ n0 hsp rfl rfl ?_ ?_ ?_
        · show ((entChildren (REntry.node n0)).eraseIdx k).length ≤ c.maxEntries
          show ((n0.children).eraseIdx k).length ≤ c.maxEntries
          have := wf_count hn0
          rw [List.length_eraseIdx]
          split <;> omega
        · show wfEntsB c (entHeight (REntry.node n0)) (entLeaf (REntry.node n0))
            ((entChildren (REntry.node n0)).eraseIdx k) = true
          rw [wfEntsB_iff]
          intro e he
          have hsub : e ∈ n0.children := List.eraseIdx_subset _ _ he
          exact (wfEntsB_iff c n0.height n0.leaf n0.children).mp (wf_ents hn0) e hsub
        · show (if entLeaf (REntry.node n0) then entHeight (REntry.node n0) = 1
            else 2 ≤ entHeight (REntry.node n0))
          show (if n0.leaf then n0.height = 1 else 2 ≤ n0.height)
          have := wf_heights hn0
          rcases hnl : n0.leaf with _ | _
          · rw [hnl] at this
            simp at this
            simpa using this.1
          · rw [hnl] at this
            simpa using this
      · exfalso
        simp [entLeaf] at hleaf
    · intro s2 hs2
      cases hs2

theorem remStep_inv (c : Cfg) (x : Item) (bbox : List JNum) (root : RNode)
    (hwf : wfB c root = true) (s : RemSt) (hinv : RemSpineInv root s) :
    (∀ t, remStep c x bbox s = Sum.inr (some t) → wfB c t = true) ∧
    (∀ s2, remStep c x bbox s = Sum.inl s2 → RemSpineInv root s2) := by
  rcases s with ⟨cur, path, idxs, pos, par, up⟩
  obtain ⟨hlen, hpar, hcur⟩ := hinv
  dsimp only at hlen hpar hcur
  rcases cur with _ | n
  · rcases path with _ | ⟨p, rest⟩
    · constructor
      · intro t ht
        cases ht
      · intro s2 hs2
        cases hs2
    · rcases idxs with _ | ⟨q0, qs⟩
      · simp at hlen
      rcases hcur with hpe | ⟨p2, rest2, heq, hsp⟩
      · cases hpe
      · injection heq with h1 h2
        subst h1
        subst h2
        have hstep : remStep c x bbox ⟨none, p :: rest, q0 :: qs, pos, par, up⟩ =
            remBody c x bbox p rest qs q0 rest.head? true := rfl
        rw [hstep]
        exact remBody_inv c x bbox root hwf p rest qs q0 true hsp (by simpa using hlen)
  · have hstep : remStep c x bbox ⟨some n, path, idxs, pos, par, up⟩ =
        remBody c x bbox n path idxs pos par up := rfl
    rw [hstep, hpar]
    exact remBody_inv c x bbox root hwf n path idxs pos up hcur hlen

theorem remRun_wf (c : Cfg) (x : Item) (bbox : List JNum) (root : RNode)
    (hwf : wfB c root = true) :
    ∀ (fuel : Nat) (s : RemSt) (t : RNode), RemSpineInv root s →
    remRun c x bbox fuel s = some (some t) → wfB c t = true := by
  intro fuel
  induction fuel with
  | zero =>
    intro s t _ h
    cases h
  | succ m ih =>
    intro s t hinv h
    rw [remRun] at h
    rcases hst : remStep c x bbox s with s2 | r
    · rw [hst] at h
      exact ih s2 t ((remStep_inv c x bbox root hwf s hinv).2 s2 hst) h
    · rw [hst] at h
      simp only [Option.some.injEq] at h
      subst h
      exact (remStep_inv c x bbox root hwf s hinv).1 t hst

/-- `remove` preserves well-formedness: a miss leaves the tree unchanged and a
hit splices the item out and condenses the spine. -/
theorem removeS_wf (c : Cfg) (root : RNode) (x : Option Item)
    (hwf : wfB c root = true) : wfB c (removeS c root x) = true := by
  rcases x with _ | item
  · exact hwf
  · have hinit : RemSpineInv root (remInit root) := by
      refine ⟨rfl, rfl, ?_⟩
      show SpineTo root [] (REntry.node root)
      rfl
    simp only [removeS]
    rcases hr : remRun c item item (4 * nodeSize root + 8) (remInit root)
        with _ | r
    · exact hwf
    · rcases r with _ | t
      · exact hwf
      · exact remRun_wf c item item root hwf _ (remInit root) t hinit hr

/-- Every tree reachable by the public mutating operations of a
constructor-produced configuration is well-formed. -/
theorem reachable_wf (c : Cfg) (hok : Cfg.ok c) :
    ∀ t, Reachable c t → wfB c t = true := by
  intro t h
  induction h with
  | clear => exact wfB_clearNode c
  | insert t it _ hv ih => exact (insertS_spec c t it hok.2.2.1 hok.2.2.2 ih hv).1
  | load t items _ hvl ih =>
    exact (loadS_spec c hok.1 hok.2.1 hok.2.2.1 hok.2.2.2 t items ih hvl).1
  | remove t x _ ih => exact removeS_wf c t x ih

/-! ## All nodes of a well-formed tree are well-formed; leaf depths -/

theorem nodesOf_mk (cs : List REntry) (h : Nat) (b : List JNum) (l : Bool) :
    nodesOf (.mk cs h b l) = .mk cs h b l :: nodesOfEnts cs := rfl

theorem mem_nodesOfEnts {m : RNode} : ∀ {cs : List REntry}, m ∈ nodesOfEnts cs →
    ∃ p : RNode, REntry.node p ∈ cs ∧ m ∈ nodesOf p := by
  intro cs
  induction cs with
  | nil =>
    intro h
    simp [nodesOfEnts] at h
  | cons e es ih =>
    intro h
    rw [show nodesOfEnts (e :: es) = nodesOfEnt e ++ nodesOfEnts es from rfl] at h
    rcases List.mem_append.mp h with h1 | h2
    · cases e with
      | item it => simp [nodesOfEnt] at h1
      | node p => exact ⟨p, List.mem_cons_self _ _, h1⟩
    · obtain ⟨p, hp1, hp2⟩ := ih h2
      exact ⟨p, List.mem_cons_of_mem _ hp1, hp2⟩

theorem wf_nodes_fuel (c : Cfg) : ∀ (s : Nat) (n : RNode), nodeSize n ≤ s →
    wfB c n = true → ∀ m ∈ nodesOf n, wfB c m = true := by
  intro s
  induction s with
  | zero =>
    intro n hsz
    cases n with
    | mk cs h b l =>
      rw [nodeSize_mk] at hsz
      omega
  | succ s ih =>
    intro n hsz hwf m hm
    cases n with
    | mk cs h b l =>
      rw [nodesOf_mk] at hm
      rcases List.mem_cons.mp hm with rfl | hm2
      · exact hwf
      · obtain ⟨p, hpmem, hmp⟩ := mem_nodesOfEnts hm2
        have hwfp : wfB c p = true := by
          have hents := wf_ents hwf
          have := (wfEntsB_iff c h l cs).mp hents (REntry.node p) hpmem
          rw [wfEntB_node_iff] at this
          exact this.2.2.2
        have h1 := entSize_le_of_mem hpmem
        rw [entSize_node] at h1
        rw [nodeSize_mk] at hsz
        exact ih p (by omega) hwfp m hmp

theorem wf_all_nodes (c : Cfg) {n : RNode} (hwf : wfB c n = true) :
    ∀ m ∈ nodesOf n, wfB c m = true :=
  wf_nodes_fuel c (nodeSize n) n (le_refl _) hwf

theorem leafDepths_mk (d : Nat) (cs : List REntry) (h : Nat) (b : List JNum) (l : Bool) :
    leafDepths d (.mk cs h b l) = if l then [d] else leafDepthsEnts (d + 1) cs := rfl

theorem mem_leafDepthsEnts {d k : Nat} : ∀ {cs : List REntry}, d ∈ leafDepthsEnts k cs →
    ∃ p : RNode, REntry.node p ∈ cs ∧ d ∈ leafDepths k p := by
  intro cs
  induction cs with
  | nil =>
    intro h
    simp [leafDepthsEnts] at h
  | cons e es ih =>
    intro h
    rw [show leafDepthsEnts k (e :: es) = leafDepthsEnt k e ++ leafDepthsEnts k es
      from rfl] at h
    rcases List.mem_append.mp h with h1 | h2
    · cases e with
      | item it => simp [leafDepthsEnt] at h1
      | node p => exact ⟨p, List.mem_cons_self _ _, h1⟩
    · obtain ⟨p, hp1, hp2⟩ := ih h2
      exact ⟨p, List.mem_cons_of_mem _ hp1, hp2⟩

theorem leafDepths_wf_fuel (c : Cfg) : ∀ (s : Nat) (n : RNode), nodeSize n ≤ s →
    wfB c n = true → ∀ k d, d ∈ leafDepths k n → d + 1 = k + n.height := by
  intro s
  induction s with
  | zero =>
    intro n hsz
    cases n with
    | mk cs h b l =>
      rw [nodeSize_mk] at hsz
      omega
  | succ s ih =>
    intro n hsz hwf k d hd
    cases n with
    | mk cs h b l =>
      rw [leafDepths_mk] at hd
      have hsh := wf_heights hwf
      cases l with
      | true =>
        rw [if_pos rfl] at hd
        have hdk : d = k := by simpa using hd
        have hh1 : h = 1 := by simpa using hsh
        show d + 1 = k + h
        omega
      | false =>
        rw [if_neg (by simp)] at hd
        obtain ⟨p, hpmem, hdp⟩ := mem_leafDepthsEnts hd
        have hents := wf_ents hwf
        have hwfe := (wfEntsB_iff c h false cs).mp hents (REntry.node p) hpmem
        rw [wfEntB_node_iff] at hwfe
        have h1 := entSize_le_of_mem hpmem
        rw [entSize_node] at h1
        rw [nodeSize_mk] at hsz
        have := ih p (by omega) hwfe.2.2.2 (k + 1) d hdp
        have hph : p.height + 1 = h := hwfe.2.1
        show d + 1 = k + h
        omega

theorem leafDepths_height (c : Cfg) {n : RNode} (hwf : wfB c n = true) (k d : Nat)
    (hd : d ∈ leafDepths k n) : d + 1 = k + n.height :=
  leafDepths_wf_fuel c (nodeSize n) n (le_refl _) hwf k d hd

/-! ## Order facts about JS comparisons, and box containment -/

theorem jlt_asymm {a b : JNum} (h : jle a b = true) : jlt b a = false := by
  cases a <;> cases b <;> simp_all [jlt, jle] <;> omega

theorem jle_jmin_left {a b : JNum} (ha : isNum a = true) (hb : isNum b = true) :
    jle (jmin a b) a = true := by
  obtain ⟨x, rfl⟩ := isNum_exists ha
  obtain ⟨y, rfl⟩ := isNum_exists hb
  show jle (JNum.num (if x ≤ y then x else y)) (JNum.num x) = true
  by_cases h : x ≤ y
  · rw [if_pos h]
    simp [jle]
  · rw [if_neg h]
    simp only [jle, decide_eq_true_eq]
    omega

theorem jle_jmin_right {a b : JNum} (ha : isNum a = true) (hb : isNum b = true) :
    jle (jmin a b) b = true := by
  rw [jmin_comm]
  exact jle_jmin_left hb ha

theorem jle_jmax_left {a b : JNum} (ha : isNum a = true) (hb : isNum b = true) :
    jle a (jmax a b) = true := by
  obtain ⟨x, rfl⟩ := isNum_exists ha
  obtain ⟨y, rfl⟩ := isNum_exists hb
  show jle (JNum.num x) (JNum.num (if y ≤ x then x else y)) = true
  by_cases h : y ≤ x
  · rw [if_pos h]
    simp [jle]
  · rw [if_neg h]
    simp only [jle, decide_eq_true_eq]
    omega

theorem jle_jmax_right {a b : JNum} (ha : isNum a = true) (hb : isNum b = true) :
    jle b (jmax a b) = true := by
  rw [jmax_comm]
  exact jle_jmax_left hb ha

theorem jminFold_le_mem : ∀ {L : List JNum}, (∀ x ∈ L, isNum x = true) →
    ∀ {y : JNum}, y ∈ L → jle (jminFold L) y = true := by
  intro L
  induction L with
  | nil =>
    intro _ y hy
    simp at hy
  | cons x X ih =>
    intro hnum y hy
    have hx : isNum x = true := hnum x (List.mem_cons_self _ _)
    rw [jminFold_cons]
    by_cases hXne : X = []
    · subst hXne
      have hyx : y = x := by simpa using hy
      subst hyx
      rw [show jminFold ([] : List JNum) = JNum.inf from rfl, jmin_inf_right]
      exact jle_refl_num hx
    · have hm : isNum (jminFold X) = true :=
        jminFold_num hXne fun z hz => hnum z (List.mem_cons_of_mem _ hz)
      rcases List.mem_cons.mp hy with rfl | hyX
      · exact jle_jmin_left hx hm
      · exact jle_trans_num (jle_jmin_right hx hm)
          (ih (fun z hz => hnum z (List.mem_cons_of_mem _ hz)) hyX)
          (jmin_num_closed hx hm) hm (hnum y hy)

theorem mem_le_jmaxFold : ∀ {L : List JNum}, (∀ x ∈ L, isNum x = true) →
    ∀ {y : JNum}, y ∈ L → jle y (jmaxFold L) = true := by
  intro L
  induction L with
  | nil =>
    intro _ y hy
    simp at hy
  | cons x X ih =>
    intro hnum y hy
    have hx : isNum x = true := hnum x (List.mem_cons_self _ _)
    rw [jmaxFold_cons]
    by_cases hXne : X = []
    · subst hXne
      have hyx : y = x := by simpa using hy
      subst hyx
      rw [show jmaxFold ([] : List JNum) = JNum.ninf from rfl, jmax_ninf_right]
      exact jle_refl_num hx
    · have hm : isNum (jmaxFold X) = true :=
        jmaxFold_num hXne fun z hz => hnum z (List.mem_cons_of_mem _ hz)
      rcases List.mem_cons.mp hy with rfl | hyX
      · exact jle_jmax_left hx hm
      · exact jle_trans_num
          (ih (fun z hz => hnum z (List.mem_cons_of_mem _ hz)) hyX)
          (jle_jmax_right hx hm)
          (hnum y hy) hm (jmax_num_closed hx hm)

theorem jlt_mono_left {a b q : JNum} (ha : isNum a = true) (hb : isNum b = true)
    (hab : jle a b = true) (h : jlt a q = false) : jlt b q = false := by
  obtain ⟨x, rfl⟩ := isNum_exists ha
  obtain ⟨y, rfl⟩ := isNum_exists hb
  simp only [jle, decide_eq_true_eq] at hab
  cases q with
  | nan => rfl
  | inf => simp [jlt] at h
  | ninf => rfl
  | num z =>
    simp only [jlt, decide_eq_false_iff_not, not_lt] at h ⊢
    omega

theorem jlt_mono_right {a b q : JNum} (ha : isNum a = true) (hb : isNum b = true)
    (hba : jle b a = true) (h : jlt q a = false) : jlt q b = false := by
  obtain ⟨x, rfl⟩ := isNum_exists ha
  obtain ⟨y, rfl⟩ := isNum_exists hb
  simp only [jle, decide_eq_true_eq] at hba
  cases q with
  | nan => rfl
  | inf => rfl
  | ninf => simp [jlt] at h
  | num z =>
    simp only [jlt, decide_eq_false_iff_not, not_lt] at h ⊢
    omega

theorem containsB_iff (dim : Nat) (a b : List JNum) :
    containsB dim a b = true ↔ ∀ i, i < dim →
      jlt (jget b i) (jget a i) = false ∧
      jlt (jget a (dim + i)) (jget b (dim + i)) = false := by
  simp only [containsB, jgt, List.all_eq_true, List.mem_range, Bool.and_eq_true,
    Bool.not_eq_true']

theorem intersectsB_iff (dim : Nat) (a b : List JNum) :
    intersectsB dim a b = true ↔ ∀ i, i < dim →
      jlt (jget a (dim + i)) (jget b i) = false ∧
      jlt (jget b (dim + i)) (jget a i) = false := by
  simp only [intersectsB, List.all_eq_true, List.mem_range, Bool.and_eq_true,
    Bool.not_eq_true']

theorem validItemB_min_le_max {dim : Nat} {it : Item} (h : validItemB dim it = true)
    {i : Nat} (hi : i < dim) : jle (jget it i) (jget it (dim + i)) = true := by
  simp only [validItemB, Bool.and_eq_true, List.all_eq_true, List.mem_range] at h
  exact h.2 i hi

theorem intersects_self_valid {dim : Nat} {x : Item} (hx : validItemB dim x = true) :
    intersectsB dim x x = true := by
  rw [intersectsB_iff]
  intro i hi
  have := jlt_asymm (validItemB_min_le_max hx hi)
  exact ⟨this, this⟩

theorem intersects_of_contains_valid {dim : Nat} {q : List JNum} {x : Item}
    (hx : validItemB dim x = true) (hc : containsB dim q x = true) :
    intersectsB dim q x = true := by
  rw [containsB_iff] at hc
  rw [intersectsB_iff]
  intro i hi
  obtain ⟨h1, h2⟩ := hc i hi
  have hxi := validItemB_key hx (show i < 2 * dim by omega)
  have hxd := validItemB_key hx (show dim + i < 2 * dim by omega)
  have hle := validItemB_min_le_max hx hi
  constructor
  · exact jlt_mono_right hxd hxi hle h2
  · exact jlt_mono_left hxi hxd hle h1

theorem intersects_of_subbox {dim : Nat} {q : List JNum} {x B : List JNum}
    (hxB : isBoxB dim x = true) (hB : isBoxB dim B = true)
    (hsub : ∀ i, i < dim → jle (jget B i) (jget x i) = true ∧
      jle (jget x (dim + i)) (jget B (dim + i)) = true)
    (hint : intersectsB dim q x = true) : intersectsB dim q B = true := by
  rw [intersectsB_iff] at hint
  rw [intersectsB_iff]
  intro i hi
  obtain ⟨h1, h2⟩ := hint i hi
  obtain ⟨hs1, hs2⟩ := hsub i hi
  have hx1 := isBoxB_jget hxB (show i < 2 * dim by omega)
  have hx2 := isBoxB_jget hxB (show dim + i < 2 * dim by omega)
  have hB1 := isBoxB_jget hB (show i < 2 * dim by omega)
  have hB2 := isBoxB_jget hB (show dim + i < 2 * dim by omega)
  constructor
  · exact jlt_mono_right hx1 hB1 hs1 h1
  · exact jlt_mono_left hx2 hB2 hs2 h2

/-! ## The items of a well-formed tree: valid, boxed inside every ancestor -/

theorem mem_itemsOfEnts {x : Item} : ∀ {cs : List REntry}, x ∈ itemsOfEnts cs →
    ∃ e ∈ cs, x ∈ itemsOfEnt e := by
  intro cs
  induction cs with
  | nil =>
    intro h
    simp [itemsOfEnts] at h
  | cons e es ih =>
    intro h
    rw [itemsOfEnts_cons] at h
    rcases List.mem_append.mp h with h1 | h2
    · exact ⟨e, List.mem_cons_self _ _, h1⟩
    · obtain ⟨e2, he2, hx2⟩ := ih h2
      exact ⟨e2, List.mem_cons_of_mem _ he2, hx2⟩

theorem leaf_children_items (c : Cfg) (h : Nat) : ∀ (cs : List REntry),
    wfEntsB c h true cs = true → cs = (itemsOfEnts cs).map REntry.item := by
  intro cs
  induction cs with
  | nil =>
    intro _
    rfl
  | cons e es ih =>
    intro hents
    rw [wfEntsB_iff] at hents
    have he := hents e (List.mem_cons_self _ _)
    cases e with
    | node m =>
      rw [wfEntB_node_iff] at he
      simp at he
    | item it =>
      have hes : es = (itemsOfEnts es).map REntry.item := by
        apply ih
        rw [wfEntsB_iff]
        intro e2 he2
        exact hents e2 (List.mem_cons_of_mem _ he2)
      rw [itemsOfEnts_cons]
      rw [show itemsOfEnt (REntry.item it) = [it] from rfl]
      rw [List.singleton_append, List.map_cons]
      rw [← hes]

theorem wf_items_valid_fuel (c : Cfg) : ∀ (s : Nat) (n : RNode), nodeSize n ≤ s →
    wfB c n = true → ∀ x ∈ itemsOf n, validItemB c.dim x = true := by
  intro s
  induction s with
  | zero =>
    intro n hsz
    cases n with
    | mk cs h b l =>
      rw [nodeSize_mk] at hsz
      omega
  | succ s ih =>
    intro n hsz hwf x hx
    cases n with
    | mk cs h b l =>
      rw [itemsOf_mk] at hx
      obtain ⟨e, he, hxe⟩ := mem_itemsOfEnts hx
      have hwfe := (wfEntsB_iff c h l cs).mp (wf_ents hwf) e he
      cases e with
      | item it =>
        have hxit : x = it := by simpa [itemsOfEnt] using hxe
        subst hxit
        exact ((wfEntB_item_iff c h l x).mp hwfe).2
      | node p =>
        rw [wfEntB_node_iff] at hwfe
        have h1 := entSize_le_of_mem he
        rw [entSize_node] at h1
        rw [nodeSize_mk] at hsz
        exact ih p (by omega) hwfe.2.2.2 x (by simpa [itemsOfEnt] using hxe)

theorem wf_items_valid (c : Cfg) {n : RNode} (hwf : wfB c n = true) :
    ∀ x ∈ itemsOf n, validItemB c.dim x = true :=
  wf_items_valid_fuel c (nodeSize n) n (le_refl _) hwf

theorem wf_items_ne_fuel (c : Cfg) : ∀ (s : Nat) (n : RNode), nodeSize n ≤ s →
    wfB c n = true → n.children ≠ [] → itemsOf n ≠ [] := by
  intro s
  induction s with
  | zero =>
    intro n hsz
    cases n with
    | mk cs h b l =>
      rw [nodeSize_mk] at hsz
      omega
  | succ s ih =>
    intro n hsz hwf hne
    cases n with
    | mk cs h b l =>
      rw [itemsOf_mk]
      rw [children_mk] at hne
      cases cs with
      | nil => exact absurd rfl hne
      | cons e es =>
        have hwfe := (wfEntsB_iff c h l (e :: es)).mp (wf_ents hwf) e
          (List.mem_cons_self _ _)
        rw [itemsOfEnts_cons]
        cases e with
        | item it =>
          simp [itemsOfEnt]
        | node p =>
          rw [wfEntB_node_iff] at hwfe
          have h1 := entSize_le_of_mem (List.mem_cons_self (REntry.node p) es)
          rw [entSize_node] at h1
          rw [nodeSize_mk] at hsz
          have hpne : p.children ≠ [] := by
            intro hnil
            have := hwfe.2.2.1
            rw [hnil] at this
            simp at this
          have := ih p (by omega) hwfe.2.2.2 hpne
          rw [show itemsOfEnt (REntry.node p) = itemsOf p from rfl]
          intro hcontra
          exact this (List.append_eq_nil.mp hcontra).1

theorem wf_item_box_fuel (c : Cfg) : ∀ (s : Nat) (n : RNode), nodeSize n ≤ s →
    wfB c n = true → ∀ x ∈ itemsOf n, ∀ i, i < c.dim →
    jle (jget n.bbox i) (jget x i) = true ∧
    jle (jget x (c.dim + i)) (jget n.bbox (c.dim + i)) = true := by
  intro s
  induction s with
  | zero =>
    intro n hsz
    cases n with
    | mk cs h b l =>
      rw [nodeSize_mk] at hsz
      omega
  | succ s ih =>
    intro n hsz hwf x hx i hi
    cases n with
    | mk cs h b l =>
      rw [itemsOf_mk] at hx
      obtain ⟨e, he, hxe⟩ := mem_itemsOfEnts hx
      have hkeysnum : ∀ t, t < 2 * c.dim →
          ∀ z ∈ cs.map (keyAt l t), isNum z = true := by
        intro t ht z hz
        obtain ⟨e2, he2, rfl⟩ := List.mem_map.mp hz
        have hbox := wfEntsB_boxes c h l cs (wf_ents hwf) e2 he2
        exact isBoxB_jget hbox ht
      have hbb : (RNode.mk cs h b l).bbox = calcBBox c.dim l cs := wf_bbox hwf
      rw [bbox_mk] at hbb
      have hlow : jget (RNode.mk cs h b l).bbox i =
          jminFold (cs.map (keyAt l i)) := by
        rw [bbox_mk, hbb, jget_calcBBox, if_pos hi]
      have hhigh : jget (RNode.mk cs h b l).bbox (c.dim + i) =
          jmaxFold (cs.map (keyAt l (c.dim + i))) := by
        rw [bbox_mk, hbb, jget_calcBBox, if_neg (by omega), if_pos (by omega)]
      have hkey_mem_low : keyAt l i e ∈ cs.map (keyAt l i) :=
        List.mem_map_of_mem _ he
      have hkey_mem_high : keyAt l (c.dim + i) e ∈ cs.map (keyAt l (c.dim + i)) :=
        List.mem_map_of_mem _ he
      have hminle : jle (jget (RNode.mk cs h b l).bbox i) (keyAt l i e) = true := by
        rw [hlow]
        exact jminFold_le_mem (hkeysnum i (by omega)) hkey_mem_low
      have hmaxge : jle (keyAt l (c.dim + i) e)
          (jget (RNode.mk cs h b l).bbox (c.dim + i)) = true := by
        rw [hhigh]
        exact mem_le_jmaxFold (hkeysnum (c.dim + i) (by omega)) hkey_mem_high
      have hwfe := (wfEntsB_iff c h l cs).mp (wf_ents hwf) e he
      cases e with
      | item it =>
        have hxit : x = it := by simpa [itemsOfEnt] using hxe
        subst hxit
        have hl : l = true := ((wfEntB_item_iff c h l x).mp hwfe).1
        have hkey : ∀ t, keyAt l t (REntry.item x) = jget x t := by
          intro t
          rw [hl]
          rfl
        constructor
        · rw [← hkey i]
          exact hminle
        · rw [← hkey (c.dim + i)]
          exact hmaxge
      | node p =>
        rw [wfEntB_node_iff] at hwfe
        have hl : l = false := hwfe.1
        have hkey : ∀ t, keyAt l t (REntry.node p) = jget p.bbox t := by
          intro t
          rw [hl]
          rfl
        have h1 := entSize_le_of_mem he
        rw [entSize_node] at h1
        rw [nodeSize_mk] at hsz
        have hxp : x ∈ itemsOf p := by simpa [itemsOfEnt] using hxe
        have hihp := ih p (by omega) hwfe.2.2.2 x hxp i hi
        have hvx := wf_items_valid c hwfe.2.2.2 x hxp
        have hpbox : isBoxB c.dim p.bbox = true :=
          wf_box_finite c p hwfe.2.2.2 (by
            intro hz
            exact hwfe.2.2.1 hz)
        constructor
        · refine jle_trans_num ?_ hihp.1 ?_ ?_ ?_
          · rw [← hkey i] at *
            exact hminle
          · rw [hlow]
            exact jminFold_num (by
                intro hnil
                rw [hnil] at hkey_mem_low
                simp at hkey_mem_low)
              (hkeysnum i (by omega))
          · rw [hkey i] at *
            exact isBoxB_jget hpbox (by omega)
          · exact validItemB_key hvx (by omega)
        · refine jle_trans_num hihp.2 ?_ ?_ ?_ ?_
          · rw [← hkey (c.dim + i)] at *
            exact hmaxge
          · exact validItemB_key hvx (by omega)
          · rw [hkey (c.dim + i)] at *
            exact isBoxB_jget hpbox (by omega)
          · rw [hhigh]
            exact jmaxFold_num (by
                intro hnil
                rw [hnil] at hkey_mem_high
                simp at hkey_mem_high)
              (hkeysnum (c.dim + i) (by omega))

theorem wf_item_box (c : Cfg) {n : RNode} (hwf : wfB c n = true) :
    ∀ x ∈ itemsOf n, ∀ i, i < c.dim →
    jle (jget n.bbox i) (jget x i) = true ∧
    jle (jget x (c.dim + i)) (jget n.bbox (c.dim + i)) = true :=
  wf_item_box_fuel c (nodeSize n) n (le_refl _) hwf

/-! ## The `_all` stack loop: accumulator identity and collected items -/

theorem allLoop_nil (acc : List REntry) : allLoop [] acc = acc := by
  rw [allLoop]

theorem allLoop_cons (node : REntry) (rest acc : List REntry) :
    allLoop (node :: rest) acc =
      allLoop (if entLeaf node then rest else (entChildren node).reverse ++ rest)
        (if entLeaf node then acc ++ entChildren node else acc) := by
  rw [allLoop]

theorem entsSize_cons (e : REntry) (es : List REntry) :
    entsSize (e :: es) = entSize e + entsSize es := rfl

theorem allLoop_acc : ∀ (s : Nat) (stack : List REntry), entsSize stack ≤ s →
    ∀ acc, allLoop stack acc = acc ++ allLoop stack [] := by
  intro s
  induction s with
  | zero =>
    intro stack hsz acc
    cases stack with
    | nil =>
      rw [allLoop_nil, allLoop_nil, List.append_nil]
    | cons node rest =>
      rw [entsSize_cons] at hsz
      have := entSize_pos node
      omega
  | succ s ih =>
    intro stack hsz acc
    cases stack with
    | nil =>
      rw [allLoop_nil, allLoop_nil, List.append_nil]
    | cons node rest =>
      rw [allLoop_cons, allLoop_cons]
      rw [entsSize_cons] at hsz
      by_cases hl : entLeaf node = true
      · simp only [if_pos hl]
        have h1 : entsSize rest ≤ s := by
          have := entSize_pos node
          omega
        rw [ih rest h1 (acc ++ entChildren node), ih rest h1 ([] ++ entChildren node)]
        simp
      · simp only [if_neg hl]
        have h2 : entsSize ((entChildren node).reverse ++ rest) ≤ s := by
          rw [entsSize_append, entsSize_reverse]
          have := entsSize_children_lt node
          omega
        rw [ih _ h2 acc]

theorem allLoop_items (c : Cfg) : ∀ (s : Nat) (stack : List REntry),
    entsSize stack ≤ s →
    (∀ e ∈ stack, ∃ m, e = REntry.node m ∧ wfB c m = true) →
    ∀ acc, (allLoop stack acc).Perm (acc ++ (itemsOfEnts stack).map REntry.item) := by
  intro s
  induction s with
  | zero =>
    intro stack hsz hstk acc
    cases stack with
    | nil =>
      rw [allLoop_nil]
      simp [itemsOfEnts]
    | cons node rest =>
      rw [entsSize_cons] at hsz
      have := entSize_pos node
      omega
  | succ s ih =>
    intro stack hsz hstk acc
    cases stack with
    | nil =>
      rw [allLoop_nil]
      simp [itemsOfEnts]
    | cons node rest =>
      obtain ⟨m, rfl, hwfm⟩ := hstk node (List.mem_cons_self _ _)
      rw [allLoop_cons]
      rw [entsSize_cons] at hsz
      have hch : entChildren (REntry.node m) = m.children := rfl
      have hlf : entLeaf (REntry.node m) = m.leaf := rfl
      have hitems : itemsOfEnts (REntry.node m :: rest) =
          itemsOfEnts m.children ++ itemsOfEnts rest := by
        rw [itemsOfEnts_cons, itemsOfEnt_node, itemsOf_eq]
      have hrest : ∀ e ∈ rest, ∃ p, e = REntry.node p ∧ wfB c p = true :=
        fun e he => hstk e (List.mem_cons_of_mem _ he)
      have hszm : entSize (REntry.node m) = 1 + entsSize m.children := by
        cases m with
        | mk cs hh b l => rfl
      by_cases hl : entLeaf (REntry.node m) = true
      · rw [if_pos hl, if_pos hl]
        have heq : m.children = (itemsOfEnts m.children).map REntry.item := by
          have hents := wf_ents hwfm
          rw [hlf] at hl
          rw [hl] at hents
          exact leaf_children_items c m.height m.children hents
        have h1 : entsSize rest ≤ s := by omega
        have hIH := ih rest h1 hrest (acc ++ entChildren (REntry.node m))
        refine hIH.trans ?_
        rw [hch, hitems, List.map_append, ← heq, List.append_assoc]
      · rw [if_neg hl, if_neg hl]
        have hlm : m.leaf = false := by
          rw [hlf] at hl
          simpa using hl
        have hwfm2 : wfB c (RNode.mk m.children m.height m.bbox false) = true := by
          have hx := hwfm
          cases m with
          | mk cs hh b l =>
            rw [leaf_mk] at hlm
            rw [children_mk, height_mk, bbox_mk]
            rw [hlm] at hx
            exact hx
        have hkids := wf_children_nodes hwfm2
        have hstk2 : ∀ e ∈ (entChildren (REntry.node m)).reverse ++ rest,
            ∃ p, e = REntry.node p ∧ wfB c p = true := by
          intro e he
          rcases List.mem_append.mp he with h1 | h2
          · rw [List.mem_reverse] at h1
            rw [hch] at h1
            obtain ⟨p, rfl, _, _, hwp⟩ := hkids e h1
            exact ⟨p, rfl, hwp⟩
          · exact hrest e h2
        have h2 : entsSize ((entChildren (REntry.node m)).reverse ++ rest) ≤ s := by
          rw [entsSize_append, entsSize_reverse]
          have := entsSize_children_lt (REntry.node m)
          omega
        have hIH := ih _ h2 hstk2 acc
        refine hIH.trans ?_
        rw [hitems, itemsOfEnts_append]
        have hrev : (itemsOfEnts (entChildren (REntry.node m)).reverse).Perm
            (itemsOfEnts m.children) := by
          rw [hch]
          exact itemsOfEnts_perm (List.reverse_perm m.children)
        rw [List.map_append, List.map_append]
        exact ((hrev.map REntry.item).append_right _).append_left acc

theorem allGo_items (c : Cfg) (m : RNode) (hwfm : wfB c m = true)
    (acc : List REntry) :
    (allGo (REntry.node m) acc).Perm (acc ++ (itemsOf m).map REntry.item) := by
  have h := allLoop_items c (entsSize [REntry.node m]) [REntry.node m] (le_refl _)
    (by
      intro e he
      rcases List.mem_cons.mp he with rfl | h2
      · exact ⟨m, rfl, hwfm⟩
      · simp at h2) acc
  refine h.trans ?_
  rw [show itemsOfEnts [REntry.node m] = itemsOf m ++ [] by
    rw [itemsOfEnts_cons, itemsOfEnt_node]; rfl]
  rw [List.append_nil]

theorem allGo_mem (c : Cfg) (m : RNode) (hwfm : wfB c m = true)
    (acc : List REntry) {x : Item} (hx : x ∈ itemsOf m) :
    REntry.item x ∈ allGo (REntry.node m) acc := by
  have h := allGo_items c m hwfm acc
  rw [h.mem_iff]
  exact List.mem_append_right _ (List.mem_map_of_mem _ hx)

/-! ## The `search` fold and loop: monotone accumulation -/

theorem searchStep_fst_mono (c : Cfg) (bbox : List JNum) (leafF : Bool)
    (st : List REntry × List REntry) (child : REntry) {y : REntry}
    (hy : y ∈ st.1) : y ∈ (searchStep c bbox leafF st child).1 := by
  unfold searchStep
  by_cases h1 : intersectsB c.dim bbox (childBBoxOf leafF child) = true
  · rw [if_pos h1]
    by_cases h2 : leafF = true
    · rw [if_pos h2]
      exact List.mem_append_left _ hy
    · rw [if_neg h2]
      by_cases h3 : containsB c.dim bbox (childBBoxOf leafF child) = true
      · rw [if_pos h3]
        show y ∈ allGo child st.1
        rw [allGo, allLoop_acc (entsSize [child]) [child] (le_refl _) st.1]
        exact List.mem_append_left _ hy
      · rw [if_neg h3]
        exact hy
  · rw [if_neg h1]
    exact hy

theorem searchFold_fst_mono (c : Cfg) (bbox : List JNum) (leafF : Bool) :
    ∀ (cs : List REntry) (st : List REntry × List REntry) {y : REntry},
    y ∈ st.1 → y ∈ (cs.foldl (searchStep c bbox leafF) st).1 := by
  intro cs
  induction cs with
  | nil =>
    intro st y hy
    exact hy
  | cons e es ih =>
    intro st y hy
    rw [List.foldl_cons]
    exact ih _ (searchStep_fst_mono c bbox leafF st e hy)

theorem searchLoop_nil (c : Cfg) (bbox : List JNum) (acc : List REntry) :
    searchLoop c bbox [] acc = acc := by
  rw [searchLoop]

theorem searchLoop_cons (c : Cfg) (bbox : List JNum) (node : REntry)
    (rest acc : List REntry) :
    searchLoop c bbox (node :: rest) acc =
      searchLoop c bbox
        (((entChildren node).foldl (searchStep c bbox (entLeaf node))
            (acc, [])).2.reverse ++ rest)
        ((entChildren node).foldl (searchStep c bbox (entLeaf node)) (acc, [])).1 := by
  rw [searchLoop]

theorem searchLoop_acc_mono (c : Cfg) (bbox : List JNum) :
    ∀ (s : Nat) (stack : List REntry), entsSize stack ≤ s →
    ∀ (acc : List REntry) {y : REntry}, y ∈ acc →
    y ∈ searchLoop c bbox stack acc := by
  intro s
  induction s with
  | zero =>
    intro stack hsz acc y hy
    cases stack with
    | nil =>
      rw [searchLoop_nil]
      exact hy
    | cons node rest =>
      rw [entsSize_cons] at hsz
      have := entSize_pos node
      omega
  | succ s ih =>
    intro stack hsz acc y hy
    cases stack with
    | nil =>
      rw [searchLoop_nil]
      exact hy
    | cons node rest =>
      rw [searchLoop_cons]
      rw [entsSize_cons] at hsz
      have hsnd : ((entChildren node).foldl (searchStep c bbox (entLeaf node))
          (acc, [])).2 = (entChildren node).filter
            (searchPushes c bbox (entLeaf node)) := by
        rw [searchFold_snd]
        rfl
      have h2 : entsSize (((entChildren node).foldl
          (searchStep c bbox (entLeaf node)) (acc, [])).2.reverse ++ rest) ≤ s := by
        rw [hsnd, entsSize_append, entsSize_reverse]
        have ha := entsSize_filter_le (searchPushes c bbox (entLeaf node))
          (entChildren node)
        have hb := entsSize_children_lt node
        omega
      exact ih _ h2 _ (searchFold_fst_mono c bbox (entLeaf node) _ _ hy)

/-! ## Fold characterizations of the `search` inner loop -/

theorem jlt_inf_left (q : JNum) : jlt .inf q = false := by
  cases q <;> rfl

theorem jlt_ninf_right (q : JNum) : jlt q .ninf = false := by
  cases q <;> rfl

theorem jmin_eq_or (a b : JNum) : jmin a b = a ∨ jmin a b = b := by
  cases a <;> cases b <;> first
    | exact Or.inl rfl
    | exact Or.inr rfl
    | (rename_i x y
       by_cases h : x ≤ y
       · exact Or.inl (by show JNum.num (if x ≤ y then x else y) = _; rw [if_pos h])
       · exact Or.inr (by show JNum.num (if x ≤ y then x else y) = _; rw [if_neg h]))

theorem jmax_eq_or (a b : JNum) : jmax a b = a ∨ jmax a b = b := by
  cases a <;> cases b <;> first
    | exact Or.inl rfl
    | exact Or.inr rfl
    | (rename_i x y
       by_cases h : y ≤ x
       · exact Or.inl (by show JNum.num (if y ≤ x then x else y) = _; rw [if_pos h])
       · exact Or.inr (by show JNum.num (if y ≤ x then x else y) = _; rw [if_neg h]))

theorem jminFold_cases : ∀ (L : List JNum), jminFold L ∈ L ∨ jminFold L = .inf := by
  intro L
  induction L with
  | nil => exact Or.inr rfl
  | cons x X ih =>
    rw [jminFold_cons]
    rcases ih with hmem | hinf
    · rcases jmin_eq_or x (jminFold X) with h | h
      · rw [h]
        exact Or.inl (List.mem_cons_self _ _)
      · rw [h]
        exact Or.inl (List.mem_cons_of_mem _ hmem)
    · rw [hinf, jmin_inf_right]
      exact Or.inl (List.mem_cons_self _ _)

theorem jmaxFold_cases : ∀ (L : List JNum), jmaxFold L ∈ L ∨ jmaxFold L = .ninf := by
  intro L
  induction L with
  | nil => exact Or.inr rfl
  | cons x X ih =>
    rw [jmaxFold_cons]
    rcases ih with hmem | hninf
    · rcases jmax_eq_or x (jmaxFold X) with h | h
      · rw [h]
        exact Or.inl (List.mem_cons_self _ _)
      · rw [h]
        exact Or.inl (List.mem_cons_of_mem _ hmem)
    · rw [hninf, jmax_ninf_right]
      exact Or.inl (List.mem_cons_self _ _)

theorem itemsOfEnt_subset {e : REntry} {cs : List REntry} (he : e ∈ cs) :
    ∀ {x : Item}, x ∈ itemsOfEnt e → x ∈ itemsOfEnts cs := by
  intro x hx
  induction cs with
  | nil => simp at he
  | cons e2 es ih =>
    rw [itemsOfEnts_cons]
    rcases List.mem_cons.mp he with rfl | h2
    · exact List.mem_append_left _ hx
    · exact List.mem_append_right _ (ih h2)

theorem contains_of_items_fuel (c : Cfg) (q : List JNum) :
    ∀ (s : Nat) (n : RNode), nodeSize n ≤ s → wfB c n = true →
    (∀ it ∈ itemsOf n, containsB c.dim q it = true) →
    containsB c.dim q n.bbox = true := by
  intro s
  induction s with
  | zero =>
    intro n hsz
    cases n with
    | mk cs h b l =>
      rw [nodeSize_mk] at hsz
      omega
  | succ s ih =>
    intro n hsz hwf hitems
    cases n with
    | mk cs h b l =>
      have hbb : (RNode.mk cs h b l).bbox = calcBBox c.dim l cs := wf_bbox hwf
      rw [hbb, containsB_iff]
      intro i hi
      have hkey_covered : ∀ e ∈ cs, ∀ t, t < c.dim →
          jlt (keyAt l t e) (jget q t) = false ∧
          jlt (jget q (c.dim + t)) (keyAt l (c.dim + t) e) = false := by
        intro e he t ht
        have hwfe := (wfEntsB_iff c h l cs).mp (wf_ents hwf) e he
        cases e with
        | item it =>
          obtain ⟨hl, hv⟩ := (wfEntB_item_iff c h l it).mp hwfe
          have hcit : containsB c.dim q it = true :=
            hitems it (by
              rw [itemsOf_mk]
              exact itemsOfEnt_subset he (by simp [itemsOfEnt]))
          rw [containsB_iff] at hcit
          have hkey : ∀ t2, keyAt l t2 (REntry.item it) = jget it t2 := by
            intro t2
            rw [hl]
            rfl
          rw [hkey, hkey]
          exact hcit t ht
        | node p =>
          rw [wfEntB_node_iff] at hwfe
          have hkey : ∀ t2, keyAt l t2 (REntry.node p) = jget p.bbox t2 := by
            intro t2
            rw [hwfe.1]
            rfl
          rw [hkey, hkey]
          have h1 := entSize_le_of_mem he
          rw [entSize_node] at h1
          rw [nodeSize_mk] at hsz
          have hitp : ∀ it ∈ itemsOf p, containsB c.dim q it = true := by
            intro it hit
            exact hitems it (by
              rw [itemsOf_mk]
              exact itemsOfEnt_subset he (by simpa [itemsOfEnt] using hit))
          have hcp := ih p (by omega) hwfe.2.2.2 hitp
          rw [containsB_iff] at hcp
          exact hcp t ht
      constructor
      · rw [jget_calcBBox, if_pos hi]
        rcases jminFold_cases (cs.map (keyAt l i)) with hmem | hinf
        · obtain ⟨e, he, heq⟩ := List.mem_map.mp hmem
          rw [← heq]
          exact (hkey_covered e he i hi).1
        · rw [hinf]
          exact jlt_inf_left _
      · rw [jget_calcBBox, if_neg (by omega), if_pos (by omega)]
        rcases jmaxFold_cases (cs.map (keyAt l (c.dim + i))) with hmem | hninf
        · obtain ⟨e, he, heq⟩ := List.mem_map.mp hmem
          rw [← heq]
          exact (hkey_covered e he i hi).2
        · rw [hninf]
          exact jlt_ninf_right _

theorem contains_of_items (c : Cfg) (q : List JNum) {n : RNode}
    (hwf : wfB c n = true)
    (hitems : ∀ it ∈ itemsOf n, containsB c.dim q it = true) :
    containsB c.dim q n.bbox = true :=
  contains_of_items_fuel c q (nodeSize n) n (le_refl _) hwf hitems

theorem searchFold_hit_leaf (c : Cfg) (bbox : List JNum) (cs : List REntry)
    (x : Item) (hmem : REntry.item x ∈ cs)
    (hint : intersectsB c.dim bbox x = true) :
    ∀ st, REntry.item x ∈ (cs.foldl (searchStep c bbox true) st).1 := by
  obtain ⟨l1, l2, rfl⟩ := List.append_of_mem hmem
  intro st
  rw [List.foldl_append, List.foldl_cons]
  apply searchFold_fst_mono
  unfold searchStep
  rw [if_pos (show intersectsB c.dim bbox
    (childBBoxOf true (REntry.item x)) = true from hint)]
  rw [if_pos rfl]
  exact List.mem_append_right _ (List.mem_cons_self _ _)

theorem searchFold_hit_all (c : Cfg) (bbox : List JNum) (cs : List REntry)
    (e : REntry) (hmem : e ∈ cs)
    (hint : intersectsB c.dim bbox (childBBoxOf false e) = true)
    (hcont : containsB c.dim bbox (childBBoxOf false e) = true)
    {x : Item} (hx : ∀ acc, REntry.item x ∈ allGo e acc) :
    ∀ st, REntry.item x ∈ (cs.foldl (searchStep c bbox false) st).1 := by
  obtain ⟨l1, l2, rfl⟩ := List.append_of_mem hmem
  intro st
  rw [List.foldl_append, List.foldl_cons]
  apply searchFold_fst_mono
  unfold searchStep
  rw [if_pos hint, if_neg (by simp), if_pos hcont]
  exact hx _

theorem searchFold_leaf_all (c : Cfg) (q : List JNum) : ∀ (cs : List REntry),
    (∀ e ∈ cs, intersectsB c.dim q (childBBoxOf true e) = true) →
    ∀ st, cs.foldl (searchStep c q true) st = (st.1 ++ cs, st.2) := by
  intro cs
  induction cs with
  | nil =>
    intro _ st
    cases st
    simp
  | cons e es ih =>
    intro hall st
    rw [List.foldl_cons]
    have hstep : searchStep c q true st e = (st.1 ++ [e], st.2) := by
      unfold searchStep
      rw [if_pos (hall e (List.mem_cons_self _ _)), if_pos rfl]
    rw [hstep, ih (fun e2 he2 => hall e2 (List.mem_cons_of_mem _ he2))]
    simp

theorem searchFold_internal_all (c : Cfg) (q : List JNum) : ∀ (cs : List REntry),
    (∀ e ∈ cs, intersectsB c.dim q (childBBoxOf false e) = true) →
    (∀ e ∈ cs, containsB c.dim q (childBBoxOf false e) = true) →
    (∀ e ∈ cs, ∃ p, e = REntry.node p ∧ wfB c p = true) →
    ∀ st, ((cs.foldl (searchStep c q false) st).1).Perm
        (st.1 ++ (itemsOfEnts cs).map REntry.item) ∧
      (cs.foldl (searchStep c q false) st).2 = st.2 := by
  intro cs
  induction cs with
  | nil =>
    intro _ _ _ st
    constructor
    · simp [itemsOfEnts]
    · rfl
  | cons e es ih =>
    intro hint hcont hwf st
    obtain ⟨p, rfl, hwp⟩ := hwf e (List.mem_cons_self _ _)
    rw [List.foldl_cons]
    have hstep : searchStep c q false st (REntry.node p) =
        (allGo (REntry.node p) st.1, st.2) := by
      unfold searchStep
      rw [if_pos (hint _ (List.mem_cons_self _ _)), if_neg (by simp),
        if_pos (hcont _ (List.mem_cons_self _ _))]
    rw [hstep]
    have hIH := ih (fun e2 he2 => hint e2 (List.mem_cons_of_mem _ he2))
      (fun e2 he2 => hcont e2 (List.mem_cons_of_mem _ he2))
      (fun e2 he2 => hwf e2 (List.mem_cons_of_mem _ he2))
      (allGo (REntry.node p) st.1, st.2)
    constructor
    · refine hIH.1.trans ?_
      have hall := allGo_items c p hwp st.1
      have h2 : (allGo (REntry.node p) st.1 ++ (itemsOfEnts es).map REntry.item).Perm
          ((st.1 ++ (itemsOf p).map REntry.item) ++ (itemsOfEnts es).map REntry.item) :=
        hall.append_right _
      refine h2.trans ?_
      rw [itemsOfEnts_cons, itemsOfEnt_node, List.map_append, List.append_assoc]
    · exact hIH.2

/-! ## Search completeness -/

theorem wf_children_nodes2 (c : Cfg) {m : RNode} (hwfm : wfB c m = true)
    (hl : m.leaf = false) :
    ∀ e ∈ m.children, ∃ p : RNode, e = .node p ∧ p.height + 1 = m.height ∧
      p.children.length ≠ 0 ∧ wfB c p = true := by
  cases m with
  | mk cs hh b l =>
    rw [leaf_mk] at hl
    subst hl
    exact wf_children_nodes hwfm

theorem searchLoop_complete (c : Cfg) (bbox : List JNum) :
    ∀ (s : Nat) (stack : List REntry), entsSize stack ≤ s →
    ∀ (m : RNode), REntry.node m ∈ stack → wfB c m = true →
    ∀ (x : Item), x ∈ itemsOf m → intersectsB c.dim bbox x = true →
    ∀ acc, REntry.item x ∈ searchLoop c bbox stack acc := by
  intro s
  induction s with
  | zero =>
    intro stack hsz m hm
    cases stack with
    | nil => simp at hm
    | cons node rest =>
      rw [entsSize_cons] at hsz
      have := entSize_pos node
      omega
  | succ s ih =>
    intro stack hsz m hm hwfm x hx hint acc
    cases stack with
    | nil => simp at hm
    | cons node rest =>
      rw [entsSize_cons] at hsz
      rcases List.mem_cons.mp hm with heq | hmr
      · subst heq
        rw [searchLoop_cons]
        have hch : entChildren (REntry.node m) = m.children := rfl
        have hszm : entSize (REntry.node m) = 1 + entsSize m.children := by
          cases m with
          | mk cs hh b l => rfl
        rw [itemsOf_eq] at hx
        obtain ⟨e, he, hxe⟩ := mem_itemsOfEnts hx
        have hwfe := (wfEntsB_iff c m.height m.leaf m.children).mp (wf_ents hwfm) e he
        by_cases hl : m.leaf = true
        · have hlf : entLeaf (REntry.node m) = true := by
            rw [show entLeaf (REntry.node m) = m.leaf from rfl, hl]
          rw [hlf, hch]
          have hex : e = REntry.item x := by
            cases e with
            | item it =>
              have : x = it := by simpa [itemsOfEnt] using hxe
              rw [this]
            | node p =>
              rw [wfEntB_node_iff] at hwfe
              rw [hwfe.1] at hl
              simp at hl
          subst hex
          have hsnd : (m.children.foldl (searchStep c bbox true) (acc, [])).2
              = m.children.filter (searchPushes c bbox true) := by
            rw [searchFold_snd]
            rfl
          refine searchLoop_acc_mono c bbox s _ ?_ _ ?_
          · rw [hsnd, entsSize_append, entsSize_reverse]
            have ha := entsSize_filter_le (searchPushes c bbox true) m.children
            omega
          · exact searchFold_hit_leaf c bbox m.children x he hint (acc, [])
        · have hlf : entLeaf (REntry.node m) = false := by
            rw [show entLeaf (REntry.node m) = m.leaf from rfl]
            simpa using hl
          rw [hlf, hch]
          obtain ⟨p, rfl, hwp, hpne0⟩ : ∃ p, e = REntry.node p ∧ wfB c p = true ∧
              p.children.length ≠ 0 := by
            cases e with
            | item it =>
              rw [wfEntB_item_iff] at hwfe
              exact absurd hwfe.1 hl
            | node p =>
              rw [wfEntB_node_iff] at hwfe
              exact ⟨p, rfl, hwfe.2.2.2, hwfe.2.2.1⟩
          have hxp : x ∈ itemsOf p := by simpa [itemsOfEnt] using hxe
          have hxval := wf_items_valid c hwp x hxp
          have hpbox := wf_box_finite c p hwp hpne0
          have hintp : intersectsB c.dim bbox p.bbox = true := by
            refine intersects_of_subbox (validItemB_isBoxB hxval) hpbox ?_ hint
            intro i hi
            exact wf_item_box c hwp x hxp i hi
          have hcb : childBBoxOf false (REntry.node p) = p.bbox := rfl
          have hsnd : (m.children.foldl (searchStep c bbox false) (acc, [])).2
              = m.children.filter (searchPushes c bbox false) := by
            rw [searchFold_snd]
            rfl
          have hs2 : entsSize ((m.children.foldl (searchStep c bbox false)
              (acc, [])).2.reverse ++ rest) ≤ s := by
            rw [hsnd, entsSize_append, entsSize_reverse]
            have ha := entsSize_filter_le (searchPushes c bbox false) m.children
            omega
          by_cases hcont : containsB c.dim bbox p.bbox = true
          · refine searchLoop_acc_mono c bbox s _ hs2 _ ?_
            refine searchFold_hit_all c bbox m.children (REntry.node p) he ?_ ?_ ?_
              (acc, [])
            · rw [hcb]
              exact hintp
            · rw [hcb]
              exact hcont
            · intro acc2
              exact allGo_mem c p hwp acc2 hxp
          · have hpush : searchPushes c bbox false (REntry.node p) = true := by
              unfold searchPushes
              rw [hcb, hintp]
              simp [hcont]
            have hmem2 : REntry.node p ∈
                (m.children.foldl (searchStep c bbox false) (acc, [])).2 := by
              rw [hsnd, List.mem_filter]
              exact ⟨he, hpush⟩
            exact ih _ hs2 p (List.mem_append_left _ (List.mem_reverse.mpr hmem2))
              hwp x hxp hint _
      · rw [searchLoop_cons]
        have hsnd : ((entChildren node).foldl (searchStep c bbox (entLeaf node))
            (acc, [])).2 = (entChildren node).filter
              (searchPushes c bbox (entLeaf node)) := by
          rw [searchFold_snd]
          rfl
        have hs2 : entsSize (((entChildren node).foldl
            (searchStep c bbox (entLeaf node)) (acc, [])).2.reverse ++ rest) ≤ s := by
          rw [hsnd, entsSize_append, entsSize_reverse]
          have ha := entsSize_filter_le (searchPushes c bbox (entLeaf node))
            (entChildren node)
          have hb := entsSize_children_lt node
          omega
        exact ih _ hs2 m (List.mem_append_right _ hmr) hwfm x hx hint _

theorem searchLoop_all (c : Cfg) (q : List JNum) :
    ∀ (s : Nat) (stack : List REntry), entsSize stack ≤ s →
    (∀ e ∈ stack, ∃ m, e = REntry.node m ∧ wfB c m = true ∧
      ∀ it ∈ itemsOf m, containsB c.dim q it = true) →
    ∀ acc, (searchLoop c q stack acc).Perm
      (acc ++ (itemsOfEnts stack).map REntry.item) := by
  intro s
  induction s with
  | zero =>
    intro stack hsz hstk acc
    cases stack with
    | nil =>
      rw [searchLoop_nil]
      simp [itemsOfEnts]
    | cons node rest =>
      rw [entsSize_cons] at hsz
      have := entSize_pos node
      omega
  | succ s ih =>
    intro stack hsz hstk acc
    cases stack with
    | nil =>
      rw [searchLoop_nil]
      simp [itemsOfEnts]
    | cons node rest =>
      obtain ⟨m, rfl, hwfm, hcov⟩ := hstk node (List.mem_cons_self _ _)
      rw [searchLoop_cons]
      rw [entsSize_cons] at hsz
      have hch : entChildren (REntry.node m) = m.children := rfl
      have hszm : entSize (REntry.node m) = 1 + entsSize m.children := by
        cases m with
        | mk cs hh b l => rfl
      have hrest : ∀ e ∈ rest, ∃ p, e = REntry.node p ∧ wfB c p = true ∧
          ∀ it ∈ itemsOf p, containsB c.dim q it = true :=
        fun e he => hstk e (List.mem_cons_of_mem _ he)
      have hitemseq : itemsOfEnts (REntry.node m :: rest) =
          itemsOfEnts m.children ++ itemsOfEnts rest := by
        rw [itemsOfEnts_cons, itemsOfEnt_node, itemsOf_eq]
      by_cases hl : m.leaf = true
      · have hlf : entLeaf (REntry.node m) = true := by
          rw [show entLeaf (REntry.node m) = m.leaf from rfl, hl]
        rw [hlf, hch]
        have hices : ∀ e ∈ m.children,
            intersectsB c.dim q (childBBoxOf true e) = true := by
          intro e he
          have hwfe := (wfEntsB_iff c m.height m.leaf m.children).mp
            (wf_ents hwfm) e he
          cases e with
          | node p =>
            rw [wfEntB_node_iff] at hwfe
            rw [hwfe.1] at hl
            simp at hl
          | item it =>
            rw [wfEntB_item_iff] at hwfe
            have hit : it ∈ itemsOf m := by
              rw [itemsOf_eq]
              exact itemsOfEnt_subset he (by simp [itemsOfEnt])
            have := intersects_of_contains_valid hwfe.2 (hcov it hit)
            simpa [childBBoxOf, entAsBox] using this
        rw [searchFold_leaf_all c q m.children hices (acc, [])]
        rw [show ((acc ++ m.children, ([] : List REntry))).2 = [] from rfl,
          show ((acc ++ m.children, ([] : List REntry))).1 = acc ++ m.children
            from rfl]
        rw [List.reverse_nil, List.nil_append]
        have hIH := ih rest (by have := entSize_pos (REntry.node m); omega) hrest
          (acc ++ m.children)
        refine hIH.trans ?_
        have heq : m.children = (itemsOfEnts m.children).map REntry.item := by
          have hents := wf_ents hwfm
          rw [hl] at hents
          exact leaf_children_items c m.height m.children hents
        rw [hitemseq, List.map_append, ← heq, List.append_assoc]
      · have hlf : entLeaf (REntry.node m) = false := by
          rw [show entLeaf (REntry.node m) = m.leaf from rfl]
          simpa using hl
        rw [hlf, hch]
        have hlm : m.leaf = false := by simpa using hl
        have hkids := wf_children_nodes2 c hwfm hlm
        have hwfall : ∀ e ∈ m.children, ∃ p, e = REntry.node p ∧ wfB c p = true := by
          intro e he
          obtain ⟨p, rfl, _, _, hwp⟩ := hkids e he
          exact ⟨p, rfl, hwp⟩
        have hcovp : ∀ e ∈ m.children, ∀ p, e = REntry.node p →
            ∀ it ∈ itemsOf p, containsB c.dim q it = true := by
          intro e he p hep it hit
          subst hep
          refine hcov it ?_
          rw [itemsOf_eq]
          exact itemsOfEnt_subset he (by simpa [itemsOfEnt] using hit)
        have hcontAll : ∀ e ∈ m.children,
            containsB c.dim q (childBBoxOf false e) = true := by
          intro e he
          obtain ⟨p, rfl, _, _, hwp⟩ := hkids e he
          rw [show childBBoxOf false (REntry.node p) = p.bbox from rfl]
          exact contains_of_items c q hwp (hcovp _ he p rfl)
        have hintAll : ∀ e ∈ m.children,
            intersectsB c.dim q (childBBoxOf false e) = true := by
          intro e he
          obtain ⟨p, rfl, _, hpne0, hwp⟩ := hkids e he
          rw [show childBBoxOf false (REntry.node p) = p.bbox from rfl]
          have hpne : p.children ≠ [] := by
            intro hz
            apply hpne0
            rw [hz]
            rfl
          have hx0 : itemsOf p ≠ [] :=
            wf_items_ne_fuel c (nodeSize p) p (le_refl _) hwp hpne
          obtain ⟨it0, hit0⟩ := List.exists_mem_of_ne_nil _ hx0
          have hv0 := wf_items_valid c hwp it0 hit0
          have hint0 := intersects_of_contains_valid hv0 (hcovp _ he p rfl it0 hit0)
          refine intersects_of_subbox (validItemB_isBoxB hv0)
            (wf_box_finite c p hwp hpne0) ?_ hint0
          intro i hi
          exact wf_item_box c hwp it0 hit0 i hi
        have hfold := searchFold_internal_all c q m.children hintAll hcontAll
          hwfall (acc, [])
        rw [hfold.2]
        rw [show ((acc, ([] : List REntry))).2 = [] from rfl]
        rw [List.reverse_nil, List.nil_append]
        have hIH := ih rest (by have := entSize_pos (REntry.node m); omega) hrest
          ((m.children.foldl (searchStep c q false) (acc, [])).1)
        refine hIH.trans ?_
        refine ((hfold.1).append_right ((itemsOfEnts rest).map REntry.item)).trans ?_
        rw [hitemseq, List.map_append, List.append_assoc]

/-! ## Theorems for the claims settled so far -/

/-- C6: the claim says every call to `empty(d)`, including the very first call
for that dimension, returns a `2·d`-length box of `+∞` minima and `-∞` maxima.
The code's creation branch never returns the freshly built template: the first
call for a dimension (cold cache) yields `undefined`, not a box, while the
cache is left warm for later calls.  This theorem evaluates the model of the
source at the failing input `d = 2`, cold cache. -/
theorem empty_cold_cache_returns_undefined :
    (emptyCall 2 none).1 = none ∧ (emptyCall 2 (emptyCall 2 none).2).1 = some (emptyBB 2) := by
  constructor <;> rfl

/-- C7: the claim says `intersectionArea(a, b)` is the product over axes of
`max(0, min(a.max, b.max) - max(a.min, b.min))`, positive for overlapping boxes.
The code instead multiplies `max(0, max(a.min, b.min) - min(a.max, b.max))`,
the negated overlap: on the unit square against itself it returns `0` where the
claimed formula gives `1`, and on two disjoint boxes it returns the positive
gap product where the claimed formula gives `0`. -/
theorem intersectionArea_is_inverted :
    intersectionArea 2 unitBox unitBox = .num 0 ∧
    intersectionAreaSpec 2 unitBox unitBox = .num 1 ∧
    intersectionArea 2 unitBox [.num 2, .num 2, .num 3, .num 3] = .num 1 ∧
    intersectionAreaSpec 2 unitBox [.num 2, .num 2, .num 3, .num 3] = .num 0 := by
  refine ⟨by decide, by decide, by decide, by decide⟩

/-- C8 (counterexample): on `c8node` (an overfull leaf of 5 items with
`maxEntries = 4`, `minEntries = 2`) the total distribution margin of axis 0 is
strictly smaller than that of axis 1, so the claim requires the children to end
up sorted by axis 0; but `_chooseSplitAxis` (whose `Math.Infinity` is
`undefined`, making every `margin <= bestMargin` comparison a false NaN
comparison and the final `a < dimension` guard false) leaves them sorted by the
last axis: their axis-0 keys read `0, 40, 10, 30, 20`, not the ascending
axis-0 order. -/
theorem chooseSplitAxis_ignores_margins :
    jlt (allDistMargin smallCfg true c8node.children 2 5 0).2
        (allDistMargin smallCfg true c8node.children 2 5 1).2 = true ∧
    (chooseSplitAxisChildren smallCfg true 2 5 c8node.children).map (sortKey true 0) =
      [.num 0, .num 40, .num 10, .num 30, .num 20] ∧
    (chooseSplitAxisChildren smallCfg true 2 5 c8node.children).map (sortKey true 0) ≠
      (sortByAxis true 0 c8node.children).map (sortKey true 0) := by
  refine ⟨by decide, by decide, by decide⟩

/-- C4 (counterexample): the state reached by `clear()` followed by
`load(items13)` with `maxEntries = 4` (hence `minEntries = 2`) contains a
non-root node — a leaf produced by the OMT tiling's last one-element tile —
with fewer than `minEntries` children. -/
theorem load13_reachable_underfull :
    Reachable smallCfg t13 ∧ hasUnderfullNonRoot smallCfg t13 = true := by
  constructor
  · exact Reachable.load _ _ Reachable.clear (by decide)
  · decide

/-- C9: for every tree and every item `x` that is not present in it (including
the null/empty `x`, for which `remove` returns immediately), `remove(x)` runs
to completion (the traversal loop reaches its not-found exit within the
instantiated fuel — no branch of the model gets stuck) and returns the tree
deep-equal to what it was: the traversal only reads until it finds the item,
and it never finds an absent one. -/
theorem remove_absent_is_noop (c : Cfg) (root : RNode) (x : Option Item)
    (h : ∀ it, x = some it → entNoItem it (.node root) = true) :
    removeS c root x = root ∧
      ∀ it, x = some it →
        remRun c it it (4 * nodeSize root + 8) (remInit root) = some none := by
  match x with
  | none => exact ⟨rfl, by intro it hit; cases hit⟩
  | some it =>
    obtain ⟨h1, h2⟩ := removeS_absent c root it (h it rfl)
    exact ⟨h1, by intro it' hit'; cases hit'; exact h2⟩

/-- C9 witness: removing the absent item `[100,100,100,100]` from the concrete
13-item bulk-loaded tree completes and leaves it unchanged. -/
theorem remove_absent_is_noop_witness :
    (∀ it, (some [JNum.num 100, JNum.num 100, JNum.num 100, JNum.num 100] :
        Option Item) = some it → entNoItem it (.node t13) = true) ∧
      removeS smallCfg t13
        (some [JNum.num 100, JNum.num 100, JNum.num 100, JNum.num 100]) = t13 := by
  refine ⟨?_, ?_⟩
  · intro it hit
    cases hit
    decide
  · exact (remove_absent_is_noop smallCfg t13
      (some [JNum.num 100, JNum.num 100, JNum.num 100, JNum.num 100])
      (by intro it hit; cases hit; decide)).1

/-- C3: for every tree state reachable by any sequence of the public
operations, every node's bbox (the root included) equals exactly `calcBBox` of
its children — the per-axis min of the children's box minima and max of their
maxima, with `toBBox(item)` (the item itself) for leaf children and
`child.bbox` for internal children — never a loose superset. -/
theorem reachable_bbox_exact (c : Cfg) (hok : Cfg.ok c) (t : RNode)
    (hr : Reachable c t) :
    ∀ n ∈ nodesOf t, n.bbox = calcBBox c.dim n.leaf n.children := by
  intro n hn
  exact wf_bbox (wf_all_nodes c (reachable_wf c hok t hr) n hn)

/-- C3 witness: the concrete 13-item bulk-loaded tree, reached by
`clear(); load(items13)`, has exact boxes at every node. -/
theorem reachable_bbox_exact_witness :
    Cfg.ok smallCfg ∧
      (∀ n ∈ nodesOf t13, n.bbox = calcBBox smallCfg.dim n.leaf n.children) :=
  ⟨by constructor <;> simp [Cfg.ok, smallCfg],
    reachable_bbox_exact smallCfg
      (by constructor <;> simp [Cfg.ok, smallCfg]) t13
      (Reachable.load _ _ Reachable.clear (by decide))⟩

/-- C4 (amended): the claim's upper bound holds for every reachable state —
every node, root or not, has at most `maxEntries` children — but the claimed
`minEntries` lower bound for non-root nodes is refuted by the counterexample
`load13_reachable_underfull`. -/
theorem reachable_children_le_max (c : Cfg) (hok : Cfg.ok c) (t : RNode)
    (hr : Reachable c t) :
    ∀ n ∈ nodesOf t, n.children.length ≤ c.maxEntries := by
  intro n hn
  exact wf_count (wf_all_nodes c (reachable_wf c hok t hr) n hn)

/-- C4 witness: every node of the concrete 13-item bulk-loaded tree has at
most `maxEntries = 4` children. -/
theorem reachable_children_le_max_witness :
    Cfg.ok smallCfg ∧
      (∀ n ∈ nodesOf t13, n.children.length ≤ smallCfg.maxEntries) :=
  ⟨by constructor <;> simp [Cfg.ok, smallCfg],
    reachable_children_le_max smallCfg
      (by constructor <;> simp [Cfg.ok, smallCfg]) t13
      (Reachable.load _ _ Reachable.clear (by decide))⟩

/-- C5: in every reachable tree state — including states produced by `load`
merging a bulk-built tree into an existing one — all leaves lie at the same
depth from the root, and every internal node's children have height exactly
one less than the node's own height. -/
theorem reachable_balanced (c : Cfg) (hok : Cfg.ok c) (t : RNode)
    (hr : Reachable c t) :
    (∀ d1 ∈ leafDepths 0 t, ∀ d2 ∈ leafDepths 0 t, d1 = d2) ∧
    (∀ n ∈ nodesOf t, ∀ p : RNode, REntry.node p ∈ n.children →
      p.height + 1 = n.height) := by
  have hwf := reachable_wf c hok t hr
  constructor
  · intro d1 h1 d2 h2
    have e1 := leafDepths_height c hwf 0 d1 h1
    have e2 := leafDepths_height c hwf 0 d2 h2
    omega
  · intro n hn p hp
    have hwfn := wf_all_nodes c hwf n hn
    have hents := wf_ents hwfn
    have hwfe := (wfEntsB_iff c n.height n.leaf n.children).mp hents (REntry.node p) hp
    rw [wfEntB_node_iff] at hwfe
    exact hwfe.2.1

/-- C5 witness: the concrete 13-item bulk-loaded tree is balanced — equal leaf
depths and child heights exactly one less — via the claim theorem at
`t13`. -/
theorem reachable_balanced_witness :
    Cfg.ok smallCfg ∧
      ((∀ d1 ∈ leafDepths 0 t13, ∀ d2 ∈ leafDepths 0 t13, d1 = d2) ∧
       (∀ n ∈ nodesOf t13, ∀ p : RNode, REntry.node p ∈ n.children →
         p.height + 1 = n.height)) :=
  ⟨by constructor <;> simp [Cfg.ok, smallCfg],
    reachable_balanced smallCfg
      (by constructor <;> simp [Cfg.ok, smallCfg]) t13
      (Reachable.load _ _ Reachable.clear (by decide))⟩

/-- C10 (counterexample): the claim quantifies over every array, but when the
axis keys are `undefined` (NaN) — here two items with no coordinates at all, so
`toBBox` reads `undefined` at axis 0 — no element ever compares `≤` another
(JS NaN comparisons are false), so after `select(array, 0, 1, 1, 0)` the
element below index `k = 1` does not compare `≤` the element at `k`, refuting
the claimed ordering. -/
theorem select_nan_breaks_order :
    jle (jget (aget (selectS 0 [[], []] 0 1 1) 0) 0)
        (jget (aget (selectS 0 [[], []] 0 1 1) 1) 0) = false := by decide

/-- C10 (amended): for numeric axis keys on the whole segment — true for every
call the library itself makes, since `multiSelect` runs on valid items — the
claim holds: `select(array, left, right, k, axis)` permutes `array[left..right]`
in place (everything outside the segment untouched), and afterwards every
element at or below index `k` compares `≤` the element at `k` and every element
at or above `k` compares `≥` it, so the rank-`k` element sits at index `k`. -/
theorem select_rank_partitions (axis : Nat) (arr : List Item) (left right k : Nat)
    (hrlen : right < arr.length) (hlk : left ≤ k) (hkr : k ≤ right)
    (hnum : ∀ x, left ≤ x → x ≤ right → isNum (jget (aget arr x) axis) = true) :
    SegPerm left right arr (selectS axis arr left right k) ∧
    (∀ x, left ≤ x → x ≤ k →
      jle (jget (aget (selectS axis arr left right k) x) axis)
        (jget (aget (selectS axis arr left right k) k) axis) = true) ∧
    (∀ x, k ≤ x → x ≤ right →
      jle (jget (aget (selectS axis arr left right k) k) axis)
        (jget (aget (selectS axis arr left right k) x) axis) = true) := by
  have h := selectS_spec axis arr left right k hrlen hlk hkr hnum
  exact ⟨h.1, h.2.1, h.2.2.1⟩

/-- C10 witness: selecting rank 1 on axis 0 in the concrete numeric array
`[[3], [1], [2]]` permutes the segment and partitions it around index 1. -/
theorem select_rank_partitions_witness :
    SegPerm 0 2 [[JNum.num 3], [JNum.num 1], [JNum.num 2]]
      (selectS 0 [[JNum.num 3], [JNum.num 1], [JNum.num 2]] 0 2 1) ∧
    (∀ x, 0 ≤ x → x ≤ 1 →
      jle (jget (aget (selectS 0 [[JNum.num 3], [JNum.num 1], [JNum.num 2]] 0 2 1) x) 0)
        (jget (aget (selectS 0 [[JNum.num 3], [JNum.num 1], [JNum.num 2]] 0 2 1) 1) 0)
          = true) ∧
    (∀ x, 1 ≤ x → x ≤ 2 →
      jle (jget (aget (selectS 0 [[JNum.num 3], [JNum.num 1], [JNum.num 2]] 0 2 1) 1) 0)
        (jget (aget (selectS 0 [[JNum.num 3], [JNum.num 1], [JNum.num 2]] 0 2 1) x) 0)
          = true) :=
  select_rank_partitions 0 [[JNum.num 3], [JNum.num 1], [JNum.num 2]] 0 2 1
    (by decide) (by decide) (by decide)
    (by intro x h1 h2; interval_cases x <;> decide)

/-- C1: for every reachable tree state and every item `x` of the data model
(a flat numeric `2·dim` vector with `min ≤ max` per axis), immediately after
`insert(x)` the call `search(toBBox(x))` — `toBBox` being the identity on
items under the default accessor — returns a sequence that contains `x`. -/
theorem insert_search_contains (c : Cfg) (hok : Cfg.ok c) (t : RNode)
    (hr : Reachable c t) (x : Item) (hx : validItemB c.dim x = true) :
    REntry.item x ∈ searchS c (insertS c t x) x := by
  have hwf := reachable_wf c hok t hr
  obtain ⟨hwf2, hh, hperm⟩ := insertS_spec c t x hok.2.2.1 hok.2.2.2 hwf hx
  have hxr : x ∈ itemsOf (insertS c t x) :=
    hperm.mem_iff.mpr (List.mem_cons_self _ _)
  have hne0 : (insertS c t x).children.length ≠ 0 := by
    intro hz
    have hempty : itemsOf (insertS c t x) = [] := by
      rw [itemsOf_eq, List.length_eq_zero.mp hz]
      rfl
    rw [hempty] at hxr
    simp at hxr
  have hbox := wf_box_finite c _ hwf2 hne0
  have hself := intersects_self_valid hx
  have hintr : intersectsB c.dim x (insertS c t x).bbox = true := by
    refine intersects_of_subbox (validItemB_isBoxB hx) hbox ?_ hself
    intro i hi
    exact wf_item_box c hwf2 x hxr i hi
  rw [searchS, if_pos hintr]
  exact searchLoop_complete c x (entsSize [REntry.node (insertS c t x)]) _
    (le_refl _) (insertS c t x) (List.mem_cons_self _ _) hwf2 x hxr hself []

/-- C1 witness: inserting the point item `[5,6,5,6]` into the fresh empty tree
and searching its own box finds it. -/
theorem insert_search_contains_witness :
    Cfg.ok smallCfg ∧
    validItemB smallCfg.dim [JNum.num 5, JNum.num 6, JNum.num 5, JNum.num 6]
      = true ∧
    REntry.item [JNum.num 5, JNum.num 6, JNum.num 5, JNum.num 6] ∈
      searchS smallCfg
        (insertS smallCfg (clearNode smallCfg)
          [JNum.num 5, JNum.num 6, JNum.num 5, JNum.num 6])
        [JNum.num 5, JNum.num 6, JNum.num 5, JNum.num 6] :=
  ⟨by constructor <;> simp [Cfg.ok, smallCfg], by decide,
    insert_search_contains smallCfg
      (by constructor <;> simp [Cfg.ok, smallCfg])
      (clearNode smallCfg) Reachable.clear
      [JNum.num 5, JNum.num 6, JNum.num 5, JNum.num 6] (by decide)⟩

/-- C2: loading a nonempty batch of valid items into an initially empty tree
and then searching with a bounding box that covers every item's box returns
exactly those items as a multiset (a permutation of the batch, so in
particular exactly `N` results). -/
theorem load_search_exact (c : Cfg) (hok : Cfg.ok c) (items : List Item)
    (hne : items ≠ []) (hval : ∀ it ∈ items, validItemB c.dim it = true)
    (q : List JNum) (hcov : ∀ it ∈ items, containsB c.dim q it = true) :
    (searchS c (loadS c (clearNode c) items) q).Perm
      (items.map REntry.item) := by
  obtain ⟨hwf, hperm⟩ := loadS_spec c hok.1 hok.2.1 hok.2.2.1 hok.2.2.2
    (clearNode c) items (wfB_clearNode c) hval
  have hperm2 : (itemsOf (loadS c (clearNode c) items)).Perm items := by
    rw [itemsOf_clearNode, List.append_nil] at hperm
    exact hperm
  have hcovR : ∀ it ∈ itemsOf (loadS c (clearNode c) items),
      containsB c.dim q it = true := fun it hit => hcov it (hperm2.mem_iff.mp hit)
  have hiNe : itemsOf (loadS c (clearNode c) items) ≠ [] := by
    intro hz
    apply hne
    have hlen := hperm2.length_eq
    rw [hz] at hlen
    exact List.length_eq_zero.mp hlen.symm
  have hne0 : (loadS c (clearNode c) items).children.length ≠ 0 := by
    intro hz
    apply hiNe
    rw [itemsOf_eq, List.length_eq_zero.mp hz]
    rfl
  obtain ⟨it0, hit0⟩ := List.exists_mem_of_ne_nil _ hiNe
  have hv0 := wf_items_valid c hwf it0 hit0
  have hint0 := intersects_of_contains_valid hv0 (hcovR it0 hit0)
  have hintr : intersectsB c.dim q (loadS c (clearNode c) items).bbox = true := by
    refine intersects_of_subbox (validItemB_isBoxB hv0)
      (wf_box_finite c _ hwf hne0) ?_ hint0
    intro i hi
    exact wf_item_box c hwf it0 hit0 i hi
  rw [searchS, if_pos hintr]
  have hall := searchLoop_all c q
    (entsSize [REntry.node (loadS c (clearNode c) items)]) _ (le_refl _)
    (by
      intro e he
      rcases List.mem_cons.mp he with rfl | h2
      · exact ⟨_, rfl, hwf, hcovR⟩
      · simp at h2) []
  refine hall.trans ?_
  rw [List.nil_append]
  rw [show itemsOfEnts [REntry.node (loadS c (clearNode c) items)] =
      itemsOf (loadS c (clearNode c) items) ++ [] by
    rw [itemsOfEnts_cons, itemsOfEnt_node]
    rfl]
  rw [List.append_nil]
  exact hperm2.map REntry.item

/-- C2 witness: loading the two point items `[0,0,0,0]` and `[1,1,1,1]` into a
fresh tree and searching the covering box `[0,0,1,1]` returns exactly the two
items. -/
theorem load_search_exact_witness :
    Cfg.ok smallCfg ∧
    ([[JNum.num 0, JNum.num 0, JNum.num 0, JNum.num 0],
      [JNum.num 1, JNum.num 1, JNum.num 1, JNum.num 1]] : List Item) ≠ [] ∧
    (searchS smallCfg
      (loadS smallCfg (clearNode smallCfg)
        [[JNum.num 0, JNum.num 0, JNum.num 0, JNum.num 0],
         [JNum.num 1, JNum.num 1, JNum.num 1, JNum.num 1]])
      [JNum.num 0, JNum.num 0, JNum.num 1, JNum.num 1]).Perm
      (([[JNum.num 0, JNum.num 0, JNum.num 0, JNum.num 0],
         [JNum.num 1, JNum.num 1, JNum.num 1, JNum.num 1]] :
        List Item).map REntry.item) :=
  ⟨by constructor <;> simp [Cfg.ok, smallCfg], by decide,
    load_search_exact smallCfg
      (by constructor <;> simp [Cfg.ok, smallCfg])
      [[JNum.num 0, JNum.num 0, JNum.num 0, JNum.num 0],
       [JNum.num 1, JNum.num 1, JNum.num 1, JNum.num 1]]
      (by decide) (by decide)
      [JNum.num 0, JNum.num 0, JNum.num 1, JNum.num 1] (by decide)⟩

end Rbush
